import Mathlib

/-!
# rocSPARSE csric0: incomplete Cholesky kernels

Shallow embedding of `library/src/precond/csric0_device.h`
(`csric0_hash_kernel`, `csric0_binsearch_kernel`).

Conventions of the embedding.

* Device pointers are total maps `Int → α`; `rocsparse_int` indices are `Int`.
* The value type `T` is a field with decidable equality (exact arithmetic).
  `rocsparse_conj` and `sqrt(rocsparse_abs(.))` are supplied by `ScalarOps`.
* One wavefront handles one row.  Its `WFSIZE` lanes run in lock step; the
  embedding executes the lanes of one lock-step region one after another, in
  lane order.  A wavefront has at least one lane (`WFSIZE ≥ 1`).
* A loop that the source can spin in for ever is embedded with a result of type
  `Option`; `none` stands for "does not return".  The fuel of every loop is the
  exact number of iterations after which the source loop has either returned or
  is known to repeat itself.
-/

namespace Csric0

/-- Scalar helpers of `common.h` the kernels call on the value type `T`:
`rocsparse_conj`, and `sqrt(rocsparse_abs(x))` as used for the diagonal. -/
structure ScalarOps (T : Type) where
  /-- Complex conjugate (`rocsparse_conj`); the identity on real types. -/
  rocsparse_conj : T → T
  /-- The composite `sqrt(rocsparse_abs(x))`. -/
  sqrt_abs : T → T

/-- Modelled from the spec: `rocsparse_fma(a, b, c)` of `common.h`, the fused
multiply-add `a * b + c` (spec 4.2 step 1d), exact over a field. -/
def rocsparse_fma {T : Type} [Field T] (a b c : T) : T := a * b + c

/-- Modelled from the spec: `rocsparse_wfreduce_sum<WFSIZE>` of `common.h`, the
reduction of the lanes' partial sums (spec 4.2 step 1e); the argument lists the
partial sums by lane id and the result is the value the last lane holds. -/
def rocsparse_wfreduce_sum {T : Type} [Field T] (parts : List T) : T := parts.sum

/-- The read-only kernel arguments: `m`, `csr_row_ptr`, `csr_col_ind`,
`csr_diag_ind`, `map` and `idx_base`. -/
structure CsrMatrix where
  m : Int
  csr_row_ptr : Int → Int
  csr_col_ind : Int → Int
  csr_diag_ind : Int → Int
  map : Int → Int
  idx_base : Int

/-- The memory the kernels write: `csr_val`, the `done` flags and the
`zero_pivot` register. -/
structure KState (T : Type) where
  csr_val : Int → T
  done : Int → Int
  zero_pivot : Int

/-- The per-wavefront shared arrays `table` (keys, `-1` when empty) and `data`
(positions). -/
structure HashTable where
  table : Nat → Int
  data : Nat → Int

/-- `(key * 103) & (WFSIZE * HASH - 1)` with the product wrapped to 32 bits;
`S` is `WFSIZE * HASH`. -/
def hash_slot (S : Nat) (key : Int) : Nat :=
  ((key * 103) % 4294967296).toNat &&& (S - 1)

/-- `(hash + 1) & (WFSIZE * HASH - 1)`. -/
def next_slot (S : Nat) (hash : Nat) : Nat := (hash + 1) &&& (S - 1)

/-- The insertion `while(true)` loop (source lines 93-111) for `key` found at
position `j`.  The table does not change while the loop probes, so after `S`
probes without success the probe sequence repeats and the loop never ends. -/
def hash_insert (S : Nat) (key j : Int) : Nat → Nat → HashTable → Option HashTable
  | 0, _, _ => none
  | fuel + 1, hash, t =>
    if t.table hash = key then some t
    else if t.table hash = -1 then
      some ⟨Function.update t.table hash key, Function.update t.data hash j⟩
    else hash_insert S key j fuel (next_slot S hash) t

/-- The fill loop (source lines 85-112) over the positions `j, j+1, ...` of the
current row, `n` of them. -/
def hash_fill (S : Nat) (csr : CsrMatrix) : Nat → Int → HashTable → Option HashTable
  | 0, _, t => some t
  | n + 1, j, t =>
    match hash_insert S (csr.csr_col_ind j) j S (hash_slot S (csr.csr_col_ind j)) t with
    | none => none
    | some t1 => hash_fill S csr n (j + 1) t1

/-- The lookup `while(true)` loop (source lines 177-196): `some none` when an
empty slot ends the search, `some (some idx)` when the key is found with
`idx = data[hash]`, `none` when the loop never ends. -/
def hash_lookup (S : Nat) (key : Int) : Nat → Nat → HashTable → Option (Option Int)
  | 0, _, _ => none
  | fuel + 1, hash, t =>
    if t.table hash = -1 then some none
    else if t.table hash = key then some (some (t.data hash))
    else hash_lookup S key fuel (next_slot S hash) t

/-- One lane's `for(k = local_begin + lid; k < local_diag; k += WFSIZE)` loop of
the hash kernel (source lines 168-197), accumulating `local_sum`. -/
def hash_lane_loop {T : Type} [Field T] (W S : Nat) (ops : ScalarOps T) (csr : CsrMatrix)
    (val : Int → T) (t : HashTable) (local_diag : Int) : Nat → Int → T → Option T
  | 0, _, local_sum => some local_sum
  | fuel + 1, k, local_sum =>
    if k < local_diag then
      match hash_lookup S (csr.csr_col_ind k) S (hash_slot S (csr.csr_col_ind k)) t with
      | none => none
      | some none => hash_lane_loop W S ops csr val t local_diag fuel (k + W) local_sum
      | some (some idx) =>
        hash_lane_loop W S ops csr val t local_diag fuel (k + W)
          (rocsparse_fma (val k) (ops.rocsparse_conj (val idx)) local_sum)
    else some local_sum

/-- Runs lanes `0 .. n-1` and lists their results by lane id; `none` when some
lane does not return. -/
def lanes_run {T : Type} (f : Nat → Option T) : Nat → Option (List T)
  | 0 => some []
  | n + 1 =>
    match lanes_run f n, f n with
    | some l, some x => some (l ++ [x])
    | _, _ => none

/-- The value of `local_diag`: the dependency's diagonal position, or
`row_diag - 1` when the dependency has no diagonal (source lines 129-138). -/
def local_diag_of (csr : CsrMatrix) (row_diag local_col : Int) : Int :=
  if csr.csr_diag_ind local_col = -1 then row_diag - 1 else csr.csr_diag_ind local_col

/-- The `for(j = row_begin; j < row_diag; ++j)` loop of the hash kernel (source
lines 117-210); returns the accumulator `sum` with the state.  A dependency
whose flag is unset makes the spin loop run for ever when no other wavefront
runs (`none`). -/
def hash_row_loop {T : Type} [Field T] [DecidableEq T] (W S : Nat) (ops : ScalarOps T)
    (csr : CsrMatrix) (t : HashTable) (row_diag : Int) :
    Nat → Int → T → KState T → Option (T × KState T)
  | 0, _, sum, s => some (sum, s)
  | fuel + 1, j, sum, s =>
    if j < row_diag then
      let local_col := csr.csr_col_ind j - csr.idx_base
      let local_val := s.csr_val j
      let local_begin := csr.csr_row_ptr local_col - csr.idx_base
      let local_diag := local_diag_of csr row_diag local_col
      if s.done local_col = 0 then none
      else
        let diag_val := s.csr_val local_diag
        if diag_val = 0 then
          some (sum, { s with zero_pivot := min s.zero_pivot (local_col + csr.idx_base) })
        else
          let diag_val := 1 / diag_val
          match lanes_run (fun lid =>
              hash_lane_loop W S ops csr s.csr_val t local_diag
                (local_diag - (local_begin + lid)).toNat (local_begin + lid) 0) W with
          | none => none
          | some parts =>
            let local_sum := rocsparse_wfreduce_sum parts
            let local_val := (local_val - local_sum) * diag_val
            hash_row_loop W S ops csr t row_diag fuel (j + 1)
              (rocsparse_fma local_val (ops.rocsparse_conj local_val) sum)
              { s with csr_val := Function.update s.csr_val j local_val }
    else some (sum, s)

/-- The tail of both kernels (source lines 212-228 and 384-400): the last lane
writes the diagonal when `row_diag >= 0`, then sets `done[row]`. -/
def finish_row {T : Type} [Field T] (ops : ScalarOps T) (row row_diag : Int) (sum : T)
    (s : KState T) : KState T :=
  let s1 : KState T :=
    if row_diag ≥ 0 then
      { s with csr_val :=
          Function.update s.csr_val row_diag (ops.sqrt_abs (s.csr_val row_diag - sum)) }
    else s
  { s1 with done := Function.update s1.done row (Int.lor (s1.done row) 1) }

/-- The wavefront with index `idx` of `csric0_hash_kernel<T, BLOCKSIZE, WFSIZE, HASH>`;
`idx = hipBlockIdx_x * BLOCKSIZE / WFSIZE + wid`.  The `data` array is not
initialised by the source and is read only at slots written before. -/
def csric0_hash_kernel {T : Type} [Field T] [DecidableEq T] (WFSIZE HASH : Nat)
    (ops : ScalarOps T) (csr : CsrMatrix) (idx : Int) (s : KState T) : Option (KState T) :=
  if idx ≥ csr.m then some s
  else
    let row := csr.map idx
    let row_diag := csr.csr_diag_ind row
    let row_begin := csr.csr_row_ptr row - csr.idx_base
    let row_end := csr.csr_row_ptr (row + 1) - csr.idx_base
    match hash_fill (WFSIZE * HASH) csr (row_end - row_begin).toNat row_begin
        ⟨fun _ => -1, fun _ => 0⟩ with
    | none => none
    | some t =>
      match hash_row_loop WFSIZE (WFSIZE * HASH) ops csr t row_diag
          (row_diag - row_begin).toNat row_begin 0 s with
      | none => none
      | some (sum, s1) => some (finish_row ops row row_diag sum s1)

/-- The `while(l < r)` binary search (source lines 348-361); returns the final
`l` and `m` (`col_j` is `csr_col_ind[m]` throughout).  The midpoint
`(r + l) >> 1` is taken in exact integers: that is the value the source
computes in `rocsparse_int` as long as `r + l` does not wrap, for positions up
to `2^30`; `binsearch_loop32` takes the midpoint in `rocsparse_int`. -/
def binsearch_loop (csr : CsrMatrix) (col_k : Int) : Nat → Int → Int → Int → Int × Int
  | 0, l, _, m => (l, m)
  | fuel + 1, l, r, m =>
    if l < r then
      if csr.csr_col_ind m < col_k then
        binsearch_loop csr col_k fuel (m + 1) r ((r + (m + 1)) >>> (1 : Nat))
      else
        binsearch_loop csr col_k fuel l m ((m + l) >>> (1 : Nat))
    else (l, m)

/-- One lane's `for(k = local_begin + lid; k < local_diag; k += WFSIZE)` loop of
the binary-search kernel (source lines 338-369); `l` is carried from one search
of the lane to its next. -/
def binsearch_lane_loop {T : Type} [Field T] (W : Nat) (ops : ScalarOps T) (csr : CsrMatrix)
    (val : Int → T) (row_end local_diag : Int) : Nat → Int → Int → T → T
  | 0, _, _, local_sum => local_sum
  | fuel + 1, k, l, local_sum =>
    if k < local_diag then
      let r := row_end - 1
      let col_k := csr.csr_col_ind k
      let lm := binsearch_loop csr col_k (r - l).toNat l r ((r + l) >>> (1 : Nat))
      binsearch_lane_loop W ops csr val row_end local_diag fuel (k + W) lm.1
        (if csr.csr_col_ind lm.2 = col_k then
          rocsparse_fma (val k) (ops.rocsparse_conj (val lm.2)) local_sum
        else local_sum)
    else local_sum

/-- The `for(j = row_begin; j < row_diag; ++j)` loop of the binary-search kernel
(source lines 268-382).  The `SLEEP` back-off only delays the polling. -/
def binsearch_row_loop {T : Type} [Field T] [DecidableEq T] (W : Nat) (ops : ScalarOps T)
    (csr : CsrMatrix) (row_begin row_end row_diag : Int) :
    Nat → Int → T → KState T → Option (T × KState T)
  | 0, _, sum, s => some (sum, s)
  | fuel + 1, j, sum, s =>
    if j < row_diag then
      let local_col := csr.csr_col_ind j - csr.idx_base
      let local_val := s.csr_val j
      let local_begin := csr.csr_row_ptr local_col - csr.idx_base
      let local_diag := local_diag_of csr row_diag local_col
      if s.done local_col = 0 then none
      else
        let diag_val := s.csr_val local_diag
        if diag_val = 0 then
          some (sum, { s with zero_pivot := min s.zero_pivot (local_col + csr.idx_base) })
        else
          let diag_val := 1 / diag_val
          let parts := (List.range W).map (fun (lid : Nat) =>
            binsearch_lane_loop W ops csr s.csr_val row_end local_diag
              (local_diag - (local_begin + lid)).toNat (local_begin + lid) row_begin 0)
          let local_sum := rocsparse_wfreduce_sum parts
          let local_val := (local_val - local_sum) * diag_val
          binsearch_row_loop W ops csr row_begin row_end row_diag fuel (j + 1)
            (rocsparse_fma local_val (ops.rocsparse_conj local_val) sum)
            { s with csr_val := Function.update s.csr_val j local_val }
    else some (sum, s)

/-- The wavefront with index `idx` of
`csric0_binsearch_kernel<T, BLOCKSIZE, WFSIZE, SLEEP>`. -/
def csric0_binsearch_kernel {T : Type} [Field T] [DecidableEq T] (WFSIZE : Nat)
    (ops : ScalarOps T) (csr : CsrMatrix) (idx : Int) (s : KState T) : Option (KState T) :=
  if idx ≥ csr.m then some s
  else
    let row := csr.map idx
    let row_diag := csr.csr_diag_ind row
    let row_begin := csr.csr_row_ptr row - csr.idx_base
    let row_end := csr.csr_row_ptr (row + 1) - csr.idx_base
    match binsearch_row_loop WFSIZE ops csr row_begin row_end row_diag
        (row_diag - row_begin).toNat row_begin 0 s with
    | none => none
    | some (sum, s1) => some (finish_row ops row row_diag sum s1)

/-- Runs the wavefronts listed in `idxs` one after another ("running the row
computations one after another in map order"). -/
def run_seq {T : Type} (kernel : Int → KState T → Option (KState T)) :
    List Int → KState T → Option (KState T)
  | [], s => some s
  | idx :: rest, s =>
    match kernel idx s with
    | none => none
    | some s1 => run_seq kernel rest s1

/-- The wavefront indices `0, 1, ..., m-1`. -/
def wavefronts (m : Int) : List Int := (List.range m.toNat).map Int.ofNat

/-- The hash kernel, its wavefronts run one after another in `map` order. -/
def csric0_hash_seq {T : Type} [Field T] [DecidableEq T] (WFSIZE HASH : Nat)
    (ops : ScalarOps T) (csr : CsrMatrix) (s : KState T) : Option (KState T) :=
  run_seq (csric0_hash_kernel WFSIZE HASH ops csr) (wavefronts csr.m) s

/-- The binary-search kernel, its wavefronts run one after another in `map` order. -/
def csric0_binsearch_seq {T : Type} [Field T] [DecidableEq T] (WFSIZE : Nat)
    (ops : ScalarOps T) (csr : CsrMatrix) (s : KState T) : Option (KState T) :=
  run_seq (csric0_binsearch_kernel WFSIZE ops csr) (wavefronts csr.m) s

/-! ## Structural predicates on the kernel arguments -/

/-- `row_begin` of row `r`: `csr_row_ptr[r] - idx_base`. -/
def row_begin (csr : CsrMatrix) (r : Int) : Int := csr.csr_row_ptr r - csr.idx_base

/-- `row_end` of row `r`: `csr_row_ptr[r + 1] - idx_base`. -/
def row_end (csr : CsrMatrix) (r : Int) : Int := csr.csr_row_ptr (r + 1) - csr.idx_base

/-- A well-formed square CSR structure: `idx_base` is 0 or 1, the row pointers
start at `idx_base` and do not decrease, every column index minus `idx_base`
lies in `[0, m)`, and `csr_diag_ind[r]` is `-1` or a position inside row `r`. -/
structure WellFormed (csr : CsrMatrix) : Prop where
  m_nonneg : 0 ≤ csr.m
  base : csr.idx_base = 0 ∨ csr.idx_base = 1
  ptr_zero : csr.csr_row_ptr 0 = csr.idx_base
  ptr_mono : ∀ r, 0 ≤ r → r < csr.m → csr.csr_row_ptr r ≤ csr.csr_row_ptr (r + 1)
  col_range : ∀ r, 0 ≤ r → r < csr.m → ∀ p, row_begin csr r ≤ p → p < row_end csr r →
    csr.idx_base ≤ csr.csr_col_ind p ∧ csr.csr_col_ind p < csr.idx_base + csr.m
  diag_range : ∀ r, 0 ≤ r → r < csr.m →
    csr.csr_diag_ind r = -1 ∨ (row_begin csr r ≤ csr.csr_diag_ind r ∧ csr.csr_diag_ind r < row_end csr r)

/-- A valid matrix for the factorization: well formed, every row's column
indices strictly ascending, and every row holding its diagonal entry at
position `csr_diag_ind[r]`. -/
structure Valid (csr : CsrMatrix) extends WellFormed csr : Prop where
  sorted : ∀ r, 0 ≤ r → r < csr.m → ∀ p, row_begin csr r ≤ p → p < row_end csr r - 1 →
    csr.csr_col_ind p < csr.csr_col_ind (p + 1)
  diag_present : ∀ r, 0 ≤ r → r < csr.m →
    row_begin csr r ≤ csr.csr_diag_ind r ∧ csr.csr_diag_ind r < row_end csr r ∧
    csr.csr_col_ind (csr.csr_diag_ind r) = r + csr.idx_base

/-- A matrix whose rows are strictly ascending up to the diagonal, which every
row holds at position `csr_diag_ind[r]`; the entries after the diagonal are in
range but in any order. -/
structure HeadValid (csr : CsrMatrix) extends WellFormed csr : Prop where
  head_sorted : ∀ r, 0 ≤ r → r < csr.m → ∀ p, row_begin csr r ≤ p → p < csr.csr_diag_ind r →
    csr.csr_col_ind p < csr.csr_col_ind (p + 1)
  diag_present : ∀ r, 0 ≤ r → r < csr.m →
    row_begin csr r ≤ csr.csr_diag_ind r ∧ csr.csr_diag_ind r < row_end csr r ∧
    csr.csr_col_ind (csr.csr_diag_ind r) = r + csr.idx_base

/-- The array `map` restricted to `[0, m)` is a permutation of the rows. -/
structure MapPerm (csr : CsrMatrix) : Prop where
  range : ∀ i, 0 ≤ i → i < csr.m → 0 ≤ csr.map i ∧ csr.map i < csr.m
  inj : ∀ i, 0 ≤ i → i < csr.m → ∀ i2, 0 ≤ i2 → i2 < csr.m → csr.map i = csr.map i2 → i = i2
  surj : ∀ r, 0 ≤ r → r < csr.m → ¬ ∀ i, 0 ≤ i → i < csr.m → csr.map i ≠ r

/-- Every row comes after the rows it depends on: the rows named by its column
indices located before its diagonal position. -/
def DepOrder (csr : CsrMatrix) : Prop :=
  ∀ i, 0 ≤ i → i < csr.m → ∀ i2, 0 ≤ i2 → i2 < csr.m →
    ∀ j, row_begin csr (csr.map i) ≤ j → j < csr.csr_diag_ind (csr.map i) →
      csr.map i2 = csr.csr_col_ind j - csr.idx_base → i2 < i

/-- Every row holds fewer entries than the hash table has slots. -/
def RowsFit (csr : CsrMatrix) (S : Nat) : Prop :=
  ∀ r, 0 ≤ r → r < csr.m → row_end csr r - row_begin csr r < S

/-- The matrix with its entries moved by `σ`: position `p` holds the column
index that position `σ p` held. -/
def reorder (csr : CsrMatrix) (σ : Int → Int) : CsrMatrix :=
  { csr with csr_col_ind := fun p => csr.csr_col_ind (σ p) }

/-- The state with the values moved together with the column indices. -/
def reorder_state {T : Type} (σ : Int → Int) (s : KState T) : KState T :=
  ⟨fun p => s.csr_val (σ p), s.done, s.zero_pivot⟩

/-- The map `σ` moves only entries located after the diagonal of their row,
and keeps them after the diagonal of that row. -/
structure TailPerm (csr : CsrMatrix) (σ : Int → Int) : Prop where
  fix : ∀ p, (∀ r, 0 ≤ r → r < csr.m → ¬ (csr.csr_diag_ind r < p ∧ p < row_end csr r)) →
    σ p = p
  tail : ∀ r, 0 ≤ r → r < csr.m → ∀ p, csr.csr_diag_ind r < p → p < row_end csr r →
    csr.csr_diag_ind r < σ p ∧ σ p < row_end csr r

/-! ## Auxiliary definitions used in the proofs -/

/-- The common skeleton of the two kernels' loop over `j`; `lsum val
local_begin local_diag` is the reduced `local_sum` of one iteration. -/
def row_loop_gen {T : Type} [Field T] [DecidableEq T] (ops : ScalarOps T) (csr : CsrMatrix)
    (row_diag : Int) (lsum : (Int → T) → Int → Int → Option T) :
    Nat → Int → T → KState T → Option (T × KState T)
  | 0, _, sum, s => some (sum, s)
  | fuel + 1, j, sum, s =>
    if j < row_diag then
      let c := csr.csr_col_ind j - csr.idx_base
      let d := local_diag_of csr row_diag c
      if s.done c = 0 then none
      else if s.csr_val d = 0 then
        some (sum, { s with zero_pivot := min s.zero_pivot (c + csr.idx_base) })
      else
        match lsum s.csr_val (csr.csr_row_ptr c - csr.idx_base) d with
        | none => none
        | some local_sum =>
          let x := (s.csr_val j - local_sum) * (1 / s.csr_val d)
          row_loop_gen ops csr row_diag lsum fuel (j + 1)
            (rocsparse_fma x (ops.rocsparse_conj x) sum)
            { s with csr_val := Function.update s.csr_val j x }
    else some (sum, s)

/-- The `local_sum` of one iteration of the hash kernel. -/
def hash_lsum {T : Type} [Field T] (W S : Nat) (ops : ScalarOps T) (csr : CsrMatrix)
    (t : HashTable) (val : Int → T) (local_begin local_diag : Int) : Option T :=
  (lanes_run (fun lid =>
    hash_lane_loop W S ops csr val t local_diag
      (local_diag - (local_begin + lid)).toNat (local_begin + lid) 0) W).map
    rocsparse_wfreduce_sum

/-- The `local_sum` of one iteration of the binary-search kernel. -/
def binsearch_lsum {T : Type} [Field T] (W : Nat) (ops : ScalarOps T) (csr : CsrMatrix)
    (row_begin row_end : Int) (val : Int → T) (local_begin local_diag : Int) : Option T :=
  some (rocsparse_wfreduce_sum ((List.range W).map (fun (lid : Nat) =>
    binsearch_lane_loop W ops csr val row_end local_diag
      (local_diag - (local_begin + lid)).toNat (local_begin + lid) row_begin 0)))

/-- The skeleton of a whole wavefront, given the row loop's `local_sum`. -/
def kernel_gen {T : Type} [Field T] [DecidableEq T] (ops : ScalarOps T) (csr : CsrMatrix)
    (lsum : Int → (Int → T) → Int → Int → Option T) (idx : Int) (s : KState T) :
    Option (KState T) :=
  if idx ≥ csr.m then some s
  else
    match row_loop_gen ops csr (csr.csr_diag_ind (csr.map idx)) (lsum (csr.map idx))
        (csr.csr_diag_ind (csr.map idx) - row_begin csr (csr.map idx)).toNat
        (row_begin csr (csr.map idx)) 0 s with
    | none => none
    | some (sum, s1) =>
      some (finish_row ops (csr.map idx) (csr.csr_diag_ind (csr.map idx)) sum s1)

/-- The first position among `b, b+1, ..., b+n-1` whose column index is `key`. -/
def findPos (csr : CsrMatrix) (key : Int) : Nat → Int → Option Int
  | 0, _ => none
  | n + 1, b => if csr.csr_col_ind b = key then some b else findPos csr key n (b + 1)

/-- The slot at which probing for `key` stops: the first slot of the probe
sequence that holds `key` or is empty. -/
def probe (S : Nat) (key : Int) : Nat → Nat → HashTable → Option Nat
  | 0, _, _ => none
  | fuel + 1, hash, t =>
    if t.table hash = key ∨ t.table hash = -1 then some hash
    else probe S key fuel (next_slot S hash) t

/-- The contribution of position `k` of a dependency row to `local_sum`:
`csr_val[k] * conj(csr_val[p])` when the column of `k` occurs in the current
row (positions `rb, ..., rb+rn-1`) at `p`, and nothing otherwise. -/
def match_term {T : Type} [Field T] (ops : ScalarOps T) (csr : CsrMatrix) (val : Int → T)
    (rb : Int) (rn : Nat) (k : Int) : T :=
  match findPos csr (csr.csr_col_ind k) rn rb with
  | some p => val k * ops.rocsparse_conj (val p)
  | none => 0

/-- A lane's strided loop adding `g k` for each of its positions `k`. -/
def lane_loop_gen {T : Type} [Field T] (W : Nat) (g : Int → T) (ld : Int) : Nat → Int → T → T
  | 0, _, acc => acc
  | fuel + 1, k, acc => if k < ld then lane_loop_gen W g ld fuel (k + W) (g k + acc) else acc

/-- The `local_sum` of one iteration as a sum over all positions of the
dependency row before its diagonal. -/
def ref_lsum {T : Type} [Field T] (ops : ScalarOps T) (csr : CsrMatrix)
    (rb : Int) (rn : Nat) (val : Int → T) (local_begin local_diag : Int) : Option T :=
  some (∑ k in Finset.Ico local_begin local_diag, match_term ops csr val rb rn k)

/-- The skeleton with `ref_lsum`: the row computation both kernels implement. -/
def ref_kernel {T : Type} [Field T] [DecidableEq T] (ops : ScalarOps T) (csr : CsrMatrix)
    (idx : Int) (s : KState T) : Option (KState T) :=
  kernel_gen ops csr
    (fun r => ref_lsum ops csr (row_begin csr r) (row_end csr r - row_begin csr r).toNat) idx s

/-- The state of the hash table after the positions `b, ..., b+n-1` of the
current row have been inserted. -/
structure TableInv (S : Nat) (csr : CsrMatrix) (b : Int) (n : Nat) (t : HashTable) : Prop where
  data_ok : ∀ slot, t.table slot ≠ -1 → findPos csr (t.table slot) n b = some (t.data slot)
  found : ∀ key, key ≠ -1 → (findPos csr key n b).isSome →
    ∃ z, probe S key S (hash_slot S key) t = some z ∧ t.table z = key
  count : ∃ occ : Finset Nat, (∀ slot, t.table slot ≠ -1 → slot ∈ occ) ∧ occ.card ≤ n

/-- The dependency row named by position `j`: `csr_col_ind[j] - idx_base`. -/
@[reducible] def dep (csr : CsrMatrix) (j : Int) : Int := csr.csr_col_ind j - csr.idx_base

/-- The `local_sum` of position `j` of row `r` over the values `val`. -/
def ref_sum {T : Type} [Field T] (ops : ScalarOps T) (csr : CsrMatrix) (val : Int → T)
    (r j : Int) : T :=
  ∑ k in Finset.Ico (row_begin csr (dep csr j)) (csr.csr_diag_ind (dep csr j)),
    match_term ops csr val (row_begin csr r) (row_end csr r - row_begin csr r).toNat k

/-- The values `v` of row `r` after its wavefront, in terms of the values `v0`
of the row before it and of the values of its dependencies; `J` is the position
at which the row loop stopped (`csr_diag_ind[r]` when it ran to its end). -/
structure RowEqs {T : Type} [Field T] (ops : ScalarOps T) (csr : CsrMatrix) (v0 v : Int → T)
    (r J : Int) : Prop where
  lo : row_begin csr r ≤ J
  hi : J ≤ csr.csr_diag_ind r
  before : ∀ j, row_begin csr r ≤ j → j < J →
    v (csr.csr_diag_ind (dep csr j)) ≠ 0 ∧
      v j = (v0 j - ref_sum ops csr v r j) * (1 / v (csr.csr_diag_ind (dep csr j)))
  after : ∀ j, J ≤ j → j < csr.csr_diag_ind r → v j = v0 j
  stop : J < csr.csr_diag_ind r → v (csr.csr_diag_ind (dep csr J)) = 0
  diag : v (csr.csr_diag_ind r) =
    ops.sqrt_abs (v0 (csr.csr_diag_ind r) -
      ∑ j in Finset.Ico (row_begin csr r) J, v j * ops.rocsparse_conj (v j))

/-- Row `r` meets its first dependency with a zero diagonal at position `J`
(over the values `v`). -/
structure StopAt {T : Type} [Field T] (csr : CsrMatrix) (v : Int → T) (r J : Int) : Prop where
  lo : row_begin csr r ≤ J
  hi : J < csr.csr_diag_ind r
  zero : v (csr.csr_diag_ind (dep csr J)) = 0
  nonzero : ∀ j, row_begin csr r ≤ j → j < J → v (csr.csr_diag_ind (dep csr j)) ≠ 0

/-- The state `s` reached from `s0` after the wavefronts `0, ..., n-1`. -/
structure RunInv {T : Type} [Field T] (ops : ScalarOps T) (csr : CsrMatrix) (s0 : KState T)
    (n : Int) (s : KState T) : Prop where
  done_in : ∀ i, 0 ≤ i → i < n → s.done (csr.map i) = Int.lor (s0.done (csr.map i)) 1
  done_out : ∀ r, (∀ i, 0 ≤ i → i < n → csr.map i ≠ r) → s.done r = s0.done r
  frame : ∀ p, (∀ i, 0 ≤ i → i < n →
      ¬ (row_begin csr (csr.map i) ≤ p ∧ p ≤ csr.csr_diag_ind (csr.map i))) →
    s.csr_val p = s0.csr_val p
  eqs : ∀ i, 0 ≤ i → i < n → ∃ J, RowEqs ops csr s0.csr_val s.csr_val (csr.map i) J
  piv : ∀ z, z ≤ s.zero_pivot ↔
    (z ≤ s0.zero_pivot ∧ ∀ i, 0 ≤ i → i < n → ∀ J, StopAt csr s.csr_val (csr.map i) J →
      z ≤ dep csr J + csr.idx_base)

/-- The state `s` left by a complete run from `s0`, row by row: the facts of
`RunInv` that do not mention the visiting order. -/
structure Factored {T : Type} [Field T] (ops : ScalarOps T) (csr : CsrMatrix)
    (s0 s : KState T) : Prop where
  done_in : ∀ r, 0 ≤ r → r < csr.m → s.done r = Int.lor (s0.done r) 1
  done_out : ∀ r, ¬ (0 ≤ r ∧ r < csr.m) → s.done r = s0.done r
  frame : ∀ p, (∀ r, 0 ≤ r → r < csr.m →
      ¬ (row_begin csr r ≤ p ∧ p ≤ csr.csr_diag_ind r)) → s.csr_val p = s0.csr_val p
  eqs : ∀ r, 0 ≤ r → r < csr.m → ∃ J, RowEqs ops csr s0.csr_val s.csr_val r J
  piv : ∀ z, z ≤ s.zero_pivot ↔
    (z ≤ s0.zero_pivot ∧ ∀ r, 0 ≤ r → r < csr.m → ∀ J, StopAt csr s.csr_val r J →
      z ≤ dep csr J + csr.idx_base)

/-- Entry `(r, c)` of the lower-triangular matrix `L` formed by the stored
entries at or before each row's diagonal (zero where nothing is stored). -/
def L_entry {T : Type} [Field T] (csr : CsrMatrix) (v : Int → T) (r c : Int) : T :=
  match findPos csr (c + csr.idx_base) (csr.csr_diag_ind r + 1 - row_begin csr r).toNat
      (row_begin csr r) with
  | some p => v p
  | none => 0

/-- Entry `(r, c)` of `L * L^H` (of `L * L^T` when `rocsparse_conj` is the
identity). -/
def LLH_entry {T : Type} [Field T] (ops : ScalarOps T) (csr : CsrMatrix) (v : Int → T)
    (r c : Int) : T :=
  ∑ k in Finset.Ico 0 csr.m, L_entry csr v r k * ops.rocsparse_conj (L_entry csr v c k)

/-- The array holding the elements of `l`, read as `d` outside of it. -/
def of_list {α : Type} (l : List α) (d : α) (i : Int) : α :=
  if i < 0 then d else l.getD i.toNat d

/-- The structure of the 4x4 matrix `[[4,1,0,0],[1,4,1,0],[0,1,4,1],[0,0,1,4]]`
of the spec's scenario: index base 0, sorted rows, identity visiting order. -/
def tri4 : CsrMatrix :=
  { m := 4, csr_row_ptr := of_list [0, 2, 5, 8, 10] 0,
    csr_col_ind := of_list [0, 1, 0, 1, 2, 1, 2, 3, 2, 3] 0,
    csr_diag_ind := of_list [0, 3, 6, 9] (-1), map := fun i => i, idx_base := 0 }

/-- The lower part of the 2x2 matrix `[[4,2],[2,5]]`: row 0 holds `(0,0)`,
row 1 holds `(1,0)` and `(1,1)`. -/
def low2 : CsrMatrix :=
  { m := 2, csr_row_ptr := of_list [0, 1, 3] 0, csr_col_ind := of_list [0, 0, 1] 0,
    csr_diag_ind := of_list [0, 2] (-1), map := fun i => i, idx_base := 0 }

/-- The matrix `low2` with the two entries of row 1 exchanged: row 1 holds
`(1,1)` first, then `(1,0)`. -/
def low2_swapped : CsrMatrix :=
  { m := 2, csr_row_ptr := of_list [0, 1, 3] 0, csr_col_ind := of_list [0, 1, 0] 0,
    csr_diag_ind := of_list [0, 1] (-1), map := fun i => i, idx_base := 0 }

/-- The pattern of a full 3x3 matrix with sorted rows. -/
def dense3 : CsrMatrix :=
  { m := 3, csr_row_ptr := of_list [0, 3, 6, 9] 0,
    csr_col_ind := of_list [0, 1, 2, 0, 1, 2, 0, 1, 2] 0,
    csr_diag_ind := of_list [0, 4, 8] (-1), map := fun i => i, idx_base := 0 }

/-- Exchanges the positions 1 and 2: the two entries after the diagonal of row
0 of `dense3`. -/
def swap12 (p : Int) : Int := if p = 1 then 2 else if p = 2 then 1 else p

/-- The lower part of a 3x3 Hermitian matrix, all three rows full up to the
diagonal. -/
def herm3 : CsrMatrix :=
  { m := 3, csr_row_ptr := of_list [0, 1, 3, 6] 0, csr_col_ind := of_list [0, 0, 1, 0, 1, 2] 0,
    csr_diag_ind := of_list [0, 2, 5] (-1), map := fun i => i, idx_base := 0 }


/-! ## The kernels step by step: parallel executions

All wavefronts of a launch run concurrently.  A parallel execution is an
interleaving of steps of the wavefronts over one shared memory (`csr_val`,
`done`, `zero_pivot`); which wavefront moves next is given by a schedule.  A
step is the part of the kernel between two accesses to shared memory that other
wavefronts can observe or influence: the load of `csr_val[j]`, one poll of the
spin loop, the load of the dependency's diagonal (with the `atomicMin` and the
`break` when it is zero), the lanes' loops computing `local_sum`, the store to
`csr_val[j]`, the update of the diagonal and the `atomicOr` on the own flag.
The two `__threadfence()` calls order a wavefront's accesses as the program
lists them, which is the order of its steps here. -/

/-- The kernel that is launched, with its template parameters `WFSIZE` and
`HASH`. -/
inductive KernelKind where
  | hash (WFSIZE HASH : Nat)
  | binsearch (WFSIZE : Nat)

/-- Where a wavefront stands in its kernel: before the row set-up (`start`), at
the test `j < row_diag` (`head`), in the spin loop (`spin`), before the load of
`diag_val` (`load`), before the lanes' `k` loops (`lanes`), before the last
lane's store to `csr_val[j]` (`store`), before the update of the diagonal
(`tail`), before the `atomicOr` on `done[row]` (`flag`), or returned. -/
inductive Pc where
  | start
  | head
  | spin
  | load
  | lanes
  | store
  | tail
  | flag
  | finished
  deriving DecidableEq

/-- The registers and shared arrays of one wavefront: its place in the
kernel, the hash table, the loop counter `j`, the last lane's `sum`,
`local_val`, `diag_val` (the reciprocal) and the reduced `local_sum`, and
whether the `j` loop was left through `break`. -/
structure WfState (T : Type) where
  pc : Pc
  table : HashTable
  j : Int
  sum : T
  local_val : T
  diag_val : T
  local_sum : T
  broke : Bool

/-- `atomicOr(&a[i], v)`: returns the old value `a[i]` and stores `a[i] | v`. -/
def atomicOr (a : Int → Int) (i v : Int) : Int × (Int → Int) :=
  (a i, Function.update a i (Int.lor (a i) v))

/-- `atomicMin(zero_pivot, v)`: the value stored in the register. -/
def atomicMin (x v : Int) : Int := min x v

/-- The hash table a wavefront builds before its `j` loop (source lines 53-112);
the binary-search kernel has none. -/
def kernel_fill (K : KernelKind) (csr : CsrMatrix) (row_begin row_end : Int) :
    Option HashTable :=
  match K with
  | .hash W H =>
    hash_fill (W * H) csr (row_end - row_begin).toNat row_begin ⟨fun _ => -1, fun _ => 0⟩
  | .binsearch _ => some ⟨fun _ => -1, fun _ => 0⟩

/-- The reduced `local_sum` of one iteration of the `j` loop (source lines
166-200 and 335-372). -/
def kernel_lsum {T : Type} [Field T] (K : KernelKind) (ops : ScalarOps T) (csr : CsrMatrix)
    (row_begin row_end : Int) (t : HashTable) (val : Int → T) (local_begin local_diag : Int) :
    Option T :=
  match K with
  | .hash W H => hash_lsum W (W * H) ops csr t val local_begin local_diag
  | .binsearch W => binsearch_lsum W ops csr row_begin row_end val local_begin local_diag

/-- One step of the wavefront with index `idx` (`idx < m`) on the shared memory
`mem`; `none` when the wavefront has returned or probes its hash table for
ever.  A poll that finds the flag unset leaves the wavefront in the spin loop. -/
def wf_step {T : Type} [Field T] [DecidableEq T] (K : KernelKind) (ops : ScalarOps T)
    (csr : CsrMatrix) (idx : Int) (mem : KState T) (w : WfState T) :
    Option (KState T × WfState T) :=
  let row := csr.map idx
  let row_diag := csr.csr_diag_ind row
  let row_begin := csr.csr_row_ptr row - csr.idx_base
  let row_end := csr.csr_row_ptr (row + 1) - csr.idx_base
  let local_col := csr.csr_col_ind w.j - csr.idx_base
  let local_begin := csr.csr_row_ptr local_col - csr.idx_base
  let local_diag := local_diag_of csr row_diag local_col
  match w.pc with
  | .start =>
    match kernel_fill K csr row_begin row_end with
    | none => none
    | some t => some (mem, { w with pc := .head, table := t, j := row_begin, sum := 0 })
  | .head =>
    if w.j < row_diag then
      some (mem, { w with pc := .spin, local_val := mem.csr_val w.j, local_sum := 0 })
    else some (mem, { w with pc := .tail })
  | .spin =>
    let polled := atomicOr mem.done local_col 0
    if polled.1 = 0 then some ({ mem with done := polled.2 }, w)
    else some ({ mem with done := polled.2 }, { w with pc := .load })
  | .load =>
    if mem.csr_val local_diag = 0 then
      some ({ mem with zero_pivot := atomicMin mem.zero_pivot (local_col + csr.idx_base) },
        { w with pc := .tail, broke := true })
    else some (mem, { w with pc := .lanes, diag_val := 1 / mem.csr_val local_diag })
  | .lanes =>
    match kernel_lsum K ops csr row_begin row_end w.table mem.csr_val local_begin local_diag with
    | none => none
    | some local_sum => some (mem, { w with pc := .store, local_sum := local_sum })
  | .store =>
    let local_val := (w.local_val - w.local_sum) * w.diag_val
    let sum1 := rocsparse_fma local_val (ops.rocsparse_conj local_val) w.sum
    some ({ mem with csr_val := Function.update mem.csr_val w.j local_val },
      { w with pc := .head, j := w.j + 1, local_val := local_val, sum := sum1 })
  | .tail =>
    if row_diag ≥ 0 then
      let diag1 := ops.sqrt_abs (mem.csr_val row_diag - w.sum)
      some ({ mem with csr_val := Function.update mem.csr_val row_diag diag1 },
        { w with pc := .flag })
    else some (mem, { w with pc := .flag })
  | .flag => some ({ mem with done := (atomicOr mem.done row 1).2 }, { w with pc := .finished })
  | .finished => none

/-- The state of a launch: the shared memory and the state of every wavefront. -/
structure GState (T : Type) where
  mem : KState T
  wf : Int → WfState T

/-- The wavefront `idx` makes one step, if it is one of the wavefronts
`0, ..., m-1` and can move. -/
def par_step {T : Type} [Field T] [DecidableEq T] (K : KernelKind) (ops : ScalarOps T)
    (csr : CsrMatrix) (g : GState T) (idx : Int) : GState T :=
  if 0 ≤ idx ∧ idx < csr.m then
    match wf_step K ops csr idx g.mem (g.wf idx) with
    | none => g
    | some (mem1, w1) => ⟨mem1, Function.update g.wf idx w1⟩
  else g

/-- The parallel execution in which the wavefronts move in the order listed by
the schedule. -/
def par_run {T : Type} [Field T] [DecidableEq T] (K : KernelKind) (ops : ScalarOps T)
    (csr : CsrMatrix) : List Int → GState T → GState T
  | [], g => g
  | idx :: rest, g => par_run K ops csr rest (par_step K ops csr g idx)

/-- The state at launch: memory `s0`, every wavefront at its start. -/
def g_init {T : Type} [Field T] (s0 : KState T) : GState T :=
  ⟨s0, fun _ => ⟨.start, ⟨fun _ => -1, fun _ => 0⟩, 0, 0, 0, 0, 0, false⟩⟩

/-- The value `local_col + idx_base` a step of wavefront `idx` hands to
`atomicMin`, when the step is the load of a dependency's diagonal that reads
zero. -/
def wf_detect {T : Type} [Field T] [DecidableEq T] (csr : CsrMatrix) (idx : Int)
    (mem : KState T) (w : WfState T) : Option Int :=
  if w.pc = .load ∧
      mem.csr_val (local_diag_of csr (csr.csr_diag_ind (csr.map idx))
        (csr.csr_col_ind w.j - csr.idx_base)) = 0 then
    some (csr.csr_col_ind w.j - csr.idx_base + csr.idx_base)
  else none

/-- The zero-diagonal detections made during a parallel execution, in the
order in which they are made. -/
def detections {T : Type} [Field T] [DecidableEq T] (K : KernelKind) (ops : ScalarOps T)
    (csr : CsrMatrix) : List Int → GState T → List Int
  | [], _ => []
  | idx :: rest, g =>
    (if 0 ≤ idx ∧ idx < csr.m then (wf_detect csr idx g.mem (g.wf idx)).toList else []) ++
      detections K ops csr rest (par_step K ops csr g idx)

/-- The launch conditions of a kernel: at least one lane per wavefront and,
for the hash kernel, a table of `WFSIZE * HASH = 2^e` slots that is larger than
every row. -/
def LaunchOK (K : KernelKind) (csr : CsrMatrix) : Prop :=
  match K with
  | .hash W H => 1 ≤ W ∧ (∃ e, W * H = 2 ^ e) ∧ RowsFit csr (W * H)
  | .binsearch W => 1 ≤ W

/-- A 3x3 matrix with an entry above the diagonal stored before the diagonal:
row 0 holds `(0,0)`, row 1 holds `(1,0), (1,2), (1,1)` with its diagonal at
position 3, row 2 holds `(2,1), (2,2)`.  Row 1 depends on rows 0 and 2, row 2
depends on row 1. -/
def cyc3 : CsrMatrix :=
  { m := 3, csr_row_ptr := of_list [0, 1, 4, 6] 0, csr_col_ind := of_list [0, 0, 2, 1, 1, 2] 0,
    csr_diag_ind := of_list [0, 3, 5] (-1), map := fun i => i, idx_base := 0 }

/-- The invariant of the cyclic case.  The rows of `cyc` each wait for a row of
`cyc` at position `edge r`.  Either a wavefront of such a row has left its loop
through `break`, or none of these rows is done and each of their wavefronts has
not passed the spin loop of position `edge r`. -/
def CycInv {T : Type} (csr : CsrMatrix) (cyc : Int → Prop) (edge : Int → Int)
    (g : GState T) : Prop :=
  (∃ idx, 0 ≤ idx ∧ idx < csr.m ∧ cyc (csr.map idx) ∧ (g.wf idx).broke = true) ∨
    ((∀ r, cyc r → g.mem.done r = 0) ∧
      ∀ idx, 0 ≤ idx → idx < csr.m → cyc (csr.map idx) →
        (g.wf idx).pc = .start ∨
        (((g.wf idx).pc = .head ∨ (g.wf idx).pc = .spin) ∧
          (g.wf idx).j ≤ edge (csr.map idx)) ∨
        (((g.wf idx).pc = .load ∨ (g.wf idx).pc = .lanes ∨ (g.wf idx).pc = .store) ∧
          (g.wf idx).j < edge (csr.map idx)))

end Csric0

/-! # rocSPARSE coomm: argument checks of `coomm_impl`

Shallow embedding of `library/src/level3/rocsparse_coomm.cpp`
(`coomm_quickreturn`, `coomm_checkarg`, `coomm_impl`): the checks up to the
call of `coomm_core`.  A pointer is modelled by whether it is null (and, for
the scalars `alpha` and `beta`, by the value it points to); a call returns its
status together with the kernels it has launched. -/

namespace Coomm

/-- The values of `rocsparse_status` the functions return;
`rocsparse_status_continue` is the internal "go on" status. -/
inductive rocsparse_status where
  | rocsparse_status_success
  | rocsparse_status_invalid_handle
  | rocsparse_status_not_implemented
  | rocsparse_status_invalid_pointer
  | rocsparse_status_invalid_size
  | rocsparse_status_internal_error
  | rocsparse_status_invalid_value
  | rocsparse_status_requires_sorted_storage
  | rocsparse_status_continue
  deriving DecidableEq

open rocsparse_status

/-- A value of type `rocsparse_operation`; `rocsparse_operation_other` stands
for any value outside the enumeration. -/
inductive rocsparse_operation where
  | rocsparse_operation_none
  | rocsparse_operation_transpose
  | rocsparse_operation_conjugate_transpose
  | rocsparse_operation_other
  deriving DecidableEq

/-- A value of type `rocsparse_order`; `rocsparse_order_other` stands for any
value outside the enumeration. -/
inductive rocsparse_order where
  | rocsparse_order_row
  | rocsparse_order_column
  | rocsparse_order_other
  deriving DecidableEq

/-- The pointer mode of a handle. -/
inductive rocsparse_pointer_mode where
  | rocsparse_pointer_mode_host
  | rocsparse_pointer_mode_device
  deriving DecidableEq

open rocsparse_operation rocsparse_order rocsparse_pointer_mode

/-- The fields of a matrix descriptor the checks read: whether `type` is
`rocsparse_matrix_type_general` and whether `storage_mode` is
`rocsparse_storage_mode_sorted`. -/
structure MatDescr where
  type_general : Bool
  storage_sorted : Bool

/-- The arguments of `coomm_impl`.  `handle` is `none` for a null handle and
otherwise its pointer mode; `alpha_device_host` and `beta_device_host` are `none`
for null pointers and otherwise the scalar pointed to; `descr` is `none` for a
null descriptor; the array arguments are `true` when they are not null;
`alg_valid` tells whether `alg` is a value of `rocsparse_coomm_alg`. -/
structure CoommArgs (T : Type) where
  handle : Option rocsparse_pointer_mode
  trans_A : rocsparse_operation
  trans_B : rocsparse_operation
  alg_valid : Bool
  m : Int
  n : Int
  k : Int
  nnz : Int
  batch_count_A : Int
  alpha_device_host : Option T
  descr : Option MatDescr
  coo_val : Bool
  coo_row_ind : Bool
  coo_col_ind : Bool
  dense_B : Bool
  ldb : Int
  batch_count_B : Int
  order_B : rocsparse_order
  beta_device_host : Option T
  dense_C : Bool
  ldc : Int
  batch_count_C : Int
  order_C : rocsparse_order

/-- A kernel launch made by a call. -/
inductive Launch where
  | scale_array_2d
  | coomm_core
  deriving DecidableEq

/-- The conversion of a product of dimensions to `rocsparse_int` (32 bits,
two's complement). -/
def to_rocsparse_int (x : Int) : Int := (x + 2147483648) % 4294967296 - 2147483648

/-- Modelled from the spec: `RETURN_IF_HIPLAUNCHKERNELGGL_ERROR` of the library's
`utility.h`, which is not among the sources: the kernel is launched, and a
launch that the runtime reports as failed (`launch_ok = false`) ends the call
with `rocsparse_status_internal_error`. -/
def launch_status (launch_ok : Bool) : Option rocsparse_status :=
  if launch_ok then none else some rocsparse_status_internal_error

/-- The function `coomm_quickreturn` (source lines 485-560).  Dereferencing
a null `beta_device_host` in host pointer mode is undefined in the source;
the embedding gives it the status `rocsparse_status_internal_error`. -/
def coomm_quickreturn {T : Type} [Field T] [DecidableEq T] (launch_ok : Bool)
    (pointer_mode : rocsparse_pointer_mode) (a : CoommArgs T) :
    rocsparse_status × List Launch :=
  if a.m = 0 ∨ a.n = 0 ∨ a.k = 0 then
    let Csize := if a.trans_A = rocsparse_operation_none then to_rocsparse_int (a.m * a.n)
      else to_rocsparse_int (a.k * a.n)
    if Csize > 0 then
      if a.dense_C = false ∧ a.beta_device_host = none then
        (rocsparse_status_invalid_pointer, [])
      else if pointer_mode = rocsparse_pointer_mode_host ∧ a.beta_device_host = none then
        (rocsparse_status_internal_error, [])
      else
        match launch_status launch_ok with
        | some e => (e, [Launch.scale_array_2d])
        | none => (rocsparse_status_success, [Launch.scale_array_2d])
    else (rocsparse_status_success, [])
  else if pointer_mode = rocsparse_pointer_mode_host ∧
      a.alpha_device_host = some 0 ∧ a.beta_device_host = some 1 then
    (rocsparse_status_success, [])
  else (rocsparse_status_continue, [])

/-- The checks of `coomm_checkarg` that follow the quick return (source lines
669-757): arrays and pointers, leading dimensions, batch counts. -/
def coomm_checkarg_late {T : Type} (a : CoommArgs T) : rocsparse_status :=
  if a.nnz > 0 ∧ a.coo_val = false then rocsparse_status_invalid_pointer
  else if a.nnz > 0 ∧ a.coo_row_ind = false then rocsparse_status_invalid_pointer
  else if a.nnz > 0 ∧ a.coo_col_ind = false then rocsparse_status_invalid_pointer
  else if a.dense_B = false then rocsparse_status_invalid_pointer
  else if a.dense_C = false then rocsparse_status_invalid_pointer
  else
    let c_ext := if a.trans_A = rocsparse_operation_none then
        (if a.order_C = rocsparse_order_column then a.m else a.n)
      else (if a.order_C = rocsparse_order_column then a.k else a.n)
    let b_ext := if a.trans_A = rocsparse_operation_none then
        (if a.trans_B = rocsparse_operation_none then
          (if a.order_B = rocsparse_order_column then a.k else a.n)
        else (if a.order_B = rocsparse_order_column then a.n else a.k))
      else
        (if a.trans_B = rocsparse_operation_none then
          (if a.order_B = rocsparse_order_column then a.m else a.n)
        else (if a.order_B = rocsparse_order_column then a.n else a.m))
    if a.ldc < max 1 c_ext then rocsparse_status_invalid_size
    else if a.ldb < max 1 b_ext then rocsparse_status_invalid_size
    else if a.batch_count_A = 1 ∧ a.batch_count_C ≠ a.batch_count_B then
      rocsparse_status_invalid_value
    else if a.batch_count_B = 1 ∧ a.batch_count_C ≠ a.batch_count_A then
      rocsparse_status_invalid_value
    else if (a.batch_count_A > 1 ∧ a.batch_count_B > 1) ∧
        (a.batch_count_A ≠ a.batch_count_B ∨ a.batch_count_A ≠ a.batch_count_C) then
      rocsparse_status_invalid_value
    else rocsparse_status_continue

/-- The function `coomm_checkarg` (source lines 562-757).  Modelled from the
spec: the macros `ROCSPARSE_CHECKARG_HANDLE`, `_ENUM`, `_SIZE`, `_POINTER`,
`_ARRAY` and `ROCSPARSE_CHECKARG` of the library's argument-checking header,
which is not among the sources: an invalid handle, an invalid enumeration
value, a negative size and a null required pointer (for an array, when its
size is positive) each end the call at once with the status
`rocsparse_status_invalid_handle`, `rocsparse_status_invalid_value`,
`rocsparse_status_invalid_size`, `rocsparse_status_invalid_pointer`, and
`ROCSPARSE_CHECKARG` ends it with the given status when its condition holds. -/
def coomm_checkarg {T : Type} [Field T] [DecidableEq T] (launch_ok : Bool) (a : CoommArgs T) :
    rocsparse_status × List Launch :=
  match a.handle with
  | none => (rocsparse_status_invalid_handle, [])
  | some pointer_mode =>
    if a.trans_A = rocsparse_operation_other then (rocsparse_status_invalid_value, [])
    else if a.trans_B = rocsparse_operation_other then (rocsparse_status_invalid_value, [])
    else if a.order_B = rocsparse_order_other then (rocsparse_status_invalid_value, [])
    else if a.order_C = rocsparse_order_other then (rocsparse_status_invalid_value, [])
    else if a.order_C ≠ a.order_B then (rocsparse_status_invalid_value, [])
    else if a.alg_valid = false then (rocsparse_status_invalid_value, [])
    else if a.m < 0 then (rocsparse_status_invalid_size, [])
    else if a.n < 0 then (rocsparse_status_invalid_size, [])
    else if a.k < 0 then (rocsparse_status_invalid_size, [])
    else if a.nnz < 0 then (rocsparse_status_invalid_size, [])
    else
      match a.descr with
      | none => (rocsparse_status_invalid_pointer, [])
      | some descr =>
        if descr.type_general = false then (rocsparse_status_not_implemented, [])
        else if descr.storage_sorted = false then
          (rocsparse_status_requires_sorted_storage, [])
        else if a.alpha_device_host = none then (rocsparse_status_invalid_pointer, [])
        else if a.beta_device_host = none then (rocsparse_status_invalid_pointer, [])
        else
          let quick := coomm_quickreturn launch_ok pointer_mode a
          if quick.1 ≠ rocsparse_status_continue then quick
          else (coomm_checkarg_late a, quick.2)

/-- The function `coomm_impl` (source lines 895-1003); `core` is the status
`coomm_core` returns, which launches the multiplication kernels. -/
def coomm_impl {T : Type} [Field T] [DecidableEq T] (launch_ok : Bool)
    (core : rocsparse_status) (a : CoommArgs T) : rocsparse_status × List Launch :=
  let checked := coomm_checkarg launch_ok a
  if checked.1 ≠ rocsparse_status_continue then checked
  else (core, checked.2 ++ [Launch.coomm_core])

/-- A call with one row of `A` missing (`m = 0`), `A` transposed, a 1x1 result
and a null `dense_C`; everything else is in order. -/
def zero_dim_call : CoommArgs ℚ :=
  { handle := some rocsparse_pointer_mode_host, trans_A := rocsparse_operation_transpose,
    trans_B := rocsparse_operation_none, alg_valid := true, m := 0, n := 1, k := 1, nnz := 0,
    batch_count_A := 1, alpha_device_host := some 1, descr := some ⟨true, true⟩,
    coo_val := true, coo_row_ind := true, coo_col_ind := true, dense_B := true, ldb := 1,
    batch_count_B := 1, order_B := rocsparse_order_column, beta_device_host := some 2,
    dense_C := false, ldc := 1, batch_count_C := 1, order_C := rocsparse_order_column }

/-- A call with `m = n = k = 1`, `alpha = 0` and `beta = 1` in host pointer
mode and a null `dense_C`; everything else is in order. -/
def no_op_call : CoommArgs ℚ :=
  { handle := some rocsparse_pointer_mode_host, trans_A := rocsparse_operation_none,
    trans_B := rocsparse_operation_none, alg_valid := true, m := 1, n := 1, k := 1, nnz := 1,
    batch_count_A := 1, alpha_device_host := some 0, descr := some ⟨true, true⟩,
    coo_val := true, coo_row_ind := true, coo_col_ind := true, dense_B := true, ldb := 1,
    batch_count_B := 1, order_B := rocsparse_order_column, beta_device_host := some 1,
    dense_C := false, ldc := 1, batch_count_C := 1, order_C := rocsparse_order_column }

/-- A call with `m = n = k = 2`, `alpha = 1`, `beta = 0` and a null `dense_C`;
everything else is in order. -/
def null_C_call : CoommArgs ℚ :=
  { handle := some rocsparse_pointer_mode_host, trans_A := rocsparse_operation_none,
    trans_B := rocsparse_operation_none, alg_valid := true, m := 2, n := 2, k := 2, nnz := 3,
    batch_count_A := 1, alpha_device_host := some 1, descr := some ⟨true, true⟩,
    coo_val := true, coo_row_ind := true, coo_col_ind := true, dense_B := true, ldb := 2,
    batch_count_B := 1, order_B := rocsparse_order_column, beta_device_host := some 0,
    dense_C := false, ldc := 2, batch_count_C := 1, order_C := rocsparse_order_column }

end Coomm

/-! # rocSPARSE spitsv: degenerate input -/

namespace Spitsv

open Coomm

/-- The stages of `rocsparse_spitsv` the test passes. -/
inductive rocsparse_spitsv_stage where
  | rocsparse_spitsv_stage_buffer_size
  | rocsparse_spitsv_stage_preprocess
  | rocsparse_spitsv_stage_compute
  deriving DecidableEq

/-- What a call of `rocsparse_spitsv` is given, as far as the degenerate case
goes: the dimensions `M`, `N` and `nnz` of the matrix, its index base, the
operation, the fill mode (`true` for lower) and the diagonal type (`true` for
unit). -/
structure SpitsvArgs where
  M : Int
  N : Int
  nnz : Int
  base : Int
  trans : rocsparse_operation
  uplo_lower : Bool
  diag_unit : Bool

/-- Modelled from the spec: `rocsparse_spitsv`, whose implementation is not
among the sources (only its test `testing_spitsv_csr.cpp` is).  The spec (4.4,
4.5): the iterative solve "must tolerate an all-zero matrix dimension (trivial
success) and a non-square matrix (reports an unsupported-configuration status
without attempting computation)"; "dimension 0 returns success with no
computation".  `solve` stands for what the three stages do on a square matrix
of positive dimension. -/
def rocsparse_spitsv (solve : rocsparse_spitsv_stage → SpitsvArgs → rocsparse_status)
    (stage : rocsparse_spitsv_stage) (a : SpitsvArgs) : rocsparse_status :=
  if a.M = 0 ∧ a.N = 0 then rocsparse_status.rocsparse_status_success
  else if a.M ≠ a.N then rocsparse_status.rocsparse_status_not_implemented
  else solve stage a

/-- The branch `M <= 0` of `testing_spitsv_csr` (source lines 139-245): for
`M == 0 && M == N` the test builds the matrix with `nnz_A = 0` and calls the
three stages in turn; the result lists, for each call, the status returned and
the status `EXPECT_ROCSPARSE_STATUS` expects.  Otherwise the test returns
without a call. -/
def testing_spitsv_csr_degenerate
    (spitsv : rocsparse_spitsv_stage → SpitsvArgs → rocsparse_status) (M N base : Int)
    (trans : rocsparse_operation) (uplo_lower diag_unit : Bool) :
    List (rocsparse_status × rocsparse_status) :=
  if M ≤ 0 then
    if M = 0 ∧ M = N then
      let A : SpitsvArgs := ⟨M, N, 0, base, trans, uplo_lower, diag_unit⟩
      [(spitsv .rocsparse_spitsv_stage_buffer_size A, rocsparse_status.rocsparse_status_success),
       (spitsv .rocsparse_spitsv_stage_preprocess A, rocsparse_status.rocsparse_status_success),
       (spitsv .rocsparse_spitsv_stage_compute A, rocsparse_status.rocsparse_status_success)]
    else []
  else []

end Spitsv

namespace Csric0

/-! ## The searches of a lane, the indices a step uses -/

/-- The binary searches of one lane of the binary-search kernel (source lines
338-369), in the order of the lane's `k` loop: for each `k` the lower bound `l`
the search starts from (carried over from the lane's previous search), and the
`l` and `m` it ends with.  The midpoint is taken in exact integers
(`binsearch_lane_searches32` takes it in `rocsparse_int`). -/
def binsearch_lane_searches (W : Nat) (csr : CsrMatrix) (row_end local_diag : Int) :
    Nat → Int → Int → List (Int × Int × Int × Int)
  | 0, _, _ => []
  | fuel + 1, k, l =>
    if k < local_diag then
      let r := row_end - 1
      let col_k := csr.csr_col_ind k
      let lm := binsearch_loop csr col_k (r - l).toNat l r ((r + l) >>> (1 : Nat))
      (k, l, lm.1, lm.2) ::
        binsearch_lane_searches W csr row_end local_diag fuel (k + W) lm.1
    else []

/-- The binary search of the source with its lower bound reset to `row_begin`:
a search over the whole row, the midpoint taken in exact integers. -/
def binsearch_fresh (csr : CsrMatrix) (col_k row_begin row_end : Int) : Int × Int :=
  binsearch_loop csr col_k (row_end - 1 - row_begin).toNat row_begin (row_end - 1)
    ((row_end - 1 + row_begin) >>> (1 : Nat))

/-- The arrays the kernels index. -/
inductive Arr where
  | csr_row_ptr
  | csr_col_ind
  | csr_val
  | csr_diag_ind
  | done
  | map
  | table
  | data
  deriving DecidableEq

/-- The table slots the insertion loop of `key` (source lines 93-111) indexes:
`table[hash]` at every probe, `data[hash]` when the key is stored. -/
def hash_insert_acc (S : Nat) (key : Int) : Nat → Nat → HashTable → List (Arr × Int)
  | 0, _, _ => []
  | fuel + 1, hash, t =>
    if t.table hash = key then [(Arr.table, (hash : Int))]
    else if t.table hash = -1 then [(Arr.table, (hash : Int)), (Arr.data, (hash : Int))]
    else (Arr.table, (hash : Int)) :: hash_insert_acc S key fuel (next_slot S hash) t

/-- The indices the fill loop (source lines 85-112) uses. -/
def hash_fill_acc (S : Nat) (csr : CsrMatrix) : Nat → Int → HashTable → List (Arr × Int)
  | 0, _, _ => []
  | n + 1, j, t =>
    (Arr.csr_col_ind, j) ::
      (hash_insert_acc S (csr.csr_col_ind j) S (hash_slot S (csr.csr_col_ind j)) t ++
        match hash_insert S (csr.csr_col_ind j) j S (hash_slot S (csr.csr_col_ind j)) t with
        | none => []
        | some t1 => hash_fill_acc S csr n (j + 1) t1)

/-- The table slots the lookup loop of `key` (source lines 177-196) indexes. -/
def hash_lookup_acc (S : Nat) (key : Int) : Nat → Nat → HashTable → List (Arr × Int)
  | 0, _, _ => []
  | fuel + 1, hash, t =>
    if t.table hash = -1 then [(Arr.table, (hash : Int))]
    else if t.table hash = key then [(Arr.table, (hash : Int)), (Arr.data, (hash : Int))]
    else (Arr.table, (hash : Int)) :: hash_lookup_acc S key fuel (next_slot S hash) t

/-- The indices one lane's `k` loop of the hash kernel (source lines 168-197)
uses. -/
def hash_lane_acc (W S : Nat) (csr : CsrMatrix) (t : HashTable) (local_diag : Int) :
    Nat → Int → List (Arr × Int)
  | 0, _ => []
  | fuel + 1, k =>
    if k < local_diag then
      (Arr.csr_col_ind, k) ::
        (hash_lookup_acc S (csr.csr_col_ind k) S (hash_slot S (csr.csr_col_ind k)) t ++
          match hash_lookup S (csr.csr_col_ind k) S (hash_slot S (csr.csr_col_ind k)) t with
          | none => []
          | some none => hash_lane_acc W S csr t local_diag fuel (k + W)
          | some (some idx) =>
            (Arr.csr_val, k) :: (Arr.csr_val, idx) ::
              hash_lane_acc W S csr t local_diag fuel (k + W))
    else []

/-- The positions of `csr_col_ind` the `while(l < r)` loop (source lines
348-361) reads: the new `m` after every update, the midpoint taken in exact
integers (`binsearch_loop_acc32` takes it in `rocsparse_int`). -/
def binsearch_loop_acc (csr : CsrMatrix) (col_k : Int) : Nat → Int → Int → Int → List (Arr × Int)
  | 0, _, _, _ => []
  | fuel + 1, l, r, m =>
    if l < r then
      if csr.csr_col_ind m < col_k then
        (Arr.csr_col_ind, (r + (m + 1)) >>> (1 : Nat)) ::
          binsearch_loop_acc csr col_k fuel (m + 1) r ((r + (m + 1)) >>> (1 : Nat))
      else
        (Arr.csr_col_ind, (m + l) >>> (1 : Nat)) ::
          binsearch_loop_acc csr col_k fuel l m ((m + l) >>> (1 : Nat))
    else []

/-- The indices one lane's `k` loop of the binary-search kernel (source lines
338-369) uses, the midpoint taken in exact integers (`binsearch_lane_acc32`
takes it in `rocsparse_int`). -/
def binsearch_lane_acc (W : Nat) (csr : CsrMatrix) (row_end local_diag : Int) :
    Nat → Int → Int → List (Arr × Int)
  | 0, _, _ => []
  | fuel + 1, k, l =>
    if k < local_diag then
      let r := row_end - 1
      let col_k := csr.csr_col_ind k
      let lm := binsearch_loop csr col_k (r - l).toNat l r ((r + l) >>> (1 : Nat))
      (Arr.csr_col_ind, (r + l) >>> (1 : Nat)) :: (Arr.csr_col_ind, k) ::
        (binsearch_loop_acc csr col_k (r - l).toNat l r ((r + l) >>> (1 : Nat)) ++
          ((if csr.csr_col_ind lm.2 = col_k then [(Arr.csr_val, k), (Arr.csr_val, lm.2)]
            else []) ++
            binsearch_lane_acc W csr row_end local_diag fuel (k + W) lm.1))
    else []

/-- The number of slots of the wavefront's `table` and `data`. -/
def table_size (K : KernelKind) : Nat :=
  match K with
  | .hash W H => W * H
  | .binsearch _ => 0

/-- The indices the set-up of a wavefront uses in `table` and `data` and in
`csr_col_ind` (source lines 53-112): the initialisation of the table and the
fill loop. -/
def kernel_fill_acc (K : KernelKind) (csr : CsrMatrix) (row_begin row_end : Int) :
    List (Arr × Int) :=
  match K with
  | .hash W H =>
    (List.range (W * H)).map (fun (j : Nat) => (Arr.table, (j : Int))) ++
      hash_fill_acc (W * H) csr (row_end - row_begin).toNat row_begin ⟨fun _ => -1, fun _ => 0⟩
  | .binsearch _ => []

/-- The indices the lanes' `k` loops of one iteration of the `j` loop use. -/
def kernel_lsum_acc (K : KernelKind) (csr : CsrMatrix) (row_begin row_end : Int)
    (t : HashTable) (local_begin local_diag : Int) : List (Arr × Int) :=
  match K with
  | .hash W H =>
    (List.range W).flatMap (fun (lid : Nat) =>
      hash_lane_acc W (W * H) csr t local_diag
        (local_diag - (local_begin + lid)).toNat (local_begin + lid))
  | .binsearch W =>
    (List.range W).flatMap (fun (lid : Nat) =>
      binsearch_lane_acc W csr row_end local_diag
        (local_diag - (local_begin + lid)).toNat (local_begin + lid) row_begin)

/-- The array indices the step `wf_step` of the wavefront `idx` in state `w`
uses: `map[idx]`, `csr_diag_ind[row]`, `csr_row_ptr[row]`, `csr_row_ptr[row + 1]`
and the table set-up at the start; `csr_col_ind[j]`, `csr_val[j]`,
`csr_row_ptr[local_col]`, `csr_diag_ind[local_col]` at the head of an iteration;
`done[local_col]` in the spin loop; `csr_val[local_diag]`; the lanes' loops;
`csr_val[j]`; `csr_val[row_diag]`; `done[row]`. -/
def wf_access {T : Type} (K : KernelKind) (csr : CsrMatrix) (idx : Int) (w : WfState T) :
    List (Arr × Int) :=
  let row := csr.map idx
  let row_diag := csr.csr_diag_ind row
  let row_begin := csr.csr_row_ptr row - csr.idx_base
  let row_end := csr.csr_row_ptr (row + 1) - csr.idx_base
  let local_col := csr.csr_col_ind w.j - csr.idx_base
  let local_begin := csr.csr_row_ptr local_col - csr.idx_base
  let local_diag := local_diag_of csr row_diag local_col
  match w.pc with
  | .start =>
    [(Arr.map, idx), (Arr.csr_diag_ind, row), (Arr.csr_row_ptr, row),
      (Arr.csr_row_ptr, row + 1)] ++ kernel_fill_acc K csr row_begin row_end
  | .head =>
    if w.j < row_diag then
      [(Arr.csr_col_ind, w.j), (Arr.csr_val, w.j), (Arr.csr_row_ptr, local_col),
        (Arr.csr_diag_ind, local_col)]
    else []
  | .spin => [(Arr.done, local_col)]
  | .load => [(Arr.csr_val, local_diag)]
  | .lanes => kernel_lsum_acc K csr row_begin row_end w.table local_begin local_diag
  | .store => [(Arr.csr_val, w.j)]
  | .tail => if row_diag ≥ 0 then [(Arr.csr_val, row_diag)] else []
  | .flag => [(Arr.done, row)]
  | .finished => []

/-- The number of stored entries: `csr_row_ptr[m] - idx_base`. -/
def nnz_of (csr : CsrMatrix) : Int := csr.csr_row_ptr csr.m - csr.idx_base

/-- An index is inside its array: `csr_row_ptr` has `m + 1` elements,
`csr_col_ind` and `csr_val` have `nnz`, `csr_diag_ind`, `done` and `map` have
`m`, and `table` and `data` have `S` per wavefront. -/
def InBounds (csr : CsrMatrix) (S : Nat) (a : Arr × Int) : Prop :=
  match a.1 with
  | .csr_row_ptr => 0 ≤ a.2 ∧ a.2 ≤ csr.m
  | .csr_col_ind => 0 ≤ a.2 ∧ a.2 < nnz_of csr
  | .csr_val => 0 ≤ a.2 ∧ a.2 < nnz_of csr
  | .csr_diag_ind => 0 ≤ a.2 ∧ a.2 < csr.m
  | .done => 0 ≤ a.2 ∧ a.2 < csr.m
  | .map => 0 ≤ a.2 ∧ a.2 < csr.m
  | .table => 0 ≤ a.2 ∧ a.2 < S
  | .data => 0 ≤ a.2 ∧ a.2 < S

/-! ## The binary search in `rocsparse_int`

The definitions `binsearch_loop`, `binsearch_lane_loop`, `binsearch_lane_acc`
and `wf_access` take the midpoint `(r + l) >> 1` of the binary search (source
lines 342 and 359) in exact integers.  The source computes it in
`rocsparse_int`, 32 bits wide: the sum `r + l` wraps before the shift.  The
definitions below take the midpoint as the source computes it; the two agree as
long as `r + l` stays below `2^31`, that is for positions up to `2^30`. -/

/-- The midpoint `(r + l) >> 1` of the binary search (source lines 342 and 359)
computed in `rocsparse_int`: the sum wraps to 32 bits, the shift is
arithmetic. -/
def midpoint32 (r l : Int) : Int := Coomm.to_rocsparse_int (r + l) >>> (1 : Nat)

/-- The `while(l < r)` binary search (source lines 348-361) with the midpoint
computed in `rocsparse_int`; returns the final `l` and `m` (`col_j` is
`csr_col_ind[m]` throughout), `none` when the loop has not ended after `fuel`
iterations. -/
def binsearch_loop32 (csr : CsrMatrix) (col_k : Int) : Nat → Int → Int → Int → Option (Int × Int)
  | 0, _, _, _ => none
  | fuel + 1, l, r, m =>
    if l < r then
      if csr.csr_col_ind m < col_k then
        binsearch_loop32 csr col_k fuel (m + 1) r (midpoint32 r (m + 1))
      else
        binsearch_loop32 csr col_k fuel l m (midpoint32 m l)
    else some (l, m)

/-- The positions of `csr_col_ind` the `while(l < r)` loop (source lines
348-361) reads, the midpoint computed in `rocsparse_int`: the new `m` after
every update, for at most `fuel` iterations. -/
def binsearch_loop_acc32 (csr : CsrMatrix) (col_k : Int) :
    Nat → Int → Int → Int → List (Arr × Int)
  | 0, _, _, _ => []
  | fuel + 1, l, r, m =>
    if l < r then
      if csr.csr_col_ind m < col_k then
        (Arr.csr_col_ind, midpoint32 r (m + 1)) ::
          binsearch_loop_acc32 csr col_k fuel (m + 1) r (midpoint32 r (m + 1))
      else
        (Arr.csr_col_ind, midpoint32 m l) ::
          binsearch_loop_acc32 csr col_k fuel l m (midpoint32 m l)
    else []

/-- The binary searches of one lane of the binary-search kernel (source lines
338-369) with the midpoint computed in `rocsparse_int`, in the order of the
lane's `k` loop: for each `k` the lower bound `l` the search starts from
(carried over from the lane's previous search) and the `l` and `m` it ends
with; `none`, and no further search, when the search has not ended after
`wfuel` iterations. -/
def binsearch_lane_searches32 (W : Nat) (csr : CsrMatrix) (row_end local_diag : Int)
    (wfuel : Nat) : Nat → Int → Int → List (Int × Int × Option (Int × Int))
  | 0, _, _ => []
  | fuel + 1, k, l =>
    if k < local_diag then
      let r := row_end - 1
      let col_k := csr.csr_col_ind k
      match binsearch_loop32 csr col_k wfuel l r (midpoint32 r l) with
      | none => [(k, l, none)]
      | some lm =>
        (k, l, some lm) ::
          binsearch_lane_searches32 W csr row_end local_diag wfuel fuel (k + W) lm.1
    else []

/-- The binary search of the source with its lower bound reset to `row_begin`:
a search over the whole row, the midpoint computed in `rocsparse_int`. -/
def binsearch_fresh32 (csr : CsrMatrix) (col_k row_begin row_end : Int) (wfuel : Nat) :
    Option (Int × Int) :=
  binsearch_loop32 csr col_k wfuel row_begin (row_end - 1) (midpoint32 (row_end - 1) row_begin)

/-- The indices one lane's `k` loop of the binary-search kernel (source lines
338-369) uses, the midpoint computed in `rocsparse_int`: `csr_col_ind[m]` and
`csr_col_ind[k]` before the `while` loop, the reads of the loop, and
`csr_val[k]`, `csr_val[m]` at a match. -/
def binsearch_lane_acc32 (W : Nat) (csr : CsrMatrix) (row_end local_diag : Int) (wfuel : Nat) :
    Nat → Int → Int → List (Arr × Int)
  | 0, _, _ => []
  | fuel + 1, k, l =>
    if k < local_diag then
      let r := row_end - 1
      let col_k := csr.csr_col_ind k
      (Arr.csr_col_ind, midpoint32 r l) :: (Arr.csr_col_ind, k) ::
        (binsearch_loop_acc32 csr col_k wfuel l r (midpoint32 r l) ++
          match binsearch_loop32 csr col_k wfuel l r (midpoint32 r l) with
          | none => []
          | some lm =>
            (if csr.csr_col_ind lm.2 = col_k then [(Arr.csr_val, k), (Arr.csr_val, lm.2)]
              else []) ++
              binsearch_lane_acc32 W csr row_end local_diag wfuel fuel (k + W) lm.1)
    else []

/-- The array indices the step of the wavefront `idx` in state `w` uses, the
midpoint of the binary search computed in `rocsparse_int`: those of
`wf_access`, except in the lanes' loops of the binary-search kernel. -/
def wf_access32 {T : Type} (K : KernelKind) (csr : CsrMatrix) (idx : Int) (w : WfState T)
    (wfuel : Nat) : List (Arr × Int) :=
  let row := csr.map idx
  let row_diag := csr.csr_diag_ind row
  let row_begin := csr.csr_row_ptr row - csr.idx_base
  let row_end := csr.csr_row_ptr (row + 1) - csr.idx_base
  let local_col := csr.csr_col_ind w.j - csr.idx_base
  let local_begin := csr.csr_row_ptr local_col - csr.idx_base
  let local_diag := local_diag_of csr row_diag local_col
  match K, w.pc with
  | .binsearch W, .lanes =>
    (List.range W).flatMap (fun (lid : Nat) =>
      binsearch_lane_acc32 W csr row_end local_diag wfuel
        (local_diag - (local_begin + lid)).toNat (local_begin + lid) row_begin)
  | _, _ => wf_access K csr idx w

/-- The 40000 x 40000 matrix with every entry stored, index base 0: row `r`
holds the columns `0, ..., 39999` at the positions `40000 * r, ...,
40000 * r + 39999`, its diagonal at position `40001 * r`; 1 600 000 000
entries, which a 32-bit `rocsparse_int` can count. -/
def dense40000 : CsrMatrix :=
  { m := 40000, csr_row_ptr := fun r => 40000 * r, csr_col_ind := fun p => p % 40000,
    csr_diag_ind := fun r => 40001 * r, map := fun i => i, idx_base := 0 }

/-- What is known of the loop counter and of the table of a wavefront in a
parallel execution. -/
structure AccInv {T : Type} (K : KernelKind) (csr : CsrMatrix) (idx : Int) (w : WfState T) :
    Prop where
  table : w.pc ≠ .start →
    kernel_fill K csr (csr.csr_row_ptr (csr.map idx) - csr.idx_base)
      (csr.csr_row_ptr (csr.map idx + 1) - csr.idx_base) = some w.table
  lo : w.pc ≠ .start → row_begin csr (csr.map idx) ≤ w.j
  hi : w.pc = .spin ∨ w.pc = .load ∨ w.pc = .lanes ∨ w.pc = .store →
    w.j < csr.csr_diag_ind (csr.map idx)

/-! ## The lanes of a wavefront filling the table

The lanes of a wavefront run the fill loop (source lines 85-112) concurrently:
lane `lid` inserts the positions `row_begin + lid`, `row_begin + lid + WFSIZE`,
and so on.  A step of a lane is the test `table[hash] == key` or the
`atomicCAS` that follows it (with the store to `data[hash]` when it succeeds);
an execution of the fill loop is an interleaving of the lanes' steps, given by
a schedule of lane ids.  The function `hash_fill` is the execution in which
every insertion runs to its end before the next one starts. -/

/-- A lane in the fill loop: the position `j` it is inserting (it has left the
loop when `j >= row_end`), the slot `hash` it probes, whether it stands between
the test `table[hash] == key` and the `atomicCAS` (`cas`), and the number of
unsuccessful probes it has made for the key of `j` (a counter of the embedding;
the source has none). -/
structure FillLane where
  j : Int
  hash : Nat
  cas : Bool
  probes : Nat

/-- The table and the lanes of a wavefront in the fill loop. -/
structure FillState where
  t : HashTable
  lane : Nat → FillLane

/-- A lane takes up position `j`: `key = csr_col_ind[j]`,
`hash = (key * 103) & (WFSIZE * HASH - 1)` (source lines 88-90). -/
def fill_enter (S : Nat) (csr : CsrMatrix) (j : Int) : FillLane :=
  ⟨j, hash_slot S (csr.csr_col_ind j), false, 0⟩

/-- One step of a lane in the `while(true)` loop of the insertion (source lines
93-111).  Before the test: when `table[hash] == key` the key is there and the
lane goes on to its next position, otherwise it goes on to the `atomicCAS`.  At
the `atomicCAS(&table[hash], -1, key)`: when the slot is empty the key and the
position are stored and the lane goes on to its next position, otherwise the
lane moves to the next slot. -/
def fill_lane_step (S W : Nat) (csr : CsrMatrix) (row_end : Int) (t : HashTable)
    (ln : FillLane) : HashTable × FillLane :=
  if ln.j < row_end then
    if ln.cas = false then
      if t.table ln.hash = csr.csr_col_ind ln.j then (t, fill_enter S csr (ln.j + W))
      else (t, ⟨ln.j, ln.hash, true, ln.probes⟩)
    else if t.table ln.hash = -1 then
      (⟨Function.update t.table ln.hash (csr.csr_col_ind ln.j),
          Function.update t.data ln.hash ln.j⟩, fill_enter S csr (ln.j + W))
    else (t, ⟨ln.j, next_slot S ln.hash, false, ln.probes + 1⟩)
  else (t, ln)

/-- The lane `lid` makes one step. -/
def fill_step (S W : Nat) (csr : CsrMatrix) (row_end : Int) (g : FillState) (lid : Nat) :
    FillState :=
  if lid < W then
    ⟨(fill_lane_step S W csr row_end g.t (g.lane lid)).1,
      Function.update g.lane lid (fill_lane_step S W csr row_end g.t (g.lane lid)).2⟩
  else g

/-- The execution of the fill loop in which the lanes move in the order listed
by the schedule. -/
def fill_run (S W : Nat) (csr : CsrMatrix) (row_end : Int) : List Nat → FillState → FillState
  | [], g => g
  | lid :: rest, g => fill_run S W csr row_end rest (fill_step S W csr row_end g lid)

/-- The state before the fill loop: the table holds `-1` in every slot and lane
`lid` takes up position `row_begin + lid`. -/
def fill_init (S : Nat) (csr : CsrMatrix) (row_begin : Int) : FillState :=
  ⟨⟨fun _ => -1, fun _ => 0⟩, fun lid => fill_enter S csr (row_begin + lid)⟩

/-- The table after the lanes have moved in the order of the schedule. -/
def fill_table (S W : Nat) (csr : CsrMatrix) (row_begin row_end : Int) (sched : List Nat) :
    HashTable :=
  (fill_run S W csr row_end sched (fill_init S csr row_begin)).t

/-- Every lane has left the fill loop. -/
def fill_done (W : Nat) (row_end : Int) (g : FillState) : Prop :=
  ∀ lid, lid < W → row_end ≤ (g.lane lid).j

/-- The `d` slots probed first from `home` are occupied. -/
def PathOcc (S : Nat) (t : HashTable) (home d : Nat) : Prop :=
  ∀ i, i < d → t.table ((home + i) % S) ≠ -1

/-- What holds of the table and the lanes throughout the fill loop of the row
with positions `rb` to `re`. -/
structure FillInv (e W : Nat) (csr : CsrMatrix) (rb re : Int) (g : FillState) : Prop where
  lane_pos : ∀ lid, lid < W → ∃ q : Nat, (g.lane lid).j = rb + lid + W * q
  lane_hash : ∀ lid, lid < W →
    (g.lane lid).hash =
      (hash_slot (2 ^ e) (csr.csr_col_ind (g.lane lid).j) + (g.lane lid).probes) % 2 ^ e
  lane_path : ∀ lid, lid < W → (g.lane lid).j < re →
    PathOcc (2 ^ e) g.t (hash_slot (2 ^ e) (csr.csr_col_ind (g.lane lid).j)) (g.lane lid).probes
  lane_probes : ∀ lid, lid < W → (g.lane lid).j < re → (g.lane lid).probes < 2 ^ e
  slot_lt : ∀ slot, g.t.table slot ≠ -1 → slot < 2 ^ e
  slot_data : ∀ slot, g.t.table slot ≠ -1 →
    rb ≤ g.t.data slot ∧ g.t.data slot < re ∧
      csr.csr_col_ind (g.t.data slot) = g.t.table slot ∧
      ∃ lid, lid < W ∧ (∃ q : Nat, g.t.data slot = rb + lid + W * q) ∧
        g.t.data slot < (g.lane lid).j
  slot_inj : ∀ s1 s2, g.t.table s1 ≠ -1 → g.t.table s2 ≠ -1 → g.t.data s1 = g.t.data s2 →
    s1 = s2
  slot_path : ∀ slot, g.t.table slot ≠ -1 →
    ∃ d, d < 2 ^ e ∧ (hash_slot (2 ^ e) (g.t.table slot) + d) % 2 ^ e = slot ∧
      PathOcc (2 ^ e) g.t (hash_slot (2 ^ e) (g.t.table slot)) d
  done_pos : ∀ lid, lid < W → ∀ q : Nat, rb + lid + W * q < (g.lane lid).j →
    rb + lid + W * q < re → csr.csr_col_ind (rb + lid + W * q) ≠ -1 →
    ∃ slot, g.t.table slot = csr.csr_col_ind (rb + lid + W * q)

/-- The steps a lane that runs alone still needs at most to leave the fill
loop. -/
def fill_measure (S : Nat) (re : Int) (ln : FillLane) : Nat :=
  if ln.j < re then
    (re - ln.j).toNat * (2 * S) + (2 * (S - ln.probes) - (if ln.cas = true then 1 else 0))
  else 0

/-- Five column indices, three of them distinct: `5, 5, 6, 6, 7`. -/
def dup5 : CsrMatrix :=
  { m := 8, csr_row_ptr := of_list [0, 5] 5, csr_col_ind := of_list [5, 5, 6, 6, 7] 0,
    csr_diag_ind := fun _ => -1, map := fun i => i, idx_base := 0 }

/-- Four column indices, two of them distinct: `5, 5, 6, 6`. -/
def dup4 : CsrMatrix :=
  { m := 8, csr_row_ptr := of_list [0, 4] 4, csr_col_ind := of_list [5, 5, 6, 6] 0,
    csr_diag_ind := fun _ => -1, map := fun i => i, idx_base := 0 }

/-- A 2x2 pattern whose row 0 has no diagonal and whose row 1 holds `(1,0)`
and `(1,1)`: the dependency of row 1 has `csr_diag_ind = -1`. -/
def nodiag_dep : CsrMatrix :=
  { m := 2, csr_row_ptr := of_list [0, 1, 3] 0, csr_col_ind := of_list [1, 0, 1] 0,
    csr_diag_ind := of_list [-1, 2] (-1), map := fun i => i, idx_base := 0 }

end Csric0

namespace Coomm

open rocsparse_status rocsparse_operation rocsparse_order rocsparse_pointer_mode

/-- The three batch-count checks that end `coomm_checkarg` (source lines
742-757). -/
def coomm_checkarg_batch (batch_count_A batch_count_B batch_count_C : Int) : rocsparse_status :=
  if batch_count_A = 1 ∧ batch_count_C ≠ batch_count_B then rocsparse_status_invalid_value
  else if batch_count_B = 1 ∧ batch_count_C ≠ batch_count_A then rocsparse_status_invalid_value
  else if (batch_count_A > 1 ∧ batch_count_B > 1) ∧
      (batch_count_A ≠ batch_count_B ∨ batch_count_A ≠ batch_count_C) then
    rocsparse_status_invalid_value
  else rocsparse_status_continue

/-- The batch-count check of `coomm_template` (source lines 827-834), between
its quick return and the call of `coomm_core`: `rocsparse_status_continue`
stands for going on to `coomm_core`. -/
def coomm_template_batch (batch_count_A batch_count_B batch_count_C : Int) : rocsparse_status :=
  let Ci_A_Bi := decide (batch_count_A = 1 ∧ batch_count_B = batch_count_C)
  let Ci_Ai_B := decide (batch_count_B = 1 ∧ batch_count_A = batch_count_C)
  let Ci_Ai_Bi := decide (batch_count_A = batch_count_C ∧ batch_count_A = batch_count_B)
  if (!Ci_A_Bi && !Ci_Ai_B && !Ci_Ai_Bi) = true then rocsparse_status_invalid_value
  else rocsparse_status_continue

/-- The thread `gid` of batch `batch` of `coommnn_scale_device` (source lines
33-56): the array `data` after the thread has run. -/
def coommnn_scale_device {T : Type} [Field T] [DecidableEq T] (m n : Int) (beta : T)
    (data : Int → T) (ld stride : Int) (order : rocsparse_order) (gid batch : Int) : Int → T :=
  if gid ≥ m * n then data
  else
    let wid := if order = rocsparse_order_column then gid / m else gid / n
    let lid := if order = rocsparse_order_column then gid % m else gid % n
    if beta = 0 then Function.update data (lid + ld * wid + stride * batch) 0
    else
      Function.update data (lid + ld * wid + stride * batch)
        (data (lid + ld * wid + stride * batch) * beta)

/-- The thread `gid` of batch `batch` of `coommnn_scale_kernel` (source lines
58-74); `beta` is the scalar loaded from `beta_device_host`. -/
def coommnn_scale_kernel {T : Type} [Field T] [DecidableEq T] (m n : Int) (beta : T)
    (data : Int → T) (ld stride : Int) (order : rocsparse_order) (gid batch : Int) : Int → T :=
  if beta ≠ 1 then coommnn_scale_device m n beta data ld stride order gid batch
  else data

/-- The array element the thread `gid` of batch `batch` addresses:
`lid + ld * wid + stride * batch` (source lines 44-54). -/
def scale_addr (m n ld stride : Int) (order : rocsparse_order) (gid batch : Int) : Int :=
  let wid := if order = rocsparse_order_column then gid / m else gid / n
  let lid := if order = rocsparse_order_column then gid % m else gid % n
  lid + ld * wid + stride * batch

/-- The thread ids of one batch of the launch in `coomm_template_dispatch`
(source lines 188-217): `(m * n - 1) / 256 + 1` blocks of 256 threads,
`gid = hipBlockIdx_x * 256 + hipThreadIdx_x`. -/
def scale_launch_gids (m n : Int) : List Int :=
  (List.range (((m * n - 1) / 256 + 1).toNat * 256)).map Int.ofNat

/-- The threads listed in `gids` of batch `batch` run one after another. -/
def coommnn_scale_run {T : Type} [Field T] [DecidableEq T] (m n : Int) (beta : T)
    (ld stride : Int) (order : rocsparse_order) (batch : Int) (gids : List Int)
    (data : Int → T) : Int → T :=
  gids.foldl (fun d gid => coommnn_scale_kernel m n beta d ld stride order gid batch) data

/-- The array element of the logical entry `(i, j)` of batch `batch` of a
matrix stored with leading dimension `ld`: `i + ld * j` in column order,
`j + ld * i` in row order. -/
def entry_addr (ld stride : Int) (order : rocsparse_order) (batch i j : Int) : Int :=
  if order = rocsparse_order_column then i + ld * j + stride * batch
  else j + ld * i + stride * batch

end Coomm

namespace Csric0

/-! ## Basic facts -/

theorem int_lor_zero (x : Int) : Int.lor x 0 = x := by
  cases x with
  | ofNat n => simp [Int.lor]
  | negSucc n =>
    simp only [Int.lor]
    congr 1
    apply Nat.eq_of_testBit_eq
    intro i
    simp [Nat.ldiff, Nat.testBit_bitwise]

theorem int_lor_one_ne_zero (x : Int) : Int.lor x 1 ≠ 0 := by
  cases x with
  | ofNat n =>
    simp only [Int.lor]
    intro h
    have h2 : n ||| 1 = 0 := by exact_mod_cast h
    have := congrArg (fun z => z.testBit 0) h2
    simp at this
  | negSucc n => simp [Int.lor]

theorem run_seq_append {T : Type} (kernel : Int → KState T → Option (KState T))
    (l1 l2 : List Int) (s : KState T) :
    run_seq kernel (l1 ++ l2) s =
      match run_seq kernel l1 s with
      | none => none
      | some s1 => run_seq kernel l2 s1 := by
  induction l1 generalizing s with
  | nil => simp [run_seq]
  | cons a l ih =>
    simp only [List.cons_append, run_seq]
    cases kernel a s with
    | none => rfl
    | some s1 => exact ih s1

theorem wavefronts_succ (n : Nat) :
    wavefronts ((n : Int) + 1) = wavefronts n ++ [(n : Int)] := by
  have h : ((n : Int) + 1).toNat = n + 1 := by omega
  simp [wavefronts, h, List.range_succ]

theorem run_seq_congr {T : Type} (k1 k2 : Int → KState T → Option (KState T))
    (l : List Int) (h : ∀ idx ∈ l, ∀ s, k1 idx s = k2 idx s) (s : KState T) :
    run_seq k1 l s = run_seq k2 l s := by
  induction l generalizing s with
  | nil => rfl
  | cons a l ih =>
    simp only [run_seq]
    rw [h a (by simp)]
    cases k2 a s with
    | none => rfl
    | some s1 => exact ih (fun idx hidx => h idx (by simp [hidx])) s1

theorem mem_wavefronts (m idx : Int) : idx ∈ wavefronts m ↔ 0 ≤ idx ∧ idx < m := by
  simp only [wavefronts, List.mem_map, List.mem_range]
  constructor
  · rintro ⟨a, ha, rfl⟩
    constructor
    · exact Int.ofNat_nonneg a
    · have : (a : Int) < (m.toNat : Int) := by exact_mod_cast ha
      have h2 : ((m.toNat : Nat) : Int) = max m 0 := Int.toNat_eq_max m
      show (a : Int) < m
      omega
  · rintro ⟨h0, h1⟩
    refine ⟨idx.toNat, ?_, ?_⟩
    · omega
    · show ((idx.toNat : Nat) : Int) = idx
      omega

/-! ## The kernels as instances of the common skeleton -/

theorem hash_row_loop_eq_gen {T : Type} [Field T] [DecidableEq T] (W S : Nat)
    (ops : ScalarOps T) (csr : CsrMatrix) (t : HashTable) (row_diag : Int)
    (fuel : Nat) (j : Int) (sum : T) (s : KState T) :
    hash_row_loop W S ops csr t row_diag fuel j sum s =
      row_loop_gen ops csr row_diag (hash_lsum W S ops csr t) fuel j sum s := by
  induction fuel generalizing j sum s with
  | zero => rfl
  | succ n ih =>
    simp only [hash_row_loop, row_loop_gen, hash_lsum]
    split_ifs <;> try rfl
    cases lanes_run _ W with
    | none => rfl
    | some parts => simp only [Option.map_some']; exact ih _ _ _

theorem binsearch_row_loop_eq_gen {T : Type} [Field T] [DecidableEq T] (W : Nat)
    (ops : ScalarOps T) (csr : CsrMatrix) (rb re row_diag : Int)
    (fuel : Nat) (j : Int) (sum : T) (s : KState T) :
    binsearch_row_loop W ops csr rb re row_diag fuel j sum s =
      row_loop_gen ops csr row_diag (binsearch_lsum W ops csr rb re) fuel j sum s := by
  induction fuel generalizing j sum s with
  | zero => rfl
  | succ n ih =>
    simp only [binsearch_row_loop, row_loop_gen, binsearch_lsum]
    split_ifs <;> try rfl
    exact ih _ _ _

theorem binsearch_kernel_eq_gen {T : Type} [Field T] [DecidableEq T] (W : Nat)
    (ops : ScalarOps T) (csr : CsrMatrix) (idx : Int) (s : KState T) :
    csric0_binsearch_kernel W ops csr idx s =
      kernel_gen ops csr
        (fun r => binsearch_lsum W ops csr (row_begin csr r) (row_end csr r)) idx s := by
  simp only [csric0_binsearch_kernel, kernel_gen, binsearch_row_loop_eq_gen, row_begin, row_end]

/-! ## Frame properties of the row loop -/

theorem finish_row_val {T : Type} [Field T] (ops : ScalarOps T) (row row_diag : Int) (sum : T)
    (s : KState T) (p : Int) (hp : p ≠ row_diag) :
    (finish_row ops row row_diag sum s).csr_val p = s.csr_val p := by
  simp only [finish_row]
  split_ifs
  · simp only [Function.update_noteq hp]
  · rfl

theorem finish_row_val_diag {T : Type} [Field T] (ops : ScalarOps T) (row row_diag : Int)
    (sum : T) (s : KState T) (h : 0 ≤ row_diag) :
    (finish_row ops row row_diag sum s).csr_val row_diag =
      ops.sqrt_abs (s.csr_val row_diag - sum) := by
  simp only [finish_row]
  rw [if_pos (by omega)]
  simp

theorem finish_row_done {T : Type} [Field T] (ops : ScalarOps T) (row row_diag : Int) (sum : T)
    (s : KState T) :
    (finish_row ops row row_diag sum s).done = Function.update s.done row (Int.lor (s.done row) 1) := by
  simp only [finish_row]
  split_ifs <;> rfl

theorem finish_row_pivot {T : Type} [Field T] (ops : ScalarOps T) (row row_diag : Int) (sum : T)
    (s : KState T) :
    (finish_row ops row row_diag sum s).zero_pivot = s.zero_pivot := by
  simp only [finish_row]
  split_ifs <;> rfl

/-- Row pointers of a well-formed matrix do not decrease over any distance. -/
theorem WellFormed.ptr_le {csr : CsrMatrix} (hwf : WellFormed csr) (a : Int) (n : Nat)
    (ha : 0 ≤ a) (hb : a + n ≤ csr.m) : csr.csr_row_ptr a ≤ csr.csr_row_ptr (a + n) := by
  induction n with
  | zero => simp
  | succ k ih =>
    have h1 := ih (by push_cast at hb ⊢; omega)
    have h2 := hwf.ptr_mono (a + k) (by omega) (by push_cast at hb ⊢; omega)
    have h3 : a + ((k + 1 : Nat) : Int) = a + k + 1 := by push_cast; ring
    rw [h3]
    omega

theorem WellFormed.row_end_le_begin {csr : CsrMatrix} (hwf : WellFormed csr) (r1 r2 : Int)
    (h0 : 0 ≤ r1) (h12 : r1 < r2) (h2 : r2 < csr.m) : row_end csr r1 ≤ row_begin csr r2 := by
  have h := hwf.ptr_le (r1 + 1) (r2 - (r1 + 1)).toNat (by omega)
    (by have := Int.toNat_of_nonneg (show 0 ≤ r2 - (r1 + 1) by omega); omega)
  have h3 : r1 + 1 + ((r2 - (r1 + 1)).toNat : Int) = r2 := by
    have := Int.toNat_of_nonneg (show 0 ≤ r2 - (r1 + 1) by omega); omega
  rw [h3] at h
  simp only [row_end, row_begin]
  omega

/-- Positions of different rows of a well-formed matrix are different. -/
theorem WellFormed.rows_disjoint {csr : CsrMatrix} (hwf : WellFormed csr) (r1 r2 p : Int)
    (h1 : 0 ≤ r1 ∧ r1 < csr.m) (h2 : 0 ≤ r2 ∧ r2 < csr.m)
    (hp1 : row_begin csr r1 ≤ p ∧ p < row_end csr r1)
    (hp2 : row_begin csr r2 ≤ p ∧ p < row_end csr r2) : r1 = r2 := by
  rcases lt_trichotomy r1 r2 with h | h | h
  · have := hwf.row_end_le_begin r1 r2 h1.1 h h2.2; omega
  · exact h
  · have := hwf.row_end_le_begin r2 r1 h2.1 h h1.2; omega


/-! ## The hash table -/

theorem hash_slot_lt (S : Nat) (hS : 0 < S) (key : Int) : hash_slot S key < S := by
  have := @Nat.and_le_right ((key * 103) % 4294967296).toNat (S - 1)
  simp only [hash_slot]
  omega

theorem next_slot_lt (S : Nat) (hS : 0 < S) (h : Nat) : next_slot S h < S := by
  have := @Nat.and_le_right (h + 1) (S - 1)
  simp only [next_slot]
  omega

theorem next_slot_pow (e h : Nat) : next_slot (2 ^ e) h = (h + 1) % 2 ^ e := by
  simp only [next_slot, Nat.and_pow_two_sub_one_eq_mod]

theorem hash_insert_eq_probe (S : Nat) (key j : Int) (fuel h : Nat) (t : HashTable) :
    hash_insert S key j fuel h t =
      (probe S key fuel h t).map (fun z =>
        if t.table z = key then t
        else ⟨Function.update t.table z key, Function.update t.data z j⟩) := by
  induction fuel generalizing h with
  | zero => rfl
  | succ n ih =>
    simp only [hash_insert, probe]
    by_cases h1 : t.table h = key
    · simp [h1]
    · by_cases h2 : t.table h = -1
      · have h3 : ¬ (-1 : Int) = key := fun hh => h1 (h2.trans hh)
        simp [h1, h2, h3]
      · simp only [h1, h2, if_false, or_self]
        exact ih _

theorem hash_lookup_eq_probe (S : Nat) (key : Int) (fuel h : Nat) (t : HashTable) :
    hash_lookup S key fuel h t =
      (probe S key fuel h t).map (fun z =>
        if t.table z = -1 then none else some (t.data z)) := by
  induction fuel generalizing h with
  | zero => rfl
  | succ n ih =>
    simp only [hash_lookup, probe]
    by_cases h2 : t.table h = -1
    · simp [h2]
    · by_cases h1 : t.table h = key
      · have h3 : ¬ key = -1 := fun hh => h2 (h1.trans hh)
        simp [h1, h2, h3]
      · simp only [h1, h2, if_false, or_self]
        exact ih _

theorem probe_stop (S : Nat) (key : Int) (fuel h : Nat) (t : HashTable) (z : Nat)
    (hp : probe S key fuel h t = some z) : t.table z = key ∨ t.table z = -1 := by
  induction fuel generalizing h with
  | zero => simp [probe] at hp
  | succ n ih =>
    simp only [probe] at hp
    split_ifs at hp with hc
    · simp only [Option.some.injEq] at hp
      subst hp
      exact hc
    · exact ih _ hp

theorem probe_fuel_mono (S : Nat) (key : Int) (fuel h : Nat) (t : HashTable) (z : Nat)
    (hp : probe S key fuel h t = some z) (k : Nat) : probe S key (fuel + k) h t = some z := by
  induction fuel generalizing h with
  | zero => simp [probe] at hp
  | succ n ih =>
    have e : n + 1 + k = (n + k) + 1 := by omega
    rw [e]
    simp only [probe] at hp ⊢
    split_ifs at hp ⊢ with hc
    · exact hp
    · exact ih _ hp

/-- Writing into an empty slot does not disturb a successful search. -/
theorem probe_update_other (S : Nat) (key : Int) (fuel h : Nat) (t : HashTable) (z e : Nat)
    (k' j' : Int) (hkey : key ≠ -1)
    (hp : probe S key fuel h t = some z) (hz : t.table z = key) (he : t.table e = -1) :
    probe S key fuel h ⟨Function.update t.table e k', Function.update t.data e j'⟩ = some z := by
  induction fuel generalizing h with
  | zero => simp [probe] at hp
  | succ n ih =>
    simp only [probe] at hp ⊢
    by_cases hc : t.table h = key ∨ t.table h = -1
    · rw [if_pos hc] at hp
      simp only [Option.some.injEq] at hp
      subst hp
      have hne : h ≠ e := by
        rintro rfl
        rw [he] at hz
        exact hkey hz.symm
      simp only [Function.update_noteq hne, hc, if_true]
    · rw [if_neg hc] at hp
      have hne : h ≠ e := by
        rintro rfl
        exact hc (Or.inr he)
      simp only [Function.update_noteq hne, hc, if_false]
      exact ih _ hp

/-- After the key is written into the empty slot its probing stopped at, a
search for it stops at the same slot. -/
theorem probe_update_self (S : Nat) (key : Int) (fuel h : Nat) (t : HashTable) (z : Nat)
    (j' : Int)
    (hp : probe S key fuel h t = some z) (hz : t.table z = -1) :
    probe S key fuel h ⟨Function.update t.table z key, Function.update t.data z j'⟩ = some z := by
  induction fuel generalizing h with
  | zero => simp [probe] at hp
  | succ n ih =>
    simp only [probe] at hp ⊢
    by_cases hc : t.table h = key ∨ t.table h = -1
    · rw [if_pos hc] at hp
      simp only [Option.some.injEq] at hp
      subst hp
      simp
    · rw [if_neg hc] at hp
      have hne : h ≠ z := by
        rintro rfl
        exact hc (Or.inr hz)
      simp only [Function.update_noteq hne, hc, if_false]
      exact ih _ hp

theorem probe_reaches (e : Nat) (key : Int) (t : HashTable) (d h : Nat)
    (hz : t.table ((h + d) % 2 ^ e) = -1) (hh : h < 2 ^ e) :
    ∃ z, probe (2 ^ e) key (d + 1) h t = some z := by
  induction d generalizing h with
  | zero =>
    rw [Nat.add_zero, Nat.mod_eq_of_lt hh] at hz
    exact ⟨h, by simp [probe, hz]⟩
  | succ n ih =>
    simp only [probe]
    by_cases hc : t.table h = key ∨ t.table h = -1
    · exact ⟨h, by rw [if_pos hc]⟩
    · rw [if_neg hc]
      apply ih
      · rw [next_slot_pow]
        have : ((h + 1) % 2 ^ e + n) % 2 ^ e = (h + (n + 1)) % 2 ^ e := by
          rw [Nat.add_mod, Nat.mod_mod, ← Nat.add_mod]
          congr 1
          omega
        rw [this]
        exact hz
      · rw [next_slot_pow]
        exact Nat.mod_lt _ (by positivity)

/-- With a power-of-two table size, probing finds an empty slot whenever the
table has one. -/
theorem probe_terminates (e : Nat) (key : Int) (t : HashTable) (h z : Nat)
    (hz : t.table z = -1) (hzS : z < 2 ^ e) (hh : h < 2 ^ e) :
    ∃ z', probe (2 ^ e) key (2 ^ e) h t = some z' := by
  have hpos : 0 < 2 ^ e := by positivity
  have hd : (h + (z + 2 ^ e - h) % 2 ^ e) % 2 ^ e = z := by
    rw [Nat.add_mod, Nat.mod_mod, ← Nat.add_mod]
    have : h + (z + 2 ^ e - h) = z + 2 ^ e := by omega
    rw [this, Nat.add_mod_right, Nat.mod_eq_of_lt hzS]
  have hlt : (z + 2 ^ e - h) % 2 ^ e < 2 ^ e := Nat.mod_lt _ hpos
  obtain ⟨z', hz'⟩ := probe_reaches e key t ((z + 2 ^ e - h) % 2 ^ e) h (by rw [hd]; exact hz) hh
  refine ⟨z', ?_⟩
  have := probe_fuel_mono _ key _ h t z' hz' (2 ^ e - ((z + 2 ^ e - h) % 2 ^ e + 1))
  have e2 : (z + 2 ^ e - h) % 2 ^ e + 1 + (2 ^ e - ((z + 2 ^ e - h) % 2 ^ e + 1)) = 2 ^ e := by
    omega
  rw [e2] at this
  exact this

theorem findPos_some (csr : CsrMatrix) (key : Int) (n : Nat) (b p : Int)
    (h : findPos csr key n b = some p) :
    b ≤ p ∧ p < b + n ∧ csr.csr_col_ind p = key ∧ ∀ q, b ≤ q → q < p → csr.csr_col_ind q ≠ key := by
  induction n generalizing b with
  | zero => simp [findPos] at h
  | succ k ih =>
    simp only [findPos] at h
    split_ifs at h with hc
    · simp only [Option.some.injEq] at h
      subst h
      refine ⟨le_refl _, by push_cast; omega, hc, fun q h1 h2 => by omega⟩
    · obtain ⟨h1, h2, h3, h4⟩ := ih _ h
      refine ⟨by omega, by push_cast; omega, h3, fun q hq1 hq2 => ?_⟩
      by_cases hqb : q = b
      · subst hqb; exact hc
      · exact h4 q (by omega) hq2

theorem findPos_none (csr : CsrMatrix) (key : Int) (n : Nat) (b : Int)
    (h : findPos csr key n b = none) : ∀ q, b ≤ q → q < b + n → csr.csr_col_ind q ≠ key := by
  induction n generalizing b with
  | zero => intro q h1 h2; simp at h2; omega
  | succ k ih =>
    simp only [findPos] at h
    split_ifs at h with hc
    intro q h1 h2
    by_cases hqb : q = b
    · subst hqb; exact hc
    · exact ih _ h q (by omega) (by push_cast at h2; omega)

theorem findPos_of_first (csr : CsrMatrix) (key : Int) (n : Nat) (b p : Int)
    (h1 : b ≤ p) (h2 : p < b + n) (h3 : csr.csr_col_ind p = key)
    (h4 : ∀ q, b ≤ q → q < p → csr.csr_col_ind q ≠ key) : findPos csr key n b = some p := by
  cases h : findPos csr key n b with
  | none => exact absurd h3 (findPos_none csr key n b h p h1 h2)
  | some p' =>
    obtain ⟨a1, a2, a3, a4⟩ := findPos_some csr key n b p' h
    rcases lt_trichotomy p p' with hlt | heq | hgt
    · exact absurd h3 (a4 p h1 hlt)
    · rw [heq]
    · exact absurd a3 (h4 p' a1 hgt)

theorem findPos_succ_right (csr : CsrMatrix) (key : Int) (n : Nat) (b : Int) :
    findPos csr key (n + 1) b =
      match findPos csr key n b with
      | some p => some p
      | none => if csr.csr_col_ind (b + n) = key then some (b + n) else none := by
  cases h : findPos csr key n b with
  | some p =>
    obtain ⟨a1, a2, a3, a4⟩ := findPos_some csr key n b p h
    exact findPos_of_first csr key (n + 1) b p a1 (by push_cast; omega) a3 a4
  | none =>
    have hn := findPos_none csr key n b h
    simp only
    split_ifs with hc
    · exact findPos_of_first csr key (n + 1) b (b + n) (by omega) (by push_cast; omega) hc
        (fun q h1 h2 => hn q h1 h2)
    · cases h' : findPos csr key (n + 1) b with
      | none => rfl
      | some p =>
        obtain ⟨a1, a2, a3, a4⟩ := findPos_some csr key (n + 1) b p h'
        by_cases hp : p = b + n
        · subst hp; exact absurd a3 hc
        · exact absurd a3 (hn p a1 (by push_cast at a2; omega))


theorem tableInv_init (S : Nat) (csr : CsrMatrix) (b : Int) :
    TableInv S csr b 0 ⟨fun _ => -1, fun _ => 0⟩ where
  data_ok := fun slot h => absurd rfl h
  found := fun key _ h => by simp [findPos] at h
  count := ⟨∅, fun slot h => absurd rfl h, by simp⟩

theorem tableInv_empty_slot (e : Nat) (csr : CsrMatrix) (b : Int) (n : Nat) (t : HashTable)
    (inv : TableInv (2 ^ e) csr b n t) (hn : n < 2 ^ e) : ∃ z, z < 2 ^ e ∧ t.table z = -1 := by
  obtain ⟨occ, hocc, hcard⟩ := inv.count
  by_contra hall
  have hsub : Finset.range (2 ^ e) ⊆ occ := by
    intro z hz
    apply hocc
    intro hz2
    exact hall ⟨z, Finset.mem_range.mp hz, hz2⟩
  have := Finset.card_le_card hsub
  rw [Finset.card_range] at this
  omega

theorem tableInv_insert (e : Nat) (csr : CsrMatrix) (b : Int) (n : Nat) (t : HashTable)
    (inv : TableInv (2 ^ e) csr b n t) (hn : n < 2 ^ e) (hkey : csr.csr_col_ind (b + n) ≠ -1) :
    ∃ t1, hash_insert (2 ^ e) (csr.csr_col_ind (b + n)) (b + n) (2 ^ e)
        (hash_slot (2 ^ e) (csr.csr_col_ind (b + n))) t = some t1 ∧
      TableInv (2 ^ e) csr b (n + 1) t1 := by
  have hpos : 0 < 2 ^ e := by positivity
  obtain ⟨z0, hz0, hz0e⟩ := tableInv_empty_slot e csr b n t inv hn
  obtain ⟨z, hz⟩ := probe_terminates e (csr.csr_col_ind (b + n)) t
    (hash_slot (2 ^ e) (csr.csr_col_ind (b + n))) z0 hz0e hz0 (hash_slot_lt _ hpos _)
  rw [hash_insert_eq_probe, hz]
  simp only [Option.map_some']
  rcases probe_stop _ _ _ _ _ _ hz with hk | hemp
  · -- the key is in the table already
    rw [if_pos hk]
    refine ⟨t, rfl, ?_, ?_, ?_⟩
    · intro slot hs
      rw [findPos_succ_right, inv.data_ok slot hs]
    · intro key hkn hsome
      rw [findPos_succ_right] at hsome
      cases hf : findPos csr key n b with
      | some p => exact inv.found key hkn (by rw [hf]; rfl)
      | none =>
        rw [hf] at hsome
        simp only at hsome
        split_ifs at hsome with hc
        · subst hc
          exact ⟨z, hz, hk⟩
        · simp at hsome
    · obtain ⟨occ, h1, h2⟩ := inv.count
      exact ⟨occ, h1, by omega⟩
  · -- the key goes into the empty slot `z`
    have hne : ¬ t.table z = csr.csr_col_ind (b + n) := by
      rw [hemp]; exact fun h => hkey h.symm
    rw [if_neg hne]
    have hnone : findPos csr (csr.csr_col_ind (b + n)) n b = none := by
      cases hf : findPos csr (csr.csr_col_ind (b + n)) n b with
      | none => rfl
      | some p =>
        obtain ⟨z', hz', hz'k⟩ := inv.found _ hkey (by rw [hf]; rfl)
        rw [hz] at hz'
        simp only [Option.some.injEq] at hz'
        subst hz'
        exact absurd hz'k hne
    refine ⟨_, rfl, ?_, ?_, ?_⟩
    · intro slot hs
      simp only at hs ⊢
      by_cases hsz : slot = z
      · subst hsz
        simp only [Function.update_same]
        rw [findPos_succ_right, hnone]
        simp
      · simp only [Function.update_noteq hsz] at hs ⊢
        rw [findPos_succ_right, inv.data_ok slot hs]
    · intro key hkn hsome
      rw [findPos_succ_right] at hsome
      cases hf : findPos csr key n b with
      | some p =>
        obtain ⟨z', hz', hz'k⟩ := inv.found key hkn (by rw [hf]; rfl)
        refine ⟨z', probe_update_other _ key _ _ t z' z _ _ hkn hz' hz'k hemp, ?_⟩
        have : z' ≠ z := by
          rintro rfl
          rw [hemp] at hz'k
          exact hkn hz'k.symm
        simp only [Function.update_noteq this]
        exact hz'k
      | none =>
        rw [hf] at hsome
        simp only at hsome
        split_ifs at hsome with hc
        · subst hc
          exact ⟨z, probe_update_self _ _ _ _ t z _ hz hemp, by simp⟩
        · simp at hsome
    · obtain ⟨occ, h1, h2⟩ := inv.count
      refine ⟨insert z occ, ?_, ?_⟩
      · intro slot hs
        simp only at hs
        by_cases hsz : slot = z
        · subst hsz; exact Finset.mem_insert_self _ _
        · rw [Function.update_noteq hsz] at hs
          exact Finset.mem_insert_of_mem (h1 slot hs)
      · have := Finset.card_insert_le z occ
        omega

/-- Filling the table from a row with fewer entries than slots returns, and
the table then represents the row. -/
theorem hash_fill_inv (e : Nat) (csr : CsrMatrix) (b : Int) (n : Nat) :
    ∀ (n0 : Nat) (t0 : HashTable), TableInv (2 ^ e) csr b n0 t0 →
      (∀ q, b + n0 ≤ q → q < b + n0 + n → csr.csr_col_ind q ≠ -1) → n0 + n < 2 ^ e + 1 →
      ∃ t, hash_fill (2 ^ e) csr n (b + n0) t0 = some t ∧ TableInv (2 ^ e) csr b (n0 + n) t := by
  induction n with
  | zero =>
    intro n0 t0 inv _ _
    exact ⟨t0, rfl, inv⟩
  | succ k ih =>
    intro n0 t0 inv hkeys hfit
    obtain ⟨t1, ht1, inv1⟩ := tableInv_insert e csr b n0 t0 inv (by omega)
      (hkeys _ (le_refl _) (by push_cast; omega))
    simp only [hash_fill, ht1]
    have := ih (n0 + 1) t1 inv1
      (fun q h1 h2 => hkeys q (by push_cast at h1; omega) (by push_cast at h2 ⊢; omega))
      (by omega)
    have e1 : b + ((n0 + 1 : Nat) : Int) = b + n0 + 1 := by push_cast; ring
    have e2 : n0 + 1 + k = n0 + (k + 1) := by omega
    rw [e1, e2] at this
    exact this

/-- A table that represents a row with fewer entries than slots answers every
lookup with the first position of the key in the row. -/
theorem tableInv_lookup (e : Nat) (csr : CsrMatrix) (b : Int) (n : Nat) (t : HashTable)
    (inv : TableInv (2 ^ e) csr b n t) (hn : n < 2 ^ e) (key : Int) (hkey : key ≠ -1) :
    hash_lookup (2 ^ e) key (2 ^ e) (hash_slot (2 ^ e) key) t = some (findPos csr key n b) := by
  have hpos : 0 < 2 ^ e := by positivity
  rw [hash_lookup_eq_probe]
  cases hf : findPos csr key n b with
  | some p =>
    obtain ⟨z, hz, hzk⟩ := inv.found key hkey (by rw [hf]; rfl)
    have hne : t.table z ≠ -1 := by rw [hzk]; exact hkey
    have := inv.data_ok z hne
    rw [hzk, hf] at this
    simp only [Option.some.injEq] at this
    rw [hz]
    simp [hne, this]
  | none =>
    obtain ⟨z0, hz0, hz0e⟩ := tableInv_empty_slot e csr b n t inv hn
    obtain ⟨z, hz⟩ := probe_terminates e key t (hash_slot (2 ^ e) key) z0 hz0e hz0
      (hash_slot_lt _ hpos _)
    rw [hz]
    rcases probe_stop _ _ _ _ _ _ hz with hk | hemp
    · have hne : t.table z ≠ -1 := by rw [hk]; exact hkey
      have := inv.data_ok z hne
      rw [hk, hf] at this
      exact absurd this (by simp)
    · simp [hemp]


/-! ## Lanes -/

theorem lanes_run_some {T : Type} (f : Nat → Option T) (g : Nat → T) (n : Nat)
    (h : ∀ lid, lid < n → f lid = some (g lid)) :
    lanes_run f n = some ((List.range n).map g) := by
  induction n with
  | zero => rfl
  | succ k ih =>
    simp only [lanes_run]
    rw [ih (fun lid hl => h lid (by omega)), h k (by omega)]
    simp [List.range_succ]

theorem list_range_map_sum {T : Type} [AddCommMonoid T] (g : Nat → T) (n : Nat) :
    ((List.range n).map g).sum = ∑ i in Finset.range n, g i := by
  induction n with
  | zero => simp
  | succ k ih => simp [List.range_succ, Finset.sum_range_succ, ih]

theorem lane_loop_gen_acc {T : Type} [Field T] (W : Nat) (g : Int → T) (ld : Int)
    (fuel : Nat) (k : Int) (acc : T) :
    lane_loop_gen W g ld fuel k acc = lane_loop_gen W g ld fuel k 0 + acc := by
  induction fuel generalizing k acc with
  | zero => simp [lane_loop_gen]
  | succ n ih =>
    simp only [lane_loop_gen]
    split_ifs
    · rw [ih _ (g k + acc), ih _ (g k + 0)]
      ring
    · simp

theorem lane_loop_gen_fuel_succ {T : Type} [Field T] (W : Nat) (hW : 1 ≤ W) (g : Int → T)
    (ld : Int) (fuel : Nat) (k : Int) (acc : T) (h : ld - k ≤ fuel) :
    lane_loop_gen W g ld (fuel + 1) k acc = lane_loop_gen W g ld fuel k acc := by
  induction fuel generalizing k acc with
  | zero =>
    simp only [lane_loop_gen]
    rw [if_neg (by push_cast at h; omega)]
  | succ n ih =>
    rw [lane_loop_gen]
    conv_rhs => rw [lane_loop_gen]
    split_ifs
    · apply ih
      push_cast at h ⊢
      have : (1 : Int) ≤ W := by exact_mod_cast hW
      omega
    · rfl

theorem lane_loop_gen_fuel {T : Type} [Field T] (W : Nat) (hW : 1 ≤ W) (g : Int → T)
    (ld : Int) (fuel : Nat) (k : Int) (acc : T) (d : Nat) (h : ld - k ≤ fuel) :
    lane_loop_gen W g ld (fuel + d) k acc = lane_loop_gen W g ld fuel k acc := by
  induction d with
  | zero => rfl
  | succ n ih =>
    rw [← Nat.add_assoc, lane_loop_gen_fuel_succ W hW g ld (fuel + n) k acc
      (by push_cast; omega), ih]

/-- The value a lane starting at `k` accumulates. -/
theorem lane_loop_gen_step {T : Type} [Field T] (W : Nat) (hW : 1 ≤ W) (g : Int → T)
    (ld k : Int) (hk : k < ld) :
    lane_loop_gen W g ld (ld - k).toNat k 0 =
      g k + lane_loop_gen W g ld (ld - (k + W)).toNat (k + W) 0 := by
  obtain ⟨n, hn⟩ : ∃ n, (ld - k).toNat = n + 1 := ⟨(ld - k).toNat - 1, by omega⟩
  rw [hn]
  simp only [lane_loop_gen, if_pos hk]
  rw [lane_loop_gen_acc, add_zero, add_comm]
  congr 1
  have hW' : (1 : Int) ≤ W := by exact_mod_cast hW
  have hle : (ld - (k + W)).toNat ≤ n := by omega
  have := lane_loop_gen_fuel W hW g ld (ld - (k + W)).toNat (k + W) 0
    (n - (ld - (k + W)).toNat) (by omega)
  rw [← this]
  congr 1
  omega

/-- The lanes together visit every position of the dependency row once. -/
theorem lanes_sum_eq {T : Type} [Field T] (W : Nat) (hW : 1 ≤ W) (g : Int → T) (ld : Int)
    (n : Nat) : ∀ lo : Int, (ld - lo).toNat = n →
      ∑ lid in Finset.range W,
        lane_loop_gen W g ld (ld - (lo + (lid : Int))).toNat (lo + lid) 0 =
      ∑ k in Finset.Ico lo ld, g k := by
  induction n with
  | zero =>
    intro lo h
    have : Finset.Ico lo ld = ∅ := by
      apply Finset.Ico_eq_empty
      omega
    rw [this, Finset.sum_empty]
    apply Finset.sum_eq_zero
    intro lid _
    have : (ld - (lo + (lid : Int))).toNat = 0 := by omega
    rw [this]
    rfl
  | succ m ih =>
    intro lo h
    obtain ⟨W', rfl⟩ : ∃ W', W = W' + 1 := ⟨W - 1, by omega⟩
    have hlo : lo < ld := by omega
    have hI : Finset.Ico lo ld = insert lo (Finset.Ico (lo + 1) ld) := by
      ext x
      simp only [Finset.mem_Ico, Finset.mem_insert]
      omega
    rw [hI, Finset.sum_insert (by simp), ← ih (lo + 1) (by omega)]
    rw [Finset.sum_range_succ', Finset.sum_range_succ]
    have h0 : lo + ((0 : Nat) : Int) = lo := by simp
    rw [h0, lane_loop_gen_step (W' + 1) hW g ld lo hlo]
    have e1 : ∀ x : Nat, lo + ((x + 1 : Nat) : Int) = lo + 1 + (x : Int) := by
      intro x; push_cast; ring
    have e2 : lo + ((W' + 1 : Nat) : Int) = lo + 1 + (W' : Int) := by push_cast; ring
    simp only [e1, e2]
    ring

/-! ## The hash kernel's `local_sum` -/

theorem hash_lane_loop_eq {T : Type} [Field T] (W S : Nat) (ops : ScalarOps T)
    (csr : CsrMatrix) (val : Int → T) (t : HashTable) (rb : Int) (rn : Nat) (ld : Int)
    (ht : ∀ key, key ≠ -1 →
      hash_lookup S key S (hash_slot S key) t = some (findPos csr key rn rb))
    (fuel : Nat) (k : Int) (acc : T) (hlo : 0 ≤ k)
    (hkeys : ∀ q, k ≤ q → q < ld → csr.csr_col_ind q ≠ -1) :
    hash_lane_loop W S ops csr val t ld fuel k acc =
      some (lane_loop_gen W (match_term ops csr val rb rn) ld fuel k acc) := by
  induction fuel generalizing k acc with
  | zero => rfl
  | succ n ih =>
    simp only [hash_lane_loop, lane_loop_gen]
    split_ifs with hk
    · rw [ht _ (hkeys k (le_refl _) hk)]
      have hk2 : ∀ q, k + (W : Int) ≤ q → q < ld → csr.csr_col_ind q ≠ -1 :=
        fun q h1 h2 => hkeys q (by omega) h2
      cases hf : findPos csr (csr.csr_col_ind k) rn rb with
      | none =>
        simp only
        rw [ih _ _ (by omega) hk2]
        simp [match_term, hf]
      | some p =>
        simp only
        rw [ih _ _ (by omega) hk2]
        simp [match_term, hf, rocsparse_fma]
    · rfl

theorem hash_lsum_eq_ref {T : Type} [Field T] (W S : Nat) (hW : 1 ≤ W) (ops : ScalarOps T)
    (csr : CsrMatrix) (val : Int → T) (t : HashTable) (rb : Int) (rn : Nat) (lb ld : Int)
    (ht : ∀ key, key ≠ -1 →
      hash_lookup S key S (hash_slot S key) t = some (findPos csr key rn rb))
    (hlb : 0 ≤ lb) (hkeys : ∀ q, lb ≤ q → q < ld → csr.csr_col_ind q ≠ -1) :
    hash_lsum W S ops csr t val lb ld = ref_lsum ops csr rb rn val lb ld := by
  simp only [hash_lsum, ref_lsum]
  rw [lanes_run_some _ (fun lid => lane_loop_gen W (match_term ops csr val rb rn) ld
    (ld - (lb + (lid : Int))).toNat (lb + lid) 0)]
  · simp only [Option.map_some', rocsparse_wfreduce_sum, list_range_map_sum]
    rw [lanes_sum_eq W hW _ ld _ lb rfl]
  · intro lid _
    exact hash_lane_loop_eq W S ops csr val t rb rn ld ht _ _ _ (by omega)
      (fun q h1 h2 => hkeys q (by omega) h2)


/-! ## The binary search -/

theorem shiftRight_one (x : Int) : x >>> (1 : Nat) = x / 2 := by
  have := Int.shiftRight_eq_div_pow x 1
  simpa using this

/-- Strictly ascending columns between two positions of one row. -/
theorem sorted_step_lt (csr : CsrMatrix) (rb re : Int)
    (hs : ∀ p, rb ≤ p → p + 1 < re → csr.csr_col_ind p < csr.csr_col_ind (p + 1))
    (p : Int) (hp : rb ≤ p) (d : Nat) (hq : p + d + 1 < re) :
    csr.csr_col_ind p < csr.csr_col_ind (p + d + 1) := by
  induction d with
  | zero => simpa using hs p hp (by simpa using hq)
  | succ n ih =>
    have h1 := ih (by push_cast at hq; omega)
    have h2 := hs (p + n + 1) (by omega) (by push_cast at hq; omega)
    have e : p + ((n + 1 : Nat) : Int) + 1 = p + n + 1 + 1 := by push_cast; ring
    rw [e]
    omega

theorem sorted_pos_lt (csr : CsrMatrix) (rb re : Int)
    (hs : ∀ p, rb ≤ p → p + 1 < re → csr.csr_col_ind p < csr.csr_col_ind (p + 1))
    (p q : Int) (hp : rb ≤ p) (hpq : p < q) (hq : q < re) :
    csr.csr_col_ind p < csr.csr_col_ind q := by
  have := sorted_step_lt csr rb re hs p hp (q - p - 1).toNat (by omega)
  have e : p + ((q - p - 1).toNat : Int) + 1 = q := by omega
  rw [e] at this
  exact this

/-- The binary search over a strictly ascending row ends at the lower bound of
`col_k`, also when it starts from a carried-over `l`. -/
theorem binsearch_loop_spec (csr : CsrMatrix) (col_k : Int) (rb re : Int)
    (hs : ∀ p, rb ≤ p → p + 1 < re → csr.csr_col_ind p < csr.csr_col_ind (p + 1))
    (fuel : Nat) : ∀ (l r : Int), rb ≤ l → l ≤ r → r < re → r - l ≤ fuel →
      (∀ p, rb ≤ p → p < l → csr.csr_col_ind p < col_k) →
      (r < re - 1 → col_k ≤ csr.csr_col_ind r) →
      ∃ m, binsearch_loop csr col_k fuel l r ((r + l) >>> (1 : Nat)) = (m, m) ∧ l ≤ m ∧ m < re ∧
        (∀ p, rb ≤ p → p < m → csr.csr_col_ind p < col_k) ∧
        (csr.csr_col_ind m ≠ col_k → ∀ p, rb ≤ p → p < re → csr.csr_col_ind p ≠ col_k) := by
  induction fuel with
  | zero =>
    intro l r hl hlr hr hf hlow hup
    have hrl : r = l := by push_cast at hf; omega
    subst hrl
    refine ⟨r, ?_, le_refl _, hr, hlow, ?_⟩
    · simp only [binsearch_loop, shiftRight_one]
      congr 1
      omega
    · intro hne p hp1 hp2
      rcases lt_trichotomy p r with h | h | h
      · exact ne_of_lt (hlow p hp1 h)
      · subst h; exact hne
      · have h1 := hup (by omega)
        have h2 := sorted_pos_lt csr rb re hs r p hl h hp2
        omega
  | succ n ih =>
    intro l r hl hlr hr hf hlow hup
    simp only [binsearch_loop, shiftRight_one]
    by_cases hlt : l < r
    · rw [if_pos hlt]
      have hm1 : l ≤ (r + l) / 2 := by omega
      have hm2 : (r + l) / 2 < r := by omega
      by_cases hc : csr.csr_col_ind ((r + l) / 2) < col_k
      · rw [if_pos hc]
        obtain ⟨m, h1, h2, h3, h4, h5⟩ := ih ((r + l) / 2 + 1) r (by omega) (by omega) hr
          (by push_cast at hf ⊢; omega)
          (fun p hp1 hp2 => by
            rcases lt_or_eq_of_le (show p ≤ (r + l) / 2 by omega) with h | h
            · have := sorted_pos_lt csr rb re hs p ((r + l) / 2) hp1 h (by omega)
              omega
            · rw [h]; exact hc)
          hup
        rw [shiftRight_one] at h1
        exact ⟨m, h1, by omega, h3, h4, h5⟩
      · rw [if_neg hc]
        obtain ⟨m, h1, h2, h3, h4, h5⟩ := ih l ((r + l) / 2) hl hm1 (by omega)
          (by push_cast at hf ⊢; omega) hlow (fun _ => by omega)
        rw [shiftRight_one] at h1
        exact ⟨m, h1, h2, h3, h4, h5⟩
    · rw [if_neg hlt]
      have hrl : r = l := by omega
      subst hrl
      refine ⟨r, ?_, le_refl _, hr, hlow, ?_⟩
      · congr 1
        omega
      · intro hne p hp1 hp2
        rcases lt_trichotomy p r with h | h | h
        · exact ne_of_lt (hlow p hp1 h)
        · subst h; exact hne
        · have h1 := hup (by omega)
          have h2 := sorted_pos_lt csr rb re hs r p hl h hp2
          omega

theorem binsearch_lane_loop_eq {T : Type} [Field T] (W : Nat) (hW : 1 ≤ W) (ops : ScalarOps T)
    (csr : CsrMatrix) (val : Int → T) (rb re : Int) (lb ld : Int)
    (hs : ∀ p, rb ≤ p → p + 1 < re → csr.csr_col_ind p < csr.csr_col_ind (p + 1))
    (hs2 : ∀ p q, lb ≤ p → p < q → q < ld → csr.csr_col_ind p < csr.csr_col_ind q)
    (fuel : Nat) : ∀ (k l : Int) (acc : T), lb ≤ k → rb ≤ l → l < re →
      (k < ld → ∀ p, rb ≤ p → p < l → csr.csr_col_ind p < csr.csr_col_ind k) →
      binsearch_lane_loop W ops csr val re ld fuel k l acc =
        lane_loop_gen W (match_term ops csr val rb (re - rb).toNat) ld fuel k acc := by
  induction fuel with
  | zero => intros; rfl
  | succ n ih =>
    intro k l acc hk hl hlre hlow
    simp only [binsearch_lane_loop, lane_loop_gen]
    by_cases hkld : k < ld
    · rw [if_pos hkld, if_pos hkld]
      obtain ⟨m, h1, h2, h3, h4, h5⟩ := binsearch_loop_spec csr (csr.csr_col_ind k) rb re hs
        (re - 1 - l).toNat l (re - 1) hl (by omega) (by omega) (by omega) (hlow hkld)
        (fun h => absurd h (lt_irrefl _))
      rw [h1]
      simp only
      have hW' : (1 : Int) ≤ W := by exact_mod_cast hW
      rw [ih (k + W) m _ (by omega) (by omega) h3
        (fun hk2 p hp1 hp2 => by
          have := h4 p hp1 hp2
          have := hs2 k (k + W) hk (by omega) hk2
          omega)]
      congr 1
      simp only [match_term]
      by_cases hc : csr.csr_col_ind m = csr.csr_col_ind k
      · rw [if_pos hc]
        rw [findPos_of_first csr _ _ rb m (by omega) (by omega) hc
          (fun q hq1 hq2 => ne_of_lt (h4 q hq1 hq2))]
        rfl
      · rw [if_neg hc]
        have hnone : findPos csr (csr.csr_col_ind k) (re - rb).toNat rb = none := by
          cases hf : findPos csr (csr.csr_col_ind k) (re - rb).toNat rb with
          | none => rfl
          | some p =>
            obtain ⟨a1, a2, a3, -⟩ := findPos_some _ _ _ _ _ hf
            exact absurd a3 (h5 hc p a1 (by omega))
        rw [hnone]
        simp
    · rw [if_neg hkld, if_neg hkld]

theorem binsearch_lsum_eq_ref {T : Type} [Field T] (W : Nat) (hW : 1 ≤ W) (ops : ScalarOps T)
    (csr : CsrMatrix) (val : Int → T) (rb re : Int) (hne : rb < re) (lb ld : Int)
    (hs : ∀ p, rb ≤ p → p + 1 < re → csr.csr_col_ind p < csr.csr_col_ind (p + 1))
    (hs2 : ∀ p q, lb ≤ p → p < q → q < ld → csr.csr_col_ind p < csr.csr_col_ind q) :
    binsearch_lsum W ops csr rb re val lb ld = ref_lsum ops csr rb (re - rb).toNat val lb ld := by
  simp only [binsearch_lsum, ref_lsum, rocsparse_wfreduce_sum, list_range_map_sum]
  rw [← lanes_sum_eq W hW _ ld _ lb rfl]
  congr 1
  apply Finset.sum_congr rfl
  intro lid _
  exact binsearch_lane_loop_eq W hW ops csr val rb re lb ld hs hs2 _ _ _ _ (by omega)
    (le_refl _) hne (fun _ p h1 h2 => by omega)


/-! ## Both kernels compute the reference row computation -/

theorem row_loop_gen_congr {T : Type} [Field T] [DecidableEq T] (ops : ScalarOps T)
    (csr : CsrMatrix) (row_diag : Int) (lsum1 lsum2 : (Int → T) → Int → Int → Option T)
    (fuel : Nat) : ∀ (j : Int) (sum : T) (s : KState T),
      (∀ val j', j ≤ j' → j' < row_diag →
        lsum1 val (csr.csr_row_ptr (csr.csr_col_ind j' - csr.idx_base) - csr.idx_base)
            (local_diag_of csr row_diag (csr.csr_col_ind j' - csr.idx_base)) =
          lsum2 val (csr.csr_row_ptr (csr.csr_col_ind j' - csr.idx_base) - csr.idx_base)
            (local_diag_of csr row_diag (csr.csr_col_ind j' - csr.idx_base))) →
      row_loop_gen ops csr row_diag lsum1 fuel j sum s =
        row_loop_gen ops csr row_diag lsum2 fuel j sum s := by
  induction fuel with
  | zero => intros; rfl
  | succ n ih =>
    intro j sum s h
    simp only [row_loop_gen]
    by_cases hj : j < row_diag
    · simp only [if_pos hj]
      rw [h s.csr_val j (le_refl _) hj]
      split_ifs
      · rfl
      · rfl
      · cases lsum2 s.csr_val (csr.csr_row_ptr (csr.csr_col_ind j - csr.idx_base) - csr.idx_base)
            (local_diag_of csr row_diag (csr.csr_col_ind j - csr.idx_base)) with
        | none => rfl
        | some ls => exact ih _ _ _ (fun val j' h1 h2 => h val j' (by omega) h2)
    · simp only [if_neg hj]

theorem WellFormed.begin_nonneg {csr : CsrMatrix} (hv : WellFormed csr) (r : Int)
    (h0 : 0 ≤ r) (hm : r ≤ csr.m) : 0 ≤ row_begin csr r := by
  have h := hv.ptr_le 0 r.toNat (le_refl _) (by omega)
  have e : (0 : Int) + (r.toNat : Int) = r := by omega
  rw [e, hv.ptr_zero] at h
  simp only [row_begin]
  omega

theorem Valid.row_begin_nonneg {csr : CsrMatrix} (hv : Valid csr) (r : Int) (h0 : 0 ≤ r)
    (hm : r ≤ csr.m) : 0 ≤ row_begin csr r :=
  hv.toWellFormed.begin_nonneg r h0 hm

theorem Valid.sorted_lt {csr : CsrMatrix} (hv : Valid csr) (r : Int) (h0 : 0 ≤ r)
    (hm : r < csr.m) (p q : Int) (hp : row_begin csr r ≤ p) (hpq : p < q)
    (hq : q < row_end csr r) : csr.csr_col_ind p < csr.csr_col_ind q :=
  sorted_pos_lt csr _ _ (fun a h1 h2 => hv.sorted r h0 hm a h1 (by omega)) p q hp hpq hq

theorem Valid.head {csr : CsrMatrix} (hv : Valid csr) : HeadValid csr :=
  ⟨hv.toWellFormed, fun r h0 hm p h1 h2 =>
      hv.sorted r h0 hm p h1 (by have := (hv.diag_present r h0 hm).2.1; omega),
    hv.diag_present⟩

theorem HeadValid.head_lt {csr : CsrMatrix} (hv : HeadValid csr) (r : Int) (h0 : 0 ≤ r)
    (hm : r < csr.m) (p q : Int) (hp : row_begin csr r ≤ p) (hpq : p < q)
    (hq : q ≤ csr.csr_diag_ind r) : csr.csr_col_ind p < csr.csr_col_ind q :=
  sorted_pos_lt csr _ (csr.csr_diag_ind r + 1)
    (fun a h1 h2 => hv.head_sorted r h0 hm a h1 (by omega)) p q hp hpq (by omega)

/-- The dependency named by a position before the diagonal of row `r`. -/
theorem HeadValid.dep_head {csr : CsrMatrix} (hv : HeadValid csr) (r : Int) (h0 : 0 ≤ r)
    (hm : r < csr.m) (j : Int) (hj1 : row_begin csr r ≤ j) (hj2 : j < csr.csr_diag_ind r) :
    0 ≤ dep csr j ∧ dep csr j < r ∧ dep csr j < csr.m ∧
      local_diag_of csr (csr.csr_diag_ind r) (dep csr j) = csr.csr_diag_ind (dep csr j) := by
  show 0 ≤ csr.csr_col_ind j - csr.idx_base ∧ csr.csr_col_ind j - csr.idx_base < r ∧
      csr.csr_col_ind j - csr.idx_base < csr.m ∧
      local_diag_of csr (csr.csr_diag_ind r) (csr.csr_col_ind j - csr.idx_base) =
        csr.csr_diag_ind (csr.csr_col_ind j - csr.idx_base)
  obtain ⟨d1, d2, d3⟩ := hv.diag_present r h0 hm
  have hc := hv.col_range r h0 hm j hj1 (by omega)
  have hlt := hv.head_lt r h0 hm j (csr.csr_diag_ind r) hj1 hj2 (le_refl _)
  rw [d3] at hlt
  refine ⟨by omega, by omega, by omega, ?_⟩
  obtain ⟨e1, -, -⟩ := hv.diag_present (csr.csr_col_ind j - csr.idx_base) (by omega) (by omega)
  have := hv.toWellFormed.begin_nonneg (csr.csr_col_ind j - csr.idx_base) (by omega) (by omega)
  simp only [local_diag_of]
  rw [if_neg (by omega)]

theorem Valid.dep_row {csr : CsrMatrix} (hv : Valid csr) (r : Int) (h0 : 0 ≤ r) (hm : r < csr.m)
    (j : Int) (hj1 : row_begin csr r ≤ j) (hj2 : j < csr.csr_diag_ind r) :
    0 ≤ dep csr j ∧ dep csr j < r ∧ dep csr j < csr.m ∧
      local_diag_of csr (csr.csr_diag_ind r) (dep csr j) = csr.csr_diag_ind (dep csr j) :=
  hv.head.dep_head r h0 hm j hj1 hj2

theorem WellFormed.col_ne_neg {csr : CsrMatrix} (hv : WellFormed csr) (r : Int) (h0 : 0 ≤ r)
    (hm : r < csr.m) (q : Int) (h1 : row_begin csr r ≤ q) (h2 : q < row_end csr r) :
    csr.csr_col_ind q ≠ -1 := by
  have := hv.col_range r h0 hm q h1 h2
  rcases hv.base with hb | hb <;> omega

/-- The hash kernel computes the reference row computation; the entries after
the diagonals need not be sorted for this. -/
theorem hash_kernel_eq_ref_head {T : Type} [Field T] [DecidableEq T] (W HASH e : Nat)
    (ops : ScalarOps T) (csr : CsrMatrix) (hv : HeadValid csr) (hW : 1 ≤ W)
    (hS : W * HASH = 2 ^ e) (hfit : RowsFit csr (W * HASH)) (idx : Int)
    (hmap : idx < csr.m → 0 ≤ csr.map idx ∧ csr.map idx < csr.m) (s : KState T) :
    csric0_hash_kernel W HASH ops csr idx s = ref_kernel ops csr idx s := by
  by_cases hidx : idx ≥ csr.m
  · simp only [csric0_hash_kernel, ref_kernel, kernel_gen, if_pos hidx]
  · obtain ⟨hr0, hrm⟩ := hmap (by omega)
    have hb := hv.toWellFormed.begin_nonneg (csr.map idx) hr0 (by omega)
    have hlen := hfit (csr.map idx) hr0 hrm
    have hmono := hv.ptr_mono (csr.map idx) hr0 hrm
    have hn : (row_end csr (csr.map idx) - row_begin csr (csr.map idx)).toNat < 2 ^ e := by
      rw [← hS]
      have : ((row_end csr (csr.map idx) - row_begin csr (csr.map idx)).toNat : Int) <
          ((W * HASH : Nat) : Int) := by
        rw [Int.toNat_of_nonneg (by simp only [row_end, row_begin]; omega)]
        exact hlen
      exact_mod_cast this
    obtain ⟨t, ht, inv⟩ := hash_fill_inv e csr (row_begin csr (csr.map idx))
      (row_end csr (csr.map idx) - row_begin csr (csr.map idx)).toNat 0 _
      (tableInv_init (2 ^ e) csr _)
      (fun q h1 h2 => hv.toWellFormed.col_ne_neg (csr.map idx) hr0 hrm q (by simpa using h1) (by
        have : ((row_end csr (csr.map idx) - row_begin csr (csr.map idx)).toNat : Int) =
          row_end csr (csr.map idx) - row_begin csr (csr.map idx) :=
            Int.toNat_of_nonneg (by simp only [row_end, row_begin]; omega)
        simp only [Nat.cast_zero, add_zero] at h2
        omega))
      (by omega)
    simp only [Nat.cast_zero, add_zero, Nat.zero_add] at ht inv
    simp only [csric0_hash_kernel, ref_kernel, kernel_gen, if_neg hidx, hash_row_loop_eq_gen]
    simp only [row_begin, row_end] at ht ⊢
    rw [hS, ht]
    simp only
    rw [row_loop_gen_congr ops csr _ _
      (ref_lsum ops csr (csr.csr_row_ptr (csr.map idx) - csr.idx_base)
        (csr.csr_row_ptr (csr.map idx + 1) - csr.idx_base -
          (csr.csr_row_ptr (csr.map idx) - csr.idx_base)).toNat)]
    intro val j' h1 h2
    obtain ⟨c0, c1, c3, c2⟩ := hv.dep_head (csr.map idx) hr0 hrm j' h1 h2
    obtain ⟨d1, d2, -⟩ := hv.diag_present (dep csr j') c0 c3
    rw [c2]
    apply hash_lsum_eq_ref W (2 ^ e) hW ops csr val t _ _ _ _
      (fun key hkey => tableInv_lookup e csr _ _ t inv hn key hkey)
    · exact hv.toWellFormed.begin_nonneg _ c0 (le_of_lt c3)
    · intro q hq1 hq2
      exact hv.toWellFormed.col_ne_neg _ c0 c3 q hq1 (by omega)

theorem hash_kernel_eq_ref {T : Type} [Field T] [DecidableEq T] (W HASH e : Nat)
    (ops : ScalarOps T) (csr : CsrMatrix) (hv : Valid csr) (hW : 1 ≤ W)
    (hS : W * HASH = 2 ^ e) (hfit : RowsFit csr (W * HASH)) (idx : Int)
    (hmap : idx < csr.m → 0 ≤ csr.map idx ∧ csr.map idx < csr.m) (s : KState T) :
    csric0_hash_kernel W HASH ops csr idx s = ref_kernel ops csr idx s :=
  hash_kernel_eq_ref_head W HASH e ops csr hv.head hW hS hfit idx hmap s

theorem binsearch_kernel_eq_ref {T : Type} [Field T] [DecidableEq T] (W : Nat)
    (ops : ScalarOps T) (csr : CsrMatrix) (hv : Valid csr) (hW : 1 ≤ W) (idx : Int)
    (hmap : idx < csr.m → 0 ≤ csr.map idx ∧ csr.map idx < csr.m) (s : KState T) :
    csric0_binsearch_kernel W ops csr idx s = ref_kernel ops csr idx s := by
  by_cases hidx : idx ≥ csr.m
  · simp only [csric0_binsearch_kernel, ref_kernel, kernel_gen, if_pos hidx]
  · obtain ⟨hr0, hrm⟩ := hmap (by omega)
    obtain ⟨r1, r2, -⟩ := hv.diag_present (csr.map idx) hr0 hrm
    rw [binsearch_kernel_eq_gen]
    simp only [ref_kernel, kernel_gen, if_neg hidx]
    rw [row_loop_gen_congr ops csr _ _
      (ref_lsum ops csr (row_begin csr (csr.map idx))
        (row_end csr (csr.map idx) - row_begin csr (csr.map idx)).toNat)]
    intro val j' h1 h2
    obtain ⟨c0, c1, c3, c2⟩ := hv.dep_row (csr.map idx) hr0 hrm j' h1 h2
    obtain ⟨d1, d2, -⟩ := hv.diag_present (dep csr j') c0 c3
    rw [c2]
    apply binsearch_lsum_eq_ref W hW ops csr val _ _ (by omega) _ _
      (fun a h1 h2 => hv.sorted (csr.map idx) hr0 hrm a h1 (by omega))
    intro p q hp hpq hq
    exact hv.sorted_lt _ c0 c3 p q hp hpq (by omega)


/-! ## One row of the reference computation -/

/-- A matched position of the current row lies before the position being
processed. -/
theorem Valid.match_before {csr : CsrMatrix} (hv : Valid csr) (r : Int) (h0 : 0 ≤ r)
    (hm : r < csr.m) (j : Int) (hj1 : row_begin csr r ≤ j) (hj2 : j < csr.csr_diag_ind r)
    (k : Int) (hk1 : row_begin csr (dep csr j) ≤ k) (hk2 : k < csr.csr_diag_ind (dep csr j))
    (p : Int)
    (hf : findPos csr (csr.csr_col_ind k) (row_end csr r - row_begin csr r).toNat
      (row_begin csr r) = some p) : row_begin csr r ≤ p ∧ p < j := by
  obtain ⟨c0, c1, c3, -⟩ := hv.dep_row r h0 hm j hj1 hj2
  obtain ⟨d1, d2, d3⟩ := hv.diag_present (dep csr j) c0 c3
  obtain ⟨r1, r2, r3⟩ := hv.diag_present r h0 hm
  obtain ⟨a1, a2, a3, -⟩ := findPos_some _ _ _ _ _ hf
  have hlt := hv.sorted_lt (dep csr j) c0 c3 k _ hk1 hk2 d2
  rw [d3] at hlt
  have hcj : dep csr j + csr.idx_base = csr.csr_col_ind j := by show csr.csr_col_ind j - csr.idx_base + csr.idx_base = _; omega
  refine ⟨a1, ?_⟩
  by_contra hge
  rcases eq_or_lt_of_le (not_lt.mp hge) with h | h
  · rw [← h] at a3; omega
  · have := hv.sorted_lt r h0 hm j p hj1 h (by omega)
    omega

theorem ref_sum_congr {T : Type} [Field T] (ops : ScalarOps T) {csr : CsrMatrix}
    (hv : Valid csr) (r : Int) (h0 : 0 ≤ r) (hm : r < csr.m) (j : Int)
    (hj1 : row_begin csr r ≤ j) (hj2 : j < csr.csr_diag_ind r) (v v' : Int → T)
    (h1 : ∀ p, row_begin csr r ≤ p → p < j → v p = v' p)
    (h2 : ∀ k, row_begin csr (dep csr j) ≤ k → k < csr.csr_diag_ind (dep csr j) → v k = v' k) :
    ref_sum ops csr v r j = ref_sum ops csr v' r j := by
  simp only [ref_sum]
  apply Finset.sum_congr rfl
  intro k hk
  rw [Finset.mem_Ico] at hk
  simp only [match_term]
  cases hf : findPos csr (csr.csr_col_ind k) (row_end csr r - row_begin csr r).toNat
      (row_begin csr r) with
  | none => rfl
  | some p =>
    obtain ⟨a1, a2⟩ := hv.match_before r h0 hm j hj1 hj2 k hk.1 hk.2 p hf
    simp only
    rw [h1 p a1 a2, h2 k hk.1 hk.2]

/-- The positions of a dependency up to its diagonal are not positions of the
current row. -/
theorem Valid.dep_pos_ne {csr : CsrMatrix} (hv : Valid csr) (r : Int)
    (hm : r < csr.m) (c : Int) (hc0 : 0 ≤ c) (hcr : c < r) (k : Int)
    (hk2 : k ≤ csr.csr_diag_ind c) :
    k < row_begin csr r := by
  obtain ⟨d1, d2, -⟩ := hv.diag_present c hc0 (by omega)
  have := hv.toWellFormed.row_end_le_begin c r hc0 hcr hm
  omega

theorem row_loop_ref_spec {T : Type} [Field T] [DecidableEq T] (ops : ScalarOps T)
    {csr : CsrMatrix} (hv : Valid csr) (r : Int) (h0 : 0 ≤ r) (hm : r < csr.m)
    (fuel : Nat) : ∀ (j : Int) (sum_in : T) (s : KState T),
      row_begin csr r ≤ j → j ≤ csr.csr_diag_ind r → csr.csr_diag_ind r - j ≤ fuel →
      (∀ j', j ≤ j' → j' < csr.csr_diag_ind r → s.done (dep csr j') ≠ 0) →
      ∃ sum t J,
        row_loop_gen ops csr (csr.csr_diag_ind r)
          (ref_lsum ops csr (row_begin csr r) (row_end csr r - row_begin csr r).toNat)
          fuel j sum_in s = some (sum, t) ∧
        j ≤ J ∧ J ≤ csr.csr_diag_ind r ∧ t.done = s.done ∧
        (∀ p, ¬ (j ≤ p ∧ p < J) → t.csr_val p = s.csr_val p) ∧
        (∀ j', j ≤ j' → j' < J →
          s.csr_val (csr.csr_diag_ind (dep csr j')) ≠ 0 ∧
          t.csr_val j' = (s.csr_val j' - ref_sum ops csr t.csr_val r j') *
            (1 / s.csr_val (csr.csr_diag_ind (dep csr j')))) ∧
        (J < csr.csr_diag_ind r → s.csr_val (csr.csr_diag_ind (dep csr J)) = 0 ∧
          t.zero_pivot = min s.zero_pivot (dep csr J + csr.idx_base)) ∧
        (J = csr.csr_diag_ind r → t.zero_pivot = s.zero_pivot) ∧
        sum = sum_in + ∑ j' in Finset.Ico j J, t.csr_val j' * ops.rocsparse_conj (t.csr_val j') := by
  induction fuel with
  | zero =>
    intro j sum_in s hj1 hj2 hf _
    have hjd : j = csr.csr_diag_ind r := by push_cast at hf; omega
    refine ⟨sum_in, s, j, rfl, le_refl _, hj2, rfl, fun _ _ => rfl, fun j' h1 h2 => by omega,
      fun h => by omega, fun _ => rfl, by simp⟩
  | succ n ih =>
    intro j sum_in s hj1 hj2 hf hdone
    simp only [row_loop_gen]
    by_cases hjd : j < csr.csr_diag_ind r
    · rw [if_pos hjd]
      obtain ⟨c0, c1, c3, c2⟩ := hv.dep_row r h0 hm j hj1 hjd
      rw [if_neg (hdone j (le_refl _) hjd), c2]
      by_cases hz : s.csr_val (csr.csr_diag_ind (csr.csr_col_ind j - csr.idx_base)) = 0
      · rw [if_pos hz]
        refine ⟨sum_in, _, j, rfl, le_refl _, hj2, rfl, fun _ _ => rfl,
          fun j' h1 h2 => by omega, fun _ => ⟨hz, rfl⟩, fun h => by omega, by simp⟩
      · rw [if_neg hz]
        have hls : ref_lsum ops csr (row_begin csr r) (row_end csr r - row_begin csr r).toNat
            s.csr_val (csr.csr_row_ptr (csr.csr_col_ind j - csr.idx_base) - csr.idx_base)
            (csr.csr_diag_ind (csr.csr_col_ind j - csr.idx_base)) =
            some (ref_sum ops csr s.csr_val r j) := rfl
        rw [hls]
        simp only
        obtain ⟨sum, t, J, hrun, hJ1, hJ2, hd, hfr, hbef, hstop, hfull, hsum⟩ :=
          ih (j + 1) (rocsparse_fma
              ((s.csr_val j - ref_sum ops csr s.csr_val r j) *
                (1 / s.csr_val (csr.csr_diag_ind (csr.csr_col_ind j - csr.idx_base))))
              (ops.rocsparse_conj ((s.csr_val j - ref_sum ops csr s.csr_val r j) *
                (1 / s.csr_val (csr.csr_diag_ind (csr.csr_col_ind j - csr.idx_base))))) sum_in)
            ⟨Function.update s.csr_val j ((s.csr_val j - ref_sum ops csr s.csr_val r j) *
              (1 / s.csr_val (csr.csr_diag_ind (csr.csr_col_ind j - csr.idx_base)))),
              s.done, s.zero_pivot⟩
            (by omega) (by omega) (by push_cast at hf; omega)
            (fun j' h1 h2 => hdone j' (by omega) h2)
        -- the diagonal of a dependency is not the position `j`
        have hdne : ∀ j', row_begin csr r ≤ j' → j' < csr.csr_diag_ind r →
            csr.csr_diag_ind (dep csr j') ≠ j := by
          intro j' h1 h2
          obtain ⟨e0, e1, e3, -⟩ := hv.dep_row r h0 hm j' h1 h2
          have := hv.dep_pos_ne r hm (dep csr j') e0 e1 (csr.csr_diag_ind (dep csr j'))
            (le_refl _)
          omega
        have htj : t.csr_val j = (s.csr_val j - ref_sum ops csr s.csr_val r j) *
            (1 / s.csr_val (csr.csr_diag_ind (csr.csr_col_ind j - csr.idx_base))) := by
          rw [hfr j (by omega)]
          simp
        have hts : ∀ p, ¬ (j ≤ p ∧ p < J) → t.csr_val p = s.csr_val p := by
          intro p hp
          rw [hfr p (by omega)]
          simp only
          rw [Function.update_noteq (by omega)]
        refine ⟨sum, t, J, hrun, by omega, hJ2, hd, hts, ?_, ?_, hfull, ?_⟩
        · intro j' h1 h2
          by_cases hjj : j' = j
          · subst hjj
            refine ⟨hz, ?_⟩
            rw [htj]
            congr 2
            apply ref_sum_congr ops hv r h0 hm j' hj1 hjd
            · intro p _ hp2
              exact (hts p (by omega)).symm
            · intro k hk1 hk2
              have := hv.dep_pos_ne r hm (dep csr j') c0 c1 k (by omega)
              exact (hts k (by omega)).symm
          · obtain ⟨b1, b2⟩ := hbef j' (by omega) h2
            simp only at b1 b2
            rw [Function.update_noteq (hdne j' (by omega) (by omega))] at b1 b2
            rw [Function.update_noteq hjj] at b2
            exact ⟨b1, b2⟩
        · intro hJ
          obtain ⟨b1, b2⟩ := hstop hJ
          simp only at b1 b2
          rw [Function.update_noteq (hdne J (by omega) hJ)] at b1
          exact ⟨b1, b2⟩
        · rw [hsum]
          have hI : Finset.Ico j J = insert j (Finset.Ico (j + 1) J) := by
            ext x
            simp only [Finset.mem_Ico, Finset.mem_insert]
            omega
          rw [hI, Finset.sum_insert (by simp), htj]
          simp only [rocsparse_fma]
          ring
    · have hjd' : j = csr.csr_diag_ind r := by omega
      rw [if_neg hjd]
      refine ⟨sum_in, s, j, rfl, le_refl _, hj2, rfl, fun _ _ => rfl, fun j' h1 h2 => by omega,
        fun h => by omega, fun _ => rfl, by simp⟩


/-! ## One wavefront of the reference computation -/

theorem RowEqs.congr_eqs {T : Type} [Field T] (ops : ScalarOps T) {csr : CsrMatrix}
    (hv : Valid csr) (r : Int) (h0 : 0 ≤ r) (hm : r < csr.m) (v0 v v' : Int → T) (J : Int)
    (A : Int → Prop) (hA : ∀ c, A c → ∀ p, row_begin csr c ≤ p → p < row_end csr c → v p = v' p)
    (hAr : A r)
    (hAd : ∀ j, row_begin csr r ≤ j → j < csr.csr_diag_ind r → A (dep csr j))
    (h : RowEqs ops csr v0 v r J) : RowEqs ops csr v0 v' r J := by
  obtain ⟨r1, r2, -⟩ := hv.diag_present r h0 hm
  have hrow : ∀ p, row_begin csr r ≤ p → p ≤ csr.csr_diag_ind r → v p = v' p :=
    fun p h1 h2 => hA r hAr p h1 (by omega)
  have hdep : ∀ j, row_begin csr r ≤ j → j < csr.csr_diag_ind r →
      ∀ k, row_begin csr (dep csr j) ≤ k → k ≤ csr.csr_diag_ind (dep csr j) → v k = v' k := by
    intro j h1 h2 k h3 h4
    obtain ⟨c0, c1, c3, -⟩ := hv.dep_row r h0 hm j h1 h2
    obtain ⟨d1, d2, -⟩ := hv.diag_present (dep csr j) c0 c3
    exact hA _ (hAd j h1 h2) k h3 (by omega)
  have hdiag : ∀ j, row_begin csr r ≤ j → j < csr.csr_diag_ind r →
      v (csr.csr_diag_ind (dep csr j)) = v' (csr.csr_diag_ind (dep csr j)) := by
    intro j h1 h2
    obtain ⟨c0, c1, c3, -⟩ := hv.dep_row r h0 hm j h1 h2
    exact hdep j h1 h2 _ (hv.diag_present (dep csr j) c0 c3).1 (le_refl _)
  refine ⟨h.lo, h.hi, ?_, ?_, ?_, ?_⟩
  · intro j h1 h2
    obtain ⟨b1, b2⟩ := h.before j h1 h2
    have hj2 : j < csr.csr_diag_ind r := lt_of_lt_of_le h2 h.hi
    rw [← hdiag j h1 hj2, ← hrow j h1 (by omega)]
    refine ⟨b1, ?_⟩
    rw [b2]
    congr 2
    exact ref_sum_congr ops hv r h0 hm j h1 hj2 v v'
      (fun p hp1 hp2 => hrow p hp1 (by omega))
      (fun k hk1 hk2 => hdep j h1 hj2 k hk1 (by omega))
  · intro j h1 h2
    rw [← hrow j (le_trans h.lo h1) (by omega)]
    exact h.after j h1 h2
  · intro hJ
    rw [← hdiag J h.lo hJ]
    exact h.stop hJ
  · rw [← hrow _ r1 (le_refl _), h.diag]
    congr 2
    apply Finset.sum_congr rfl
    intro j hj
    rw [Finset.mem_Ico] at hj
    rw [hrow j hj.1 (by have := h.hi; omega)]

theorem StopAt.congr_stop {T : Type} [Field T] {csr : CsrMatrix} (r : Int) (v v' : Int → T)
    (J : Int)
    (hd : ∀ j, row_begin csr r ≤ j → j < csr.csr_diag_ind r →
      v (csr.csr_diag_ind (dep csr j)) = v' (csr.csr_diag_ind (dep csr j)))
    (h : StopAt csr v r J) : StopAt csr v' r J := by
  refine ⟨h.lo, h.hi, ?_, ?_⟩
  · rw [← hd J h.lo h.hi]; exact h.zero
  · intro j h1 h2
    rw [← hd j h1 (lt_trans h2 h.hi)]
    exact h.nonzero j h1 h2

theorem StopAt.unique_stop {T : Type} [Field T] {csr : CsrMatrix} (r : Int) (v : Int → T)
    (J J' : Int) (h : StopAt csr v r J) (h' : StopAt csr v r J') : J = J' := by
  rcases lt_trichotomy J J' with hlt | heq | hgt
  · exact absurd h.zero (h'.nonzero J h.lo hlt)
  · exact heq
  · exact absurd h'.zero (h.nonzero J' h'.lo hgt)

/-- What one wavefront of the reference computation does to a state in which
the dependencies of its row are done. -/
theorem ref_kernel_spec {T : Type} [Field T] [DecidableEq T] (ops : ScalarOps T)
    {csr : CsrMatrix} (hv : Valid csr) (idx : Int) (hidx : idx < csr.m)
    (h0 : 0 ≤ csr.map idx) (hm : csr.map idx < csr.m) (s : KState T)
    (hdone : ∀ j, row_begin csr (csr.map idx) ≤ j → j < csr.csr_diag_ind (csr.map idx) →
      s.done (dep csr j) ≠ 0) :
    ∃ t J, ref_kernel ops csr idx s = some t ∧
      t.done = Function.update s.done (csr.map idx) (Int.lor (s.done (csr.map idx)) 1) ∧
      (∀ p, ¬ (row_begin csr (csr.map idx) ≤ p ∧ p ≤ csr.csr_diag_ind (csr.map idx)) →
        t.csr_val p = s.csr_val p) ∧
      RowEqs ops csr s.csr_val t.csr_val (csr.map idx) J ∧
      (J < csr.csr_diag_ind (csr.map idx) →
        t.zero_pivot = min s.zero_pivot (dep csr J + csr.idx_base)) ∧
      (J = csr.csr_diag_ind (csr.map idx) → t.zero_pivot = s.zero_pivot) := by
  obtain ⟨r1, r2, -⟩ := hv.diag_present (csr.map idx) h0 hm
  have hb := hv.row_begin_nonneg (csr.map idx) h0 (le_of_lt hm)
  obtain ⟨sum, t, J, hrun, hJ1, hJ2, hd, hfr, hbef, hstop, hfull, hsum⟩ :=
    row_loop_ref_spec ops hv (csr.map idx) h0 hm
      (csr.csr_diag_ind (csr.map idx) - row_begin csr (csr.map idx)).toNat
      (row_begin csr (csr.map idx)) 0 s (le_refl _) r1 (by omega) hdone
  have hdne : ∀ j, row_begin csr (csr.map idx) ≤ j → j < csr.csr_diag_ind (csr.map idx) →
      csr.csr_diag_ind (dep csr j) < row_begin csr (csr.map idx) := by
    intro j h1 h2
    obtain ⟨e0, e1, e3, -⟩ := hv.dep_row (csr.map idx) h0 hm j h1 h2
    exact hv.dep_pos_ne (csr.map idx) hm (dep csr j) e0 e1 _ (le_refl _)
  refine ⟨finish_row ops (csr.map idx) (csr.csr_diag_ind (csr.map idx)) sum t, J, ?_, ?_, ?_,
    ?_, ?_, ?_⟩
  · simp only [ref_kernel, kernel_gen, if_neg (not_le.mpr hidx), hrun]
  · rw [finish_row_done, hd]
  · intro p hp
    rw [finish_row_val _ _ _ _ _ _ (by omega)]
    exact hfr p (by omega)
  · refine ⟨hJ1, hJ2, ?_, ?_, ?_, ?_⟩
    · intro j h1 h2
      obtain ⟨b1, b2⟩ := hbef j h1 h2
      have hdj := hdne j h1 (by omega)
      rw [finish_row_val _ _ _ _ _ _ (by omega), finish_row_val _ _ _ _ _ _ (by omega),
        hfr _ (by omega)]
      refine ⟨b1, ?_⟩
      rw [b2]
      congr 2
      apply ref_sum_congr ops hv _ h0 hm j h1 (by omega)
      · intro p _ hp2
        rw [finish_row_val _ _ _ _ _ _ (by omega)]
      · intro k _ hk2
        rw [finish_row_val _ _ _ _ _ _ (by omega)]
    · intro j h1 h2
      rw [finish_row_val _ _ _ _ _ _ (by omega)]
      exact hfr j (by omega)
    · intro hJ
      have hdj := hdne J hJ1 hJ
      rw [finish_row_val _ _ _ _ _ _ (by omega), hfr _ (by omega)]
      exact (hstop hJ).1
    · rw [finish_row_val_diag _ _ _ _ _ (by omega), hfr _ (by omega), hsum, zero_add]
      congr 2
      apply Finset.sum_congr rfl
      intro j hj
      rw [Finset.mem_Ico] at hj
      rw [finish_row_val _ _ _ _ _ _ (by omega)]
  · intro hJ
    rw [finish_row_pivot]
    exact (hstop hJ).2
  · intro hJ
    rw [finish_row_pivot]
    exact hfull hJ


/-! ## The sequential run in dependency order -/

theorem dep_processed {csr : CsrMatrix} (hv : Valid csr) (hp : MapPerm csr) (ho : DepOrder csr)
    (i : Int) (hi0 : 0 ≤ i) (hi : i < csr.m) (j : Int)
    (hj1 : row_begin csr (csr.map i) ≤ j) (hj2 : j < csr.csr_diag_ind (csr.map i)) :
    ∃ i2, 0 ≤ i2 ∧ i2 < i ∧ csr.map i2 = dep csr j := by
  obtain ⟨hr0, hrm⟩ := hp.range i hi0 hi
  obtain ⟨c0, c1, c3, -⟩ := hv.dep_row (csr.map i) hr0 hrm j hj1 hj2
  have := hp.surj (dep csr j) c0 c3
  push_neg at this
  obtain ⟨i2, h1, h2, h3⟩ := this
  exact ⟨i2, h1, ho i hi0 hi i2 h1 h2 j hj1 hj2 h3, h3⟩

theorem step_agree {T : Type} {csr : CsrMatrix} (hv : Valid csr) (r' : Int) (hr0 : 0 ≤ r')
    (hrm : r' < csr.m) (v v' : Int → T)
    (hfr : ∀ p, ¬ (row_begin csr r' ≤ p ∧ p ≤ csr.csr_diag_ind r') → v' p = v p)
    (c : Int) (hc0 : 0 ≤ c) (hcm : c < csr.m) (hne : c ≠ r') (p : Int)
    (hp1 : row_begin csr c ≤ p) (hp2 : p < row_end csr c) : v p = v' p := by
  symm
  apply hfr
  rintro ⟨h1, h2⟩
  obtain ⟨-, d2, -⟩ := hv.diag_present r' hr0 hrm
  exact hne (hv.toWellFormed.rows_disjoint c r' p ⟨hc0, hcm⟩ ⟨hr0, hrm⟩ ⟨hp1, hp2⟩
    ⟨h1, by omega⟩)

theorem RowEqs.stopAt {T : Type} [Field T] (ops : ScalarOps T) {csr : CsrMatrix}
    (v0 v : Int → T) (r J : Int) (h : RowEqs ops csr v0 v r J)
    (hJ : J < csr.csr_diag_ind r) : StopAt csr v r J :=
  ⟨h.lo, hJ, h.stop hJ, fun j h1 h2 => (h.before j h1 h2).1⟩

theorem RowEqs.stopAt_eq {T : Type} [Field T] (ops : ScalarOps T) {csr : CsrMatrix}
    (v0 v : Int → T) (r J J' : Int) (h : RowEqs ops csr v0 v r J) (h' : StopAt csr v r J') :
    J = J' ∧ J < csr.csr_diag_ind r := by
  rcases lt_trichotomy J J' with hlt | heq | hgt
  · have := h.stop (lt_trans hlt h'.hi)
    exact absurd this (h'.nonzero J h.lo hlt)
  · exact ⟨heq, by rw [heq]; exact h'.hi⟩
  · exact absurd h'.zero (h.before J' h'.lo hgt).1

theorem run_inv_step {T : Type} [Field T] [DecidableEq T] (ops : ScalarOps T)
    {csr : CsrMatrix} (hv : Valid csr) (hp : MapPerm csr) (ho : DepOrder csr) (s0 : KState T)
    (n : Int) (hn0 : 0 ≤ n) (hn : n < csr.m) (s : KState T) (inv : RunInv ops csr s0 n s) :
    ∃ t, ref_kernel ops csr n s = some t ∧ RunInv ops csr s0 (n + 1) t := by
  obtain ⟨hr0, hrm⟩ := hp.range n hn0 hn
  have hne : ∀ i, 0 ≤ i → i < n → csr.map i ≠ csr.map n := by
    intro i h1 h2 h3
    have := hp.inj i h1 (by omega) n hn0 hn h3
    omega
  have hdone : ∀ j, row_begin csr (csr.map n) ≤ j → j < csr.csr_diag_ind (csr.map n) →
      s.done (dep csr j) ≠ 0 := by
    intro j h1 h2
    obtain ⟨i2, a1, a2, a3⟩ := dep_processed hv hp ho n hn0 hn j h1 h2
    rw [← a3, inv.done_in i2 a1 a2]
    exact int_lor_one_ne_zero _
  obtain ⟨t, J, hrun, hd, hfr, heq, hz1, hz2⟩ :=
    ref_kernel_spec ops hv n hn hr0 hrm s hdone
  have hag : ∀ c, 0 ≤ c → c < csr.m → c ≠ csr.map n → ∀ p, row_begin csr c ≤ p →
      p < row_end csr c → s.csr_val p = t.csr_val p :=
    fun c h1 h2 h3 p h4 h5 => step_agree hv (csr.map n) hr0 hrm _ _ hfr c h1 h2 h3 p h4 h5
  -- dependencies of rows done before are themselves done before
  have hdep : ∀ i, 0 ≤ i → i < n → ∀ j, row_begin csr (csr.map i) ≤ j →
      j < csr.csr_diag_ind (csr.map i) →
      0 ≤ dep csr j ∧ dep csr j < csr.m ∧ dep csr j ≠ csr.map n := by
    intro i h1 h2 j h3 h4
    obtain ⟨i2, a1, a2, a3⟩ := dep_processed hv hp ho i h1 (by omega) j h3 h4
    obtain ⟨b1, b2⟩ := hp.range i2 a1 (by omega)
    rw [← a3]
    exact ⟨b1, b2, hne i2 a1 (by omega)⟩
  have hdiag : ∀ i, 0 ≤ i → i < n → ∀ j, row_begin csr (csr.map i) ≤ j →
      j < csr.csr_diag_ind (csr.map i) →
      s.csr_val (csr.csr_diag_ind (dep csr j)) = t.csr_val (csr.csr_diag_ind (dep csr j)) := by
    intro i h1 h2 j h3 h4
    obtain ⟨c0, c1, c2⟩ := hdep i h1 h2 j h3 h4
    obtain ⟨d1, d2, -⟩ := hv.diag_present (dep csr j) c0 c1
    exact hag _ c0 c1 c2 _ d1 d2
  have hpre : ∀ p, row_begin csr (csr.map n) ≤ p → p < row_end csr (csr.map n) →
      s.csr_val p = s0.csr_val p := by
    intro p h1 h2
    apply inv.frame
    rintro i a1 a2 ⟨a3, a4⟩
    obtain ⟨b1, b2⟩ := hp.range i a1 (by omega)
    obtain ⟨-, d2, -⟩ := hv.diag_present (csr.map i) b1 b2
    exact hne i a1 a2 (hv.toWellFormed.rows_disjoint _ _ p ⟨b1, b2⟩ ⟨hr0, hrm⟩
      ⟨a3, by omega⟩ ⟨h1, h2⟩)
  obtain ⟨r1, r2, -⟩ := hv.diag_present (csr.map n) hr0 hrm
  have heq0 : RowEqs ops csr s0.csr_val t.csr_val (csr.map n) J := by
    refine ⟨heq.lo, heq.hi, ?_, ?_, ?_, ?_⟩
    · intro j h1 h2
      rw [← hpre j h1 (by have := heq.hi; omega)]
      exact heq.before j h1 h2
    · intro j h1 h2
      rw [← hpre j (le_trans heq.lo h1) (by omega)]
      exact heq.after j h1 h2
    · exact heq.stop
    · rw [← hpre _ r1 r2]
      exact heq.diag
  refine ⟨t, hrun, ?_, ?_, ?_, ?_, ?_⟩
  · intro i h1 h2
    by_cases hin : i = n
    · subst hin
      rw [hd, Function.update_same, inv.done_out _ hne]
    · rw [hd, Function.update_noteq (hne i h1 (by omega)), inv.done_in i h1 (by omega)]
  · intro r hr
    rw [hd, Function.update_noteq (fun h => hr n hn0 (by omega) h.symm)]
    exact inv.done_out r (fun i h1 h2 => hr i h1 (by omega))
  · intro p hpp
    rw [hfr p (hpp n hn0 (by omega))]
    exact inv.frame p (fun i h1 h2 => hpp i h1 (by omega))
  · intro i h1 h2
    by_cases hin : i = n
    · subst hin
      exact ⟨J, heq0⟩
    · obtain ⟨J', hJ'⟩ := inv.eqs i h1 (by omega)
      obtain ⟨b1, b2⟩ := hp.range i h1 (by omega)
      refine ⟨J', RowEqs.congr_eqs ops hv _ b1 b2 _ _ _ J'
        (fun c => 0 ≤ c ∧ c < csr.m ∧ c ≠ csr.map n)
        (fun c hc p hp1 hp2 => hag c hc.1 hc.2.1 hc.2.2 p hp1 hp2)
        ⟨b1, b2, hne i h1 (by omega)⟩
        (fun j hj1 hj2 => hdep i h1 (by omega) j hj1 hj2) hJ'⟩
  · intro z
    have hold : (∀ i, 0 ≤ i → i < n → ∀ J', StopAt csr t.csr_val (csr.map i) J' →
        z ≤ dep csr J' + csr.idx_base) ↔
        (∀ i, 0 ≤ i → i < n → ∀ J', StopAt csr s.csr_val (csr.map i) J' →
        z ≤ dep csr J' + csr.idx_base) := by
      constructor
      · intro h i h1 h2 J' hs
        exact h i h1 h2 J' (StopAt.congr_stop _ _ _ J' (hdiag i h1 h2) hs)
      · intro h i h1 h2 J' hs
        exact h i h1 h2 J' (StopAt.congr_stop _ _ _ J'
          (fun j hj1 hj2 => (hdiag i h1 h2 j hj1 hj2).symm) hs)
    have hsplit : (∀ i, 0 ≤ i → i < n + 1 → ∀ J', StopAt csr t.csr_val (csr.map i) J' →
        z ≤ dep csr J' + csr.idx_base) ↔
        ((∀ i, 0 ≤ i → i < n → ∀ J', StopAt csr t.csr_val (csr.map i) J' →
          z ≤ dep csr J' + csr.idx_base) ∧
          ∀ J', StopAt csr t.csr_val (csr.map n) J' → z ≤ dep csr J' + csr.idx_base) := by
      constructor
      · intro h
        exact ⟨fun i h1 h2 => h i h1 (by omega), h n hn0 (by omega)⟩
      · rintro ⟨ha, hb⟩ i h1 h2
        by_cases hin : i = n
        · subst hin; exact hb
        · exact ha i h1 (by omega)
    rw [hsplit, hold]
    by_cases hJ : J < csr.csr_diag_ind (csr.map n)
    · rw [hz1 hJ, le_min_iff, inv.piv z]
      have hst := RowEqs.stopAt ops _ _ _ _ heq0 hJ
      constructor
      · rintro ⟨⟨a1, a2⟩, a3⟩
        refine ⟨a1, a2, fun J' hs => ?_⟩
        rw [← StopAt.unique_stop _ _ _ _ hst hs]
        exact a3
      · rintro ⟨a1, a2, a3⟩
        exact ⟨⟨a1, a2⟩, a3 J hst⟩
    · have hJe : J = csr.csr_diag_ind (csr.map n) := le_antisymm heq.hi (not_lt.mp hJ)
      rw [hz2 hJe, inv.piv z]
      constructor
      · rintro ⟨a1, a2⟩
        refine ⟨a1, a2, fun J' hs => ?_⟩
        exact absurd (RowEqs.stopAt_eq ops _ _ _ _ _ heq0 hs).2 hJ
      · rintro ⟨a1, a2, -⟩
        exact ⟨a1, a2⟩

theorem run_inv {T : Type} [Field T] [DecidableEq T] (ops : ScalarOps T)
    {csr : CsrMatrix} (hv : Valid csr) (hp : MapPerm csr) (ho : DepOrder csr) (s0 : KState T)
    (n : Nat) (hn : (n : Int) ≤ csr.m) :
    ∃ s, run_seq (ref_kernel ops csr) (wavefronts n) s0 = some s ∧ RunInv ops csr s0 n s := by
  induction n with
  | zero =>
    refine ⟨s0, rfl, ?_, ?_, ?_, ?_, ?_⟩
    · intro i h1 h2; simp at h2; omega
    · intro r _; rfl
    · intro p _; rfl
    · intro i h1 h2; simp at h2; omega
    · intro z
      constructor
      · intro h
        refine ⟨h, fun i h1 h2 => ?_⟩
        simp at h2; omega
      · exact fun h => h.1
  | succ k ih =>
    obtain ⟨s, hs, inv⟩ := ih (by push_cast at hn; omega)
    obtain ⟨t, ht, inv'⟩ := run_inv_step ops hv hp ho s0 k (by omega)
      (by push_cast at hn; omega) s inv
    refine ⟨t, ?_, ?_⟩
    · have e : ((k + 1 : Nat) : Int) = (k : Int) + 1 := by push_cast; rfl
      rw [e, wavefronts_succ, run_seq_append, hs]
      simp only [run_seq, ht]
    · have e : ((k + 1 : Nat) : Int) = (k : Int) + 1 := by push_cast; rfl
      rw [e]
      exact inv'

theorem run_inv_full {T : Type} [Field T] [DecidableEq T] (ops : ScalarOps T)
    {csr : CsrMatrix} (hv : Valid csr) (hp : MapPerm csr) (ho : DepOrder csr) (s0 : KState T) :
    ∃ s, run_seq (ref_kernel ops csr) (wavefronts csr.m) s0 = some s ∧
      RunInv ops csr s0 csr.m s := by
  have hm := hv.m_nonneg
  obtain ⟨s, h1, h2⟩ := run_inv ops hv hp ho s0 csr.m.toNat (by omega)
  have e : ((csr.m.toNat : Nat) : Int) = csr.m := by omega
  rw [e] at h1 h2
  exact ⟨s, h1, h2⟩


/-! ## The result of a run does not depend on the visiting order -/

theorem map_preimage {csr : CsrMatrix} (hp : MapPerm csr) (r : Int) (h0 : 0 ≤ r)
    (hm : r < csr.m) : ∃ i, 0 ≤ i ∧ i < csr.m ∧ csr.map i = r := by
  have := hp.surj r h0 hm
  push_neg at this
  exact this

theorem RunInv.factored {T : Type} [Field T] (ops : ScalarOps T) {csr : CsrMatrix}
    (hp : MapPerm csr) (s0 s : KState T) (inv : RunInv ops csr s0 csr.m s) :
    Factored ops csr s0 s := by
  refine ⟨?_, ?_, ?_, ?_, ?_⟩
  · intro r h0 hm
    obtain ⟨i, a1, a2, rfl⟩ := map_preimage hp r h0 hm
    exact inv.done_in i a1 a2
  · intro r hr
    apply inv.done_out
    rintro i a1 a2 rfl
    exact hr (hp.range i a1 a2)
  · intro p hpp
    apply inv.frame
    intro i a1 a2
    obtain ⟨b1, b2⟩ := hp.range i a1 a2
    exact hpp _ b1 b2
  · intro r h0 hm
    obtain ⟨i, a1, a2, rfl⟩ := map_preimage hp r h0 hm
    exact inv.eqs i a1 a2
  · intro z
    rw [inv.piv z]
    constructor
    · rintro ⟨a1, a2⟩
      refine ⟨a1, fun r h0 hm J hs => ?_⟩
      obtain ⟨i, b1, b2, rfl⟩ := map_preimage hp r h0 hm
      exact a2 i b1 b2 J hs
    · rintro ⟨a1, a2⟩
      refine ⟨a1, fun i b1 b2 J hs => ?_⟩
      obtain ⟨c1, c2⟩ := hp.range i b1 b2
      exact a2 _ c1 c2 J hs

theorem hash_seq_eq_ref {T : Type} [Field T] [DecidableEq T] (W HASH e : Nat)
    (ops : ScalarOps T) (csr : CsrMatrix) (hv : Valid csr) (hp : MapPerm csr) (hW : 1 ≤ W)
    (hS : W * HASH = 2 ^ e) (hfit : RowsFit csr (W * HASH)) (s : KState T) :
    csric0_hash_seq W HASH ops csr s = run_seq (ref_kernel ops csr) (wavefronts csr.m) s := by
  apply run_seq_congr
  intro idx hidx s'
  rw [mem_wavefronts] at hidx
  exact hash_kernel_eq_ref W HASH e ops csr hv hW hS hfit idx (fun h => hp.range idx hidx.1 h) s'

theorem binsearch_seq_eq_ref {T : Type} [Field T] [DecidableEq T] (W : Nat)
    (ops : ScalarOps T) (csr : CsrMatrix) (hv : Valid csr) (hp : MapPerm csr) (hW : 1 ≤ W)
    (s : KState T) :
    csric0_binsearch_seq W ops csr s = run_seq (ref_kernel ops csr) (wavefronts csr.m) s := by
  apply run_seq_congr
  intro idx hidx s'
  rw [mem_wavefronts] at hidx
  exact binsearch_kernel_eq_ref W ops csr hv hW idx (fun h => hp.range idx hidx.1 h) s'

/-- A run in dependency order returns, and its result is described row by row. -/
theorem ref_run_factored {T : Type} [Field T] [DecidableEq T] (ops : ScalarOps T)
    {csr : CsrMatrix} (hv : Valid csr) (hp : MapPerm csr) (ho : DepOrder csr) (s0 : KState T) :
    ∃ s, run_seq (ref_kernel ops csr) (wavefronts csr.m) s0 = some s ∧
      Factored ops csr s0 s := by
  obtain ⟨s, h1, h2⟩ := run_inv_full ops hv hp ho s0
  exact ⟨s, h1, RunInv.factored ops hp s0 s h2⟩


/-- Both kernels, run in dependency order on a valid matrix, return the same
state, and that state is described row by row. -/
theorem csric0_factored {T : Type} [Field T] [DecidableEq T] (W HASH e W2 : Nat)
    (ops : ScalarOps T) (csr : CsrMatrix) (s0 : KState T) (hv : Valid csr) (hp : MapPerm csr)
    (ho : DepOrder csr) (hW : 1 ≤ W) (hS : W * HASH = 2 ^ e) (hfit : RowsFit csr (W * HASH))
    (hW2 : 1 ≤ W2) :
    ∃ s, csric0_hash_seq W HASH ops csr s0 = some s ∧
      csric0_binsearch_seq W2 ops csr s0 = some s ∧ Factored ops csr s0 s := by
  obtain ⟨s, h1, h2⟩ := ref_run_factored ops hv hp ho s0
  refine ⟨s, ?_, ?_, h2⟩
  · rw [hash_seq_eq_ref W HASH e ops csr hv hp hW hS hfit, h1]
  · rw [binsearch_seq_eq_ref W2 ops csr hv hp hW2, h1]

theorem tri4_valid : Valid tri4 :=
  ⟨⟨by decide, by decide, by decide, by decide, by decide, by decide⟩, by decide, by decide⟩

theorem tri4_perm : MapPerm tri4 := ⟨by decide, by decide, by decide⟩

theorem tri4_order : DepOrder tri4 := by unfold DepOrder; decide

theorem sqrt_abs_four : Real.sqrt |(4 : ℝ)| = 2 := by
  rw [abs_of_pos (by norm_num : (0 : ℝ) < 4)]
  rw [show (4 : ℝ) = 2 ^ 2 by norm_num]
  exact Real.sqrt_sq (by norm_num)


/-! ## The factor as a matrix -/

theorem TailPerm.head_fix {csr : CsrMatrix} (hv : Valid csr) {σ : Int → Int}
    (hσ : TailPerm csr σ) (r : Int) (h0 : 0 ≤ r) (hm : r < csr.m) (p : Int)
    (hp1 : row_begin csr r ≤ p) (hp2 : p ≤ csr.csr_diag_ind r) : σ p = p := by
  apply hσ.fix
  rintro r2 a0 am ⟨b1, b2⟩
  obtain ⟨d1, d2, -⟩ := hv.diag_present r h0 hm
  obtain ⟨e1, e2, -⟩ := hv.diag_present r2 a0 am
  have := hv.toWellFormed.rows_disjoint r r2 p ⟨h0, hm⟩ ⟨a0, am⟩ ⟨hp1, by omega⟩
    ⟨by omega, b2⟩
  subst this
  omega

theorem TailPerm.in_row {csr : CsrMatrix} (hv : Valid csr) {σ : Int → Int}
    (hσ : TailPerm csr σ) (r : Int) (h0 : 0 ≤ r) (hm : r < csr.m) (p : Int)
    (hp1 : row_begin csr r ≤ p) (hp2 : p < row_end csr r) :
    row_begin csr r ≤ σ p ∧ σ p < row_end csr r := by
  obtain ⟨d1, d2, -⟩ := hv.diag_present r h0 hm
  by_cases hpd : p ≤ csr.csr_diag_ind r
  · rw [hσ.head_fix hv r h0 hm p hp1 hpd]
    exact ⟨hp1, hp2⟩
  · have := hσ.tail r h0 hm p (by omega) hp2
    omega

theorem TailPerm.to_head {csr : CsrMatrix} (hv : Valid csr) {σ : Int → Int}
    (hσ : TailPerm csr σ) (r : Int) (h0 : 0 ≤ r) (hm : r < csr.m) (p j : Int)
    (hj1 : row_begin csr r ≤ j) (hj2 : j ≤ csr.csr_diag_ind r) (h : σ p = j) : p = j := by
  by_cases hp : ∀ r2, 0 ≤ r2 → r2 < csr.m → ¬ (csr.csr_diag_ind r2 < p ∧ p < row_end csr r2)
  · rw [hσ.fix p hp] at h
    exact h
  · push_neg at hp
    obtain ⟨r2, a0, am, b1, b2⟩ := hp
    obtain ⟨c1, c2⟩ := hσ.tail r2 a0 am p b1 b2
    rw [h] at c1 c2
    obtain ⟨d1, d2, -⟩ := hv.diag_present r h0 hm
    obtain ⟨e1, e2, -⟩ := hv.diag_present r2 a0 am
    have := hv.toWellFormed.rows_disjoint r r2 j ⟨h0, hm⟩ ⟨a0, am⟩ ⟨hj1, by omega⟩
      ⟨by omega, c2⟩
    subst this
    omega

theorem reorder_headValid {csr : CsrMatrix} (hv : Valid csr) {σ : Int → Int}
    (hσ : TailPerm csr σ) : HeadValid (reorder csr σ) := by
  refine ⟨⟨hv.m_nonneg, hv.base, hv.ptr_zero, hv.ptr_mono, ?_, hv.diag_range⟩, ?_, ?_⟩
  · intro r h0 hm p h1 h2
    obtain ⟨a, b⟩ := hσ.in_row hv r h0 hm p h1 h2
    exact hv.col_range r h0 hm (σ p) a b
  · intro r h0 hm p h1 h2
    obtain ⟨d1, d2, -⟩ := hv.diag_present r h0 hm
    show csr.csr_col_ind (σ p) < csr.csr_col_ind (σ (p + 1))
    rw [hσ.head_fix hv r h0 hm p h1 (le_of_lt h2),
      hσ.head_fix hv r h0 hm (p + 1) (by have : row_begin csr r ≤ p := h1; omega)
        (by have : p < csr.csr_diag_ind r := h2; omega)]
    exact hv.sorted r h0 hm p h1 (by have : p < csr.csr_diag_ind r := h2; omega)
  · intro r h0 hm
    obtain ⟨d1, d2, d3⟩ := hv.diag_present r h0 hm
    refine ⟨d1, d2, ?_⟩
    show csr.csr_col_ind (σ (csr.csr_diag_ind r)) = r + csr.idx_base
    rw [hσ.head_fix hv r h0 hm _ d1 (le_refl _)]
    exact d3

theorem findPos_reorder {csr : CsrMatrix} (hv : Valid csr) {σ : Int → Int}
    (hσ : TailPerm csr σ) (r : Int) (h0 : 0 ≤ r) (hm : r < csr.m) (key : Int)
    (hkey : key < r + csr.idx_base) :
    findPos (reorder csr σ) key (row_end csr r - row_begin csr r).toNat (row_begin csr r) =
      findPos csr key (row_end csr r - row_begin csr r).toNat (row_begin csr r) := by
  obtain ⟨d1, d2, d3⟩ := hv.diag_present r h0 hm
  cases hf : findPos csr key (row_end csr r - row_begin csr r).toNat (row_begin csr r) with
  | some p =>
    obtain ⟨a1, a2, a3, a4⟩ := findPos_some _ _ _ _ _ hf
    have hpd : p < csr.csr_diag_ind r := by
      by_contra hge
      rcases eq_or_lt_of_le (not_lt.mp hge) with h | h
      · rw [← h, d3] at a3; omega
      · have := hv.sorted_lt r h0 hm _ p d1 h (by omega)
        rw [d3] at this
        omega
    apply findPos_of_first _ _ _ _ p a1 a2
    · show csr.csr_col_ind (σ p) = key
      rw [hσ.head_fix hv r h0 hm p a1 (le_of_lt hpd)]
      exact a3
    · intro q hq1 hq2
      show csr.csr_col_ind (σ q) ≠ key
      rw [hσ.head_fix hv r h0 hm q hq1 (by omega)]
      exact a4 q hq1 hq2
  | none =>
    have hn := findPos_none _ _ _ _ hf
    cases hf' : findPos (reorder csr σ) key (row_end csr r - row_begin csr r).toNat
        (row_begin csr r) with
    | none => rfl
    | some p' =>
      obtain ⟨a1, a2, a3, -⟩ := findPos_some _ _ _ _ _ hf'
      have hlen : ((row_end csr r - row_begin csr r).toNat : Int) =
          row_end csr r - row_begin csr r := Int.toNat_of_nonneg (by omega)
      obtain ⟨b1, b2⟩ := hσ.in_row hv r h0 hm p' a1 (by omega)
      exact absurd a3 (hn (σ p') b1 (by omega))

theorem ref_lsum_reorder {T : Type} [Field T] (ops : ScalarOps T) {csr : CsrMatrix}
    (hv : Valid csr) {σ : Int → Int} (hσ : TailPerm csr σ) (r : Int) (h0 : 0 ≤ r)
    (hm : r < csr.m) (j : Int) (hj1 : row_begin csr r ≤ j) (hj2 : j < csr.csr_diag_ind r)
    (v : Int → T) :
    ref_lsum ops (reorder csr σ) (row_begin csr r) (row_end csr r - row_begin csr r).toNat
        (fun p => v (σ p)) (row_begin csr (dep csr j)) (csr.csr_diag_ind (dep csr j)) =
      ref_lsum ops csr (row_begin csr r) (row_end csr r - row_begin csr r).toNat
        v (row_begin csr (dep csr j)) (csr.csr_diag_ind (dep csr j)) := by
  obtain ⟨c0, c1, c3, -⟩ := hv.dep_row r h0 hm j hj1 hj2
  obtain ⟨e1, e2, e3⟩ := hv.diag_present (dep csr j) c0 c3
  simp only [ref_lsum]
  congr 1
  apply Finset.sum_congr rfl
  intro k hk
  rw [Finset.mem_Ico] at hk
  have hk' : σ k = k := hσ.head_fix hv (dep csr j) c0 c3 k hk.1 (le_of_lt hk.2)
  have hcol : (reorder csr σ).csr_col_ind k = csr.csr_col_ind k := by
    show csr.csr_col_ind (σ k) = _
    rw [hk']
  have hlt := hv.sorted_lt (dep csr j) c0 c3 k _ hk.1 hk.2 e2
  rw [e3] at hlt
  simp only [match_term, hcol]
  rw [findPos_reorder hv hσ r h0 hm _ (by omega)]
  cases hf : findPos csr (csr.csr_col_ind k) (row_end csr r - row_begin csr r).toNat
      (row_begin csr r) with
  | none => rfl
  | some p =>
    obtain ⟨a1, a2⟩ := hv.match_before r h0 hm j hj1 hj2 k hk.1 hk.2 p hf
    simp only
    rw [hk', hσ.head_fix hv r h0 hm p a1 (by omega)]

theorem update_reorder {T : Type} {csr : CsrMatrix} (hv : Valid csr) {σ : Int → Int}
    (hσ : TailPerm csr σ) (r : Int) (h0 : 0 ≤ r) (hm : r < csr.m) (j : Int)
    (hj1 : row_begin csr r ≤ j) (hj2 : j ≤ csr.csr_diag_ind r) (v : Int → T) (x : T) :
    Function.update (fun p => v (σ p)) j x = fun p => Function.update v j x (σ p) := by
  funext p
  by_cases hpj : p = j
  · subst hpj
    rw [Function.update_same, hσ.head_fix hv r h0 hm p hj1 hj2, Function.update_same]
  · rw [Function.update_noteq hpj,
      Function.update_noteq (fun h => hpj (hσ.to_head hv r h0 hm p j hj1 hj2 h))]

theorem row_loop_reorder {T : Type} [Field T] [DecidableEq T] (ops : ScalarOps T)
    {csr : CsrMatrix} (hv : Valid csr) {σ : Int → Int} (hσ : TailPerm csr σ) (r : Int)
    (h0 : 0 ≤ r) (hm : r < csr.m) (fuel : Nat) :
    ∀ (j : Int) (sum : T) (s : KState T), row_begin csr r ≤ j →
      row_loop_gen ops (reorder csr σ) (csr.csr_diag_ind r)
          (ref_lsum ops (reorder csr σ) (row_begin csr r)
            (row_end csr r - row_begin csr r).toNat)
          fuel j sum (reorder_state σ s) =
        (row_loop_gen ops csr (csr.csr_diag_ind r)
          (ref_lsum ops csr (row_begin csr r) (row_end csr r - row_begin csr r).toNat)
          fuel j sum s).map (fun x => (x.1, reorder_state σ x.2)) := by
  induction fuel with
  | zero =>
    intro j sum s _
    simp only [row_loop_gen, Option.map_some']
  | succ n ih =>
    intro j sum s hj1
    simp only [row_loop_gen]
    by_cases hj : j < csr.csr_diag_ind r
    · obtain ⟨c0, c1, c3, c2⟩ := hv.dep_row r h0 hm j hj1 hj
      obtain ⟨e1, e2, -⟩ := hv.diag_present (dep csr j) c0 c3
      have hcol : (reorder csr σ).csr_col_ind j = csr.csr_col_ind j := by
        show csr.csr_col_ind (σ j) = _
        rw [hσ.head_fix hv r h0 hm j hj1 (le_of_lt hj)]
      have hld : local_diag_of (reorder csr σ) (csr.csr_diag_ind r)
          (csr.csr_col_ind j - csr.idx_base) =
          csr.csr_diag_ind (csr.csr_col_ind j - csr.idx_base) := c2
      have hbase : (reorder csr σ).idx_base = csr.idx_base := rfl
      have hptr : (reorder csr σ).csr_row_ptr = csr.csr_row_ptr := rfl
      have hvd : (reorder_state σ s).csr_val (csr.csr_diag_ind (csr.csr_col_ind j - csr.idx_base))
          = s.csr_val (csr.csr_diag_ind (csr.csr_col_ind j - csr.idx_base)) := by
        show s.csr_val (σ _) = _
        rw [hσ.head_fix hv (dep csr j) c0 c3 _ e1 (le_refl _)]
      have hvj : (reorder_state σ s).csr_val j = s.csr_val j := by
        show s.csr_val (σ j) = _
        rw [hσ.head_fix hv r h0 hm j hj1 (le_of_lt hj)]
      have hdn : (reorder_state σ s).done = s.done := rfl
      have hzp : (reorder_state σ s).zero_pivot = s.zero_pivot := rfl
      have hls := ref_lsum_reorder ops hv hσ r h0 hm j hj1 hj s.csr_val
      simp only [if_pos hj, hcol, hld, c2, hbase, hptr, hvd, hvj, hdn, hzp]
      by_cases hd : s.done (csr.csr_col_ind j - csr.idx_base) = 0
      · simp only [if_pos hd, Option.map_none']
      · simp only [if_neg hd]
        by_cases hz : s.csr_val (csr.csr_diag_ind (csr.csr_col_ind j - csr.idx_base)) = 0
        · simp only [if_pos hz, Option.map_some']
          rfl
        · simp only [if_neg hz]
          have hcv : (reorder_state σ s).csr_val = fun p => s.csr_val (σ p) := rfl
          rw [hcv]
          have hls' : ref_lsum ops (reorder csr σ) (row_begin csr r)
              (row_end csr r - row_begin csr r).toNat (fun p => s.csr_val (σ p))
              (csr.csr_row_ptr (csr.csr_col_ind j - csr.idx_base) - csr.idx_base)
              (csr.csr_diag_ind (csr.csr_col_ind j - csr.idx_base)) =
              ref_lsum ops csr (row_begin csr r) (row_end csr r - row_begin csr r).toNat
              s.csr_val (csr.csr_row_ptr (csr.csr_col_ind j - csr.idx_base) - csr.idx_base)
              (csr.csr_diag_ind (csr.csr_col_ind j - csr.idx_base)) := hls
          rw [hls']
          simp only [ref_lsum]
          rw [update_reorder hv hσ r h0 hm j hj1 (le_of_lt hj)]
          exact ih (j + 1) _ ⟨Function.update s.csr_val j _, s.done, s.zero_pivot⟩ (by omega)
    · simp only [if_neg hj, Option.map_some']

theorem ref_kernel_reorder {T : Type} [Field T] [DecidableEq T] (ops : ScalarOps T)
    {csr : CsrMatrix} (hv : Valid csr) {σ : Int → Int} (hσ : TailPerm csr σ) (idx : Int)
    (hmap : idx < csr.m → 0 ≤ csr.map idx ∧ csr.map idx < csr.m) (s : KState T) :
    ref_kernel ops (reorder csr σ) idx (reorder_state σ s) =
      (ref_kernel ops csr idx s).map (reorder_state σ) := by
  simp only [ref_kernel, kernel_gen]
  have hm' : (reorder csr σ).m = csr.m := rfl
  have hmp : (reorder csr σ).map idx = csr.map idx := rfl
  have hdi : (reorder csr σ).csr_diag_ind = csr.csr_diag_ind := rfl
  have hrb : ∀ x, row_begin (reorder csr σ) x = row_begin csr x := fun _ => rfl
  have hre : ∀ x, row_end (reorder csr σ) x = row_end csr x := fun _ => rfl
  rw [hm', hmp, hdi, hrb, hre]
  by_cases hidx : idx ≥ csr.m
  · simp only [if_pos hidx, Option.map_some']
  · obtain ⟨h0, hm⟩ := hmap (by omega)
    obtain ⟨d1, d2, -⟩ := hv.diag_present (csr.map idx) h0 hm
    simp only [if_neg hidx]
    rw [row_loop_reorder ops hv hσ (csr.map idx) h0 hm _ _ _ _ (le_refl _)]
    cases row_loop_gen ops csr (csr.csr_diag_ind (csr.map idx))
        (ref_lsum ops csr (row_begin csr (csr.map idx))
          (row_end csr (csr.map idx) - row_begin csr (csr.map idx)).toNat)
        (csr.csr_diag_ind (csr.map idx) - row_begin csr (csr.map idx)).toNat
        (row_begin csr (csr.map idx)) 0 s with
    | none => rfl
    | some x =>
      obtain ⟨sum, t⟩ := x
      have hb := hv.row_begin_nonneg (csr.map idx) h0 (le_of_lt hm)
      simp only [Option.map_some', Option.some.injEq, finish_row, reorder_state]
      rw [if_pos (by omega), if_pos (by omega)]
      simp only [KState.mk.injEq, and_true]
      rw [hσ.head_fix hv (csr.map idx) h0 hm _ d1 (le_refl _)]
      exact update_reorder hv hσ (csr.map idx) h0 hm _ d1 (le_refl _) t.csr_val _

theorem run_seq_reorder {T : Type} [Field T] [DecidableEq T] (ops : ScalarOps T)
    {csr : CsrMatrix} (hv : Valid csr) {σ : Int → Int} (hσ : TailPerm csr σ)
    (hp : MapPerm csr) (l : List Int) (hl : ∀ idx ∈ l, 0 ≤ idx) :
    ∀ s : KState T, run_seq (ref_kernel ops (reorder csr σ)) l (reorder_state σ s) =
      (run_seq (ref_kernel ops csr) l s).map (reorder_state σ) := by
  induction l with
  | nil => intro s; rfl
  | cons idx rest ih =>
    intro s
    simp only [run_seq]
    rw [ref_kernel_reorder ops hv hσ idx (fun h => hp.range idx (hl idx (by simp)) h) s]
    cases ref_kernel ops csr idx s with
    | none => rfl
    | some t => exact ih (fun i hi => hl i (by simp [hi])) t

/-- A hash kernel wavefront of a row whose diagonal is its first entry: the
row loop is empty and only the diagonal is written. -/
theorem hash_kernel_diag_first {T : Type} [Field T] [DecidableEq T] (W HASH e : Nat)
    (ops : ScalarOps T) (csr : CsrMatrix) (idx : Int) (s : KState T) (hidx : idx < csr.m)
    (hS : W * HASH = 2 ^ e)
    (hlen : (row_end csr (csr.map idx) - row_begin csr (csr.map idx)).toNat < 2 ^ e + 1)
    (hkeys : ∀ q, row_begin csr (csr.map idx) ≤ q →
      q < row_begin csr (csr.map idx) +
        (row_end csr (csr.map idx) - row_begin csr (csr.map idx)).toNat →
      csr.csr_col_ind q ≠ -1)
    (hd : csr.csr_diag_ind (csr.map idx) ≤ row_begin csr (csr.map idx)) :
    csric0_hash_kernel W HASH ops csr idx s =
      some (finish_row ops (csr.map idx) (csr.csr_diag_ind (csr.map idx)) 0 s) := by
  obtain ⟨t, ht, -⟩ := hash_fill_inv e csr (row_begin csr (csr.map idx))
    (row_end csr (csr.map idx) - row_begin csr (csr.map idx)).toNat 0 _
    (tableInv_init (2 ^ e) csr _)
    (fun q h1 h2 => hkeys q (by simpa using h1) (by simpa using h2)) (by omega)
  simp only [Nat.cast_zero, add_zero] at ht
  simp only [csric0_hash_kernel, if_neg (not_le.mpr hidx)]
  simp only [row_begin, row_end] at ht hd ⊢
  rw [hS, ht]
  have hf : (csr.csr_diag_ind (csr.map idx) - (csr.csr_row_ptr (csr.map idx) - csr.idx_base)).toNat
      = 0 := by omega
  simp only [hf, hash_row_loop]


/-! ## Incomplete Cholesky: functional correctness -/

theorem low2_valid : Valid low2 :=
  ⟨⟨by decide, by decide, by decide, by decide, by decide, by decide⟩, by decide, by decide⟩

theorem low2_perm : MapPerm low2 := ⟨by decide, by decide, by decide⟩

theorem low2_order : DepOrder low2 := by unfold DepOrder; decide

theorem low2_fit : RowsFit low2 (64 * 1) := by unfold RowsFit; decide

theorem tri4_fit : RowsFit tri4 (64 * 1) := by unfold RowsFit; decide

/-- The factor of `[[4,2],[2,5]]` computed over the reals. -/
theorem low2_values (done : Int → Int) (zp : Int) (s : KState ℝ)
    (F : Factored ⟨id, fun x => Real.sqrt |x|⟩ low2 ⟨of_list [4, 2, 5] 0, done, zp⟩ s) :
    s.csr_val 0 = 2 ∧ s.csr_val 1 = 1 ∧ s.csr_val 2 = 2 := by
  have hb0 : row_begin low2 0 = 0 := by decide
  have hd0 : low2.csr_diag_ind 0 = 0 := by decide
  have hb1 : row_begin low2 1 = 1 := by decide
  have hd1 : low2.csr_diag_ind 1 = 2 := by decide
  have hdep1 : dep low2 1 = 0 := by decide
  have hv0 : (of_list [4, 2, 5] (0 : ℝ)) 0 = 4 := by simp [of_list]
  have hv1 : (of_list [4, 2, 5] (0 : ℝ)) 1 = 2 := by simp [of_list]
  have hv2 : (of_list [4, 2, 5] (0 : ℝ)) 2 = 5 := by simp [of_list]
  obtain ⟨J0, E0⟩ := F.eqs 0 (by decide) (by decide)
  have hJ0 : J0 = 0 := by
    have a := E0.lo
    have b := E0.hi
    rw [hb0] at a
    rw [hd0] at b
    omega
  have e0 : s.csr_val 0 = 2 := by
    have := E0.diag
    rw [hd0, hb0, hJ0] at this
    simp only [Finset.Ico_self, Finset.sum_empty, sub_zero, hv0] at this
    rw [this, sqrt_abs_four]
  obtain ⟨J1, E1⟩ := F.eqs 1 (by decide) (by decide)
  have hJ1 : J1 = 2 := by
    have a := E1.lo
    have b := E1.hi
    rw [hb1] at a
    rw [hd1] at b
    rcases (show J1 = 1 ∨ J1 = 2 by omega) with h | h
    · have := E1.stop (by rw [h, hd1]; decide)
      rw [h, hdep1, hd0, e0] at this
      norm_num at this
    · exact h
  have e1 : s.csr_val 1 = 1 := by
    have := (E1.before 1 (by rw [hb1]) (by rw [hJ1]; decide)).2
    rw [hdep1, hd0, e0] at this
    simp only [ref_sum, hdep1, hb0, hd0, Finset.Ico_self, Finset.sum_empty, sub_zero, hv1]
      at this
    rw [this]
    norm_num
  have e2 : s.csr_val 2 = 2 := by
    have := E1.diag
    rw [hd1, hb1, hJ1] at this
    have hI : Finset.Ico (1 : ℤ) 2 = {1} := by decide
    simp only [hI, Finset.sum_singleton, e1, hv2, id] at this
    rw [this]
    have : (5 : ℝ) - 1 * 1 = 4 := by norm_num
    rw [this, sqrt_abs_four]
  exact ⟨e0, e1, e2⟩

/-- C2: for the 4x4 matrix `[[4,1,0,0],[1,4,1,0],[0,1,4,1],[0,0,1,4]]` (index base
0, sorted rows, identity visiting order) both kernels, over the reals, return a
state with `2` at row 0's diagonal, `1/2` at row 1's entry in column 0 and
`sqrt(4 - 1/4) = sqrt(15)/2` at row 1's diagonal. -/
theorem csric0_scenario_tri4 (W HASH e W2 : Nat) (done : Int → Int) (zp : Int)
    (hW : 1 ≤ W) (hS : W * HASH = 2 ^ e) (hfit : RowsFit tri4 (W * HASH)) (hW2 : 1 ≤ W2) :
    ∃ s, csric0_hash_seq W HASH ⟨id, fun x => Real.sqrt |x|⟩ tri4
          ⟨of_list [4, 1, 1, 4, 1, 1, 4, 1, 1, 4] 0, done, zp⟩ = some s ∧
      csric0_binsearch_seq W2 ⟨id, fun x => Real.sqrt |x|⟩ tri4
          ⟨of_list [4, 1, 1, 4, 1, 1, 4, 1, 1, 4] 0, done, zp⟩ = some s ∧
      s.csr_val 0 = 2 ∧ s.csr_val 2 = 1 / 2 ∧ s.csr_val 3 = Real.sqrt (4 - 1 / 4) ∧
      Real.sqrt (4 - 1 / 4) = Real.sqrt 15 / 2 := by
  obtain ⟨s, h1, h2, F⟩ := csric0_factored W HASH e W2 ⟨id, fun x => Real.sqrt |x|⟩ tri4
    ⟨of_list [4, 1, 1, 4, 1, 1, 4, 1, 1, 4] 0, done, zp⟩ tri4_valid tri4_perm tri4_order
    hW hS hfit hW2
  refine ⟨s, h1, h2, ?_⟩
  have hb0 : row_begin tri4 0 = 0 := by decide
  have hd0 : tri4.csr_diag_ind 0 = 0 := by decide
  have hb1 : row_begin tri4 1 = 2 := by decide
  have hd1 : tri4.csr_diag_ind 1 = 3 := by decide
  have hdep2 : dep tri4 2 = 0 := by decide
  have hv0 : (of_list [4, 1, 1, 4, 1, 1, 4, 1, 1, 4] (0 : ℝ)) 0 = 4 := by
    simp [of_list]
  have hv2 : (of_list [4, 1, 1, 4, 1, 1, 4, 1, 1, 4] (0 : ℝ)) 2 = 1 := by
    simp [of_list]
  have hv3 : (of_list [4, 1, 1, 4, 1, 1, 4, 1, 1, 4] (0 : ℝ)) 3 = 4 := by
    simp [of_list]
  -- row 0
  obtain ⟨J0, E0⟩ := F.eqs 0 (by decide) (by decide)
  have hJ0 : J0 = 0 := by
    have a := E0.lo
    have b := E0.hi
    rw [hb0] at a
    rw [hd0] at b
    omega
  have e0 : s.csr_val 0 = 2 := by
    have := E0.diag
    rw [hd0, hb0, hJ0] at this
    simp only [Finset.Ico_self, Finset.sum_empty, sub_zero, hv0] at this
    rw [this, sqrt_abs_four]
  -- row 1
  obtain ⟨J1, E1⟩ := F.eqs 1 (by decide) (by decide)
  have hJ1 : J1 = 3 := by
    have a := E1.lo
    have b := E1.hi
    rw [hb1] at a
    rw [hd1] at b
    rcases (show J1 = 2 ∨ J1 = 3 by omega) with h | h
    · have := E1.stop (by rw [h, hd1]; decide)
      rw [h, hdep2, hd0, e0] at this
      norm_num at this
    · exact h
  have e2 : s.csr_val 2 = 1 / 2 := by
    have := (E1.before 2 (by rw [hb1]) (by rw [hJ1]; decide)).2
    rw [hdep2, hd0, e0] at this
    simp only [ref_sum, hdep2, hb0, hd0, Finset.Ico_self, Finset.sum_empty, sub_zero, hv2]
      at this
    rw [this]
    norm_num
  have e3 : s.csr_val 3 = Real.sqrt (4 - 1 / 4) := by
    have := E1.diag
    rw [hd1, hb1, hJ1] at this
    have hI : Finset.Ico (2 : ℤ) 3 = {2} := by decide
    simp only [hI, Finset.sum_singleton, e2, hv3, id] at this
    rw [this]
    congr 1
    rw [abs_of_pos (by norm_num)]
    norm_num
  refine ⟨e0, e2, e3, ?_⟩
  have h4 : (4 : ℝ) - 1 / 4 = 15 / 2 ^ 2 := by norm_num
  rw [h4, Real.sqrt_div (by norm_num), Real.sqrt_sq (by norm_num)]

/-- C2 with wavefronts of 64 lanes and a table of 64 slots. -/
theorem csric0_scenario_tri4_witness :
    ∃ s, csric0_hash_seq 64 1 ⟨id, fun x => Real.sqrt |x|⟩ tri4
          ⟨of_list [4, 1, 1, 4, 1, 1, 4, 1, 1, 4] 0, fun _ => 0, 2147483647⟩ = some s ∧
      csric0_binsearch_seq 64 ⟨id, fun x => Real.sqrt |x|⟩ tri4
          ⟨of_list [4, 1, 1, 4, 1, 1, 4, 1, 1, 4] 0, fun _ => 0, 2147483647⟩ = some s ∧
      s.csr_val 0 = 2 ∧ s.csr_val 2 = 1 / 2 ∧ s.csr_val 3 = Real.sqrt (4 - 1 / 4) ∧
      Real.sqrt (4 - 1 / 4) = Real.sqrt 15 / 2 :=
  csric0_scenario_tri4 64 1 6 64 (fun _ => 0) 2147483647 (by decide) (by decide) tri4_fit
    (by decide)


/-! ## The two matching strategies, the visiting order, the writes of a row -/

theorem low2_swapped_run (s0 : KState ℝ) :
    csric0_hash_seq 64 1 ⟨id, fun x => Real.sqrt |x|⟩ low2_swapped s0 =
      some (finish_row ⟨id, fun x => Real.sqrt |x|⟩ 1 1 0
        (finish_row ⟨id, fun x => Real.sqrt |x|⟩ 0 0 0 s0)) := by
  have hw : wavefronts low2_swapped.m = [0, 1] := by decide
  have k0 := hash_kernel_diag_first 64 1 6 ⟨id, fun x => Real.sqrt |x|⟩ low2_swapped 0 s0
    (by decide) (by decide) (by decide) (by decide) (by decide)
  have k1 := hash_kernel_diag_first 64 1 6 ⟨id, fun x => Real.sqrt |x|⟩ low2_swapped 1
    (finish_row ⟨id, fun x => Real.sqrt |x|⟩ 0 0 0 s0)
    (by decide) (by decide) (by decide) (by decide) (by decide)
  have m0 : low2_swapped.map 0 = 0 := rfl
  have m1 : low2_swapped.map 1 = 1 := rfl
  have d0 : low2_swapped.csr_diag_ind 0 = 0 := by decide
  have d1 : low2_swapped.csr_diag_ind 1 = 1 := by decide
  rw [m0, d0] at k0
  rw [m1, d1] at k1
  simp only [csric0_hash_seq, hw, run_seq, Int.ofNat_eq_coe, Nat.cast_zero, Nat.cast_one, k0,
    k1]

/-- C7, counterexample: the entry `(1,0)` of `[[4,.],[2,5]]` gets the factor
value `1` from the hash kernel when row 1 is stored sorted (position 1), but
keeps its value `2` when row 1 is stored with the diagonal first (position 2,
`csr_diag_ind` updated): the loop runs over the positions before the diagonal. -/
theorem csric0_hash_needs_order :
    ∃ s s', csric0_hash_seq 64 1 ⟨id, fun x => Real.sqrt |x|⟩ low2
          ⟨of_list [4, 2, 5] 0, fun _ => 0, 2147483647⟩ = some s ∧
      csric0_hash_seq 64 1 ⟨id, fun x => Real.sqrt |x|⟩ low2_swapped
          ⟨of_list [4, 5, 2] 0, fun _ => 0, 2147483647⟩ = some s' ∧
      low2.csr_col_ind 1 = 0 ∧ low2_swapped.csr_col_ind 2 = 0 ∧
      s.csr_val 1 = 1 ∧ s'.csr_val 2 = 2 ∧ s.csr_val 1 ≠ s'.csr_val 2 := by
  obtain ⟨s, h1, -, F⟩ := csric0_factored 64 1 6 64 ⟨id, fun x => Real.sqrt |x|⟩ low2
    ⟨of_list [4, 2, 5] 0, fun _ => 0, 2147483647⟩ low2_valid low2_perm low2_order
    (by decide) (by decide) low2_fit (by decide)
  obtain ⟨-, e1, -⟩ := low2_values _ _ s F
  have e2 : (finish_row (⟨id, fun x => Real.sqrt |x|⟩ : ScalarOps ℝ) 1 1 0
      (finish_row ⟨id, fun x => Real.sqrt |x|⟩ 0 0 0
        ⟨of_list [4, 5, 2] 0, fun _ => 0, 2147483647⟩)).csr_val 2 = 2 := by
    rw [finish_row_val _ _ _ _ _ _ (by decide), finish_row_val _ _ _ _ _ _ (by decide)]
    simp [of_list]
  refine ⟨s, _, h1, low2_swapped_run _, by decide, by decide, e1, e2, ?_⟩
  rw [e1, e2]
  norm_num

/-- C7, amended: over exact arithmetic, for a valid matrix and a reordering
`σ` that moves only entries located after the diagonal of their row (column
indices and values moved together, the entries up to the diagonal staying in
place), `csric0_hash_kernel` computes for every entry the factor value it
computes for the matrix with sorted rows: the result on the reordered input is
the reordered result. -/
theorem csric0_hash_tail_order {T : Type} [Field T] [DecidableEq T] (W HASH e : Nat)
    (ops : ScalarOps T) (csr : CsrMatrix) (σ : Int → Int) (s0 : KState T) (hv : Valid csr)
    (hσ : TailPerm csr σ) (hp : MapPerm csr) (hW : 1 ≤ W) (hS : W * HASH = 2 ^ e)
    (hfit : RowsFit csr (W * HASH)) :
    csric0_hash_seq W HASH ops (reorder csr σ) (reorder_state σ s0) =
        (csric0_hash_seq W HASH ops csr s0).map (reorder_state σ) ∧
      (DepOrder csr → ∃ s, csric0_hash_seq W HASH ops csr s0 = some s) := by
  constructor
  · have e1 : csric0_hash_seq W HASH ops (reorder csr σ) (reorder_state σ s0) =
        run_seq (ref_kernel ops (reorder csr σ)) (wavefronts csr.m) (reorder_state σ s0) := by
      apply run_seq_congr
      intro idx hidx s'
      have hidx' : idx ∈ wavefronts csr.m := hidx
      rw [mem_wavefronts] at hidx'
      exact hash_kernel_eq_ref_head W HASH e ops (reorder csr σ) (reorder_headValid hv hσ) hW hS
        hfit idx (fun h => hp.range idx hidx'.1 h) s'
    rw [e1, hash_seq_eq_ref W HASH e ops csr hv hp hW hS hfit]
    exact run_seq_reorder ops hv hσ hp _ (fun idx h => ((mem_wavefronts _ _).mp h).1) s0
  · intro ho
    obtain ⟨s, h1, -, -⟩ := csric0_factored W HASH e 1 ops csr s0 hv hp ho hW hS hfit
      (le_refl _)
    exact ⟨s, h1⟩

theorem dense3_valid : Valid dense3 :=
  ⟨⟨by decide, by decide, by decide, by decide, by decide, by decide⟩, by decide, by decide⟩

theorem dense3_perm : MapPerm dense3 := ⟨by decide, by decide, by decide⟩

theorem dense3_fit : RowsFit dense3 (64 * 1) := by unfold RowsFit; decide

theorem dense3_swap12 : TailPerm dense3 swap12 := by
  constructor
  · intro p h
    have h0 := h 0 (by decide) (by decide)
    have hd : dense3.csr_diag_ind 0 = 0 := by decide
    have he : row_end dense3 0 = 3 := by decide
    rw [hd, he] at h0
    simp only [swap12]
    rw [if_neg (by omega), if_neg (by omega)]
  · decide

/-- C7, amended, at the full 3x3 pattern with the two entries after the
diagonal of row 0 exchanged. -/
theorem csric0_hash_tail_order_witness :
    csric0_hash_seq 64 1 (⟨id, id⟩ : ScalarOps ℚ) (reorder dense3 swap12)
          (reorder_state swap12 ⟨of_list [4, 2, 2, 2, 5, 3, 2, 3, 6] 0, fun _ => 0, 100⟩) =
        (csric0_hash_seq 64 1 (⟨id, id⟩ : ScalarOps ℚ) dense3
          ⟨of_list [4, 2, 2, 2, 5, 3, 2, 3, 6] 0, fun _ => 0, 100⟩).map
          (reorder_state swap12) ∧
      (DepOrder dense3 → ∃ s, csric0_hash_seq 64 1 (⟨id, id⟩ : ScalarOps ℚ) dense3
          ⟨of_list [4, 2, 2, 2, 5, 3, 2, 3, 6] 0, fun _ => 0, 100⟩ = some s) :=
  csric0_hash_tail_order 64 1 6 ⟨id, id⟩ dense3 swap12
    ⟨of_list [4, 2, 2, 2, 5, 3, 2, 3, 6] 0, fun _ => 0, 100⟩ dense3_valid dense3_swap12
    dense3_perm (by decide) (by decide) dense3_fit


/-! ## Complex values -/

theorem herm3_valid : Valid herm3 :=
  ⟨⟨by decide, by decide, by decide, by decide, by decide, by decide⟩, by decide, by decide⟩

theorem herm3_perm : MapPerm herm3 := ⟨by decide, by decide, by decide⟩

theorem herm3_order : DepOrder herm3 := by unfold DepOrder; decide

theorem herm3_fit : RowsFit herm3 (64 * 1) := by unfold RowsFit; decide

theorem sqrt_abs_one : ((Real.sqrt (Complex.abs 1) : ℝ) : ℂ) = 1 := by
  simp

/-- C8, at the failing input: the lower part of the Hermitian positive definite
matrix `[[1,-i,1],[i,2,0],[1,0,3]]`.  No diagonal met is zero and the three
quantities under the square root are `1` (so is every stored diagonal), yet the kernels store `-i` at entry
`(2,1)` (the Cholesky factor has `i` there) and `(L * L^H)[2][1] = -2i` differs
from `A[2][1] = 0`: `local_sum` adds `L[c][k] * conj(L[r][k])`, the conjugate of
the term `L[r][k] * conj(L[c][k])` of `L * L^H`. -/
theorem csric0_complex_not_cholesky :
    ∃ s, csric0_hash_seq 64 1
          ⟨fun z => (starRingEnd ℂ) z, fun x => ((Real.sqrt (Complex.abs x) : ℝ) : ℂ)⟩ herm3
          ⟨of_list [1, Complex.I, 2, 1, 0, 3] 0, fun _ => 0, 2147483647⟩ = some s ∧
      csric0_binsearch_seq 64
          ⟨fun z => (starRingEnd ℂ) z, fun x => ((Real.sqrt (Complex.abs x) : ℝ) : ℂ)⟩ herm3
          ⟨of_list [1, Complex.I, 2, 1, 0, 3] 0, fun _ => 0, 2147483647⟩ = some s ∧
      s.csr_val 0 = 1 ∧ s.csr_val 1 = Complex.I ∧ s.csr_val 2 = 1 ∧
      s.csr_val 3 = 1 ∧ s.csr_val 4 = -Complex.I ∧ s.csr_val 5 = 1 ∧
      (of_list [1, Complex.I, 2, 1, 0, 3] (0 : ℂ)) 2 -
        s.csr_val 1 * (starRingEnd ℂ) (s.csr_val 1) = 1 ∧
      (of_list [1, Complex.I, 2, 1, 0, 3] (0 : ℂ)) 5 -
        (s.csr_val 3 * (starRingEnd ℂ) (s.csr_val 3) +
          s.csr_val 4 * (starRingEnd ℂ) (s.csr_val 4)) = 1 ∧
      LLH_entry ⟨fun z => (starRingEnd ℂ) z, fun x => ((Real.sqrt (Complex.abs x) : ℝ) : ℂ)⟩
        herm3 s.csr_val 2 (dep herm3 4) = -2 * Complex.I ∧
      LLH_entry ⟨fun z => (starRingEnd ℂ) z, fun x => ((Real.sqrt (Complex.abs x) : ℝ) : ℂ)⟩
        herm3 s.csr_val 2 (dep herm3 4) ≠ (of_list [1, Complex.I, 2, 1, 0, 3] (0 : ℂ)) 4 := by
  obtain ⟨s, h1, h2, F⟩ := csric0_factored 64 1 6 64
    ⟨fun z => (starRingEnd ℂ) z, fun x => ((Real.sqrt (Complex.abs x) : ℝ) : ℂ)⟩ herm3
    ⟨of_list [1, Complex.I, 2, 1, 0, 3] 0, fun _ => 0, 2147483647⟩ herm3_valid herm3_perm
    herm3_order (by decide) (by decide) herm3_fit (by decide)
  have hb0 : row_begin herm3 0 = 0 := by decide
  have hd0 : herm3.csr_diag_ind 0 = 0 := by decide
  have hb1 : row_begin herm3 1 = 1 := by decide
  have hd1 : herm3.csr_diag_ind 1 = 2 := by decide
  have hb2 : row_begin herm3 2 = 3 := by decide
  have he2 : row_end herm3 2 = 6 := by decide
  have hd2 : herm3.csr_diag_ind 2 = 5 := by decide
  have hdep1 : dep herm3 1 = 0 := by decide
  have hdep3 : dep herm3 3 = 0 := by decide
  have hdep4 : dep herm3 4 = 1 := by decide
  have hv0 : (of_list [1, Complex.I, 2, 1, 0, 3] (0 : ℂ)) 0 = 1 := by simp [of_list]
  have hv1 : (of_list [1, Complex.I, 2, 1, 0, 3] (0 : ℂ)) 1 = Complex.I := by simp [of_list]
  have hv2 : (of_list [1, Complex.I, 2, 1, 0, 3] (0 : ℂ)) 2 = 2 := by simp [of_list]
  have hv3 : (of_list [1, Complex.I, 2, 1, 0, 3] (0 : ℂ)) 3 = 1 := by simp [of_list]
  have hv4 : (of_list [1, Complex.I, 2, 1, 0, 3] (0 : ℂ)) 4 = 0 := by simp [of_list]
  -- row 0
  obtain ⟨J0, E0⟩ := F.eqs 0 (by decide) (by decide)
  have hJ0 : J0 = 0 := by
    have a := E0.lo
    have b := E0.hi
    rw [hb0] at a
    rw [hd0] at b
    omega
  have e0 : s.csr_val 0 = 1 := by
    have := E0.diag
    rw [hd0, hb0, hJ0] at this
    simp only [Finset.Ico_self, Finset.sum_empty, sub_zero, hv0] at this
    rw [this, sqrt_abs_one]
  -- row 1
  obtain ⟨J1, E1⟩ := F.eqs 1 (by decide) (by decide)
  have hJ1 : J1 = 2 := by
    have a := E1.lo
    have b := E1.hi
    rw [hb1] at a
    rw [hd1] at b
    rcases (show J1 = 1 ∨ J1 = 2 by omega) with h | h
    · have := E1.stop (by rw [h, hd1]; decide)
      rw [h, hdep1, hd0, e0] at this
      norm_num at this
    · exact h
  have e1 : s.csr_val 1 = Complex.I := by
    have := (E1.before 1 (by rw [hb1]) (by rw [hJ1]; decide)).2
    rw [hdep1, hd0, e0] at this
    simp only [ref_sum, hdep1, hb0, hd0, Finset.Ico_self, Finset.sum_empty, sub_zero, hv1]
      at this
    rw [this]
    norm_num
  have e2 : s.csr_val 2 = 1 := by
    have := E1.diag
    rw [hd1, hb1, hJ1] at this
    have hI : Finset.Ico (1 : ℤ) 2 = {1} := by decide
    simp only [hI, Finset.sum_singleton, e1, hv2, Complex.conj_I] at this
    rw [this]
    have : (2 : ℂ) - Complex.I * -Complex.I = 1 := by
      rw [mul_neg, Complex.I_mul_I]
      norm_num
    rw [this, sqrt_abs_one]
  -- row 2
  obtain ⟨J2, E2⟩ := F.eqs 2 (by decide) (by decide)
  have hJ2 : J2 = 5 := by
    have a := E2.lo
    have b := E2.hi
    rw [hb2] at a
    rw [hd2] at b
    rcases (show J2 = 3 ∨ J2 = 4 ∨ J2 = 5 by omega) with h | h | h
    · have := E2.stop (by rw [h, hd2]; decide)
      rw [h, hdep3, hd0, e0] at this
      norm_num at this
    · have := E2.stop (by rw [h, hd2]; decide)
      rw [h, hdep4, hd1, e2] at this
      norm_num at this
    · exact h
  have e3 : s.csr_val 3 = 1 := by
    have := (E2.before 3 (by rw [hb2]) (by rw [hJ2]; decide)).2
    rw [hdep3, hd0, e0] at this
    simp only [ref_sum, hdep3, hb0, hd0, Finset.Ico_self, Finset.sum_empty, sub_zero, hv3]
      at this
    rw [this]
    norm_num
  have e4 : s.csr_val 4 = -Complex.I := by
    have := (E2.before 4 (by rw [hb2]; decide) (by rw [hJ2]; decide)).2
    rw [hdep4, hd1, e2] at this
    have hI : Finset.Ico (1 : ℤ) 2 = {1} := by decide
    have hf : findPos herm3 (herm3.csr_col_ind 1) (6 - 3 : Int).toNat 3 = some 3 := by decide
    simp only [ref_sum, hdep4, hb1, hd1, hI, Finset.sum_singleton, match_term, hb2, he2, hf,
      e1, e3, hv4, map_one] at this
    rw [this]
    norm_num
  have hL : LLH_entry
      ⟨fun z => (starRingEnd ℂ) z, fun x => ((Real.sqrt (Complex.abs x) : ℝ) : ℂ)⟩
      herm3 s.csr_val 2 (dep herm3 4) = -2 * Complex.I := by
    have hI : Finset.Ico (0 : ℤ) herm3.m = {0, 1, 2} := by decide
    have f20 : findPos herm3 (0 + herm3.idx_base) (5 + 1 - 3 : Int).toNat 3 = some 3 := by
      decide
    have f21 : findPos herm3 (1 + herm3.idx_base) (5 + 1 - 3 : Int).toNat 3 = some 4 := by
      decide
    have f22 : findPos herm3 (2 + herm3.idx_base) (5 + 1 - 3 : Int).toNat 3 = some 5 := by
      decide
    have f10 : findPos herm3 (0 + herm3.idx_base) (2 + 1 - 1 : Int).toNat 1 = some 1 := by
      decide
    have f11 : findPos herm3 (1 + herm3.idx_base) (2 + 1 - 1 : Int).toNat 1 = some 2 := by
      decide
    have f12 : findPos herm3 (2 + herm3.idx_base) (2 + 1 - 1 : Int).toNat 1 = none := by
      decide
    rw [hdep4]
    simp only [LLH_entry, hI, L_entry, hb1, hd1, hb2, hd2]
    rw [Finset.sum_insert (by decide), Finset.sum_insert (by decide), Finset.sum_singleton]
    simp only [f20, f21, f22, f10, f11, f12, e1, e2, e3, e4, Complex.conj_I, map_one, map_zero,
      mul_zero, add_zero, mul_one, one_mul]
    ring
  have hv5 : (of_list [1, Complex.I, 2, 1, 0, 3] (0 : ℂ)) 5 = 3 := by simp [of_list]
  have r1 : (of_list [1, Complex.I, 2, 1, 0, 3] (0 : ℂ)) 2 -
      s.csr_val 1 * (starRingEnd ℂ) (s.csr_val 1) = 1 := by
    rw [hv2, e1, Complex.conj_I, mul_neg, Complex.I_mul_I]
    norm_num
  have r2 : (of_list [1, Complex.I, 2, 1, 0, 3] (0 : ℂ)) 5 -
      (s.csr_val 3 * (starRingEnd ℂ) (s.csr_val 3) +
        s.csr_val 4 * (starRingEnd ℂ) (s.csr_val 4)) = 1 := by
    rw [hv5, e3, e4, map_one, map_neg, Complex.conj_I, neg_neg, neg_mul, Complex.I_mul_I]
    norm_num
  have e5 : s.csr_val 5 = 1 := by
    have := E2.diag
    rw [hd2, hb2, hJ2] at this
    have hI : Finset.Ico (3 : ℤ) 5 = {3, 4} := by decide
    rw [hI, Finset.sum_insert (by decide), Finset.sum_singleton] at this
    rw [this]
    show ((Real.sqrt (Complex.abs _) : ℝ) : ℂ) = 1
    rw [r2]
    exact sqrt_abs_one
  refine ⟨s, h1, h2, e0, e1, e2, e3, e4, e5, r1, r2, hL, ?_⟩
  rw [hL, hv4]
  simp


/-! ## Steps of a wavefront: flags and the pivot register -/

theorem atomicOr_zero (a : Int → Int) (i : Int) : (atomicOr a i 0).2 = a := by
  simp only [atomicOr, int_lor_zero, Function.update_eq_self]

theorem atomicOr_old (a : Int → Int) (i v : Int) : (atomicOr a i v).1 = a i := rfl

/-- What a step does to the `done` flags: nothing, except for the step that
sets the flag of the wavefront's own row. -/
theorem wf_step_done {T : Type} [Field T] [DecidableEq T] (K : KernelKind) (ops : ScalarOps T)
    (csr : CsrMatrix) (idx : Int) (mem mem1 : KState T) (w w1 : WfState T)
    (h : wf_step K ops csr idx mem w = some (mem1, w1)) :
    (mem1.done = mem.done ∧ (w.pc = .flag → False)) ∨
      (w.pc = .flag ∧ w1.pc = .finished ∧
        mem1.done = Function.update mem.done (csr.map idx) (Int.lor (mem.done (csr.map idx)) 1)) := by
  cases hpc : w.pc <;> simp only [wf_step, hpc] at h
  · split at h
    · exact absurd h (by simp)
    · simp only [Option.some.injEq, Prod.mk.injEq] at h
      exact Or.inl ⟨by rw [← h.1], by simp⟩
  · split at h <;> simp only [Option.some.injEq, Prod.mk.injEq] at h <;>
      exact Or.inl ⟨by rw [← h.1], by simp⟩
  · split at h <;> simp only [Option.some.injEq, Prod.mk.injEq, atomicOr_zero] at h <;>
      exact Or.inl ⟨by rw [← h.1], by simp⟩
  · split at h <;> simp only [Option.some.injEq, Prod.mk.injEq] at h <;>
      exact Or.inl ⟨by rw [← h.1], by simp⟩
  · split at h
    · exact absurd h (by simp)
    · simp only [Option.some.injEq, Prod.mk.injEq] at h
      exact Or.inl ⟨by rw [← h.1], by simp⟩
  · simp only [Option.some.injEq, Prod.mk.injEq] at h
    exact Or.inl ⟨by rw [← h.1], by simp⟩
  · split at h <;> simp only [Option.some.injEq, Prod.mk.injEq] at h <;>
      exact Or.inl ⟨by rw [← h.1], by simp⟩
  · simp only [Option.some.injEq, Prod.mk.injEq] at h
    exact Or.inr ⟨rfl, by rw [← h.2], by rw [← h.1]; rfl⟩
  · exact absurd h (by simp)

/-- What a step does to `zero_pivot`: an `atomicMin` when it detects a zero
diagonal, nothing otherwise. -/
theorem wf_step_pivot {T : Type} [Field T] [DecidableEq T] (K : KernelKind) (ops : ScalarOps T)
    (csr : CsrMatrix) (idx : Int) (mem mem1 : KState T) (w w1 : WfState T)
    (h : wf_step K ops csr idx mem w = some (mem1, w1)) :
    mem1.zero_pivot = (wf_detect csr idx mem w).toList.foldl min mem.zero_pivot := by
  cases hpc : w.pc <;> simp only [wf_step, hpc] at h <;> simp only [wf_detect, hpc]
  · split at h
    · exact absurd h (by simp)
    · simp only [Option.some.injEq, Prod.mk.injEq] at h
      rw [← h.1]; simp
  · split at h <;> simp only [Option.some.injEq, Prod.mk.injEq] at h <;>
      (rw [← h.1]; simp)
  · split at h <;> simp only [Option.some.injEq, Prod.mk.injEq] at h <;>
      (rw [← h.1]; simp)
  · split at h <;> rename_i hz <;> simp only [Option.some.injEq, Prod.mk.injEq] at h
    · rw [← h.1]; simp [hz, atomicMin]
    · rw [← h.1]; simp [hz]
  · split at h
    · exact absurd h (by simp)
    · simp only [Option.some.injEq, Prod.mk.injEq] at h
      rw [← h.1]; simp
  · simp only [Option.some.injEq, Prod.mk.injEq] at h
    rw [← h.1]; simp
  · split at h <;> simp only [Option.some.injEq, Prod.mk.injEq] at h <;>
      (rw [← h.1]; simp)
  · simp only [Option.some.injEq, Prod.mk.injEq] at h
    rw [← h.1]; simp
  · exact absurd h (by simp)

/-! ## The steps one by one -/

theorem wf_step_start {T : Type} [Field T] [DecidableEq T] (K : KernelKind) (ops : ScalarOps T)
    (csr : CsrMatrix) (idx : Int) (mem mem1 : KState T) (w w1 : WfState T)
    (hpc : w.pc = .start) (h : wf_step K ops csr idx mem w = some (mem1, w1)) :
    mem1 = mem ∧ w1.pc = .head ∧ w1.j = csr.csr_row_ptr (csr.map idx) - csr.idx_base ∧
      w1.sum = 0 ∧ w1.broke = w.broke ∧
      kernel_fill K csr (csr.csr_row_ptr (csr.map idx) - csr.idx_base)
        (csr.csr_row_ptr (csr.map idx + 1) - csr.idx_base) = some w1.table := by
  simp only [wf_step, hpc] at h
  split at h
  · exact absurd h (by simp)
  · next t ht =>
    simp only [Option.some.injEq, Prod.mk.injEq] at h
    obtain ⟨rfl, rfl⟩ := h
    exact ⟨rfl, rfl, rfl, rfl, rfl, ht⟩

theorem wf_step_head {T : Type} [Field T] [DecidableEq T] (K : KernelKind) (ops : ScalarOps T)
    (csr : CsrMatrix) (idx : Int) (mem mem1 : KState T) (w w1 : WfState T)
    (hpc : w.pc = .head) (h : wf_step K ops csr idx mem w = some (mem1, w1)) :
    mem1 = mem ∧ w1.table = w.table ∧ w1.j = w.j ∧ w1.sum = w.sum ∧ w1.broke = w.broke ∧
      ((w.j < csr.csr_diag_ind (csr.map idx) ∧ w1.pc = .spin ∧ w1.local_val = mem.csr_val w.j) ∨
        (¬ w.j < csr.csr_diag_ind (csr.map idx) ∧ w1.pc = .tail)) := by
  simp only [wf_step, hpc] at h
  split at h <;> rename_i hlt <;> simp only [Option.some.injEq, Prod.mk.injEq] at h <;>
    obtain ⟨rfl, rfl⟩ := h
  · exact ⟨rfl, rfl, rfl, rfl, rfl, Or.inl ⟨hlt, rfl, rfl⟩⟩
  · exact ⟨rfl, rfl, rfl, rfl, rfl, Or.inr ⟨hlt, rfl⟩⟩

theorem wf_step_spin {T : Type} [Field T] [DecidableEq T] (K : KernelKind) (ops : ScalarOps T)
    (csr : CsrMatrix) (idx : Int) (mem mem1 : KState T) (w w1 : WfState T)
    (hpc : w.pc = .spin) (h : wf_step K ops csr idx mem w = some (mem1, w1)) :
    mem1 = mem ∧ w1.table = w.table ∧ w1.j = w.j ∧ w1.sum = w.sum ∧ w1.broke = w.broke ∧
      w1.local_val = w.local_val ∧
      ((mem.done (csr.csr_col_ind w.j - csr.idx_base) = 0 ∧ w1 = w) ∨
        (mem.done (csr.csr_col_ind w.j - csr.idx_base) ≠ 0 ∧ w1.pc = .load)) := by
  simp only [wf_step, hpc, atomicOr_zero, atomicOr_old] at h
  split at h <;> rename_i hd <;> simp only [Option.some.injEq, Prod.mk.injEq] at h <;>
    obtain ⟨rfl, rfl⟩ := h
  · exact ⟨rfl, rfl, rfl, rfl, rfl, rfl, Or.inl ⟨hd, rfl⟩⟩
  · exact ⟨rfl, rfl, rfl, rfl, rfl, rfl, Or.inr ⟨hd, rfl⟩⟩

theorem wf_step_load {T : Type} [Field T] [DecidableEq T] (K : KernelKind) (ops : ScalarOps T)
    (csr : CsrMatrix) (idx : Int) (mem mem1 : KState T) (w w1 : WfState T)
    (hpc : w.pc = .load) (h : wf_step K ops csr idx mem w = some (mem1, w1)) :
    mem1.csr_val = mem.csr_val ∧ mem1.done = mem.done ∧
      w1.table = w.table ∧ w1.j = w.j ∧ w1.sum = w.sum ∧ w1.local_val = w.local_val ∧
      ((mem.csr_val (local_diag_of csr (csr.csr_diag_ind (csr.map idx))
            (csr.csr_col_ind w.j - csr.idx_base)) = 0 ∧
          mem1.zero_pivot =
            min mem.zero_pivot (csr.csr_col_ind w.j - csr.idx_base + csr.idx_base) ∧
          w1.pc = .tail ∧ w1.broke = true) ∨
        (mem.csr_val (local_diag_of csr (csr.csr_diag_ind (csr.map idx))
            (csr.csr_col_ind w.j - csr.idx_base)) ≠ 0 ∧
          mem1.zero_pivot = mem.zero_pivot ∧ w1.pc = .lanes ∧ w1.broke = w.broke ∧
          w1.diag_val = 1 / mem.csr_val (local_diag_of csr (csr.csr_diag_ind (csr.map idx))
            (csr.csr_col_ind w.j - csr.idx_base)))) := by
  simp only [wf_step, hpc] at h
  split at h <;> rename_i hz <;> simp only [Option.some.injEq, Prod.mk.injEq] at h <;>
    obtain ⟨rfl, rfl⟩ := h
  · exact ⟨rfl, rfl, rfl, rfl, rfl, rfl, Or.inl ⟨hz, rfl, rfl, rfl⟩⟩
  · exact ⟨rfl, rfl, rfl, rfl, rfl, rfl, Or.inr ⟨hz, rfl, rfl, rfl, rfl⟩⟩

theorem wf_step_lanes {T : Type} [Field T] [DecidableEq T] (K : KernelKind) (ops : ScalarOps T)
    (csr : CsrMatrix) (idx : Int) (mem mem1 : KState T) (w w1 : WfState T)
    (hpc : w.pc = .lanes) (h : wf_step K ops csr idx mem w = some (mem1, w1)) :
    mem1 = mem ∧ w1.table = w.table ∧ w1.j = w.j ∧ w1.sum = w.sum ∧ w1.broke = w.broke ∧
      w1.local_val = w.local_val ∧ w1.diag_val = w.diag_val ∧ w1.pc = .store ∧
      kernel_lsum K ops csr (csr.csr_row_ptr (csr.map idx) - csr.idx_base)
        (csr.csr_row_ptr (csr.map idx + 1) - csr.idx_base) w.table mem.csr_val
        (csr.csr_row_ptr (csr.csr_col_ind w.j - csr.idx_base) - csr.idx_base)
        (local_diag_of csr (csr.csr_diag_ind (csr.map idx))
          (csr.csr_col_ind w.j - csr.idx_base)) = some w1.local_sum := by
  simp only [wf_step, hpc] at h
  split at h
  · exact absurd h (by simp)
  · next ls hls =>
    simp only [Option.some.injEq, Prod.mk.injEq] at h
    obtain ⟨rfl, rfl⟩ := h
    exact ⟨rfl, rfl, rfl, rfl, rfl, rfl, rfl, rfl, hls⟩

theorem wf_step_store {T : Type} [Field T] [DecidableEq T] (K : KernelKind) (ops : ScalarOps T)
    (csr : CsrMatrix) (idx : Int) (mem mem1 : KState T) (w w1 : WfState T)
    (hpc : w.pc = .store) (h : wf_step K ops csr idx mem w = some (mem1, w1)) :
    mem1.csr_val =
        Function.update mem.csr_val w.j ((w.local_val - w.local_sum) * w.diag_val) ∧
      mem1.done = mem.done ∧ mem1.zero_pivot = mem.zero_pivot ∧
      w1.table = w.table ∧ w1.j = w.j + 1 ∧ w1.broke = w.broke ∧ w1.pc = .head ∧
      w1.sum = rocsparse_fma ((w.local_val - w.local_sum) * w.diag_val)
        (ops.rocsparse_conj ((w.local_val - w.local_sum) * w.diag_val)) w.sum := by
  simp only [wf_step, hpc, Option.some.injEq, Prod.mk.injEq] at h
  obtain ⟨rfl, rfl⟩ := h
  exact ⟨rfl, rfl, rfl, rfl, rfl, rfl, rfl, rfl⟩

theorem wf_step_tail {T : Type} [Field T] [DecidableEq T] (K : KernelKind) (ops : ScalarOps T)
    (csr : CsrMatrix) (idx : Int) (mem mem1 : KState T) (w w1 : WfState T)
    (hpc : w.pc = .tail) (h : wf_step K ops csr idx mem w = some (mem1, w1)) :
    mem1.done = mem.done ∧ mem1.zero_pivot = mem.zero_pivot ∧
      w1.table = w.table ∧ w1.j = w.j ∧ w1.sum = w.sum ∧ w1.broke = w.broke ∧ w1.pc = .flag ∧
      ((csr.csr_diag_ind (csr.map idx) ≥ 0 ∧
          mem1.csr_val = Function.update mem.csr_val (csr.csr_diag_ind (csr.map idx))
            (ops.sqrt_abs (mem.csr_val (csr.csr_diag_ind (csr.map idx)) - w.sum))) ∨
        (¬ csr.csr_diag_ind (csr.map idx) ≥ 0 ∧ mem1.csr_val = mem.csr_val)) := by
  simp only [wf_step, hpc] at h
  split at h <;> rename_i hd <;> simp only [Option.some.injEq, Prod.mk.injEq] at h <;>
    obtain ⟨rfl, rfl⟩ := h
  · exact ⟨rfl, rfl, rfl, rfl, rfl, rfl, rfl, Or.inl ⟨hd, rfl⟩⟩
  · exact ⟨rfl, rfl, rfl, rfl, rfl, rfl, rfl, Or.inr ⟨hd, rfl⟩⟩

theorem wf_step_flag {T : Type} [Field T] [DecidableEq T] (K : KernelKind) (ops : ScalarOps T)
    (csr : CsrMatrix) (idx : Int) (mem mem1 : KState T) (w w1 : WfState T)
    (hpc : w.pc = .flag) (h : wf_step K ops csr idx mem w = some (mem1, w1)) :
    mem1.csr_val = mem.csr_val ∧ mem1.zero_pivot = mem.zero_pivot ∧
      mem1.done = Function.update mem.done (csr.map idx) (Int.lor (mem.done (csr.map idx)) 1) ∧
      w1.table = w.table ∧ w1.j = w.j ∧ w1.sum = w.sum ∧ w1.broke = w.broke ∧
      w1.pc = .finished := by
  simp only [wf_step, hpc, Option.some.injEq, Prod.mk.injEq] at h
  obtain ⟨rfl, rfl⟩ := h
  exact ⟨rfl, rfl, rfl, rfl, rfl, rfl, rfl, rfl⟩

theorem wf_step_finished {T : Type} [Field T] [DecidableEq T] (K : KernelKind)
    (ops : ScalarOps T) (csr : CsrMatrix) (idx : Int) (mem : KState T) (w : WfState T)
    (hpc : w.pc = .finished) : wf_step K ops csr idx mem w = none := by
  simp only [wf_step, hpc]

theorem par_step_done {T : Type} [Field T] [DecidableEq T] (K : KernelKind) (ops : ScalarOps T)
    (csr : CsrMatrix) (g : GState T) (idx : Int) :
    (par_step K ops csr g idx).mem.done = g.mem.done ∨
      (par_step K ops csr g idx).mem.done = (atomicOr g.mem.done (csr.map idx) 1).2 := by
  unfold par_step
  split
  · cases h : wf_step K ops csr idx g.mem (g.wf idx) with
    | none => exact Or.inl rfl
    | some x =>
      obtain ⟨mem1, w1⟩ := x
      rcases wf_step_done K ops csr idx _ _ _ _ h with ⟨h1, -⟩ | ⟨-, -, h1⟩
      · exact Or.inl h1
      · exact Or.inr h1
  · exact Or.inl rfl

theorem par_step_done_mono {T : Type} [Field T] [DecidableEq T] (K : KernelKind)
    (ops : ScalarOps T) (csr : CsrMatrix) (g : GState T) (idx c : Int)
    (h : g.mem.done c ≠ 0) : (par_step K ops csr g idx).mem.done c ≠ 0 := by
  rcases par_step_done K ops csr g idx with h1 | h1
  · rw [h1]; exact h
  · rw [h1]
    simp only [atomicOr]
    by_cases hc : c = csr.map idx
    · subst hc
      rw [Function.update_same]
      exact int_lor_one_ne_zero _
    · rw [Function.update_noteq hc]
      exact h

theorem par_run_done_mono {T : Type} [Field T] [DecidableEq T] (K : KernelKind)
    (ops : ScalarOps T) (csr : CsrMatrix) (sched : List Int) :
    ∀ (g : GState T) (c : Int), g.mem.done c ≠ 0 → (par_run K ops csr sched g).mem.done c ≠ 0 := by
  induction sched with
  | nil => intro g c h; exact h
  | cons idx rest ih =>
    intro g c h
    exact ih _ c (par_step_done_mono K ops csr g idx c h)

theorem par_step_pivot {T : Type} [Field T] [DecidableEq T] (K : KernelKind) (ops : ScalarOps T)
    (csr : CsrMatrix) (g : GState T) (idx : Int) :
    (par_step K ops csr g idx).mem.zero_pivot =
      (if 0 ≤ idx ∧ idx < csr.m then (wf_detect csr idx g.mem (g.wf idx)).toList else []).foldl
        min g.mem.zero_pivot := by
  unfold par_step
  split
  · cases h : wf_step K ops csr idx g.mem (g.wf idx) with
    | none =>
      have : wf_detect csr idx g.mem (g.wf idx) = none := by
        simp only [wf_detect]
        rw [if_neg]
        rintro ⟨hpc, -⟩
        simp only [wf_step, hpc] at h
        split at h <;> exact absurd h (by simp)
      simp [this]
    | some x =>
      obtain ⟨mem1, w1⟩ := x
      exact wf_step_pivot K ops csr idx _ _ _ _ h
  · rfl

theorem foldl_min_le (l : List Int) : ∀ x : Int, l.foldl min x ≤ x := by
  induction l with
  | nil => intro x; exact le_refl _
  | cons a rest ih =>
    intro x
    exact le_trans (ih _) (min_le_left _ _)


/-! ## A wavefront running alone: the steps add up to the kernel -/

theorem par_step_eq {T : Type} [Field T] [DecidableEq T] (K : KernelKind) (ops : ScalarOps T)
    (csr : CsrMatrix) (g : GState T) (idx : Int) (h0 : 0 ≤ idx) (hm : idx < csr.m)
    (mem1 : KState T) (w1 : WfState T)
    (h : wf_step K ops csr idx g.mem (g.wf idx) = some (mem1, w1)) :
    par_step K ops csr g idx = ⟨mem1, Function.update g.wf idx w1⟩ := by
  simp only [par_step, h0, hm, and_self, if_true, h]

/-- What a step of wavefront `idx` does to the state of the launch. -/
theorem par_step_some {T : Type} [Field T] [DecidableEq T] (K : KernelKind) (ops : ScalarOps T)
    (csr : CsrMatrix) (g : GState T) (idx : Int) (h0 : 0 ≤ idx) (hm : idx < csr.m)
    (mem1 : KState T) (w1 : WfState T)
    (h : wf_step K ops csr idx g.mem (g.wf idx) = some (mem1, w1)) :
    (par_step K ops csr g idx).mem = mem1 ∧ (par_step K ops csr g idx).wf idx = w1 ∧
      ∀ i, i ≠ idx → (par_step K ops csr g idx).wf i = g.wf i := by
  rw [par_step_eq K ops csr g idx h0 hm mem1 w1 h]
  exact ⟨rfl, Function.update_same _ _ _, fun i hi => Function.update_noteq hi _ _⟩

theorem par_step_none {T : Type} [Field T] [DecidableEq T] (K : KernelKind) (ops : ScalarOps T)
    (csr : CsrMatrix) (g : GState T) (idx : Int)
    (h : ¬ (0 ≤ idx ∧ idx < csr.m) ∨ wf_step K ops csr idx g.mem (g.wf idx) = none) :
    par_step K ops csr g idx = g := by
  unfold par_step
  rcases h with h | h
  · rw [if_neg h]
  · split
    · rw [h]
    · rfl

/-- A wavefront that has left its loop through `break` stays so. -/
theorem wf_step_broke {T : Type} [Field T] [DecidableEq T] (K : KernelKind) (ops : ScalarOps T)
    (csr : CsrMatrix) (idx : Int) (mem mem1 : KState T) (w w1 : WfState T)
    (h : wf_step K ops csr idx mem w = some (mem1, w1)) (hb : w.broke = true) :
    w1.broke = true := by
  cases hpc : w.pc
  · rw [(wf_step_start K ops csr idx _ _ _ _ hpc h).2.2.2.2.1, hb]
  · rw [(wf_step_head K ops csr idx _ _ _ _ hpc h).2.2.2.2.1, hb]
  · rw [(wf_step_spin K ops csr idx _ _ _ _ hpc h).2.2.2.2.1, hb]
  · rcases (wf_step_load K ops csr idx _ _ _ _ hpc h).2.2.2.2.2.2 with ⟨-, -, -, h1⟩ |
      ⟨-, -, -, h1, -⟩
    · exact h1
    · rw [h1, hb]
  · rw [(wf_step_lanes K ops csr idx _ _ _ _ hpc h).2.2.2.2.1, hb]
  · rw [(wf_step_store K ops csr idx _ _ _ _ hpc h).2.2.2.2.2.1, hb]
  · rw [(wf_step_tail K ops csr idx _ _ _ _ hpc h).2.2.2.2.2.1, hb]
  · rw [(wf_step_flag K ops csr idx _ _ _ _ hpc h).2.2.2.2.2.2.1, hb]
  · rw [wf_step_finished K ops csr idx mem w hpc] at h
    exact absurd h (by simp)

theorem cycInv_step {T : Type} [Field T] [DecidableEq T] (K : KernelKind) (ops : ScalarOps T)
    (csr : CsrMatrix) (cyc : Int → Prop) (edge : Int → Int)
    (hcyc : ∀ r, cyc r → row_begin csr r ≤ edge r ∧ edge r < csr.csr_diag_ind r ∧
      cyc (dep csr (edge r)))
    (g : GState T) (idx0 : Int) (inv : CycInv csr cyc edge g) :
    CycInv csr cyc edge (par_step K ops csr g idx0) := by
  by_cases hr : 0 ≤ idx0 ∧ idx0 < csr.m
  swap
  · rw [par_step_none K ops csr g idx0 (Or.inl hr)]
    exact inv
  cases hs : wf_step K ops csr idx0 g.mem (g.wf idx0) with
  | none =>
    rw [par_step_none K ops csr g idx0 (Or.inr hs)]
    exact inv
  | some x =>
    obtain ⟨mem1, w1⟩ := x
    obtain ⟨a1, a2, a3⟩ := par_step_some K ops csr g idx0 hr.1 hr.2 mem1 w1 hs
    rcases inv with ⟨idx, i0, im, ic, ib⟩ | ⟨hdone, hwf⟩
    · left
      refine ⟨idx, i0, im, ic, ?_⟩
      by_cases he : idx = idx0
      · subst he
        rw [a2]
        exact wf_step_broke K ops csr idx _ _ _ _ hs ib
      · rw [a3 idx he]
        exact ib
    · by_cases hc : cyc (csr.map idx0)
      · -- a wavefront of the cycle moves
        obtain ⟨e1, e2, e3⟩ := hcyc _ hc
        have hd : mem1.done = g.mem.done ∨ (g.wf idx0).pc = .flag := by
          rcases wf_step_done K ops csr idx0 _ _ _ _ hs with ⟨h1, -⟩ | ⟨h1, -⟩
          · exact Or.inl h1
          · exact Or.inr h1
        have others : ∀ idx, 0 ≤ idx → idx < csr.m → cyc (csr.map idx) → idx ≠ idx0 →
            ((par_step K ops csr g idx0).wf idx).pc = .start ∨
            ((((par_step K ops csr g idx0).wf idx).pc = .head ∨
                ((par_step K ops csr g idx0).wf idx).pc = .spin) ∧
              ((par_step K ops csr g idx0).wf idx).j ≤ edge (csr.map idx)) ∨
            ((((par_step K ops csr g idx0).wf idx).pc = .load ∨
                ((par_step K ops csr g idx0).wf idx).pc = .lanes ∨
                ((par_step K ops csr g idx0).wf idx).pc = .store) ∧
              ((par_step K ops csr g idx0).wf idx).j < edge (csr.map idx)) := by
          intro idx i0 im ic he
          rw [a3 idx he]
          exact hwf idx i0 im ic
        have fin : ∀ (hdn : mem1.done = g.mem.done)
            (hme : w1.pc = .start ∨
              ((w1.pc = .head ∨ w1.pc = .spin) ∧ w1.j ≤ edge (csr.map idx0)) ∨
              ((w1.pc = .load ∨ w1.pc = .lanes ∨ w1.pc = .store) ∧
                w1.j < edge (csr.map idx0))),
            CycInv csr cyc edge (par_step K ops csr g idx0) := by
          intro hdn hme
          right
          refine ⟨fun r hr => by rw [a1, hdn]; exact hdone r hr, fun idx i0 im ic => ?_⟩
          by_cases he : idx = idx0
          · subst he
            rw [a2]
            exact hme
          · exact others idx i0 im ic he
        rcases hwf idx0 hr.1 hr.2 hc with hpc | ⟨hpc | hpc, hj⟩ | ⟨hpc | hpc | hpc, hj⟩
        · obtain ⟨b1, b2, b3, -⟩ := wf_step_start K ops csr idx0 _ _ _ _ hpc hs
          exact fin (by rw [b1]) (Or.inr (Or.inl ⟨Or.inl b2, by rw [b3]; exact e1⟩))
        · obtain ⟨b1, -, b3, -, -, b6⟩ := wf_step_head K ops csr idx0 _ _ _ _ hpc hs
          rcases b6 with ⟨-, b7, -⟩ | ⟨b7, -⟩
          · exact fin (by rw [b1]) (Or.inr (Or.inl ⟨Or.inr b7, by rw [b3]; exact hj⟩))
          · exact absurd (lt_of_le_of_lt hj e2) b7
        · obtain ⟨b1, -, b3, -, -, -, b7⟩ := wf_step_spin K ops csr idx0 _ _ _ _ hpc hs
          rcases b7 with ⟨-, b8⟩ | ⟨b8, b9⟩
          · exact fin (by rw [b1]) (Or.inr (Or.inl ⟨Or.inr (by rw [b8]; exact hpc),
              by rw [b3]; exact hj⟩))
          · have hne : (g.wf idx0).j ≠ edge (csr.map idx0) := by
              intro he
              rw [he] at b8
              exact b8 (hdone _ e3)
            exact fin (by rw [b1]) (Or.inr (Or.inr ⟨Or.inl b9, by
              rw [b3]; exact lt_of_le_of_ne hj hne⟩))
        · obtain ⟨-, b2, -, b4, -, -, b7⟩ := wf_step_load K ops csr idx0 _ _ _ _ hpc hs
          rcases b7 with ⟨-, -, -, b8⟩ | ⟨-, -, b8, -⟩
          · left
            exact ⟨idx0, hr.1, hr.2, hc, by rw [a2]; exact b8⟩
          · exact fin b2 (Or.inr (Or.inr ⟨Or.inr (Or.inl b8), by rw [b4]; exact hj⟩))
        · obtain ⟨b1, -, b3, -, -, -, -, b8, -⟩ := wf_step_lanes K ops csr idx0 _ _ _ _ hpc hs
          exact fin (by rw [b1]) (Or.inr (Or.inr ⟨Or.inr (Or.inr b8), by rw [b3]; exact hj⟩))
        · obtain ⟨-, b2, -, -, b5, -, b7, -⟩ := wf_step_store K ops csr idx0 _ _ _ _ hpc hs
          exact fin b2 (Or.inr (Or.inl ⟨Or.inl b7, by rw [b5]; omega⟩))
      · -- a wavefront of another row moves
        right
        constructor
        · intro r hr2
          rw [a1]
          rcases wf_step_done K ops csr idx0 _ _ _ _ hs with ⟨h1, -⟩ | ⟨-, -, h1⟩
          · rw [h1]; exact hdone r hr2
          · rw [h1, Function.update_noteq (fun e : r = csr.map idx0 => hc (e ▸ hr2))]
            exact hdone r hr2
        · intro idx i0 im ic
          have he : idx ≠ idx0 := fun e : idx = idx0 => hc (e ▸ ic)
          rw [a3 idx he]
          exact hwf idx i0 im ic

theorem cycInv_run {T : Type} [Field T] [DecidableEq T] (K : KernelKind) (ops : ScalarOps T)
    (csr : CsrMatrix) (cyc : Int → Prop) (edge : Int → Int)
    (hcyc : ∀ r, cyc r → row_begin csr r ≤ edge r ∧ edge r < csr.csr_diag_ind r ∧
      cyc (dep csr (edge r)))
    (sched : List Int) :
    ∀ g : GState T, CycInv csr cyc edge g → CycInv csr cyc edge (par_run K ops csr sched g) := by
  induction sched with
  | nil => intro g h; exact h
  | cons a rest ih =>
    intro g h
    exact ih _ (cycInv_step K ops csr cyc edge hcyc g a h)


/-! ## The table and the `local_sum` of either kernel -/

/-- Under the launch conditions the set-up of a wavefront returns. -/
theorem kernel_fill_some (K : KernelKind) {csr : CsrMatrix} (hwf : WellFormed csr)
    (hl : LaunchOK K csr) (r : Int) (hr0 : 0 ≤ r) (hrm : r < csr.m) :
    ∃ t, kernel_fill K csr (csr.csr_row_ptr r - csr.idx_base)
      (csr.csr_row_ptr (r + 1) - csr.idx_base) = some t := by
  cases K with
  | binsearch W => exact ⟨_, rfl⟩
  | hash W H =>
    obtain ⟨hW, ⟨e, hS⟩, hfit⟩ := hl
    have hlen := hfit r hr0 hrm
    have hmono := hwf.ptr_mono r hr0 hrm
    obtain ⟨t, ht, -⟩ := hash_fill_inv e csr (row_begin csr r)
      (row_end csr r - row_begin csr r).toNat 0 _ (tableInv_init (2 ^ e) csr _)
      (fun q h1 h2 => hwf.col_ne_neg r hr0 hrm q (by simpa using h1) (by
        have : ((row_end csr r - row_begin csr r).toNat : Int) =
          row_end csr r - row_begin csr r :=
            Int.toNat_of_nonneg (by simp only [row_end, row_begin]; omega)
        simp only [Nat.cast_zero, add_zero] at h2
        omega))
      (by
        have : ((row_end csr r - row_begin csr r).toNat : Int) < ((W * H : Nat) : Int) := by
          rw [Int.toNat_of_nonneg (by simp only [row_end, row_begin]; omega)]
          exact hlen
        rw [← hS]
        have h2 : (row_end csr r - row_begin csr r).toNat < W * H := by exact_mod_cast this
        omega)
    simp only [Nat.cast_zero, add_zero] at ht
    refine ⟨t, ?_⟩
    simp only [kernel_fill, hS]
    exact ht

/-- C11: in every step of either kernel (any wavefront `idx`, any state `g` of
the launch) a `done` flag that is set stays set, and no flag other than
`done[map[idx]]`, the flag of the wavefront's own row, changes: the flags are
left as they are or are the result of `atomicOr(&done[row], 1)`; the polling
`atomicOr(&done[c], 0)` stores the value it finds.  Hence a flag that is set
stays set through every parallel execution. -/
theorem csric0_done_flags {T : Type} [Field T] [DecidableEq T] (K : KernelKind)
    (ops : ScalarOps T) (csr : CsrMatrix) (g : GState T) (idx : Int) :
    (∀ c, g.mem.done c ≠ 0 → (par_step K ops csr g idx).mem.done c ≠ 0) ∧
      (∀ c, c ≠ csr.map idx → (par_step K ops csr g idx).mem.done c = g.mem.done c) ∧
      ((par_step K ops csr g idx).mem.done = g.mem.done ∨
        (par_step K ops csr g idx).mem.done = (atomicOr g.mem.done (csr.map idx) 1).2) ∧
      (∀ c, (atomicOr g.mem.done c 0).2 = g.mem.done) ∧
      (∀ sched c, g.mem.done c ≠ 0 → (par_run K ops csr sched g).mem.done c ≠ 0) := by
  refine ⟨fun c h => par_step_done_mono K ops csr g idx c h, fun c hc => ?_,
    par_step_done K ops csr g idx, fun c => atomicOr_zero _ c,
    fun sched c h => par_run_done_mono K ops csr sched g c h⟩
  rcases par_step_done K ops csr g idx with h1 | h1
  · rw [h1]
  · rw [h1]
    simp only [atomicOr]
    rw [Function.update_noteq hc]

/-- C12: across every step of either kernel `zero_pivot` does not increase, and
after a parallel execution (any schedule, complete or not) it is the minimum
of its initial value and of the values `c + idx_base` of the zero-diagonal
detections made during the execution. -/
theorem csric0_pivot_monotone {T : Type} [Field T] [DecidableEq T] (K : KernelKind)
    (ops : ScalarOps T) (csr : CsrMatrix) :
    (∀ (g : GState T) (idx : Int),
        (par_step K ops csr g idx).mem.zero_pivot ≤ g.mem.zero_pivot) ∧
      (∀ (sched : List Int) (g : GState T),
        (par_run K ops csr sched g).mem.zero_pivot =
          (detections K ops csr sched g).foldl min g.mem.zero_pivot) := by
  constructor
  · intro g idx
    rw [par_step_pivot]
    exact foldl_min_le _ _
  · intro sched
    induction sched with
    | nil => intro g; rfl
    | cons idx rest ih =>
      intro g
      simp only [par_run, detections, List.foldl_append]
      rw [ih, par_step_pivot]


theorem cyc3_wf : WellFormed cyc3 :=
  ⟨by decide, by decide, by decide, by decide, by decide, by decide⟩

theorem cyc3_launch : LaunchOK (.hash 64 1) cyc3 :=
  ⟨by decide, ⟨6, by decide⟩, by unfold RowsFit; decide⟩

/-- On `cyc3` with a zero in `(0,0)`: wavefront 0 runs to its end, then
wavefront 1 meets the zero diagonal of row 0 at its first position, leaves its
loop and sets `done[1]`, for either kernel. -/
theorem cyc3_run (K : KernelKind) (hl : LaunchOK K cyc3) :
    (par_run K (⟨id, fun x => Real.sqrt |x|⟩ : ScalarOps ℝ) cyc3
      [0, 0, 0, 0, 1, 1, 1, 1, 1, 1]
      (g_init ⟨of_list [0, 1, 1, 4, 1, 4] 0, fun _ => 0, 2147483647⟩)).mem.done 1 ≠ 0 := by
  have c0 : cyc3.map 0 = 0 := rfl
  have c1 : cyc3.map 1 = 1 := rfl
  have cm : cyc3.m = 3 := rfl
  have cb : cyc3.idx_base = 0 := rfl
  have d0 : cyc3.csr_diag_ind 0 = 0 := by decide
  have d1 : cyc3.csr_diag_ind 1 = 3 := by decide
  have p0 : cyc3.csr_row_ptr 0 = 0 := by decide
  have p1 : cyc3.csr_row_ptr 1 = 1 := by decide
  have p2 : cyc3.csr_row_ptr 2 = 4 := by decide
  have k1 : cyc3.csr_col_ind 1 = 0 := by decide
  have l01 : Int.lor 0 1 = 1 := by decide
  have v0 : (of_list [0, 1, 1, 4, 1, 4] (0 : ℝ)) 0 = 0 := by simp [of_list]
  obtain ⟨t0, f0⟩ := kernel_fill_some K cyc3_wf hl 0 (by decide) (by decide)
  obtain ⟨t1, f1⟩ := kernel_fill_some K cyc3_wf hl 1 (by decide) (by decide)
  simp only [p0, p1, p2, cb, sub_zero, zero_add, Int.reduceAdd] at f0 f1
  simp only [par_run, par_step, g_init, wf_step, f0, f1, c0, c1, cm, cb, d0, d1, p0, p1, p2, k1,
    Function.update_same, sub_zero, le_refl, Int.reduceLT, Int.reduceLE, and_self, if_true,
    lt_self_iff_false, if_false, ge_iff_le, v0, abs_zero, Real.sqrt_zero, atomicOr, atomicMin,
    local_diag_of, Int.reduceNeg, Int.reduceEq, ne_eq, one_ne_zero, not_false_eq_true,
    Function.update_noteq, zero_ne_one, reduceCtorEq, zero_add, add_zero, int_lor_zero, l01,
    Function.update_idem, min_self, Int.reduceAdd]

/-- C14, counterexample: in `cyc3` row 1 depends on row 2 (position 2, before
its diagonal at position 3) and row 2 depends on row 1 (position 4), so rows 1
and 2 lie on a cycle; with a zero in `(0,0)` the execution in which wavefront 0
runs to its end and then wavefront 1 makes six steps reaches a state with
`done[1]` set, for the binary-search kernel and for the hash kernel: wavefront
1 meets the zero diagonal of row 0 before it waits for row 2. -/
theorem csric0_cycle_row_completes :
    (row_begin cyc3 1 ≤ 2 ∧ 2 < cyc3.csr_diag_ind 1 ∧ dep cyc3 2 = 2) ∧
      (row_begin cyc3 2 ≤ 4 ∧ 4 < cyc3.csr_diag_ind 2 ∧ dep cyc3 4 = 1) ∧
      (par_run (.binsearch 64) (⟨id, fun x => Real.sqrt |x|⟩ : ScalarOps ℝ) cyc3
        [0, 0, 0, 0, 1, 1, 1, 1, 1, 1]
        (g_init ⟨of_list [0, 1, 1, 4, 1, 4] 0, fun _ => 0, 2147483647⟩)).mem.done 1 ≠ 0 ∧
      (par_run (.hash 64 1) (⟨id, fun x => Real.sqrt |x|⟩ : ScalarOps ℝ) cyc3
        [0, 0, 0, 0, 1, 1, 1, 1, 1, 1]
        (g_init ⟨of_list [0, 1, 1, 4, 1, 4] 0, fun _ => 0, 2147483647⟩)).mem.done 1 ≠ 0 :=
  ⟨by decide, by decide, cyc3_run (.binsearch 64) (by show 1 ≤ 64; decide), cyc3_run (.hash 64 1) cyc3_launch⟩

/-- C14, amended: let every row `r` of a set `cyc` of rows depend on a row of
`cyc` (at position `edge r`, before the diagonal position of `r`), as the rows
of a cycle of the dependency graph do, and let their flags be unset at launch.
Then in every state a parallel execution of either kernel reaches, either a
wavefront of a row of `cyc` has left its loop through the `break` of a zero
diagonal, or no row of `cyc` has its `done` flag set. -/
theorem csric0_cycle_never_done {T : Type} [Field T] [DecidableEq T] (K : KernelKind)
    (ops : ScalarOps T) (csr : CsrMatrix) (cyc : Int → Prop) (edge : Int → Int) (s0 : KState T)
    (hcyc : ∀ r, cyc r → row_begin csr r ≤ edge r ∧ edge r < csr.csr_diag_ind r ∧
      cyc (dep csr (edge r)))
    (hd0 : ∀ r, cyc r → s0.done r = 0) (sched : List Int) :
    (∃ idx, 0 ≤ idx ∧ idx < csr.m ∧ cyc (csr.map idx) ∧
        ((par_run K ops csr sched (g_init s0)).wf idx).broke = true) ∨
      ∀ r, cyc r → (par_run K ops csr sched (g_init s0)).mem.done r = 0 := by
  have h0 : CycInv csr cyc edge (g_init s0) :=
    Or.inr ⟨hd0, fun idx _ _ _ => Or.inl rfl⟩
  rcases cycInv_run K ops csr cyc edge hcyc sched _ h0 with h | ⟨h, -⟩
  · exact Or.inl h
  · exact Or.inr h

/-- C14, amended, at `cyc3` with the rows 1 and 2, which wait for each other,
and the schedule in which the wavefronts 0, 1 and 2 move in turn, four times:
one of the two wavefronts has left its loop through `break` or neither row is
done. -/
theorem csric0_cycle_never_done_witness :
    (∃ idx, 0 ≤ idx ∧ idx < cyc3.m ∧ (cyc3.map idx = 1 ∨ cyc3.map idx = 2) ∧
        ((par_run (.binsearch 64) (⟨id, fun x => Real.sqrt |x|⟩ : ScalarOps ℝ) cyc3
          [0, 1, 2, 0, 1, 2, 0, 1, 2, 0, 1, 2]
          (g_init ⟨of_list [4, 1, 1, 4, 1, 4] 0, fun _ => 0, 2147483647⟩)).wf idx).broke =
            true) ∨
      ∀ r, r = 1 ∨ r = 2 →
        (par_run (.binsearch 64) (⟨id, fun x => Real.sqrt |x|⟩ : ScalarOps ℝ) cyc3
          [0, 1, 2, 0, 1, 2, 0, 1, 2, 0, 1, 2]
          (g_init ⟨of_list [4, 1, 1, 4, 1, 4] 0, fun _ => 0, 2147483647⟩)).mem.done r = 0 :=
  csric0_cycle_never_done (.binsearch 64) ⟨id, fun x => Real.sqrt |x|⟩ cyc3
    (fun r => r = 1 ∨ r = 2) (fun r => if r = 1 then 2 else 4)
    ⟨of_list [4, 1, 1, 4, 1, 4] 0, fun _ => 0, 2147483647⟩
    (by
      rintro r (rfl | rfl)
      · exact ⟨by decide, by decide, by decide⟩
      · exact ⟨by decide, by decide, by decide⟩)
    (fun _ _ => rfl) [0, 1, 2, 0, 1, 2, 0, 1, 2, 0, 1, 2]


end Csric0

namespace Coomm

open rocsparse_status rocsparse_operation rocsparse_order rocsparse_pointer_mode

/-- C15, counterexample: two calls of `coomm_impl` with a non-empty result and
a null `dense_C` that do not return `rocsparse_status_invalid_pointer`.  With
`m = n = k = 1`, `alpha = 0` and `beta = 1` in host pointer mode the call is a
quick return with `rocsparse_status_success`.  With `m = 0`, `A` transposed
and `k = n = 1` the result has `k * n = 1` entry, and the call launches
`scale_array_2d` on the null `dense_C` and returns `rocsparse_status_success`:
`coomm_quickreturn` rejects a null `dense_C` only when `beta_device_host` is
null too, which `coomm_checkarg` has excluded before. -/
theorem coomm_null_C_accepted :
    (no_op_call.trans_A = rocsparse_operation_none ∧ no_op_call.m * no_op_call.n > 0 ∧
        no_op_call.dense_C = false ∧
        coomm_impl true rocsparse_status_success no_op_call = (rocsparse_status_success, [])) ∧
      (zero_dim_call.trans_A ≠ rocsparse_operation_none ∧
        zero_dim_call.k * zero_dim_call.n > 0 ∧ zero_dim_call.dense_C = false ∧
        coomm_impl true rocsparse_status_success zero_dim_call =
          (rocsparse_status_success, [Launch.scale_array_2d])) := by
  refine ⟨⟨rfl, by decide, rfl, ?_⟩, ⟨by decide, by decide, rfl, ?_⟩⟩
  · simp [coomm_impl, coomm_checkarg, coomm_quickreturn, no_op_call]
  · simp [coomm_impl, coomm_checkarg, coomm_quickreturn, zero_dim_call, to_rocsparse_int,
      launch_status]

/-- C15, amended: a call of `coomm_impl` that passes the checks made before the
quick return (valid handle and enumeration values, `order_C = order_B`,
non-negative sizes, a general sorted descriptor, non-null `alpha` and `beta`),
with `m`, `n` and `k` all non-zero, that is not the quick return of host
pointer mode with `alpha = 0` and `beta = 1`, and with a null `dense_C`, returns
`rocsparse_status_invalid_pointer` and launches no kernel. -/
theorem coomm_null_C_rejected {T : Type} [Field T] [DecidableEq T] (launch_ok : Bool)
    (core : rocsparse_status) (a : CoommArgs T) (pm : rocsparse_pointer_mode) (d : MatDescr)
    (hh : a.handle = some pm) (hA : a.trans_A ≠ rocsparse_operation_other)
    (hB : a.trans_B ≠ rocsparse_operation_other) (hoB : a.order_B ≠ rocsparse_order_other)
    (ho : a.order_C = a.order_B)
    (halg : a.alg_valid = true) (hm0 : 0 ≤ a.m) (hn0 : 0 ≤ a.n) (hk0 : 0 ≤ a.k)
    (hz0 : 0 ≤ a.nnz) (hd : a.descr = some d) (hd1 : d.type_general = true)
    (hd2 : d.storage_sorted = true) (ha : a.alpha_device_host ≠ none)
    (hb : a.beta_device_host ≠ none) (hm : a.m ≠ 0) (hn : a.n ≠ 0) (hk : a.k ≠ 0)
    (hq : ¬ (pm = rocsparse_pointer_mode_host ∧ a.alpha_device_host = some 0 ∧
      a.beta_device_host = some 1))
    (hC : a.dense_C = false) :
    coomm_impl launch_ok core a = (rocsparse_status_invalid_pointer, []) := by
  have hquick : coomm_quickreturn launch_ok pm a = (rocsparse_status_continue, []) := by
    simp only [coomm_quickreturn, hm, hn, hk, or_self, if_false, if_neg hq]
  have hlate : coomm_checkarg_late a = rocsparse_status_invalid_pointer := by
    simp only [coomm_checkarg_late, hC]
    split_ifs <;> rfl
  simp only [coomm_impl, coomm_checkarg, hh, if_neg hA, if_neg hB, if_neg hoB, ho,
    ne_eq, not_true_eq_false, if_false, halg, Bool.true_eq_false, not_lt.mpr hm0,
    not_lt.mpr hn0, not_lt.mpr hk0, not_lt.mpr hz0, hd, hd1, hd2, if_neg ha, if_neg hb, hquick,
    hlate, reduceCtorEq, not_false_eq_true, if_true]

/-- C15, amended, at a call with `m = n = k = 2`, `alpha = 1`, `beta = 0`. -/
theorem coomm_null_C_rejected_witness :
    coomm_impl true rocsparse_status_success null_C_call =
      (rocsparse_status_invalid_pointer, []) :=
  coomm_null_C_rejected true rocsparse_status_success null_C_call rocsparse_pointer_mode_host
    ⟨true, true⟩ rfl (by decide) (by decide) (by decide) rfl rfl (by decide)
    (by decide) (by decide) (by decide) rfl rfl rfl (by simp [null_C_call])
    (by simp [null_C_call]) (by decide) (by decide) (by decide) (by simp [null_C_call]) rfl

end Coomm

namespace Spitsv

open Coomm

/-- C16: for a matrix of dimension `M = N = 0` (whatever `nnz`, so also `nnz = 0`), each of the three
stages of `rocsparse_spitsv` (buffer size, preprocess, compute) returns
`rocsparse_status_success`, whatever the index base, the operation, the fill
mode and the diagonal type; these are the three statuses the test
`testing_spitsv_csr` expects in its branch `M == 0 && M == N`. -/
theorem spitsv_zero_dimension
    (solve : rocsparse_spitsv_stage → SpitsvArgs → rocsparse_status)
    (stage : rocsparse_spitsv_stage) (a : SpitsvArgs) (hM : a.M = 0) (hN : a.N = 0) :
    rocsparse_spitsv solve stage a = rocsparse_status.rocsparse_status_success ∧
      (testing_spitsv_csr_degenerate (rocsparse_spitsv solve) a.M a.N a.base a.trans
        a.uplo_lower a.diag_unit).length = 3 ∧
      ∀ p ∈ testing_spitsv_csr_degenerate (rocsparse_spitsv solve) a.M a.N a.base a.trans
        a.uplo_lower a.diag_unit, p.1 = p.2 := by
  have h0 : ∀ st (b : SpitsvArgs), b.M = 0 → b.N = 0 →
      rocsparse_spitsv solve st b = rocsparse_status.rocsparse_status_success := by
    intro st b h1 h2
    simp only [rocsparse_spitsv, h1, h2, and_self, if_true]
  refine ⟨h0 stage a hM hN, ?_, ?_⟩
  · simp [testing_spitsv_csr_degenerate, hM, hN]
  · intro p hp
    simp only [testing_spitsv_csr_degenerate, hM, hN, le_refl, and_self, if_true,
      List.mem_cons, List.mem_singleton, List.not_mem_nil, or_false] at hp
    rcases hp with rfl | rfl | rfl
    · exact h0 .rocsparse_spitsv_stage_buffer_size
        ⟨0, 0, 0, a.base, a.trans, a.uplo_lower, a.diag_unit⟩ rfl rfl
    · exact h0 .rocsparse_spitsv_stage_preprocess
        ⟨0, 0, 0, a.base, a.trans, a.uplo_lower, a.diag_unit⟩ rfl rfl
    · exact h0 .rocsparse_spitsv_stage_compute
        ⟨0, 0, 0, a.base, a.trans, a.uplo_lower, a.diag_unit⟩ rfl rfl

/-- C16 at the compute stage, index base 1, transposed operation, upper fill
mode, unit diagonal, with a solver that would fail on every other input. -/
theorem spitsv_zero_dimension_witness :
    rocsparse_spitsv (fun _ _ => rocsparse_status.rocsparse_status_internal_error)
        .rocsparse_spitsv_stage_compute
        ⟨0, 0, 0, 1, rocsparse_operation.rocsparse_operation_transpose, false, true⟩ =
      rocsparse_status.rocsparse_status_success :=
  (spitsv_zero_dimension (fun _ _ => rocsparse_status.rocsparse_status_internal_error)
    .rocsparse_spitsv_stage_compute
    ⟨0, 0, 0, 1, rocsparse_operation.rocsparse_operation_transpose, false, true⟩ rfl rfl).1

end Spitsv

namespace Csric0

/-! ## The values one wavefront stores -/

/-- The binary search over a strictly ascending row ends at the first position
whose column is not below `col_k` (or at the last position of the row), from
any valid lower bound `l`, and with any fuel of at least `r - l`. -/
theorem binsearch_loop_bound (csr : CsrMatrix) (col_k : Int) (rb re : Int)
    (hs : ∀ p, rb ≤ p → p + 1 < re → csr.csr_col_ind p < csr.csr_col_ind (p + 1))
    (fuel : Nat) : ∀ (l r : Int), rb ≤ l → l ≤ r → r < re → r - l ≤ fuel →
      (∀ p, rb ≤ p → p < l → csr.csr_col_ind p < col_k) →
      (r < re - 1 → col_k ≤ csr.csr_col_ind r) →
      ∃ m, binsearch_loop csr col_k fuel l r ((r + l) >>> (1 : Nat)) = (m, m) ∧ l ≤ m ∧ m ≤ r ∧
        (∀ p, rb ≤ p → p < m → csr.csr_col_ind p < col_k) ∧
        (m < re - 1 → col_k ≤ csr.csr_col_ind m) := by
  induction fuel with
  | zero =>
    intro l r hl hlr hr hf hlow hup
    have hrl : r = l := by push_cast at hf; omega
    subst hrl
    refine ⟨r, ?_, le_refl _, le_refl _, hlow, hup⟩
    simp only [binsearch_loop, shiftRight_one]
    congr 1
    omega
  | succ n ih =>
    intro l r hl hlr hr hf hlow hup
    simp only [binsearch_loop, shiftRight_one]
    by_cases hlt : l < r
    · rw [if_pos hlt]
      have hm1 : l ≤ (r + l) / 2 := by omega
      have hm2 : (r + l) / 2 < r := by omega
      by_cases hc : csr.csr_col_ind ((r + l) / 2) < col_k
      · rw [if_pos hc]
        obtain ⟨m, h1, h2, h3, h4, h5⟩ := ih ((r + l) / 2 + 1) r (by omega) (by omega) hr
          (by push_cast at hf ⊢; omega)
          (fun p hp1 hp2 => by
            rcases lt_or_eq_of_le (show p ≤ (r + l) / 2 by omega) with h | h
            · have := sorted_pos_lt csr rb re hs p ((r + l) / 2) hp1 h (by omega)
              omega
            · rw [h]; exact hc)
          hup
        rw [shiftRight_one] at h1
        exact ⟨m, h1, by omega, h3, h4, h5⟩
      · rw [if_neg hc]
        obtain ⟨m, h1, h2, h3, h4, h5⟩ := ih l ((r + l) / 2) hl hm1 (by omega)
          (by push_cast at hf ⊢; omega) hlow (fun _ => by omega)
        rw [shiftRight_one] at h1
        exact ⟨m, h1, h2, by omega, h4, h5⟩
    · rw [if_neg hlt]
      have hrl : r = l := by omega
      subst hrl
      refine ⟨r, ?_, le_refl _, le_refl _, hlow, hup⟩
      congr 1
      omega

/-- The position a search over a strictly ascending row ends at is fixed by
the row and the column searched. -/
theorem lower_bound_unique (csr : CsrMatrix) (col_k rb re m1 m2 : Int)
    (h1 : m1 < re) (h2 : m2 < re)
    (a1 : ∀ p, rb ≤ p → p < m1 → csr.csr_col_ind p < col_k)
    (b1 : m1 < re - 1 → col_k ≤ csr.csr_col_ind m1)
    (a2 : ∀ p, rb ≤ p → p < m2 → csr.csr_col_ind p < col_k)
    (b2 : m2 < re - 1 → col_k ≤ csr.csr_col_ind m2)
    (l1 : rb ≤ m1) (l2 : rb ≤ m2) : m1 = m2 := by
  rcases lt_trichotomy m1 m2 with h | h | h
  · have := a2 m1 l1 h
    have := b1 (by omega)
    omega
  · exact h
  · have := a1 m2 l2 h
    have := b2 (by omega)
    omega

/-- A match at the end of a search over a strictly ascending row means that the
column occurs in the row, and the other way round. -/
theorem lower_bound_match (csr : CsrMatrix) (col_k rb re m : Int)
    (hs : ∀ p, rb ≤ p → p + 1 < re → csr.csr_col_ind p < csr.csr_col_ind (p + 1))
    (l1 : rb ≤ m) (h1 : m < re)
    (a1 : ∀ p, rb ≤ p → p < m → csr.csr_col_ind p < col_k)
    (b1 : m < re - 1 → col_k ≤ csr.csr_col_ind m) :
    csr.csr_col_ind m = col_k ↔ ∃ p, rb ≤ p ∧ p < re ∧ csr.csr_col_ind p = col_k := by
  constructor
  · intro h
    exact ⟨m, l1, h1, h⟩
  · rintro ⟨p, hp1, hp2, hp3⟩
    rcases lt_trichotomy p m with h | h | h
    · have := a1 p hp1 h
      omega
    · rw [← h]; exact hp3
    · have h3 := b1 (by omega)
      have h4 := sorted_pos_lt csr rb re hs m p l1 h hp2
      omega

/-- What every search of a lane ends with, on a strictly ascending row `r`
(positions `rb` to `re`) and a strictly ascending range `lb` to `ld` of the
dependency row. -/
theorem lane_searches_spec (W : Nat) (hW : 1 ≤ W) (csr : CsrMatrix) (rb re lb ld : Int)
    (hs : ∀ p, rb ≤ p → p + 1 < re → csr.csr_col_ind p < csr.csr_col_ind (p + 1))
    (hs2 : ∀ p q, lb ≤ p → p < q → q < ld → csr.csr_col_ind p < csr.csr_col_ind q)
    (fuel : Nat) : ∀ (k l : Int), lb ≤ k → rb ≤ l → l < re →
      (k < ld → ∀ p, rb ≤ p → p < l → csr.csr_col_ind p < csr.csr_col_ind k) →
      ∀ x ∈ binsearch_lane_searches W csr re ld fuel k l,
        lb ≤ x.1 ∧ x.1 < ld ∧ rb ≤ x.2.1 ∧ x.2.1 ≤ x.2.2.2 ∧ x.2.2.2 < re ∧
          x.2.2.1 = x.2.2.2 ∧
          (∀ p, rb ≤ p → p < x.2.2.2 → csr.csr_col_ind p < csr.csr_col_ind x.1) ∧
          (x.2.2.2 < re - 1 → csr.csr_col_ind x.1 ≤ csr.csr_col_ind x.2.2.2) ∧
          (∀ extra : Nat, binsearch_loop csr (csr.csr_col_ind x.1)
            ((re - 1 - x.2.1).toNat + extra) x.2.1 (re - 1) ((re - 1 + x.2.1) >>> (1 : Nat)) =
              (x.2.2.1, x.2.2.2)) := by
  induction fuel with
  | zero => intro k l _ _ _ _ x hx; simp [binsearch_lane_searches] at hx
  | succ n ih =>
    intro k l hk hl hlre hlow x hx
    simp only [binsearch_lane_searches] at hx
    by_cases hkld : k < ld
    · rw [if_pos hkld] at hx
      obtain ⟨m, h1, h2, h3, h4, h5⟩ := binsearch_loop_bound csr (csr.csr_col_ind k) rb re hs
        (re - 1 - l).toNat l (re - 1) hl (by omega) (by omega) (by omega) (hlow hkld)
        (fun h => absurd h (lt_irrefl _))
      rw [h1] at hx
      simp only [List.mem_cons] at hx
      rcases hx with rfl | hx
      · have hmre : m < re := by omega
        refine ⟨hk, hkld, hl, h2, hmre, rfl, h4, h5, fun extra => ?_⟩
        show binsearch_loop csr (csr.csr_col_ind k) ((re - 1 - l).toNat + extra) l (re - 1)
          ((re - 1 + l) >>> (1 : Nat)) = (m, m)
        obtain ⟨m', g1, g2, g3, g4, g5⟩ := binsearch_loop_bound csr (csr.csr_col_ind k) rb re hs
          ((re - 1 - l).toNat + extra) l (re - 1) hl (by omega) (by omega)
          (by push_cast; omega) (hlow hkld) (fun h => absurd h (lt_irrefl _))
        have : m' = m := lower_bound_unique csr _ rb re m' m (by omega) (by omega) g4 g5 h4 h5
          (by omega) (by omega)
        rw [g1, this]
      · have hW' : (1 : Int) ≤ W := by exact_mod_cast hW
        exact ih (k + W) m (by omega) (by omega) (by omega)
          (fun hk2 p hp1 hp2 => by
            have := h4 p hp1 hp2
            have := hs2 k (k + W) hk (by omega) hk2
            omega) x hx
    · rw [if_neg hkld] at hx
      simp at hx

/-- The sum of a lane is accumulated from its searches. -/
theorem lane_loop_searches {T : Type} [Field T] (W : Nat) (ops : ScalarOps T)
    (csr : CsrMatrix) (val : Int → T) (re ld : Int) (fuel : Nat) :
    ∀ (k l : Int) (acc : T),
      binsearch_lane_loop W ops csr val re ld fuel k l acc =
        (binsearch_lane_searches W csr re ld fuel k l).foldl
          (fun a x =>
            if csr.csr_col_ind x.2.2.2 = csr.csr_col_ind x.1 then
              rocsparse_fma (val x.1) (ops.rocsparse_conj (val x.2.2.2)) a
            else a) acc := by
  induction fuel with
  | zero => intros; rfl
  | succ n ih =>
    intro k l acc
    simp only [binsearch_lane_loop, binsearch_lane_searches]
    by_cases hkld : k < ld
    · rw [if_pos hkld, if_pos hkld]
      simp only [List.foldl_cons]
      exact ih _ _ _
    · rw [if_neg hkld, if_neg hkld]
      rfl


/-! ## The table of a row -/

/-- Under the launch conditions the table of a row of a well-formed matrix is
filled and represents the row. -/
theorem row_table (W HASH e : Nat) {csr : CsrMatrix} (hwf : WellFormed csr)
    (hS : W * HASH = 2 ^ e) (hfit : RowsFit csr (W * HASH)) (r : Int) (hr0 : 0 ≤ r)
    (hrm : r < csr.m) :
    ∃ t, hash_fill (W * HASH) csr (row_end csr r - row_begin csr r).toNat (row_begin csr r)
        ⟨fun _ => -1, fun _ => 0⟩ = some t ∧
      TableInv (2 ^ e) csr (row_begin csr r) (row_end csr r - row_begin csr r).toNat t ∧
      (row_end csr r - row_begin csr r).toNat < 2 ^ e := by
  have hlen := hfit r hr0 hrm
  have hmono := hwf.ptr_mono r hr0 hrm
  have hn : (row_end csr r - row_begin csr r).toNat < 2 ^ e := by
    rw [← hS]
    have : ((row_end csr r - row_begin csr r).toNat : Int) < ((W * HASH : Nat) : Int) := by
      rw [Int.toNat_of_nonneg (by simp only [row_end, row_begin]; omega)]
      exact hlen
    exact_mod_cast this
  obtain ⟨t, ht, inv⟩ := hash_fill_inv e csr (row_begin csr r)
    (row_end csr r - row_begin csr r).toNat 0 _ (tableInv_init (2 ^ e) csr _)
    (fun q h1 h2 => hwf.col_ne_neg r hr0 hrm q (by simpa using h1) (by
      have : ((row_end csr r - row_begin csr r).toNat : Int) =
        row_end csr r - row_begin csr r :=
          Int.toNat_of_nonneg (by simp only [row_end, row_begin]; omega)
      simp only [Nat.cast_zero, add_zero] at h2
      omega))
    (by omega)
  simp only [Nat.cast_zero, add_zero, Nat.zero_add] at ht inv
  rw [hS]
  exact ⟨t, ht, inv, hn⟩

end Csric0

namespace Coomm

open rocsparse_status rocsparse_operation rocsparse_order rocsparse_pointer_mode

/-! ## The scale kernel of coomm -/

/-- What one thread of the scale kernel does to the array. -/
theorem scale_kernel_thread {T : Type} [Field T] [DecidableEq T] (m n : Int) (beta : T)
    (data : Int → T) (ld stride : Int) (order : rocsparse_order) (gid batch : Int) :
    coommnn_scale_kernel m n beta data ld stride order gid batch =
      if gid < m * n then
        Function.update data (scale_addr m n ld stride order gid batch)
          (if beta = 0 then 0
            else if beta = 1 then data (scale_addr m n ld stride order gid batch)
            else data (scale_addr m n ld stride order gid batch) * beta)
      else data := by
  simp only [coommnn_scale_kernel, coommnn_scale_device, scale_addr]
  by_cases h1 : beta = 1
  · subst h1
    simp only [ne_eq, not_true_eq_false, if_false, one_ne_zero, if_true,
      Function.update_eq_self, ite_self]
  · rw [if_pos h1]
    by_cases hg : gid < m * n
    · rw [if_neg (not_le.mpr hg), if_pos hg]
      by_cases h0 : beta = 0
      · simp only [h0, if_true]
      · simp only [h0, h1, if_false]
    · rw [if_pos (not_lt.mp hg), if_neg hg]

/-- Quotient and remainder are fixed by `r + ld * q` when `0 ≤ r < ld`. -/
theorem quot_rem_unique (ld q1 r1 q2 r2 : Int) (h1 : 0 ≤ r1) (h1' : r1 < ld) (h2 : 0 ≤ r2)
    (h2' : r2 < ld) (h : r1 + ld * q1 = r2 + ld * q2) : q1 = q2 ∧ r1 = r2 := by
  have hq : q1 = q2 := by
    rcases lt_trichotomy q1 q2 with hlt | heq | hgt
    · exfalso
      have : ld * (q2 - q1) ≥ ld * 1 := mul_le_mul_of_nonneg_left (by omega) (by omega)
      nlinarith
    · exact heq
    · exfalso
      have : ld * (q1 - q2) ≥ ld * 1 := mul_le_mul_of_nonneg_left (by omega) (by omega)
      nlinarith
  subst hq
  exact ⟨rfl, by linarith⟩

/-- The thread `gid` addresses the logical entry with row `gid % m` and column
`gid / m` in column order, row `gid / n` and column `gid % n` in row order. -/
theorem scale_addr_entry (m n ld stride : Int) (order : rocsparse_order) (gid batch : Int) :
    scale_addr m n ld stride order gid batch =
      entry_addr ld stride order batch
        (if order = rocsparse_order_column then gid % m else gid / n)
        (if order = rocsparse_order_column then gid / m else gid % n) := by
  simp only [scale_addr, entry_addr]
  split <;> rfl

theorem div_lt_of_lt_mul (g m n : Int) (hm : 1 ≤ m) (h0 : 0 ≤ g) (h : g < m * n) :
    0 ≤ g / m ∧ g / m < n ∧ 0 ≤ g % m ∧ g % m < m := by
  refine ⟨Int.ediv_nonneg h0 (by omega), ?_, Int.emod_nonneg _ (by omega),
    Int.emod_lt_of_pos _ (by omega)⟩
  exact Int.ediv_lt_of_lt_mul (by omega) (by rw [mul_comm] at h; exact h)

/-- Different threads below `m * n` address different elements. -/
theorem scale_addr_inj (m n ld stride : Int) (order : rocsparse_order) (batch : Int)
    (hm : 1 ≤ m) (hn : 1 ≤ n)
    (hld : (if order = rocsparse_order_column then m else n) ≤ ld) (g1 g2 : Int)
    (h1 : 0 ≤ g1) (h1' : g1 < m * n) (h2 : 0 ≤ g2) (h2' : g2 < m * n)
    (h : scale_addr m n ld stride order g1 batch = scale_addr m n ld stride order g2 batch) :
    g1 = g2 := by
  simp only [scale_addr] at h
  by_cases ho : order = rocsparse_order_column
  · simp only [ho, if_true] at h hld
    obtain ⟨a1, -, a3, a4⟩ := div_lt_of_lt_mul g1 m n hm h1 h1'
    obtain ⟨b1, -, b3, b4⟩ := div_lt_of_lt_mul g2 m n hm h2 h2'
    obtain ⟨hq, hr⟩ := quot_rem_unique ld (g1 / m) (g1 % m) (g2 / m) (g2 % m) a3 (by omega) b3
      (by omega) (by linarith)
    rw [← Int.emod_add_ediv g1 m, ← Int.emod_add_ediv g2 m, hq, hr]
  · simp only [ho, if_false] at h hld
    have h1n : g1 < n * m := by rw [mul_comm]; exact h1'
    have h2n : g2 < n * m := by rw [mul_comm]; exact h2'
    obtain ⟨a1, -, a3, a4⟩ := div_lt_of_lt_mul g1 n m hn h1 h1n
    obtain ⟨b1, -, b3, b4⟩ := div_lt_of_lt_mul g2 n m hn h2 h2n
    obtain ⟨hq, hr⟩ := quot_rem_unique ld (g1 / n) (g1 % n) (g2 / n) (g2 % n) a3 (by omega) b3
      (by omega) (by linarith)
    rw [← Int.emod_add_ediv g1 n, ← Int.emod_add_ediv g2 n, hq, hr]

/-- The array after the threads of a duplicate-free list have run. -/
theorem scale_run_spec {T : Type} [Field T] [DecidableEq T] (m n : Int) (beta : T)
    (ld stride : Int) (order : rocsparse_order) (batch : Int) (hm : 1 ≤ m) (hn : 1 ≤ n)
    (hld : (if order = rocsparse_order_column then m else n) ≤ ld) (gids : List Int) :
    gids.Nodup → (∀ g ∈ gids, 0 ≤ g) → ∀ (data : Int → T) (a : Int),
      coommnn_scale_run m n beta ld stride order batch gids data a =
        if ∃ g ∈ gids, g < m * n ∧ scale_addr m n ld stride order g batch = a then
          (if beta = 0 then 0 else if beta = 1 then data a else data a * beta)
        else data a := by
  induction gids with
  | nil => intro _ _ data a; simp [coommnn_scale_run]
  | cons g rest ih =>
    intro hnd hpos data a
    have hnd' := List.nodup_cons.mp hnd
    have ih' := ih hnd'.2 (fun x hx => hpos x (List.mem_cons_of_mem _ hx))
    simp only [coommnn_scale_run, List.foldl_cons] at ih' ⊢
    rw [ih', scale_kernel_thread]
    by_cases hg : g < m * n
    · simp only [if_pos hg]
      by_cases hga : scale_addr m n ld stride order g batch = a
      · -- the thread `g` writes `a`; no later thread does
        have hno : ¬ ∃ x ∈ rest, x < m * n ∧ scale_addr m n ld stride order x batch = a := by
          rintro ⟨x, hx, hx1, hx2⟩
          have := scale_addr_inj m n ld stride order batch hm hn hld x g
            (hpos x (List.mem_cons_of_mem _ hx)) hx1 (hpos g (List.mem_cons_self _ _)) hg
            (hx2.trans hga.symm)
          subst this
          exact hnd'.1 hx
        subst hga
        have hyes : ∃ x ∈ g :: rest, x < m * n ∧
            scale_addr m n ld stride order x batch = scale_addr m n ld stride order g batch :=
          ⟨g, List.mem_cons_self _ _, hg, rfl⟩
        rw [if_neg hno, if_pos hyes, Function.update_same]
      · have hiff : (∃ x ∈ g :: rest, x < m * n ∧ scale_addr m n ld stride order x batch = a) ↔
            ∃ x ∈ rest, x < m * n ∧ scale_addr m n ld stride order x batch = a := by
          constructor
          · rintro ⟨x, hx, hx1, hx2⟩
            rcases List.mem_cons.mp hx with rfl | hx
            · exact absurd hx2 hga
            · exact ⟨x, hx, hx1, hx2⟩
          · rintro ⟨x, hx, hx1, hx2⟩
            exact ⟨x, List.mem_cons_of_mem _ hx, hx1, hx2⟩
        simp only [hiff, Function.update_noteq (Ne.symm hga)]
    · simp only [if_neg hg]
      have hiff : (∃ x ∈ g :: rest, x < m * n ∧ scale_addr m n ld stride order x batch = a) ↔
          ∃ x ∈ rest, x < m * n ∧ scale_addr m n ld stride order x batch = a := by
        constructor
        · rintro ⟨x, hx, hx1, hx2⟩
          rcases List.mem_cons.mp hx with rfl | hx
          · exact absurd hx1 hg
          · exact ⟨x, hx, hx1, hx2⟩
        · rintro ⟨x, hx, hx1, hx2⟩
          exact ⟨x, List.mem_cons_of_mem _ hx, hx1, hx2⟩
      simp only [hiff]

theorem mem_scale_launch_gids (m n g : Int) :
    g ∈ scale_launch_gids m n ↔ 0 ≤ g ∧ g < (((m * n - 1) / 256 + 1).toNat * 256 : Nat) := by
  simp only [scale_launch_gids, List.mem_map, List.mem_range]
  constructor
  · rintro ⟨x, hx, rfl⟩
    exact ⟨Int.ofNat_nonneg _, Int.ofNat_lt.mpr hx⟩
  · rintro ⟨h0, h1⟩
    refine ⟨g.toNat, ?_, ?_⟩
    · have : (g.toNat : Int) = g := Int.toNat_of_nonneg h0
      omega
    · exact Int.toNat_of_nonneg h0

theorem scale_launch_gids_nodup (m n : Int) : (scale_launch_gids m n).Nodup := by
  simp only [scale_launch_gids]
  exact (List.nodup_range _).map (fun a b h => Int.ofNat.inj h)

/-- The launch has a thread for every id below `m * n`. -/
theorem scale_launch_covers (m n g : Int) (h0 : 0 ≤ g) (h : g < m * n) :
    g ∈ scale_launch_gids m n := by
  rw [mem_scale_launch_gids]
  refine ⟨h0, ?_⟩
  have h2 : 0 ≤ (m * n - 1) / 256 + 1 := by omega
  push_cast
  rw [Int.toNat_of_nonneg h2]
  omega

/-- Every logical entry has a thread below `m * n` that addresses it. -/
theorem entry_thread (m n ld stride : Int) (order : rocsparse_order) (batch : Int)
    (hm : 1 ≤ m) (hn : 1 ≤ n) (i j : Int) (hi0 : 0 ≤ i) (hi : i < m) (hj0 : 0 ≤ j)
    (hj : j < n) :
    ∃ g, 0 ≤ g ∧ g < m * n ∧
      scale_addr m n ld stride order g batch = entry_addr ld stride order batch i j := by
  by_cases ho : order = rocsparse_order_column
  · refine ⟨i + m * j, by positivity, by nlinarith, ?_⟩
    simp only [scale_addr, entry_addr, ho, if_true]
    rw [Int.add_mul_emod_self_left, Int.emod_eq_of_lt hi0 hi,
      Int.add_mul_ediv_left _ _ (by omega : m ≠ 0), Int.ediv_eq_zero_of_lt hi0 hi, zero_add]
  · refine ⟨j + n * i, by positivity, by nlinarith, ?_⟩
    simp only [scale_addr, entry_addr, ho, if_false]
    rw [Int.add_mul_emod_self_left, Int.emod_eq_of_lt hj0 hj,
      Int.add_mul_ediv_left _ _ (by omega : n ≠ 0), Int.ediv_eq_zero_of_lt hj0 hj, zero_add]

/-- A thread below `m * n` addresses a logical entry. -/
theorem thread_entry (m n ld stride : Int) (order : rocsparse_order) (batch : Int)
    (hm : 1 ≤ m) (hn : 1 ≤ n) (g : Int) (h0 : 0 ≤ g) (h : g < m * n) :
    ∃ i j, 0 ≤ i ∧ i < m ∧ 0 ≤ j ∧ j < n ∧
      scale_addr m n ld stride order g batch = entry_addr ld stride order batch i j := by
  rw [scale_addr_entry]
  by_cases ho : order = rocsparse_order_column
  · obtain ⟨a1, a2, a3, a4⟩ := div_lt_of_lt_mul g m n hm h0 h
    refine ⟨g % m, g / m, a3, a4, a1, a2, ?_⟩
    simp only [ho, if_true]
  · have h' : g < n * m := by rw [mul_comm]; exact h
    obtain ⟨a1, a2, a3, a4⟩ := div_lt_of_lt_mul g n m hn h0 h'
    refine ⟨g / n, g % n, a1, a2, a3, a4, ?_⟩
    simp only [ho, if_false]

theorem ite_continue (c : Prop) [Decidable c] (x y : rocsparse_status)
    (hx : x ≠ rocsparse_status_continue)
    (h : (if c then x else y) = rocsparse_status_continue) :
    ¬ c ∧ y = rocsparse_status_continue := by
  by_cases hc : c
  · rw [if_pos hc] at h
    exact absurd h hx
  · rw [if_neg hc] at h
    exact ⟨hc, h⟩

/-- A call that passes the late checks of `coomm_checkarg` passes the three
batch-count checks. -/
theorem checkarg_late_batch {T : Type} (a : CoommArgs T)
    (h : coomm_checkarg_late a = rocsparse_status_continue) :
    coomm_checkarg_batch a.batch_count_A a.batch_count_B a.batch_count_C =
      rocsparse_status_continue := by
  unfold coomm_checkarg_late at h
  obtain ⟨-, h⟩ := ite_continue _ _ _ (by decide) h
  obtain ⟨-, h⟩ := ite_continue _ _ _ (by decide) h
  obtain ⟨-, h⟩ := ite_continue _ _ _ (by decide) h
  obtain ⟨-, h⟩ := ite_continue _ _ _ (by decide) h
  obtain ⟨-, h⟩ := ite_continue _ _ _ (by decide) h
  dsimp only at h
  obtain ⟨-, h⟩ := ite_continue _ _ _ (by decide) h
  obtain ⟨-, h⟩ := ite_continue _ _ _ (by decide) h
  obtain ⟨c1, h⟩ := ite_continue _ _ _ (by decide) h
  obtain ⟨c2, h⟩ := ite_continue _ _ _ (by decide) h
  obtain ⟨c3, -⟩ := ite_continue _ _ _ (by decide) h
  simp only [coomm_checkarg_batch, if_neg c1, if_neg c2, if_neg c3]

end Coomm

namespace Csric0

/-! ## A wavefront returns when the rows it waits for are done -/

theorem WellFormed.row_end_le_nnz {csr : CsrMatrix} (hwf : WellFormed csr) (r : Int)
    (h0 : 0 ≤ r) (hm : r < csr.m) : row_end csr r ≤ nnz_of csr := by
  have h := hwf.ptr_le (r + 1) (csr.m - (r + 1)).toNat (by omega) (by omega)
  have e : r + 1 + ((csr.m - (r + 1)).toNat : Int) = csr.m := by omega
  rw [e] at h
  simp only [row_end, nnz_of]
  omega

/-- The positions of a row are positions of `csr_col_ind` and `csr_val`. -/
theorem WellFormed.row_pos {csr : CsrMatrix} (hwf : WellFormed csr) (r : Int)
    (h0 : 0 ≤ r) (hm : r < csr.m) (p : Int) (hp1 : row_begin csr r ≤ p)
    (hp2 : p < row_end csr r) : 0 ≤ p ∧ p < nnz_of csr := by
  have := hwf.begin_nonneg r h0 (le_of_lt hm)
  have := hwf.row_end_le_nnz r h0 hm
  omega

theorem mem_table_acc (S : Nat) (csr : CsrMatrix) (a : Arr × Int)
    (h : (a.1 = Arr.table ∨ a.1 = Arr.data) ∧ 0 ≤ a.2 ∧ a.2 < S) : InBounds csr S a := by
  obtain ⟨h1 | h1, h2⟩ := h <;> simp only [InBounds, h1] <;> exact h2

theorem hash_insert_acc_bounds (S : Nat) (hS : 0 < S) (key : Int) (t : HashTable)
    (fuel : Nat) : ∀ hash, hash < S → ∀ a ∈ hash_insert_acc S key fuel hash t,
      (a.1 = Arr.table ∨ a.1 = Arr.data) ∧ 0 ≤ a.2 ∧ a.2 < S := by
  induction fuel with
  | zero => intro hash _ a ha; simp [hash_insert_acc] at ha
  | succ n ih =>
    intro hash hh a ha
    have hb : (0 : Int) ≤ (hash : Int) ∧ (hash : Int) < S :=
      ⟨Int.ofNat_nonneg _, by exact_mod_cast hh⟩
    simp only [hash_insert_acc] at ha
    split_ifs at ha
    · simp only [List.mem_singleton] at ha
      subst ha
      exact ⟨Or.inl rfl, hb⟩
    · simp only [List.mem_cons, List.mem_singleton, List.not_mem_nil, or_false] at ha
      rcases ha with rfl | rfl
      · exact ⟨Or.inl rfl, hb⟩
      · exact ⟨Or.inr rfl, hb⟩
    · rcases List.mem_cons.mp ha with rfl | ha
      · exact ⟨Or.inl rfl, hb⟩
      · exact ih _ (next_slot_lt S hS hash) a ha

theorem hash_lookup_acc_bounds (S : Nat) (hS : 0 < S) (key : Int) (t : HashTable)
    (fuel : Nat) : ∀ hash, hash < S → ∀ a ∈ hash_lookup_acc S key fuel hash t,
      (a.1 = Arr.table ∨ a.1 = Arr.data) ∧ 0 ≤ a.2 ∧ a.2 < S := by
  induction fuel with
  | zero => intro hash _ a ha; simp [hash_lookup_acc] at ha
  | succ n ih =>
    intro hash hh a ha
    have hb : (0 : Int) ≤ (hash : Int) ∧ (hash : Int) < S :=
      ⟨Int.ofNat_nonneg _, by exact_mod_cast hh⟩
    simp only [hash_lookup_acc] at ha
    split_ifs at ha
    · simp only [List.mem_singleton] at ha
      subst ha
      exact ⟨Or.inl rfl, hb⟩
    · simp only [List.mem_cons, List.mem_singleton, List.not_mem_nil, or_false] at ha
      rcases ha with rfl | rfl
      · exact ⟨Or.inl rfl, hb⟩
      · exact ⟨Or.inr rfl, hb⟩
    · rcases List.mem_cons.mp ha with rfl | ha
      · exact ⟨Or.inl rfl, hb⟩
      · exact ih _ (next_slot_lt S hS hash) a ha

theorem hash_fill_acc_bounds (S : Nat) (hS : 0 < S) (csr : CsrMatrix) (n : Nat) :
    ∀ (j : Int) (t : HashTable), (∀ p, j ≤ p → p < j + n → 0 ≤ p ∧ p < nnz_of csr) →
      ∀ a ∈ hash_fill_acc S csr n j t, InBounds csr S a := by
  induction n with
  | zero => intro j t _ a ha; simp [hash_fill_acc] at ha
  | succ k ih =>
    intro j t hp a ha
    simp only [hash_fill_acc, List.mem_cons, List.mem_append] at ha
    rcases ha with rfl | ha | ha
    · exact hp j (le_refl _) (by push_cast; omega)
    · exact mem_table_acc S csr a
        (hash_insert_acc_bounds S hS _ t S _ (hash_slot_lt S hS _) a ha)
    · cases hi : hash_insert S (csr.csr_col_ind j) j S (hash_slot S (csr.csr_col_ind j)) t with
      | none => rw [hi] at ha; simp at ha
      | some t1 =>
        rw [hi] at ha
        exact ih (j + 1) t1 (fun p h1 h2 => hp p (by omega) (by push_cast; omega)) a ha

/-- A lookup that finds its key returns the `data` of an occupied slot. -/
theorem lookup_some_slot (S : Nat) (key : Int) (t : HashTable) (fuel : Nat) :
    ∀ hash idx, hash_lookup S key fuel hash t = some (some idx) →
      ∃ slot, t.table slot ≠ -1 ∧ t.table slot = key ∧ t.data slot = idx := by
  induction fuel with
  | zero => intro hash idx h; simp [hash_lookup] at h
  | succ n ih =>
    intro hash idx h
    simp only [hash_lookup] at h
    split_ifs at h with h1 h2
    · simp at h
    · simp only [Option.some.injEq] at h
      exact ⟨hash, h1, h2, h⟩
    · exact ih _ _ h

theorem hash_lane_acc_bounds (W S : Nat) (hS : 0 < S) (csr : CsrMatrix) (t : HashTable)
    (ld : Int) (hld : ld ≤ nnz_of csr)
    (hdata : ∀ slot, t.table slot ≠ -1 → 0 ≤ t.data slot ∧ t.data slot < nnz_of csr)
    (fuel : Nat) : ∀ k, 0 ≤ k → ∀ a ∈ hash_lane_acc W S csr t ld fuel k, InBounds csr S a := by
  induction fuel with
  | zero => intro k _ a ha; simp [hash_lane_acc] at ha
  | succ n ih =>
    intro k hk a ha
    simp only [hash_lane_acc] at ha
    split_ifs at ha with hkl
    · rcases List.mem_cons.mp ha with rfl | ha
      · exact ⟨hk, by omega⟩
      · rcases List.mem_append.mp ha with ha | ha
        · exact mem_table_acc S csr a
            (hash_lookup_acc_bounds S hS _ t S _ (hash_slot_lt S hS _) a ha)
        · cases hl : hash_lookup S (csr.csr_col_ind k) S (hash_slot S (csr.csr_col_ind k)) t with
          | none => rw [hl] at ha; simp at ha
          | some r =>
            rw [hl] at ha
            cases r with
            | none => exact ih (k + W) (by omega) a ha
            | some idx =>
              simp only [List.mem_cons] at ha
              rcases ha with rfl | rfl | ha
              · exact ⟨hk, by omega⟩
              · obtain ⟨slot, s1, -, s3⟩ := lookup_some_slot S _ t S _ idx hl
                rw [← s3]
                exact hdata slot s1
              · exact ih (k + W) (by omega) a ha
    · simp at ha

/-- The binary search keeps `l`, `m` and `r` ordered, sorted row or not. -/
theorem binsearch_loop_range (csr : CsrMatrix) (col_k : Int) (fuel : Nat) :
    ∀ (l r : Int), l ≤ r →
      l ≤ (binsearch_loop csr col_k fuel l r ((r + l) >>> (1 : Nat))).1 ∧
        (binsearch_loop csr col_k fuel l r ((r + l) >>> (1 : Nat))).1 ≤ r ∧
        l ≤ (binsearch_loop csr col_k fuel l r ((r + l) >>> (1 : Nat))).2 ∧
        (binsearch_loop csr col_k fuel l r ((r + l) >>> (1 : Nat))).2 ≤ r := by
  induction fuel with
  | zero =>
    intro l r hlr
    simp only [binsearch_loop, shiftRight_one]
    omega
  | succ n ih =>
    intro l r hlr
    simp only [binsearch_loop, shiftRight_one]
    by_cases hlt : l < r
    · rw [if_pos hlt]
      by_cases hc : csr.csr_col_ind ((r + l) / 2) < col_k
      · rw [if_pos hc]
        have := ih ((r + l) / 2 + 1) r (by omega)
        rw [shiftRight_one] at this
        omega
      · rw [if_neg hc]
        have := ih l ((r + l) / 2) (by omega)
        rw [shiftRight_one] at this
        omega
    · rw [if_neg hlt]
      simp only
      omega

theorem binsearch_loop_acc_bounds (csr : CsrMatrix) (col_k : Int) (S : Nat) (rb re : Int)
    (hrb : 0 ≤ rb) (hre : re ≤ nnz_of csr) (fuel : Nat) :
    ∀ (l r : Int), rb ≤ l → l ≤ r → r < re →
      ∀ a ∈ binsearch_loop_acc csr col_k fuel l r ((r + l) >>> (1 : Nat)), InBounds csr S a := by
  induction fuel with
  | zero => intro l r _ _ _ a ha; simp [binsearch_loop_acc] at ha
  | succ n ih =>
    intro l r hl hlr hr a ha
    simp only [binsearch_loop_acc, shiftRight_one] at ha
    by_cases hlt : l < r
    · rw [if_pos hlt] at ha
      by_cases hc : csr.csr_col_ind ((r + l) / 2) < col_k
      · rw [if_pos hc] at ha
        rcases List.mem_cons.mp ha with rfl | ha
        · show 0 ≤ (r + ((r + l) / 2 + 1)) / 2 ∧ (r + ((r + l) / 2 + 1)) / 2 < nnz_of csr
          omega
        · have := ih ((r + l) / 2 + 1) r (by omega) (by omega) hr a
          rw [shiftRight_one] at this
          exact this ha
      · rw [if_neg hc] at ha
        rcases List.mem_cons.mp ha with rfl | ha
        · show 0 ≤ ((r + l) / 2 + l) / 2 ∧ ((r + l) / 2 + l) / 2 < nnz_of csr
          omega
        · have := ih l ((r + l) / 2) hl (by omega) (by omega) a
          rw [shiftRight_one] at this
          exact this ha
    · rw [if_neg hlt] at ha
      simp at ha

theorem binsearch_lane_acc_bounds (W : Nat) (csr : CsrMatrix) (S : Nat) (rb re ld : Int)
    (hrb : 0 ≤ rb) (hre : re ≤ nnz_of csr) (hld : ld ≤ nnz_of csr) (fuel : Nat) :
    ∀ (k l : Int), 0 ≤ k → rb ≤ l → l < re →
      ∀ a ∈ binsearch_lane_acc W csr re ld fuel k l, InBounds csr S a := by
  induction fuel with
  | zero => intro k l _ _ _ a ha; simp [binsearch_lane_acc] at ha
  | succ n ih =>
    intro k l hk hl hlre a ha
    simp only [binsearch_lane_acc] at ha
    by_cases hkl : k < ld
    · rw [if_pos hkl] at ha
      obtain ⟨r1, r2, r3, r4⟩ := binsearch_loop_range csr (csr.csr_col_ind k)
        (re - 1 - l).toNat l (re - 1) (by omega)
      simp only [List.mem_cons, List.mem_append] at ha
      rcases ha with rfl | rfl | ha | ha | ha
      · show 0 ≤ (re - 1 + l) >>> (1 : Nat) ∧ (re - 1 + l) >>> (1 : Nat) < nnz_of csr
        rw [shiftRight_one]
        omega
      · exact ⟨hk, by omega⟩
      · exact binsearch_loop_acc_bounds csr _ S rb re hrb hre _ l (re - 1) hl (by omega)
          (by omega) a ha
      · split_ifs at ha
        · simp only [List.mem_cons, List.mem_singleton, List.not_mem_nil, or_false] at ha
          rcases ha with rfl | rfl
          · exact ⟨hk, by omega⟩
          · show 0 ≤ _ ∧ _ < nnz_of csr
            omega
        · simp at ha
      · exact ih (k + W) _ (by omega) (by omega) (by omega) a ha
    · rw [if_neg hkl] at ha
      simp at ha


/-! ## The indices of a step are inside their arrays -/

theorem kernel_fill_acc_bounds (K : KernelKind) {csr : CsrMatrix} (hwf : WellFormed csr)
    (hl : LaunchOK K csr) (r : Int) (hr0 : 0 ≤ r) (hrm : r < csr.m) :
    ∀ a ∈ kernel_fill_acc K csr (csr.csr_row_ptr r - csr.idx_base)
      (csr.csr_row_ptr (r + 1) - csr.idx_base), InBounds csr (table_size K) a := by
  cases K with
  | binsearch W => intro a ha; simp [kernel_fill_acc] at ha
  | hash W H =>
    obtain ⟨hW, ⟨e, hS⟩, hfit⟩ := hl
    have hpos : 0 < W * H := by rw [hS]; positivity
    intro a ha
    simp only [kernel_fill_acc, List.mem_append, List.mem_map, List.mem_range] at ha
    rcases ha with ⟨x, hx, rfl⟩ | ha
    · exact ⟨Int.ofNat_nonneg _, by simp only [table_size]; exact_mod_cast hx⟩
    · have hmono := hwf.ptr_mono r hr0 hrm
      refine hash_fill_acc_bounds (W * H) hpos csr _ _ _ (fun p h1 h2 => ?_) a ha
      have e1 : ((csr.csr_row_ptr (r + 1) - csr.idx_base -
          (csr.csr_row_ptr r - csr.idx_base)).toNat : Int) =
          csr.csr_row_ptr (r + 1) - csr.idx_base - (csr.csr_row_ptr r - csr.idx_base) :=
        Int.toNat_of_nonneg (by omega)
      exact hwf.row_pos r hr0 hrm p h1 (by simp only [row_end]; omega)

/-- The `data` of an occupied slot of the table of a row is a position of the
row. -/
theorem table_data_pos (K : KernelKind) {csr : CsrMatrix} (hwf : WellFormed csr)
    (hl : LaunchOK K csr) (r : Int) (hr0 : 0 ≤ r) (hrm : r < csr.m) (t : HashTable)
    (ht : kernel_fill K csr (csr.csr_row_ptr r - csr.idx_base)
      (csr.csr_row_ptr (r + 1) - csr.idx_base) = some t) :
    ∀ slot, t.table slot ≠ -1 → 0 ≤ t.data slot ∧ t.data slot < nnz_of csr := by
  cases K with
  | binsearch W =>
    simp only [kernel_fill, Option.some.injEq] at ht
    subst ht
    intro slot h
    exact absurd rfl h
  | hash W H =>
    obtain ⟨hW, ⟨e, hS⟩, hfit⟩ := hl
    obtain ⟨t', ht', inv, hn⟩ := row_table W H e hwf hS hfit r hr0 hrm
    simp only [kernel_fill] at ht
    simp only [row_begin, row_end] at ht'
    rw [ht] at ht'
    simp only [Option.some.injEq] at ht'
    subst ht'
    intro slot h
    obtain ⟨a1, a2, -, -⟩ := findPos_some _ _ _ _ _ (inv.data_ok slot h)
    have hmono := hwf.ptr_mono r hr0 hrm
    have e1 : ((row_end csr r - row_begin csr r).toNat : Int) = row_end csr r - row_begin csr r :=
      Int.toNat_of_nonneg (by simp only [row_end, row_begin]; omega)
    exact hwf.row_pos r hr0 hrm _ a1 (by omega)

theorem kernel_lsum_acc_bounds (K : KernelKind) {csr : CsrMatrix} (hl : LaunchOK K csr)
    (rb re lb ld : Int) (t : HashTable) (hrb : 0 ≤ rb) (hne : rb < re)
    (hre : re ≤ nnz_of csr) (hlb : 0 ≤ lb) (hld : ld ≤ nnz_of csr)
    (hdata : ∀ slot, t.table slot ≠ -1 → 0 ≤ t.data slot ∧ t.data slot < nnz_of csr) :
    ∀ a ∈ kernel_lsum_acc K csr rb re t lb ld, InBounds csr (table_size K) a := by
  cases K with
  | hash W H =>
    obtain ⟨hW, ⟨e, hS⟩, hfit⟩ := hl
    have hpos : 0 < W * H := by rw [hS]; positivity
    intro a ha
    simp only [kernel_lsum_acc, List.mem_flatMap, List.mem_range] at ha
    obtain ⟨lid, -, ha⟩ := ha
    exact hash_lane_acc_bounds W (W * H) hpos csr t ld hld hdata _ _ (by omega) a ha
  | binsearch W =>
    intro a ha
    simp only [kernel_lsum_acc, List.mem_flatMap, List.mem_range] at ha
    obtain ⟨lid, -, ha⟩ := ha
    exact binsearch_lane_acc_bounds W csr _ rb re ld hrb hre hld _ _ _ (by omega) (le_refl _)
      hne a ha

/-- The value of `local_diag` is a position of `csr_val`, whether the
dependency has a diagonal or not. -/
theorem WellFormed.local_diag_pos {csr : CsrMatrix} (hwf : WellFormed csr) (r : Int)
    (hr0 : 0 ≤ r) (hrm : r < csr.m) (j : Int) (hj1 : row_begin csr r ≤ j)
    (hj2 : j < csr.csr_diag_ind r) :
    (0 ≤ dep csr j ∧ dep csr j < csr.m) ∧ j < row_end csr r ∧
      0 ≤ local_diag_of csr (csr.csr_diag_ind r) (dep csr j) ∧
      local_diag_of csr (csr.csr_diag_ind r) (dep csr j) < nnz_of csr := by
  have hb := hwf.begin_nonneg r hr0 (le_of_lt hrm)
  have hje : j < row_end csr r ∧ csr.csr_diag_ind r < row_end csr r := by
    rcases hwf.diag_range r hr0 hrm with h | h <;> omega
  have hc := hwf.col_range r hr0 hrm j hj1 hje.1
  have hc0 : 0 ≤ dep csr j := by show 0 ≤ csr.csr_col_ind j - csr.idx_base; omega
  have hcm : dep csr j < csr.m := by show csr.csr_col_ind j - csr.idx_base < csr.m; omega
  have hen := hwf.row_end_le_nnz r hr0 hrm
  refine ⟨⟨hc0, hcm⟩, hje.1, ?_⟩
  simp only [local_diag_of]
  split_ifs with hd
  · omega
  · rcases hwf.diag_range (dep csr j) hc0 hcm with h | h
    · exact absurd h hd
    · have := hwf.row_pos (dep csr j) hc0 hcm _ h.1 h.2
      exact this

/-- The indices of a step of a wavefront are inside their arrays. -/
theorem wf_access_bounds {T : Type} (K : KernelKind) {csr : CsrMatrix} (hwf : WellFormed csr)
    (hl : LaunchOK K csr) (idx : Int) (h0 : 0 ≤ idx) (hm : idx < csr.m)
    (hr0 : 0 ≤ csr.map idx) (hrm : csr.map idx < csr.m) (w : WfState T)
    (inv : AccInv K csr idx w) :
    ∀ a ∈ wf_access K csr idx w, InBounds csr (table_size K) a := by
  have hb := hwf.begin_nonneg (csr.map idx) hr0 (le_of_lt hrm)
  have hen := hwf.row_end_le_nnz (csr.map idx) hr0 hrm
  intro a ha
  cases hpc : w.pc <;> simp only [wf_access, hpc] at ha
  · -- start
    simp only [List.cons_append, List.nil_append, List.mem_cons] at ha
    rcases ha with rfl | rfl | rfl | rfl | ha
    · exact ⟨h0, hm⟩
    · exact ⟨hr0, hrm⟩
    · exact ⟨hr0, le_of_lt hrm⟩
    · exact ⟨by omega, by omega⟩
    · exact kernel_fill_acc_bounds K hwf hl (csr.map idx) hr0 hrm a ha
  · -- head
    split_ifs at ha with hj
    · have hlo := inv.lo (by rw [hpc]; simp)
      obtain ⟨⟨c0, c1⟩, hje, -, -⟩ := hwf.local_diag_pos (csr.map idx) hr0 hrm w.j hlo hj
      have hp := hwf.row_pos (csr.map idx) hr0 hrm w.j hlo hje
      simp only [List.mem_cons, List.mem_singleton, List.not_mem_nil, or_false] at ha
      rcases ha with rfl | rfl | rfl | rfl
      · exact hp
      · exact hp
      · exact ⟨c0, le_of_lt c1⟩
      · exact ⟨c0, c1⟩
    · simp at ha
  · -- spin
    have hlo := inv.lo (by rw [hpc]; simp)
    have hhi := inv.hi (Or.inl hpc)
    obtain ⟨⟨c0, c1⟩, -, -, -⟩ := hwf.local_diag_pos (csr.map idx) hr0 hrm w.j hlo hhi
    simp only [List.mem_singleton] at ha
    subst ha
    exact ⟨c0, c1⟩
  · -- load
    have hlo := inv.lo (by rw [hpc]; simp)
    have hhi := inv.hi (Or.inr (Or.inl hpc))
    obtain ⟨-, -, d0, d1⟩ := hwf.local_diag_pos (csr.map idx) hr0 hrm w.j hlo hhi
    simp only [List.mem_singleton] at ha
    subst ha
    exact ⟨d0, d1⟩
  · -- lanes
    have hlo := inv.lo (by rw [hpc]; simp)
    have hhi := inv.hi (Or.inr (Or.inr (Or.inl hpc)))
    have htab := inv.table (by rw [hpc]; simp)
    obtain ⟨⟨c0, c1⟩, hje, d0, d1⟩ := hwf.local_diag_pos (csr.map idx) hr0 hrm w.j hlo hhi
    exact kernel_lsum_acc_bounds K hl _ _ _ _ w.table hb
      (by have : row_begin csr (csr.map idx) < row_end csr (csr.map idx) := by omega
          exact this) hen
      (hwf.begin_nonneg _ c0 (le_of_lt c1)) (le_of_lt d1)
      (table_data_pos K hwf hl (csr.map idx) hr0 hrm w.table htab) a ha
  · -- store
    have hlo := inv.lo (by rw [hpc]; simp)
    have hhi := inv.hi (Or.inr (Or.inr (Or.inr hpc)))
    obtain ⟨-, hje, -, -⟩ := hwf.local_diag_pos (csr.map idx) hr0 hrm w.j hlo hhi
    simp only [List.mem_singleton] at ha
    subst ha
    exact hwf.row_pos (csr.map idx) hr0 hrm w.j hlo hje
  · -- tail
    split_ifs at ha with hd
    · simp only [List.mem_singleton] at ha
      subst ha
      rcases hwf.diag_range (csr.map idx) hr0 hrm with h | h
      · omega
      · exact hwf.row_pos (csr.map idx) hr0 hrm _ h.1 h.2
    · simp at ha
  · -- flag
    simp only [List.mem_singleton] at ha
    subst ha
    exact ⟨hr0, hrm⟩
  · -- finished
    simp at ha

/-- A step of a wavefront keeps what is known of its loop counter and table. -/
theorem accInv_step {T : Type} [Field T] [DecidableEq T] (K : KernelKind) (ops : ScalarOps T)
    (csr : CsrMatrix) (idx : Int) (mem mem1 : KState T) (w w1 : WfState T)
    (inv : AccInv K csr idx w) (h : wf_step K ops csr idx mem w = some (mem1, w1)) :
    AccInv K csr idx w1 := by
  cases hpc : w.pc
  · obtain ⟨-, p, j, -, -, t⟩ := wf_step_start K ops csr idx mem mem1 w w1 hpc h
    exact ⟨fun _ => t, fun _ => by rw [j]; exact le_refl _, fun hh => by
      rw [p] at hh; simp at hh⟩
  · obtain ⟨-, t, j, -, -, hc⟩ := wf_step_head K ops csr idx mem mem1 w w1 hpc h
    have hne : w.pc ≠ .start := by rw [hpc]; simp
    refine ⟨fun _ => by rw [t]; exact inv.table hne, fun _ => by rw [j]; exact inv.lo hne,
      fun hh => ?_⟩
    rcases hc with ⟨c1, -, -⟩ | ⟨-, c2⟩
    · rw [j]; exact c1
    · rw [c2] at hh; simp at hh
  · obtain ⟨-, t, j, -, -, -, hc⟩ := wf_step_spin K ops csr idx mem mem1 w w1 hpc h
    have hne : w.pc ≠ .start := by rw [hpc]; simp
    exact ⟨fun _ => by rw [t]; exact inv.table hne, fun _ => by rw [j]; exact inv.lo hne,
      fun _ => by rw [j]; exact inv.hi (Or.inl hpc)⟩
  · obtain ⟨-, -, t, j, -, -, hc⟩ := wf_step_load K ops csr idx mem mem1 w w1 hpc h
    have hne : w.pc ≠ .start := by rw [hpc]; simp
    exact ⟨fun _ => by rw [t]; exact inv.table hne, fun _ => by rw [j]; exact inv.lo hne,
      fun _ => by rw [j]; exact inv.hi (Or.inr (Or.inl hpc))⟩
  · obtain ⟨-, t, j, -, -, -, -, -, -⟩ := wf_step_lanes K ops csr idx mem mem1 w w1 hpc h
    have hne : w.pc ≠ .start := by rw [hpc]; simp
    exact ⟨fun _ => by rw [t]; exact inv.table hne, fun _ => by rw [j]; exact inv.lo hne,
      fun _ => by rw [j]; exact inv.hi (Or.inr (Or.inr (Or.inl hpc)))⟩
  · obtain ⟨-, -, -, t, j, -, p, -⟩ := wf_step_store K ops csr idx mem mem1 w w1 hpc h
    have hne : w.pc ≠ .start := by rw [hpc]; simp
    refine ⟨fun _ => by rw [t]; exact inv.table hne, fun _ => ?_, fun hh => ?_⟩
    · rw [j]
      have := inv.lo hne
      omega
    · rw [p] at hh; simp at hh
  · obtain ⟨-, -, t, j, -, -, p, -⟩ := wf_step_tail K ops csr idx mem mem1 w w1 hpc h
    have hne : w.pc ≠ .start := by rw [hpc]; simp
    exact ⟨fun _ => by rw [t]; exact inv.table hne, fun _ => by rw [j]; exact inv.lo hne,
      fun hh => by rw [p] at hh; simp at hh⟩
  · obtain ⟨-, -, -, t, j, -, -, p⟩ := wf_step_flag K ops csr idx mem mem1 w w1 hpc h
    have hne : w.pc ≠ .start := by rw [hpc]; simp
    exact ⟨fun _ => by rw [t]; exact inv.table hne, fun _ => by rw [j]; exact inv.lo hne,
      fun hh => by rw [p] at hh; simp at hh⟩
  · rw [wf_step_finished K ops csr idx mem w hpc] at h
    simp at h

/-- Every wavefront of a parallel execution. -/
theorem accInv_run {T : Type} [Field T] [DecidableEq T] (K : KernelKind) (ops : ScalarOps T)
    (csr : CsrMatrix) (sched : List Int) :
    ∀ g : GState T, (∀ idx, AccInv K csr idx (g.wf idx)) →
      ∀ idx, AccInv K csr idx ((par_run K ops csr sched g).wf idx) := by
  induction sched with
  | nil => intro g h; exact h
  | cons i rest ih =>
    intro g hg
    apply ih
    intro idx
    simp only [par_step]
    split_ifs
    · cases hs : wf_step K ops csr i g.mem (g.wf i) with
      | none => exact hg idx
      | some x =>
        obtain ⟨mem1, w1⟩ := x
        simp only
        by_cases hi : idx = i
        · subst hi
          rw [Function.update_same]
          exact accInv_step K ops csr idx _ _ _ _ (hg idx) hs
        · rw [Function.update_noteq hi]
          exact hg idx
    · exact hg idx

theorem accInv_init {T : Type} [Field T] (K : KernelKind) (csr : CsrMatrix) (s0 : KState T)
    (idx : Int) : AccInv K csr idx ((g_init s0).wf idx) :=
  ⟨fun h => absurd rfl h, fun h => absurd rfl h, fun h => by
    rcases h with h | h | h | h <;> exact absurd h (by simp [g_init])⟩


/-! ## The lanes filling the table: single steps -/

theorem fill_lane_step_cases (S W : Nat) (csr : CsrMatrix) (re : Int) (t : HashTable)
    (ln : FillLane) (hj : ln.j < re) :
    (ln.cas = false ∧ t.table ln.hash = csr.csr_col_ind ln.j ∧
        fill_lane_step S W csr re t ln = (t, fill_enter S csr (ln.j + W))) ∨
      (ln.cas = false ∧ t.table ln.hash ≠ csr.csr_col_ind ln.j ∧
        fill_lane_step S W csr re t ln = (t, ⟨ln.j, ln.hash, true, ln.probes⟩)) ∨
      (ln.cas = true ∧ t.table ln.hash = -1 ∧
        fill_lane_step S W csr re t ln =
          (⟨Function.update t.table ln.hash (csr.csr_col_ind ln.j),
            Function.update t.data ln.hash ln.j⟩, fill_enter S csr (ln.j + W))) ∨
      (ln.cas = true ∧ t.table ln.hash ≠ -1 ∧
        fill_lane_step S W csr re t ln =
          (t, ⟨ln.j, next_slot S ln.hash, false, ln.probes + 1⟩)) := by
  simp only [fill_lane_step, if_pos hj]
  by_cases hc : ln.cas = false
  · rw [if_pos hc]
    by_cases hk : t.table ln.hash = csr.csr_col_ind ln.j
    · rw [if_pos hk]; exact Or.inl ⟨hc, hk, rfl⟩
    · rw [if_neg hk]; exact Or.inr (Or.inl ⟨hc, hk, rfl⟩)
  · rw [if_neg hc]
    have hc' : ln.cas = true := by simpa using hc
    by_cases hk : t.table ln.hash = -1
    · rw [if_pos hk]; exact Or.inr (Or.inr (Or.inl ⟨hc', hk, rfl⟩))
    · rw [if_neg hk]; exact Or.inr (Or.inr (Or.inr ⟨hc', hk, rfl⟩))

theorem fill_lane_step_done (S W : Nat) (csr : CsrMatrix) (re : Int) (t : HashTable)
    (ln : FillLane) (hj : ¬ ln.j < re) : fill_lane_step S W csr re t ln = (t, ln) := by
  simp only [fill_lane_step, if_neg hj]

theorem PathOcc.mono {S : Nat} {t t1 : HashTable} {home d : Nat}
    (h : PathOcc S t home d) (hm : ∀ s, t.table s ≠ -1 → t1.table s ≠ -1) :
    PathOcc S t1 home d := fun i hi => hm _ (h i hi)

/-- The slots probed first from `home` are different slots. -/
theorem path_slots_card (S home d : Nat) (hd : d ≤ S) :
    ((Finset.range d).image (fun i => (home + i) % S)).card = d := by
  rw [Finset.card_image_of_injOn, Finset.card_range]
  intro a ha b hb hab
  simp only [Finset.coe_range, Set.mem_Iio] at ha hb
  have h1 : home + a ≡ home + b [MOD S] := hab
  have h2 : a ≡ b [MOD S] := Nat.ModEq.add_left_cancel' home h1
  exact Nat.ModEq.eq_of_lt_of_lt h2 (by omega) (by omega)

/-- Positions of different lanes are different positions. -/
theorem lane_pos_ne (W : Nat) (rb : Int) (l1 l2 q1 q2 : Nat) (h1 : l1 < W) (h2 : l2 < W)
    (h : rb + l1 + W * q1 = rb + l2 + W * q2) : l1 = l2 ∧ q1 = q2 := by
  have h' : (l1 : Int) + W * q1 = l2 + W * q2 := by linarith
  obtain ⟨a, b⟩ := Coomm.quot_rem_unique (W : Int) q1 l1 q2 l2 (by omega) (by omega) (by omega)
    (by omega) h'
  exact ⟨by exact_mod_cast b, by exact_mod_cast a⟩

/-- Every position from `rb` on is a position of one lane. -/
theorem pos_lane (W : Nat) (hW : 1 ≤ W) (rb p : Int) (hp : rb ≤ p) :
    ∃ lid q : Nat, lid < W ∧ p = rb + lid + W * q := by
  refine ⟨((p - rb) % W).toNat, ((p - rb) / W).toNat, ?_, ?_⟩
  · have h1 : (p - rb) % (W : Int) < W := Int.emod_lt_of_pos _ (by omega)
    have h2 : 0 ≤ (p - rb) % (W : Int) := Int.emod_nonneg _ (by omega)
    omega
  · have h2 : 0 ≤ (p - rb) % (W : Int) := Int.emod_nonneg _ (by omega)
    have h3 : 0 ≤ (p - rb) / (W : Int) := Int.ediv_nonneg (by omega) (by omega)
    rw [Int.toNat_of_nonneg h2, Int.toNat_of_nonneg h3]
    have := Int.emod_add_ediv (p - rb) W
    linarith


/-! ## The lanes filling the table: what every step keeps -/

theorem FillInv.lane_update {e W : Nat} {csr : CsrMatrix} {rb re : Int} {g : FillState}
    (h : FillInv e W csr rb re g) (lid : Nat) (ln : FillLane)
    (hpos : ∃ q : Nat, ln.j = rb + lid + W * q)
    (hmono : (g.lane lid).j ≤ ln.j)
    (hhash : ln.hash = (hash_slot (2 ^ e) (csr.csr_col_ind ln.j) + ln.probes) % 2 ^ e)
    (hpath : ln.j < re →
      PathOcc (2 ^ e) g.t (hash_slot (2 ^ e) (csr.csr_col_ind ln.j)) ln.probes)
    (hprobes : ln.j < re → ln.probes < 2 ^ e)
    (hdone : ∀ q : Nat, (g.lane lid).j ≤ rb + lid + W * q → rb + lid + W * q < ln.j →
      rb + lid + W * q < re → csr.csr_col_ind (rb + lid + W * q) ≠ -1 →
      ∃ slot, g.t.table slot = csr.csr_col_ind (rb + lid + W * q)) :
    FillInv e W csr rb re ⟨g.t, Function.update g.lane lid ln⟩ := by
  have hsame : Function.update g.lane lid ln lid = ln := Function.update_same _ _ _
  have hother : ∀ l, l ≠ lid → Function.update g.lane lid ln l = g.lane l :=
    fun l hne => Function.update_noteq hne _ _
  refine ⟨?_, ?_, ?_, ?_, h.slot_lt, ?_, h.slot_inj, h.slot_path, ?_⟩
  · intro l hlw
    dsimp only
    by_cases hll : l = lid
    · subst hll; rw [hsame]; exact hpos
    · rw [hother l hll]; exact h.lane_pos l hlw
  · intro l hlw
    dsimp only
    by_cases hll : l = lid
    · subst hll; rw [hsame]; exact hhash
    · rw [hother l hll]; exact h.lane_hash l hlw
  · intro l hlw
    dsimp only
    by_cases hll : l = lid
    · subst hll; rw [hsame]; exact hpath
    · rw [hother l hll]; exact h.lane_path l hlw
  · intro l hlw
    dsimp only
    by_cases hll : l = lid
    · subst hll; rw [hsame]; exact hprobes
    · rw [hother l hll]; exact h.lane_probes l hlw
  · intro slot hs
    obtain ⟨h1, h2, h3, l0, hl0, hq0, hlt0⟩ := h.slot_data slot hs
    refine ⟨h1, h2, h3, l0, hl0, hq0, ?_⟩
    dsimp only
    by_cases hll : l0 = lid
    · subst hll; rw [hsame]; exact lt_of_lt_of_le hlt0 hmono
    · rw [hother l0 hll]; exact hlt0
  · intro l hlw q
    dsimp only
    by_cases hll : l = lid
    · subst hll
      rw [hsame]
      intro h1 h2 h3
      by_cases hold : rb + (l : Int) + W * q < (g.lane l).j
      · exact h.done_pos l hlw q hold h2 h3
      · exact hdone q (not_lt.mp hold) h1 h2 h3
    · rw [hother l hll]; exact h.done_pos l hlw q

/-- The positions stored in occupied slots are different positions of the row,
none of them the position a lane is still inserting. -/
theorem FillInv.occ_card {e W : Nat} {csr : CsrMatrix} {rb re : Int} {g : FillState}
    (h : FillInv e W csr rb re g) (occ : Finset Nat)
    (hocc : ∀ s ∈ occ, g.t.table s ≠ -1) : occ.card ≤ (re - rb).toNat := by
  rw [← Int.card_Ico]
  apply Finset.card_le_card_of_injOn (fun s => g.t.data s)
  · intro s hs
    obtain ⟨h1, h2, _⟩ := h.slot_data s (hocc s hs)
    exact Finset.mem_Ico.mpr ⟨h1, h2⟩
  · intro a ha b hb hab
    exact h.slot_inj a b (hocc a ha) (hocc b hb) hab

theorem FillInv.occ_card_lane {e W : Nat} {csr : CsrMatrix} {rb re : Int} {g : FillState}
    (h : FillInv e W csr rb re g) (lid : Nat) (hl : lid < W) (hj : (g.lane lid).j < re)
    (occ : Finset Nat) (hocc : ∀ s ∈ occ, g.t.table s ≠ -1) :
    occ.card + 1 ≤ (re - rb).toNat := by
  obtain ⟨q, hq⟩ := h.lane_pos lid hl
  have hrb : rb ≤ (g.lane lid).j := by
    have : (0 : Int) ≤ W * q := by positivity
    omega
  have hmem : (g.lane lid).j ∈ Finset.Ico rb re := Finset.mem_Ico.mpr ⟨hrb, hj⟩
  have hc : ((Finset.Ico rb re).erase (g.lane lid).j).card + 1 = (re - rb).toNat := by
    rw [Finset.card_erase_of_mem hmem, Int.card_Ico]
    have : 0 < (Finset.Ico rb re).card := Finset.card_pos.mpr ⟨_, hmem⟩
    rw [Int.card_Ico] at this
    omega
  rw [← hc]
  apply Nat.succ_le_succ
  apply Finset.card_le_card_of_injOn (fun s => g.t.data s)
  · intro s hs
    obtain ⟨h1, h2, _, l0, hl0, ⟨q0, hq0⟩, hlt0⟩ := h.slot_data s (hocc s hs)
    refine Finset.mem_coe.mpr (Finset.mem_erase.mpr ⟨?_, Finset.mem_Ico.mpr ⟨h1, h2⟩⟩)
    intro heq
    have heq' : rb + (l0 : Int) + W * q0 = rb + lid + W * q := by
      rw [← hq0, ← hq]; exact heq
    obtain ⟨hl, _⟩ := lane_pos_ne W rb l0 lid q0 q hl0 hl heq'
    subst hl
    omega
  · intro a ha b hb hab
    exact h.slot_inj a b (hocc a ha) (hocc b hb) hab

/-- A lane in the loop has probed fewer slots than the row has other entries. -/
theorem FillInv.path_bound {e W : Nat} {csr : CsrMatrix} {rb re : Int} {g : FillState}
    (h : FillInv e W csr rb re g) (lid : Nat) (hl : lid < W) (hj : (g.lane lid).j < re)
    (d : Nat) (hd : d ≤ 2 ^ e)
    (hp : PathOcc (2 ^ e) g.t (hash_slot (2 ^ e) (csr.csr_col_ind (g.lane lid).j)) d) :
    d + 1 ≤ (re - rb).toNat := by
  have hc := path_slots_card (2 ^ e) (hash_slot (2 ^ e) (csr.csr_col_ind (g.lane lid).j)) d hd
  rw [← hc]
  apply h.occ_card_lane lid hl hj
  intro s hs
  obtain ⟨i, hi, rfl⟩ := Finset.mem_image.mp hs
  exact hp i (Finset.mem_range.mp hi)

/-- With fewer entries than slots some slot is empty. -/
theorem FillInv.empty_slot {e W : Nat} {csr : CsrMatrix} {rb re : Int} {g : FillState}
    (h : FillInv e W csr rb re g) (hfit : (re - rb).toNat < 2 ^ e) :
    ∃ z, z < 2 ^ e ∧ g.t.table z = -1 := by
  by_contra hno
  push_neg at hno
  have := h.occ_card (Finset.range (2 ^ e)) (fun s hs => hno s (Finset.mem_range.mp hs))
  rw [Finset.card_range] at this
  omega


/-! ## The lanes filling the table: the steps keep the invariant -/

/-- The `atomicCAS` that finds its slot empty. -/
theorem FillInv.store {e W : Nat} {csr : CsrMatrix} {rb re : Int} {g : FillState}
    (h : FillInv e W csr rb re g) (hW : 1 ≤ W) (lid : Nat) (hl : lid < W)
    (hj : (g.lane lid).j < re) (hempty : g.t.table (g.lane lid).hash = -1) :
    FillInv e W csr rb re
      ⟨⟨Function.update g.t.table (g.lane lid).hash (csr.csr_col_ind (g.lane lid).j),
          Function.update g.t.data (g.lane lid).hash (g.lane lid).j⟩,
        Function.update g.lane lid (fill_enter (2 ^ e) csr ((g.lane lid).j + W))⟩ := by
  have hpos : 0 < 2 ^ e := by positivity
  obtain ⟨q, hq⟩ := h.lane_pos lid hl
  have hWq : (0 : Int) ≤ W * q := by positivity
  have hsame : Function.update g.lane lid (fill_enter (2 ^ e) csr ((g.lane lid).j + W)) lid =
      fill_enter (2 ^ e) csr ((g.lane lid).j + W) := Function.update_same _ _ _
  have hother : ∀ l, l ≠ lid →
      Function.update g.lane lid (fill_enter (2 ^ e) csr ((g.lane lid).j + W)) l = g.lane l :=
    fun l hne => Function.update_noteq hne _ _
  have hne : ∀ slot, g.t.table slot ≠ -1 → slot ≠ (g.lane lid).hash := by
    intro slot hs heq
    rw [heq] at hs
    exact hs hempty
  have hkeep : ∀ slot, g.t.table slot ≠ -1 →
      Function.update g.t.table (g.lane lid).hash (csr.csr_col_ind (g.lane lid).j) slot =
        g.t.table slot := fun slot hs => Function.update_noteq (hne slot hs) _ _
  have hkeepd : ∀ slot, slot ≠ (g.lane lid).hash →
      Function.update g.t.data (g.lane lid).hash (g.lane lid).j slot = g.t.data slot :=
    fun slot hs => Function.update_noteq hs _ _
  have hmono : ∀ slot, g.t.table slot ≠ -1 →
      Function.update g.t.table (g.lane lid).hash (csr.csr_col_ind (g.lane lid).j) slot ≠ -1 := by
    intro slot hs
    rw [hkeep slot hs]
    exact hs
  have hcases : ∀ slot,
      Function.update g.t.table (g.lane lid).hash (csr.csr_col_ind (g.lane lid).j) slot ≠ -1 →
      slot = (g.lane lid).hash ∨ (slot ≠ (g.lane lid).hash ∧ g.t.table slot ≠ -1) := by
    intro slot hs
    by_cases hc : slot = (g.lane lid).hash
    · exact Or.inl hc
    · rw [Function.update_noteq hc] at hs
      exact Or.inr ⟨hc, hs⟩
  have hlanemono : ∀ l, (g.lane l).j ≤
      (Function.update g.lane lid (fill_enter (2 ^ e) csr ((g.lane lid).j + W)) l).j := by
    intro l
    by_cases hll : l = lid
    · subst hll
      rw [hsame]
      show (g.lane l).j ≤ (g.lane l).j + W
      omega
    · rw [hother l hll]
  refine ⟨?_, ?_, ?_, ?_, ?_, ?_, ?_, ?_, ?_⟩
  · intro l hlw
    dsimp only
    by_cases hll : l = lid
    · subst hll
      rw [hsame]
      refine ⟨q + 1, ?_⟩
      show (g.lane l).j + W = _
      rw [hq]
      push_cast
      ring
    · rw [hother l hll]; exact h.lane_pos l hlw
  · intro l hlw
    dsimp only
    by_cases hll : l = lid
    · subst hll
      rw [hsame]
      show hash_slot (2 ^ e) _ = (hash_slot (2 ^ e) _ + 0) % 2 ^ e
      rw [Nat.add_zero, Nat.mod_eq_of_lt (hash_slot_lt _ hpos _)]
      rfl
    · rw [hother l hll]; exact h.lane_hash l hlw
  · intro l hlw
    dsimp only
    by_cases hll : l = lid
    · subst hll
      rw [hsame]
      intro _ i hi
      exact absurd hi (Nat.not_lt_zero i)
    · rw [hother l hll]
      intro hlt
      exact (h.lane_path l hlw hlt).mono hmono
  · intro l hlw
    dsimp only
    by_cases hll : l = lid
    · subst hll
      rw [hsame]
      intro _
      exact hpos
    · rw [hother l hll]; exact h.lane_probes l hlw
  · intro slot hs
    rcases hcases slot hs with hc | ⟨_, hc⟩
    · rw [hc, h.lane_hash lid hl]
      exact Nat.mod_lt _ hpos
    · exact h.slot_lt slot hc
  · intro slot hs
    dsimp only at hs ⊢
    rcases hcases slot hs with hc | ⟨hc1, hc⟩
    · subst hc
      rw [Function.update_same, Function.update_same]
      refine ⟨by omega, hj, rfl, lid, hl, ⟨q, hq⟩, ?_⟩
      rw [hsame]
      show (g.lane lid).j < (g.lane lid).j + W
      omega
    · rw [hkeep slot hc, hkeepd slot hc1]
      obtain ⟨h1, h2, h3, l0, hl0, hq0, hlt0⟩ := h.slot_data slot hc
      exact ⟨h1, h2, h3, l0, hl0, hq0, lt_of_lt_of_le hlt0 (hlanemono l0)⟩
  · intro s1 s2 hs1 hs2
    dsimp only at hs1 hs2 ⊢
    have hfresh : ∀ slot, slot ≠ (g.lane lid).hash → g.t.table slot ≠ -1 →
        g.t.data slot ≠ (g.lane lid).j := by
      intro slot _ hc heq
      obtain ⟨_, _, _, l0, hl0, ⟨q0, hq0⟩, hlt0⟩ := h.slot_data slot hc
      have heq' : rb + (l0 : Int) + W * q0 = rb + lid + W * q := by
        rw [← hq0, ← hq]; exact heq
      obtain ⟨hl1, _⟩ := lane_pos_ne W rb l0 lid q0 q hl0 hl heq'
      subst hl1
      omega
    rcases hcases s1 hs1 with hc1 | ⟨hn1, hc1⟩
    · rcases hcases s2 hs2 with hc2 | ⟨hn2, hc2⟩
      · intro _; rw [hc1, hc2]
      · rw [hc1, Function.update_same, hkeepd s2 hn2]
        intro heq
        exact absurd heq.symm (hfresh s2 hn2 hc2)
    · rcases hcases s2 hs2 with hc2 | ⟨hn2, hc2⟩
      · rw [hc2, Function.update_same, hkeepd s1 hn1]
        intro heq
        exact absurd heq (hfresh s1 hn1 hc1)
      · rw [hkeepd s1 hn1, hkeepd s2 hn2]
        exact h.slot_inj s1 s2 hc1 hc2
  · intro slot hs
    dsimp only at hs ⊢
    rcases hcases slot hs with hc | ⟨_, hc⟩
    · subst hc
      rw [Function.update_same]
      exact ⟨(g.lane lid).probes, h.lane_probes lid hl hj, (h.lane_hash lid hl).symm,
        (h.lane_path lid hl hj).mono hmono⟩
    · rw [hkeep slot hc]
      obtain ⟨d, hd, hd1, hd2⟩ := h.slot_path slot hc
      exact ⟨d, hd, hd1, hd2.mono hmono⟩
  · intro l hlw q1
    dsimp only
    have hold : rb + (l : Int) + W * q1 < (g.lane l).j → rb + (l : Int) + W * q1 < re →
        csr.csr_col_ind (rb + l + W * q1) ≠ -1 →
        ∃ slot, Function.update g.t.table (g.lane lid).hash (csr.csr_col_ind (g.lane lid).j)
          slot = csr.csr_col_ind (rb + l + W * q1) := by
      intro h1 h2 h3
      obtain ⟨slot, hslot⟩ := h.done_pos l hlw q1 h1 h2 h3
      refine ⟨slot, ?_⟩
      rw [hkeep slot (by rw [hslot]; exact h3)]
      exact hslot
    by_cases hll : l = lid
    · subst hll
      rw [hsame]
      intro h1 h2 h3
      by_cases hlt : rb + (l : Int) + W * q1 < (g.lane l).j
      · exact hold hlt h2 h3
      · have h1' : rb + (l : Int) + W * q1 < (g.lane l).j + W := h1
        have hqq : q1 = q := by
          have ha : (W : Int) * q ≤ W * q1 := by omega
          have hb : (W : Int) * q1 < W * (q + 1) := by
            have : (W : Int) * (q + 1) = W * q + W := by ring
            omega
          have hWpos : (0 : Int) < W := by omega
          have ha' := le_of_mul_le_mul_left ha hWpos
          have hb' := lt_of_mul_lt_mul_left hb (le_of_lt hWpos)
          omega
        subst hqq
        refine ⟨(g.lane l).hash, ?_⟩
        rw [Function.update_same, hq]
    · rw [hother l hll]
      exact hold


/-! ## The lanes filling the table: every schedule -/

theorem lane_pos_between (W q q1 : Nat) (hW : 1 ≤ W) (x : Int)
    (h1 : x + W * q ≤ x + W * q1) (h2 : x + W * q1 < x + W * q + W) : q1 = q := by
  have ha : (W : Int) * q ≤ W * q1 := by omega
  have hb : (W : Int) * q1 < W * (q + 1) := by
    have : (W : Int) * (q + 1) = W * q + W := by ring
    omega
  have hWpos : (0 : Int) < W := by omega
  have ha' := le_of_mul_le_mul_left ha hWpos
  have hb' := lt_of_mul_lt_mul_left hb (le_of_lt hWpos)
  omega

theorem fillInv_init (e W : Nat) (csr : CsrMatrix) (rb re : Int) :
    FillInv e W csr rb re (fill_init (2 ^ e) csr rb) := by
  have hpos : 0 < 2 ^ e := by positivity
  refine ⟨?_, ?_, ?_, ?_, ?_, ?_, ?_, ?_, ?_⟩
  · intro l _
    exact ⟨0, by simp [fill_init, fill_enter]⟩
  · intro l _
    show hash_slot (2 ^ e) _ = (hash_slot (2 ^ e) _ + 0) % 2 ^ e
    rw [Nat.add_zero, Nat.mod_eq_of_lt (hash_slot_lt _ hpos _)]
    rfl
  · intro l _ _ i hi
    exact absurd hi (Nat.not_lt_zero i)
  · intro l _ _
    exact hpos
  · intro slot hs
    exact absurd rfl hs
  · intro slot hs
    exact absurd rfl hs
  · intro s1 s2 hs
    exact absurd rfl hs
  · intro slot hs
    exact absurd rfl hs
  · intro l _ q h1
    exfalso
    have h1' : rb + (l : Int) + W * q < rb + l := h1
    have : (0 : Int) ≤ W * q := by positivity
    omega

theorem fillInv_step {e W : Nat} {csr : CsrMatrix} {rb re : Int} {g : FillState}
    (h : FillInv e W csr rb re g) (hW : 1 ≤ W) (hfit : (re - rb).toNat < 2 ^ e) (lid : Nat) :
    FillInv e W csr rb re (fill_step (2 ^ e) W csr re g lid) := by
  have hpos : 0 < 2 ^ e := by positivity
  unfold fill_step
  by_cases hl : lid < W
  · rw [if_pos hl]
    obtain ⟨q, hq⟩ := h.lane_pos lid hl
    by_cases hj : (g.lane lid).j < re
    · rcases fill_lane_step_cases (2 ^ e) W csr re g.t (g.lane lid) hj with
        ⟨_, hk, hs⟩ | ⟨_, _, hs⟩ | ⟨_, hk, hs⟩ | ⟨_, hk, hs⟩
      · rw [hs]
        refine h.lane_update lid _ ⟨q + 1, ?_⟩ ?_ ?_ ?_ ?_ ?_
        · show (g.lane lid).j + W = _
          rw [hq]; push_cast; ring
        · show (g.lane lid).j ≤ (g.lane lid).j + W
          omega
        · show hash_slot (2 ^ e) _ = (hash_slot (2 ^ e) _ + 0) % 2 ^ e
          rw [Nat.add_zero, Nat.mod_eq_of_lt (hash_slot_lt _ hpos _)]
          rfl
        · intro _ i hi
          exact absurd hi (Nat.not_lt_zero i)
        · intro _
          exact hpos
        · intro q1 h1 h2 _ _
          have h2' : rb + (lid : Int) + W * q1 < (g.lane lid).j + W := h2
          have hqq : q1 = q := lane_pos_between W q q1 hW (rb + lid) (by omega) (by omega)
          subst hqq
          exact ⟨(g.lane lid).hash, by rw [hk, hq]⟩
      · rw [hs]
        refine h.lane_update lid _ ⟨q, hq⟩ (le_refl _) (h.lane_hash lid hl)
          (h.lane_path lid hl) (h.lane_probes lid hl) ?_
        intro q1 h1 h2 _ _
        exfalso
        have h2' : rb + (lid : Int) + W * q1 < (g.lane lid).j := h2
        omega
      · rw [hs]
        exact h.store hW lid hl hj hk
      · rw [hs]
        have hpath : PathOcc (2 ^ e) g.t (hash_slot (2 ^ e) (csr.csr_col_ind (g.lane lid).j))
            ((g.lane lid).probes + 1) := by
          intro i hi
          by_cases hi2 : i < (g.lane lid).probes
          · exact h.lane_path lid hl hj i hi2
          · have : i = (g.lane lid).probes := by omega
            subst this
            rw [← h.lane_hash lid hl]
            exact hk
        have hb := h.path_bound lid hl hj ((g.lane lid).probes + 1)
          (h.lane_probes lid hl hj) hpath
        refine h.lane_update lid _ ⟨q, hq⟩ (le_refl _) ?_ (fun _ => hpath) ?_ ?_
        · show next_slot (2 ^ e) (g.lane lid).hash =
            (hash_slot (2 ^ e) (csr.csr_col_ind (g.lane lid).j) + ((g.lane lid).probes + 1)) %
              2 ^ e
          rw [next_slot_pow, h.lane_hash lid hl, Nat.mod_add_mod, Nat.add_assoc]
        · intro _
          show (g.lane lid).probes + 1 < 2 ^ e
          omega
        · intro q1 h1 h2 _ _
          exfalso
          have h2' : rb + (lid : Int) + W * q1 < (g.lane lid).j := h2
          omega
    · rw [fill_lane_step_done _ _ _ _ _ _ hj]
      refine h.lane_update lid _ ⟨q, hq⟩ (le_refl _) (h.lane_hash lid hl)
        (h.lane_path lid hl) (h.lane_probes lid hl) ?_
      intro q1 h1 h2 _ _
      exfalso
      omega
  · rw [if_neg hl]
    exact h

theorem fillInv_run {e W : Nat} {csr : CsrMatrix} {rb re : Int} (hW : 1 ≤ W)
    (hfit : (re - rb).toNat < 2 ^ e) (sched : List Nat) (g : FillState)
    (h : FillInv e W csr rb re g) :
    FillInv e W csr rb re (fill_run (2 ^ e) W csr re sched g) := by
  induction sched generalizing g with
  | nil => exact h
  | cons lid rest ih => exact ih _ (fillInv_step h hW hfit lid)

theorem fill_run_append (S W : Nat) (csr : CsrMatrix) (re : Int) (s1 s2 : List Nat)
    (g : FillState) :
    fill_run S W csr re (s1 ++ s2) g = fill_run S W csr re s2 (fill_run S W csr re s1 g) := by
  induction s1 generalizing g with
  | nil => rfl
  | cons lid rest ih => exact ih _

theorem fill_step_other (S W : Nat) (csr : CsrMatrix) (re : Int) (g : FillState)
    (lid l : Nat) (hne : l ≠ lid) : (fill_step S W csr re g lid).lane l = g.lane l := by
  unfold fill_step
  by_cases hl : lid < W
  · rw [if_pos hl]
    exact Function.update_noteq hne _ _
  · rw [if_neg hl]

/-- A lane that has left the loop stays where it is. -/
theorem fill_step_left (S W : Nat) (csr : CsrMatrix) (re : Int) (g : FillState)
    (lid l : Nat) (hj : ¬ (g.lane l).j < re) : (fill_step S W csr re g lid).lane l = g.lane l := by
  by_cases hne : l = lid
  · subst hne
    unfold fill_step
    by_cases hl : l < W
    · rw [if_pos hl, fill_lane_step_done _ _ _ _ _ _ hj]
      exact Function.update_same _ _ _
    · rw [if_neg hl]
  · exact fill_step_other S W csr re g lid l hne

/-- Every step of a lane in the loop brings it nearer to the end of the loop. -/
theorem fill_measure_step {e W : Nat} {csr : CsrMatrix} {rb re : Int} {g : FillState}
    (h : FillInv e W csr rb re g) (hW : 1 ≤ W) (lid : Nat) (hl : lid < W)
    (hj : (g.lane lid).j < re) :
    fill_measure (2 ^ e) re ((fill_step (2 ^ e) W csr re g lid).lane lid) + 1 ≤
      fill_measure (2 ^ e) re (g.lane lid) := by
  have hpos : 0 < 2 ^ e := by positivity
  have hp := h.lane_probes lid hl hj
  have hnext : ∀ ln : FillLane, ln.j = (g.lane lid).j + W → ln.probes = 0 → ln.cas = false →
      fill_measure (2 ^ e) re ln + 1 ≤ fill_measure (2 ^ e) re (g.lane lid) := by
    intro ln h1 h2 h3
    unfold fill_measure
    rw [if_pos hj, h1, h2, h3]
    have hc : 2 * (2 ^ e - (g.lane lid).probes) -
        (if (g.lane lid).cas = true then 1 else 0) ≥ 1 := by
      split_ifs <;> omega
    obtain ⟨n, hn⟩ : ∃ n : Nat, (re - (g.lane lid).j).toNat = n + 1 := ⟨(re - (g.lane lid).j).toNat - 1, by omega⟩
    rw [hn]
    by_cases hj2 : (g.lane lid).j + W < re
    · rw [if_pos hj2]
      have : (re - ((g.lane lid).j + W)).toNat ≤ n := by omega
      have := Nat.mul_le_mul_right (2 * 2 ^ e) this
      simp only [Bool.false_eq_true, if_false, Nat.sub_zero]
      nlinarith
    · rw [if_neg hj2]
      nlinarith
  unfold fill_step
  rw [if_pos hl]
  show fill_measure (2 ^ e) re
    (Function.update g.lane lid (fill_lane_step (2 ^ e) W csr re g.t (g.lane lid)).2 lid) + 1 ≤ _
  rw [Function.update_same]
  rcases fill_lane_step_cases (2 ^ e) W csr re g.t (g.lane lid) hj with
    ⟨_, _, hs⟩ | ⟨hc, _, hs⟩ | ⟨_, _, hs⟩ | ⟨hc, _, hs⟩
  · rw [hs]; exact hnext _ rfl rfl rfl
  · rw [hs]
    unfold fill_measure
    rw [if_pos hj, if_pos hj, hc]
    simp only [Bool.false_eq_true, if_false, if_true, Nat.sub_zero]
    omega
  · rw [hs]; exact hnext _ rfl rfl rfl
  · rw [hs]
    unfold fill_measure
    rw [if_pos hj, if_pos hj, hc]
    simp only [Bool.false_eq_true, if_false, if_true, Nat.sub_zero]
    omega

theorem fill_measure_left (S : Nat) (re : Int) (ln : FillLane) (hS : 0 < S)
    (h : fill_measure S re ln = 0) : re ≤ ln.j := by
  by_contra hj
  push_neg at hj
  unfold fill_measure at h
  rw [if_pos hj] at h
  have h1 : 1 ≤ (re - ln.j).toNat := by omega
  have := Nat.mul_le_mul_right (2 * S) h1
  omega

theorem fill_run_measure {e W : Nat} {csr : CsrMatrix} {rb re : Int} (hW : 1 ≤ W)
    (hfit : (re - rb).toNat < 2 ^ e) (l : Nat) (hl : l < W) (sched : List Nat) (g : FillState)
    (h : FillInv e W csr rb re g) :
    fill_measure (2 ^ e) re ((fill_run (2 ^ e) W csr re sched g).lane l) ≤
      fill_measure (2 ^ e) re (g.lane l) - sched.count l := by
  induction sched generalizing g with
  | nil => simp [fill_run]
  | cons lid rest ih =>
    have ih1 := ih _ (fillInv_step h hW hfit lid)
    show fill_measure (2 ^ e) re
      ((fill_run (2 ^ e) W csr re rest (fill_step (2 ^ e) W csr re g lid)).lane l) ≤ _
    by_cases hne : lid = l
    · subst hne
      rw [List.count_cons_self]
      by_cases hj : (g.lane lid).j < re
      · have := fill_measure_step h hW lid hl hj
        omega
      · rw [fill_step_left _ _ _ _ _ _ _ hj] at ih1
        have h0 : fill_measure (2 ^ e) re (g.lane lid) = 0 := by
          unfold fill_measure; rw [if_neg hj]
        omega
    · rw [List.count_cons_of_ne (Ne.symm hne)]
      rw [fill_step_other _ _ _ _ _ _ _ (Ne.symm hne)] at ih1
      exact ih1

/-- Whatever the order of the lanes: once every lane has made enough steps,
all lanes have left the fill loop. -/
theorem fill_run_done {e W : Nat} {csr : CsrMatrix} {rb re : Int} (hW : 1 ≤ W)
    (hfit : (re - rb).toNat < 2 ^ e) (sched : List Nat)
    (hcount : ∀ l, l < W → ((re - rb).toNat + 1) * (2 * 2 ^ e) ≤ sched.count l) :
    fill_done W re (fill_run (2 ^ e) W csr re sched (fill_init (2 ^ e) csr rb)) := by
  intro l hl
  have hpos : 0 < 2 ^ e := by positivity
  have hm := fill_run_measure hW hfit l hl sched _ (fillInv_init e W csr rb re)
  have hi : fill_measure (2 ^ e) re ((fill_init (2 ^ e) csr rb).lane l) ≤
      ((re - rb).toNat + 1) * (2 * 2 ^ e) := by
    unfold fill_measure
    show (if rb + (l : Int) < re then
      (re - (rb + (l : Int))).toNat * (2 * 2 ^ e) + (2 * (2 ^ e - 0) - (if false = true then 1 else 0))
      else 0) ≤ _
    by_cases h1 : rb + (l : Int) < re
    · rw [if_pos h1]
      have h2 : (re - (rb + (l : Int))).toNat ≤ (re - rb).toNat := by omega
      have := Nat.mul_le_mul_right (2 * 2 ^ e) h2
      simp only [Nat.sub_zero, Bool.false_eq_true, if_false]
      rw [Nat.add_mul, Nat.one_mul]
      omega
    · rw [if_neg h1]
      exact Nat.zero_le _
  apply fill_measure_left (2 ^ e) re _ hpos
  have := hcount l hl
  omega

theorem fair_schedule (W M : Nat) : ∃ sched : List Nat, ∀ l, l < W → M ≤ sched.count l := by
  induction W with
  | zero => exact ⟨[], fun l hl => absurd hl (Nat.not_lt_zero l)⟩
  | succ n ih =>
    obtain ⟨s, hs⟩ := ih
    refine ⟨s ++ List.replicate M n, ?_⟩
    intro l hl
    rw [List.count_append]
    by_cases hln : l = n
    · subst hln
      rw [List.count_replicate_self]
      omega
    · have := hs l (by omega)
      omega


/-! ## Looking up a key in the table the lanes have filled -/

theorem probe_finds (e : Nat) (key : Int) (t : HashTable) (d h : Nat) (hh : h < 2 ^ e)
    (hp : PathOcc (2 ^ e) t h d) (hk : t.table ((h + d) % 2 ^ e) = key) :
    ∃ z, probe (2 ^ e) key (d + 1) h t = some z ∧ t.table z = key := by
  induction d generalizing h with
  | zero =>
    rw [Nat.add_zero, Nat.mod_eq_of_lt hh] at hk
    exact ⟨h, by simp [probe, hk], hk⟩
  | succ n ih =>
    simp only [probe]
    by_cases hc : t.table h = key ∨ t.table h = -1
    · rw [if_pos hc]
      refine ⟨h, rfl, ?_⟩
      rcases hc with hc | hc
      · exact hc
      · exfalso
        have := hp 0 (Nat.succ_pos n)
        rw [Nat.add_zero, Nat.mod_eq_of_lt hh] at this
        exact this hc
    · rw [if_neg hc]
      have hmod : ∀ i, ((h + 1) % 2 ^ e + i) % 2 ^ e = (h + (i + 1)) % 2 ^ e := by
        intro i
        rw [Nat.mod_add_mod]
        congr 1
        omega
      apply ih
      · rw [next_slot_pow]
        exact Nat.mod_lt _ (by positivity)
      · intro i hi
        rw [next_slot_pow, hmod]
        exact hp (i + 1) (by omega)
      · rw [next_slot_pow, hmod]
        exact hk

/-- In a table filled by the lanes of a row with fewer entries than slots, the
lookup of a key of the row stops at a slot that holds the key and names a
position of the row with that column index. -/
theorem lookup_present {e W : Nat} {csr : CsrMatrix} {rb re : Int} {g : FillState}
    (h : FillInv e W csr rb re g) (hW : 1 ≤ W) (hdone : fill_done W re g) (p : Int)
    (hp1 : rb ≤ p) (hp2 : p < re) (hne : csr.csr_col_ind p ≠ -1) :
    ∃ z, probe (2 ^ e) (csr.csr_col_ind p) (2 ^ e) (hash_slot (2 ^ e) (csr.csr_col_ind p)) g.t =
        some z ∧ g.t.table z = csr.csr_col_ind p ∧
      hash_lookup (2 ^ e) (csr.csr_col_ind p) (2 ^ e) (hash_slot (2 ^ e) (csr.csr_col_ind p)) g.t =
        some (some (g.t.data z)) ∧
      rb ≤ g.t.data z ∧ g.t.data z < re ∧ csr.csr_col_ind (g.t.data z) = csr.csr_col_ind p := by
  have hpos : 0 < 2 ^ e := by positivity
  obtain ⟨lid, q, hl, hpq⟩ := pos_lane W hW rb p hp1
  have hlt : rb + (lid : Int) + W * q < (g.lane lid).j := by
    have := hdone lid hl
    omega
  obtain ⟨slot, hslot⟩ := h.done_pos lid hl q hlt (by omega) (by rw [← hpq]; exact hne)
  rw [← hpq] at hslot
  have hocc : g.t.table slot ≠ -1 := by rw [hslot]; exact hne
  obtain ⟨d, hd, hd1, hd2⟩ := h.slot_path slot hocc
  rw [hslot] at hd1 hd2
  obtain ⟨z, hz, hzk⟩ := probe_finds e (csr.csr_col_ind p) g.t d _ (hash_slot_lt _ hpos _) hd2
    (by rw [hd1]; exact hslot)
  have hz2 := probe_fuel_mono _ _ _ _ _ _ hz (2 ^ e - (d + 1))
  have e2 : d + 1 + (2 ^ e - (d + 1)) = 2 ^ e := by omega
  rw [e2] at hz2
  have hzocc : g.t.table z ≠ -1 := by rw [hzk]; exact hne
  obtain ⟨h1, h2, h3, _⟩ := h.slot_data z hzocc
  refine ⟨z, hz2, hzk, ?_, h1, h2, by rw [h3, hzk]⟩
  rw [hash_lookup_eq_probe, hz2]
  simp only [Option.map_some', hzocc, if_false]

/-- In a table filled by the lanes of a row with fewer entries than slots, the
lookup of a key stops, and for a key that is not in the row at an empty slot. -/
theorem lookup_absent {e W : Nat} {csr : CsrMatrix} {rb re : Int} {g : FillState}
    (h : FillInv e W csr rb re g) (hfit : (re - rb).toNat < 2 ^ e) (key : Int)
    (hno : ∀ p, rb ≤ p → p < re → csr.csr_col_ind p ≠ key) :
    ∃ z, probe (2 ^ e) key (2 ^ e) (hash_slot (2 ^ e) key) g.t = some z ∧ g.t.table z = -1 ∧
      hash_lookup (2 ^ e) key (2 ^ e) (hash_slot (2 ^ e) key) g.t = some none := by
  have hpos : 0 < 2 ^ e := by positivity
  obtain ⟨z0, hz0, hz0e⟩ := h.empty_slot hfit
  obtain ⟨z, hz⟩ := probe_terminates e key g.t _ z0 hz0e hz0 (hash_slot_lt _ hpos key)
  have hzv : g.t.table z = -1 := by
    by_contra hocc
    rcases probe_stop _ _ _ _ _ _ hz with hk | hk
    · obtain ⟨h1, h2, h3, _⟩ := h.slot_data z hocc
      exact hno _ h1 h2 (by rw [h3, hk])
    · exact hocc hk
  refine ⟨z, hz, hzv, ?_⟩
  rw [hash_lookup_eq_probe, hz]
  simp only [Option.map_some', hzv, if_true]

/-- In a table filled by the lanes of a row with fewer entries than slots every
lookup loop ends. -/
theorem lookup_ends {e W : Nat} {csr : CsrMatrix} {rb re : Int} {g : FillState}
    (h : FillInv e W csr rb re g) (hfit : (re - rb).toNat < 2 ^ e) (key : Int) :
    ∃ r, hash_lookup (2 ^ e) key (2 ^ e) (hash_slot (2 ^ e) key) g.t = some r := by
  have hpos : 0 < 2 ^ e := by positivity
  obtain ⟨z0, hz0, hz0e⟩ := h.empty_slot hfit
  obtain ⟨z, hz⟩ := probe_terminates e key g.t _ z0 hz0e hz0 (hash_slot_lt _ hpos key)
  rw [hash_lookup_eq_probe, hz]
  exact ⟨_, rfl⟩

theorem next_slot_iterate (e h i : Nat) (hh : h < 2 ^ e) :
    (next_slot (2 ^ e))^[i] h = (h + i) % 2 ^ e := by
  induction i with
  | zero => rw [Function.iterate_zero, id, Nat.add_zero, Nat.mod_eq_of_lt hh]
  | succ n ih =>
    rw [Function.iterate_succ_apply', ih, next_slot_pow, Nat.mod_add_mod, Nat.add_assoc]

/-- The probe sequence from any slot reaches every slot within `S` steps. -/
theorem probe_sequence_covers (e h z : Nat) (hh : h < 2 ^ e) (hz : z < 2 ^ e) :
    ∃ i, i < 2 ^ e ∧ (next_slot (2 ^ e))^[i] h = z := by
  have hpos : 0 < 2 ^ e := by positivity
  refine ⟨(z + 2 ^ e - h) % 2 ^ e, Nat.mod_lt _ hpos, ?_⟩
  rw [next_slot_iterate e h _ hh, Nat.add_mod, Nat.mod_mod, ← Nat.add_mod]
  have : h + (z + 2 ^ e - h) = z + 2 ^ e := by omega
  rw [this, Nat.add_mod_right, Nat.mod_eq_of_lt hz]

/-! ## A table without an empty slot -/

theorem hash_lookup_full (S : Nat) (hS : 0 < S) (key : Int) (t : HashTable)
    (hfull : ∀ z, z < S → t.table z ≠ -1 ∧ t.table z ≠ key) (fuel h : Nat) (hh : h < S) :
    hash_lookup S key fuel h t = none := by
  induction fuel generalizing h with
  | zero => rfl
  | succ n ih =>
    simp only [hash_lookup]
    rw [if_neg (hfull h hh).1, if_neg (hfull h hh).2]
    exact ih _ (next_slot_lt S hS h)

theorem fill_stuck_step (S W : Nat) (csr : CsrMatrix) (re : Int) (g : FillState) (lid l : Nat)
    (hS : 0 < S) (h1 : ∀ z, z < S → g.t.table z ≠ -1)
    (h2 : ∀ l1, (g.lane l1).hash < S)
    (h3 : ∀ z, z < S → g.t.table z ≠ csr.csr_col_ind (g.lane l).j) :
    (fill_step S W csr re g lid).t = g.t ∧
      (∀ l1, ((fill_step S W csr re g lid).lane l1).hash < S) ∧
      ((fill_step S W csr re g lid).lane l).j = (g.lane l).j := by
  unfold fill_step
  by_cases hl : lid < W
  · rw [if_pos hl]
    have key : (fill_lane_step S W csr re g.t (g.lane lid)).1 = g.t ∧
        (fill_lane_step S W csr re g.t (g.lane lid)).2.hash < S ∧
        (lid = l → (fill_lane_step S W csr re g.t (g.lane lid)).2.j = (g.lane l).j) := by
      by_cases hj : (g.lane lid).j < re
      · rcases fill_lane_step_cases S W csr re g.t (g.lane lid) hj with
          ⟨_, hk, hs⟩ | ⟨_, _, hs⟩ | ⟨_, hk, hs⟩ | ⟨_, _, hs⟩
        · rw [hs]
          refine ⟨rfl, hash_slot_lt S hS _, ?_⟩
          intro hll
          subst hll
          exact absurd hk (h3 _ (h2 lid))
        · rw [hs]
          exact ⟨rfl, h2 lid, fun hll => by subst hll; rfl⟩
        · exact absurd hk (h1 _ (h2 lid))
        · rw [hs]
          exact ⟨rfl, next_slot_lt S hS _, fun hll => by subst hll; rfl⟩
      · rw [fill_lane_step_done _ _ _ _ _ _ hj]
        exact ⟨rfl, h2 lid, fun hll => by subst hll; rfl⟩
    refine ⟨key.1, ?_, ?_⟩
    · intro l1
      by_cases hll : l1 = lid
      · subst hll
        show (Function.update g.lane l1 _ l1).hash < S
        rw [Function.update_same]
        exact key.2.1
      · show (Function.update g.lane lid _ l1).hash < S
        rw [Function.update_noteq hll]
        exact h2 l1
    · by_cases hll : l = lid
      · subst hll
        show (Function.update g.lane l _ l).j = _
        rw [Function.update_same]
        exact key.2.2 rfl
      · show (Function.update g.lane lid _ l).j = _
        rw [Function.update_noteq hll]
  · rw [if_neg hl]
    exact ⟨rfl, h2, rfl⟩

/-- Once the table has no empty slot, a lane whose key is not in it stays at
its position whatever the lanes do. -/
theorem fill_stuck_run (S W : Nat) (csr : CsrMatrix) (re : Int) (l : Nat) (hS : 0 < S)
    (sched : List Nat) (g : FillState) (h1 : ∀ z, z < S → g.t.table z ≠ -1)
    (h2 : ∀ l1, (g.lane l1).hash < S)
    (h3 : ∀ z, z < S → g.t.table z ≠ csr.csr_col_ind (g.lane l).j) :
    (fill_run S W csr re sched g).t = g.t ∧
      ((fill_run S W csr re sched g).lane l).j = (g.lane l).j := by
  induction sched generalizing g with
  | nil => exact ⟨rfl, rfl⟩
  | cons lid rest ih =>
    obtain ⟨a, b, c⟩ := fill_stuck_step S W csr re g lid l hS h1 h2 h3
    have := ih (fill_step S W csr re g lid) (by rw [a]; exact h1) b (by rw [a, c]; exact h3)
    show (fill_run S W csr re rest (fill_step S W csr re g lid)).t = g.t ∧
      ((fill_run S W csr re rest (fill_step S W csr re g lid)).lane l).j = (g.lane l).j
    rw [this.1, this.2, a, c]
    exact ⟨rfl, rfl⟩

theorem fill_run_hash_lt (S W : Nat) (csr : CsrMatrix) (re : Int) (hS : 0 < S)
    (sched : List Nat) (g : FillState) (h2 : ∀ l1, (g.lane l1).hash < S) :
    ∀ l1, ((fill_run S W csr re sched g).lane l1).hash < S := by
  induction sched generalizing g with
  | nil => exact h2
  | cons lid rest ih =>
    apply ih
    intro l1
    unfold fill_step
    by_cases hl : lid < W
    · rw [if_pos hl]
      by_cases hll : l1 = lid
      · subst hll
        show (Function.update g.lane l1 _ l1).hash < S
        rw [Function.update_same]
        by_cases hj : (g.lane l1).j < re
        · rcases fill_lane_step_cases S W csr re g.t (g.lane l1) hj with
            ⟨_, _, hs⟩ | ⟨_, _, hs⟩ | ⟨_, _, hs⟩ | ⟨_, _, hs⟩
          · rw [hs]; exact hash_slot_lt S hS _
          · rw [hs]; exact h2 l1
          · rw [hs]; exact hash_slot_lt S hS _
          · rw [hs]; exact next_slot_lt S hS _
        · rw [fill_lane_step_done _ _ _ _ _ _ hj]
          exact h2 l1
      · show (Function.update g.lane lid _ l1).hash < S
        rw [Function.update_noteq hll]
        exact h2 l1
    · rw [if_neg hl]
      exact h2 l1


/-! ## The table filled by the lanes and the table filled position by position -/

/-- For a row with fewer entries than slots whose column indices are pairwise
different, a lookup in the table filled by the lanes, in whatever order they
moved, returns the position of the key in the row: the result of the lookup in
the table filled position by position. -/
theorem fill_table_lookup_seq (e W : Nat) (csr : CsrMatrix) (rb re : Int) (hW : 1 ≤ W)
    (hle : rb ≤ re) (hfit : (re - rb).toNat < 2 ^ e)
    (hne : ∀ p, rb ≤ p → p < re → csr.csr_col_ind p ≠ -1)
    (hinj : ∀ p q, rb ≤ p → p < re → rb ≤ q → q < re →
      csr.csr_col_ind p = csr.csr_col_ind q → p = q)
    (sched : List Nat)
    (hdone : fill_done W re (fill_run (2 ^ e) W csr re sched (fill_init (2 ^ e) csr rb)))
    (key : Int) :
    hash_lookup (2 ^ e) key (2 ^ e) (hash_slot (2 ^ e) key)
        (fill_table (2 ^ e) W csr rb re sched) =
      some (findPos csr key (re - rb).toNat rb) := by
  have inv : FillInv e W csr rb re (fill_run (2 ^ e) W csr re sched (fill_init (2 ^ e) csr rb)) :=
    fillInv_run hW hfit sched _ (fillInv_init e W csr rb re)
  have hre : rb + ((re - rb).toNat : Int) = re := by
    rw [Int.toNat_of_nonneg (by omega)]
    ring
  cases hf : findPos csr key (re - rb).toNat rb with
  | some p =>
    obtain ⟨h1, h2, h3, -⟩ := findPos_some csr key _ rb p hf
    rw [hre] at h2
    subst h3
    obtain ⟨z, -, -, hl, d1, d2, d3⟩ := lookup_present inv hW hdone p h1 h2 (hne p h1 h2)
    have := hinj _ _ d1 d2 h1 h2 d3
    show hash_lookup (2 ^ e) (csr.csr_col_ind p) (2 ^ e) (hash_slot (2 ^ e) (csr.csr_col_ind p))
      (fill_run (2 ^ e) W csr re sched (fill_init (2 ^ e) csr rb)).t = some (some p)
    rw [hl, this]
  | none =>
    have hno := findPos_none csr key _ rb hf
    rw [hre] at hno
    obtain ⟨z, -, -, hl⟩ := lookup_absent inv hfit key hno
    exact hl

/-- For such a row the lookups in the table filled by the lanes agree with the
lookups in the table `hash_fill` builds. -/
theorem fill_table_lookup_fill (e W : Nat) (csr : CsrMatrix) (rb re : Int) (hW : 1 ≤ W)
    (hle : rb ≤ re) (hfit : (re - rb).toNat < 2 ^ e)
    (hne : ∀ p, rb ≤ p → p < re → csr.csr_col_ind p ≠ -1)
    (hinj : ∀ p q, rb ≤ p → p < re → rb ≤ q → q < re →
      csr.csr_col_ind p = csr.csr_col_ind q → p = q)
    (sched : List Nat)
    (hdone : fill_done W re (fill_run (2 ^ e) W csr re sched (fill_init (2 ^ e) csr rb)))
    (key : Int) (hkey : key ≠ -1) :
    ∃ t, hash_fill (2 ^ e) csr (re - rb).toNat rb ⟨fun _ => -1, fun _ => 0⟩ = some t ∧
      hash_lookup (2 ^ e) key (2 ^ e) (hash_slot (2 ^ e) key)
          (fill_table (2 ^ e) W csr rb re sched) =
        hash_lookup (2 ^ e) key (2 ^ e) (hash_slot (2 ^ e) key) t := by
  have hn : ((re - rb).toNat : Int) = re - rb := Int.toNat_of_nonneg (by omega)
  obtain ⟨t, ht, inv⟩ := hash_fill_inv e csr rb (re - rb).toNat 0 _ (tableInv_init (2 ^ e) csr _)
    (fun q h1 h2 => hne q (by simpa using h1) (by
      simp only [Nat.cast_zero, add_zero] at h2
      omega))
    (by omega)
  simp only [Nat.cast_zero, add_zero, Nat.zero_add] at ht inv
  refine ⟨t, ht, ?_⟩
  rw [fill_table_lookup_seq e W csr rb re hW hle hfit hne hinj sched hdone key,
    tableInv_lookup e csr rb _ t inv hfit key hkey]


/-! ## The midpoint in `rocsparse_int` and the exact midpoint -/

theorem midpoint32_eq (r l : Int) (h0 : -2147483648 ≤ r + l) (h1 : r + l < 2147483648) :
    midpoint32 r l = (r + l) >>> (1 : Nat) := by
  have : Coomm.to_rocsparse_int (r + l) = r + l := by
    simp only [Coomm.to_rocsparse_int]
    omega
  simp only [midpoint32, this]

/-- For positions below `2^30` the search with the midpoint in `rocsparse_int`
is the search with the exact midpoint, and it ends within `r - l` iterations. -/
theorem binsearch_loop32_eq (csr : CsrMatrix) (col_k : Int) (n : Nat) :
    ∀ (l r : Int) (wfuel : Nat), 0 ≤ l → l ≤ r → r < 1073741824 → r - l ≤ n → n < wfuel →
      binsearch_loop32 csr col_k wfuel l r ((r + l) >>> (1 : Nat)) =
        some (binsearch_loop csr col_k n l r ((r + l) >>> (1 : Nat))) := by
  induction n with
  | zero =>
    intro l r wfuel h0 hlr hr hn hw
    obtain ⟨w, rfl⟩ : ∃ w, wfuel = w + 1 := ⟨wfuel - 1, by omega⟩
    have : ¬ l < r := by push_cast at hn; omega
    simp only [binsearch_loop32, binsearch_loop, if_neg this]
  | succ n ih =>
    intro l r wfuel h0 hlr hr hn hw
    obtain ⟨w, rfl⟩ : ∃ w, wfuel = w + 1 := ⟨wfuel - 1, by omega⟩
    simp only [binsearch_loop32, binsearch_loop]
    by_cases hlt : l < r
    · rw [if_pos hlt, if_pos hlt]
      have hm := shiftRight_one (r + l)
      have hm1 : l ≤ (r + l) >>> (1 : Nat) := by rw [hm]; omega
      have hm2 : (r + l) >>> (1 : Nat) < r := by rw [hm]; omega
      by_cases hc : csr.csr_col_ind ((r + l) >>> (1 : Nat)) < col_k
      · rw [if_pos hc, if_pos hc, midpoint32_eq _ _ (by omega) (by omega)]
        exact ih _ _ _ (by omega) (by omega) hr (by push_cast at hn ⊢; omega) (by omega)
      · rw [if_neg hc, if_neg hc, midpoint32_eq _ _ (by omega) (by omega)]
        exact ih _ _ _ h0 hm1 (by omega) (by push_cast at hn ⊢; omega) (by omega)
    · rw [if_neg hlt, if_neg hlt]

theorem binsearch_loop_acc32_eq (csr : CsrMatrix) (col_k : Int) (n : Nat) :
    ∀ (l r : Int) (wfuel : Nat), 0 ≤ l → l ≤ r → r < 1073741824 → r - l ≤ n → n < wfuel →
      binsearch_loop_acc32 csr col_k wfuel l r ((r + l) >>> (1 : Nat)) =
        binsearch_loop_acc csr col_k n l r ((r + l) >>> (1 : Nat)) := by
  induction n with
  | zero =>
    intro l r wfuel h0 hlr hr hn hw
    obtain ⟨w, rfl⟩ : ∃ w, wfuel = w + 1 := ⟨wfuel - 1, by omega⟩
    have : ¬ l < r := by push_cast at hn; omega
    simp only [binsearch_loop_acc32, binsearch_loop_acc, if_neg this]
  | succ n ih =>
    intro l r wfuel h0 hlr hr hn hw
    obtain ⟨w, rfl⟩ : ∃ w, wfuel = w + 1 := ⟨wfuel - 1, by omega⟩
    simp only [binsearch_loop_acc32, binsearch_loop_acc]
    by_cases hlt : l < r
    · rw [if_pos hlt, if_pos hlt]
      have hm := shiftRight_one (r + l)
      have hm1 : l ≤ (r + l) >>> (1 : Nat) := by rw [hm]; omega
      have hm2 : (r + l) >>> (1 : Nat) < r := by rw [hm]; omega
      by_cases hc : csr.csr_col_ind ((r + l) >>> (1 : Nat)) < col_k
      · rw [if_pos hc, if_pos hc, midpoint32_eq _ _ (by omega) (by omega)]
        rw [ih _ _ _ (by omega) (by omega) hr (by push_cast at hn ⊢; omega) (by omega)]
      · rw [if_neg hc, if_neg hc, midpoint32_eq _ _ (by omega) (by omega)]
        rw [ih _ _ _ h0 hm1 (by omega) (by push_cast at hn ⊢; omega) (by omega)]
    · rw [if_neg hlt, if_neg hlt]

/-- For rows below position `2^30` the searches of a lane with the midpoint in
`rocsparse_int` are the searches with the exact midpoint, and each of them
ends. -/
theorem lane_searches32_eq (W : Nat) (csr : CsrMatrix) (re ld : Int) (wfuel : Nat)
    (hre : re ≤ 1073741824) (fuel : Nat) :
    ∀ (k l : Int), 0 ≤ l → l < re → re - 1 - l < wfuel →
      binsearch_lane_searches32 W csr re ld wfuel fuel k l =
        (binsearch_lane_searches W csr re ld fuel k l).map
          (fun x => (x.1, x.2.1, some (x.2.2.1, x.2.2.2))) := by
  induction fuel with
  | zero => intro k l _ _ _; rfl
  | succ n ih =>
    intro k l h0 hl hw
    simp only [binsearch_lane_searches32, binsearch_lane_searches]
    by_cases hk : k < ld
    · rw [if_pos hk, if_pos hk]
      have hn : (((re - 1 - l).toNat : Nat) : Int) = re - 1 - l := Int.toNat_of_nonneg (by omega)
      have e1 := binsearch_loop32_eq csr (csr.csr_col_ind k) (re - 1 - l).toNat l (re - 1) wfuel
        h0 (by omega) (by omega) (by omega) (by omega)
      have e2 := midpoint32_eq (re - 1) l (by omega) (by omega)
      rw [e2, e1]
      obtain ⟨r1, r2, -, -⟩ := binsearch_loop_range csr (csr.csr_col_ind k)
        (re - 1 - l).toNat l (re - 1) (by omega)
      simp only [List.map_cons]
      rw [ih _ _ (by omega) (by omega) (by omega)]
    · rw [if_neg hk, if_neg hk]
      rfl

theorem binsearch_lane_acc32_eq (W : Nat) (csr : CsrMatrix) (re ld : Int) (wfuel : Nat)
    (hre : re ≤ 1073741824) (fuel : Nat) :
    ∀ (k l : Int), 0 ≤ l → l < re → re - 1 - l < wfuel →
      binsearch_lane_acc32 W csr re ld wfuel fuel k l =
        binsearch_lane_acc W csr re ld fuel k l := by
  induction fuel with
  | zero => intro k l _ _ _; rfl
  | succ n ih =>
    intro k l h0 hl hw
    simp only [binsearch_lane_acc32, binsearch_lane_acc]
    by_cases hk : k < ld
    · rw [if_pos hk, if_pos hk]
      have hn : (((re - 1 - l).toNat : Nat) : Int) = re - 1 - l := Int.toNat_of_nonneg (by omega)
      have e1 := binsearch_loop32_eq csr (csr.csr_col_ind k) (re - 1 - l).toNat l (re - 1) wfuel
        h0 (by omega) (by omega) (by omega) (by omega)
      have e3 := binsearch_loop_acc32_eq csr (csr.csr_col_ind k) (re - 1 - l).toNat l (re - 1)
        wfuel h0 (by omega) (by omega) (by omega) (by omega)
      have e2 := midpoint32_eq (re - 1) l (by omega) (by omega)
      rw [e2, e1, e3]
      obtain ⟨r1, r2, -, -⟩ := binsearch_loop_range csr (csr.csr_col_ind k)
        (re - 1 - l).toNat l (re - 1) (by omega)
      simp only []
      rw [ih _ _ (by omega) (by omega) (by omega)]
    · rw [if_neg hk, if_neg hk]


/-! ## The full 40000 x 40000 matrix -/

theorem dense40000_valid : Valid dense40000 where
  m_nonneg := by decide
  base := Or.inl rfl
  ptr_zero := by decide
  ptr_mono := by
    intro r _ _
    show 40000 * r ≤ 40000 * (r + 1)
    omega
  col_range := by
    intro r h0 hm p h1 h2
    have h1' : 40000 * r - 0 ≤ p := h1
    have h2' : p < 40000 * (r + 1) - 0 := h2
    show (0 : Int) ≤ p % 40000 ∧ p % 40000 < 0 + 40000
    omega
  diag_range := by
    intro r h0 hm
    right
    have hm' : r < 40000 := hm
    show 40000 * r - 0 ≤ 40001 * r ∧ 40001 * r < 40000 * (r + 1) - 0
    omega
  sorted := by
    intro r h0 hm p h1 h2
    have h1' : 40000 * r - 0 ≤ p := h1
    have h2' : p < 40000 * (r + 1) - 0 - 1 := h2
    show p % 40000 < (p + 1) % 40000
    omega
  diag_present := by
    intro r h0 hm
    have hm' : r < 40000 := hm
    show 40000 * r - 0 ≤ 40001 * r ∧ 40001 * r < 40000 * (r + 1) - 0 ∧
      (40001 * r) % 40000 = r + 0
    omega

theorem dense40000_perm : MapPerm dense40000 :=
  ⟨fun i h0 hm => ⟨h0, hm⟩, fun i _ _ i2 _ _ h => h, fun r h0 hm h => h r h0 hm rfl⟩

/-- As long as `r + l` does not wrap, the search stays between its bounds. -/
theorem binsearch_loop32_range (csr : CsrMatrix) (col_k : Int) (fuel : Nat) :
    ∀ (l r : Int), -1073741824 ≤ l → l ≤ r → r < 1073741824 → ∀ l1 m1 : Int,
      binsearch_loop32 csr col_k fuel l r (midpoint32 r l) = some (l1, m1) →
        l ≤ m1 ∧ m1 ≤ r := by
  induction fuel with
  | zero => intro l r _ _ _ l1 m1 h; simp [binsearch_loop32] at h
  | succ n ih =>
    intro l r h0 hlr hr l1 m1 h
    have hmid : midpoint32 r l = (r + l) / 2 := by
      rw [midpoint32_eq _ _ (by omega) (by omega), shiftRight_one]
    simp only [binsearch_loop32] at h
    by_cases hlt : l < r
    · rw [if_pos hlt] at h
      by_cases hc : csr.csr_col_ind (midpoint32 r l) < col_k
      · rw [if_pos hc] at h
        have := ih _ _ (by omega) (by omega) hr l1 m1 h
        omega
      · rw [if_neg hc] at h
        have := ih _ _ h0 (by omega) (by omega) l1 m1 h
        omega
    · rw [if_neg hlt] at h
      simp only [Option.some.injEq, Prod.mk.injEq] at h
      omega

/-- The first search of lane 0 for row 30000 of the full 40000 x 40000 matrix,
in the iteration of its dependency row 1: whatever the reads outside the array
return, a search that ends ends below the row. -/
theorem dense40000_first_search (csr : CsrMatrix)
    (hin : ∀ p, 0 ≤ p → p < 1600000000 → csr.csr_col_ind p = dense40000.csr_col_ind p)
    (wfuel : Nat) (l m : Int)
    (h : binsearch_loop32 csr (csr.csr_col_ind 40000) wfuel 1200000000 1200039999
      (midpoint32 1200039999 1200000000) = some (l, m)) : m < 1200000000 := by
  have hk : csr.csr_col_ind 40000 = 0 := by rw [hin _ (by decide) (by decide)]; decide
  have m0 : midpoint32 1200039999 1200000000 = -947463649 := by decide
  have m1 : midpoint32 1200039999 (-947463649 + 1) = 126288175 := by decide
  have m2 : midpoint32 (-947463649) 1200000000 = 126268175 := by decide
  have c1 : csr.csr_col_ind 126288175 = 8175 := by
    rw [hin _ (by decide) (by decide)]; decide
  rw [hk, m0] at h
  obtain ⟨w, rfl⟩ : ∃ w, wfuel = w + 1 := by
    cases wfuel with
    | zero => simp [binsearch_loop32] at h
    | succ w => exact ⟨w, rfl⟩
  simp only [binsearch_loop32] at h
  rw [if_pos (by decide)] at h
  by_cases hc : csr.csr_col_ind (-947463649) < 0
  · rw [if_pos hc, m1] at h
    obtain ⟨w, rfl⟩ : ∃ w1, w = w1 + 1 := by
      cases w with
      | zero => simp [binsearch_loop32] at h
      | succ w1 => exact ⟨w1, rfl⟩
    simp only [binsearch_loop32] at h
    rw [if_pos (by decide), c1, if_neg (by decide)] at h
    have := binsearch_loop32_range csr 0 w _ _ (by decide) (by decide) (by decide) l m h
    omega
  · rw [if_neg hc, m2] at h
    obtain ⟨w, rfl⟩ : ∃ w1, w = w1 + 1 := by
      cases w with
      | zero => simp [binsearch_loop32] at h
      | succ w1 => exact ⟨w1, rfl⟩
    simp only [binsearch_loop32] at h
    rw [if_neg (by decide)] at h
    simp only [Option.some.injEq, Prod.mk.injEq] at h
    omega


/-- No position to search: every lane's loop is empty and `local_sum` is 0. -/
theorem kernel_lsum_none {T : Type} [Field T] (W : Nat) (ops : ScalarOps T) (csr : CsrMatrix)
    (rb re : Int) (t : HashTable) (val : Int → T) (b : Int) :
    kernel_lsum (.binsearch W) ops csr rb re t val b b = some 0 := by
  simp only [kernel_lsum, binsearch_lsum, rocsparse_wfreduce_sum]
  have : ∀ lid : Nat, (b - (b + (lid : Int))).toNat = 0 := by
    intro lid
    omega
  simp only [this, binsearch_lane_loop]
  simp

/-- On the full 40000 x 40000 matrix with all values 1 but a 2 at position
40001 (the diagonal of row 1) and no flag set: after the wavefronts of the rows
0 and 1 have run to their ends and the wavefront of row 30000 has made nine
steps, it stands before the lanes' loops of its second position, 1200000001,
whose dependency is row 1. -/
theorem dense40000_run :
    ((par_run (.binsearch 64) (⟨id, fun x => Real.sqrt |x|⟩ : ScalarOps ℝ) dense40000
      [0, 0, 0, 0, 1, 1, 1, 1, 1, 1, 1, 1, 1, 30000, 30000, 30000, 30000, 30000, 30000, 30000,
        30000, 30000]
      (g_init ⟨fun p => if p = 40001 then 2 else 1, fun _ => 0, 2147483647⟩)).wf 30000).pc =
        .lanes ∧
    ((par_run (.binsearch 64) (⟨id, fun x => Real.sqrt |x|⟩ : ScalarOps ℝ) dense40000
      [0, 0, 0, 0, 1, 1, 1, 1, 1, 1, 1, 1, 1, 30000, 30000, 30000, 30000, 30000, 30000, 30000,
        30000, 30000]
      (g_init ⟨fun p => if p = 40001 then 2 else 1, fun _ => 0, 2147483647⟩)).wf 30000).j =
        1200000001 := by
  have c0 : dense40000.map 0 = 0 := rfl
  have c1 : dense40000.map 1 = 1 := rfl
  have c2 : dense40000.map 30000 = 30000 := rfl
  have cm : dense40000.m = 40000 := rfl
  have cb : dense40000.idx_base = 0 := rfl
  have d0 : dense40000.csr_diag_ind 0 = 0 := by decide
  have d1 : dense40000.csr_diag_ind 1 = 40001 := by decide
  have d2 : dense40000.csr_diag_ind 30000 = 1200030000 := by decide
  have p0 : dense40000.csr_row_ptr 0 = 0 := by decide
  have p1 : dense40000.csr_row_ptr 1 = 40000 := by decide
  have p2 : dense40000.csr_row_ptr 2 = 80000 := by decide
  have p3 : dense40000.csr_row_ptr 30000 = 1200000000 := by decide
  have p4 : dense40000.csr_row_ptr 30001 = 1200040000 := by decide
  have k1 : dense40000.csr_col_ind 40000 = 0 := by decide
  have k2 : dense40000.csr_col_ind 1200000000 = 0 := by decide
  have k3 : dense40000.csr_col_ind 1200000001 = 1 := by decide
  have l01 : Int.lor 0 1 = 1 := by decide
  have s1 : Real.sqrt 1 = 1 := Real.sqrt_one
  have e21 : |(2 : ℝ) - 1| = 1 := by norm_num
  simp only [par_run, par_step, g_init, wf_step, kernel_fill, c0, c1, c2, cm, cb, d0, d1, d2, p0,
    p1, p2, p3, p4, k1, k2, k3, Function.update_same, sub_zero, le_refl, Int.reduceLT,
    Int.reduceLE, and_self, if_true, lt_self_iff_false, if_false, ge_iff_le, atomicOr, atomicMin,
    local_diag_of, Int.reduceNeg, Int.reduceEq, ne_eq, one_ne_zero, not_false_eq_true,
    Function.update_noteq, zero_ne_one, reduceCtorEq, zero_add, add_zero, int_lor_zero, l01,
    Function.update_idem, min_self, Int.reduceAdd, kernel_lsum_none, abs_one, s1, e21,
    rocsparse_fma, id, div_one, mul_one, one_mul, and_true, true_and]


/-! ## The indices of a step with the midpoint in `rocsparse_int` -/

/-- With at most `2^30` stored entries the indices a step uses with the midpoint
in `rocsparse_int` are those it uses with the exact midpoint. -/
theorem wf_access32_eq {T : Type} (K : KernelKind) {csr : CsrMatrix} (hwf : WellFormed csr)
    (idx : Int) (hr0 : 0 ≤ csr.map idx) (hrm : csr.map idx < csr.m) (w : WfState T)
    (inv : AccInv K csr idx w) (hnnz : nnz_of csr ≤ 1073741824) (wfuel : Nat)
    (hw : nnz_of csr ≤ wfuel) :
    wf_access32 K csr idx w wfuel = wf_access K csr idx w := by
  cases K with
  | hash W H => cases hpc : w.pc <;> simp only [wf_access32, hpc]
  | binsearch W =>
    cases hpc : w.pc <;> simp only [wf_access32, hpc]
    simp only [wf_access, hpc, kernel_lsum_acc]
    have hb := hwf.begin_nonneg (csr.map idx) hr0 (le_of_lt hrm)
    have hen := hwf.row_end_le_nnz (csr.map idx) hr0 hrm
    have hlo := inv.lo (by rw [hpc]; simp)
    have hhi := inv.hi (Or.inr (Or.inr (Or.inl hpc)))
    obtain ⟨-, hje, -, -⟩ := hwf.local_diag_pos (csr.map idx) hr0 hrm w.j hlo hhi
    have hb' : 0 ≤ csr.csr_row_ptr (csr.map idx) - csr.idx_base := hb
    have hen' : csr.csr_row_ptr (csr.map idx + 1) - csr.idx_base ≤ nnz_of csr := hen
    have hlo' : csr.csr_row_ptr (csr.map idx) - csr.idx_base ≤ w.j := hlo
    have hje' : w.j < csr.csr_row_ptr (csr.map idx + 1) - csr.idx_base := hje
    congr 1
    funext lid
    exact binsearch_lane_acc32_eq W csr _ _ wfuel (by omega) _ _ _ hb' (by omega) (by omega)

/-- The searches of a lane with the exact midpoint: each leaves its loop after
at most `re - 1 - l0` iterations, ends inside the row, reports a match exactly
when the column occurs in the row, and ends like the search restarted from the
beginning of the row. -/
theorem carried_search_exact (W : Nat) (csr : CsrMatrix) (rb re lb ld : Int) (lid fuel : Nat)
    (hW : 1 ≤ W) (hne : rb < re)
    (hs : ∀ p, rb ≤ p → p + 1 < re → csr.csr_col_ind p < csr.csr_col_ind (p + 1))
    (hs2 : ∀ p, lb ≤ p → p + 1 < ld → csr.csr_col_ind p < csr.csr_col_ind (p + 1)) :
    ∀ k l0 l m, (k, l0, l, m) ∈ binsearch_lane_searches W csr re ld fuel (lb + lid) rb →
      rb ≤ l0 ∧ l0 ≤ m ∧ rb ≤ m ∧ m < re ∧
      (csr.csr_col_ind m = csr.csr_col_ind k ↔
        ∃ p, rb ≤ p ∧ p < re ∧ csr.csr_col_ind p = csr.csr_col_ind k) ∧
      (l, m) = binsearch_fresh csr (csr.csr_col_ind k) rb re := by
  intro k l0 l m hx
  obtain ⟨h1, h2, h3, h4, h5, h6, h7, h8, h9⟩ := lane_searches_spec W hW csr rb re lb ld hs
    (fun p q hp hpq hq => sorted_pos_lt csr lb ld hs2 p q hp hpq hq) fuel (lb + lid) rb
    (by omega) (le_refl _) hne (fun _ p hp1 hp2 => by omega) _ hx
  have h3 : rb ≤ l0 := h3
  have h4 : l0 ≤ m := h4
  have h5 : m < re := h5
  have h6 : l = m := h6
  have h7 : ∀ p, rb ≤ p → p < m → csr.csr_col_ind p < csr.csr_col_ind k := h7
  have h8 : m < re - 1 → csr.csr_col_ind k ≤ csr.csr_col_ind m := h8
  refine ⟨h3, h4, by omega, h5, lower_bound_match csr _ rb re m hs (by omega) h5 h7 h8, ?_⟩
  obtain ⟨m', g1, g2, g3, g4, g5⟩ := binsearch_loop_bound csr (csr.csr_col_ind k) rb re hs
    (re - 1 - rb).toNat rb (re - 1) (le_refl _) (by omega) (by omega) (by omega)
    (fun p hp1 hp2 => by omega) (fun h => absurd h (lt_irrefl _))
  have : m' = m := lower_bound_unique csr _ rb re m' m (by omega) h5 g4 g5 h7 h8 (by omega)
    (by omega)
  simp only [binsearch_fresh, g1, this, h6]

theorem binsearch_fresh32_eq (csr : CsrMatrix) (col_k rb re : Int) (wfuel : Nat) (h0 : 0 ≤ rb)
    (hne : rb < re) (hre : re ≤ 1073741824) (hw : re - 1 - rb < wfuel) :
    binsearch_fresh32 csr col_k rb re wfuel = some (binsearch_fresh csr col_k rb re) := by
  have hn : (((re - 1 - rb).toNat : Nat) : Int) = re - 1 - rb := Int.toNat_of_nonneg (by omega)
  simp only [binsearch_fresh32, binsearch_fresh]
  rw [midpoint32_eq _ _ (by omega) (by omega)]
  exact binsearch_loop32_eq csr col_k _ _ _ wfuel h0 (by omega) (by omega) (by omega) (by omega)

theorem dense3_row_sorted (b e : Int) (hb : b = 3 ∨ b = 6) (he : e = b + 3) :
    ∀ p, b ≤ p → p + 1 < e → dense3.csr_col_ind p < dense3.csr_col_ind (p + 1) := by
  intro p h1 h2
  rcases hb with rfl | rfl
  · have : p = 3 ∨ p = 4 := by omega
    rcases this with rfl | rfl <;> decide
  · have : p = 6 ∨ p = 7 := by omega
    rcases this with rfl | rfl <;> decide


/-! ## The diagonal of an abandoned row, the matched positions -/

/-- C24, at positions above `2^30`.  The full 40000 x 40000 matrix has
strictly ascending rows and 1 600 000 000 entries; row 30000 holds the positions
1200000000 to 1200039999, row 1 the position 40000 before its diagonal, and the
column of position 40000 occurs in row 30000, at position 1200000000.  In the
iteration of row 30000 for its dependency row 1, lane 0 starts its first search
with `l = 1200000000` and `r = 1200039999`: `r + l` exceeds `2^31`, and the
midpoint `(r + l) >> 1` computed in the 32-bit `rocsparse_int` is -947463649, so
the search reads `csr_col_ind[-947463649]`.  Reading the matrix's column formula
there, the search ends with `m = 126268175`, a position of row 3156, and
reports no match; and whatever the reads outside the array return, a search
that ends ends with `m` below the row. -/
theorem csric0_search_overflow :
    (∀ p, row_begin dense40000 30000 ≤ p → p + 1 < row_end dense40000 30000 →
        dense40000.csr_col_ind p < dense40000.csr_col_ind (p + 1)) ∧
      (∀ p, row_begin dense40000 1 ≤ p → p + 1 < dense40000.csr_diag_ind 1 →
        dense40000.csr_col_ind p < dense40000.csr_col_ind (p + 1)) ∧
      row_begin dense40000 30000 = 1200000000 ∧ row_end dense40000 30000 = 1200040000 ∧
      row_begin dense40000 1 = 40000 ∧ dense40000.csr_diag_ind 1 = 40001 ∧
      nnz_of dense40000 = 1600000000 ∧
      dense40000.csr_col_ind 1200000000 = dense40000.csr_col_ind 40000 ∧
      midpoint32 (1200040000 - 1) 1200000000 = -947463649 ∧
      (∀ wfuel : Nat,
        binsearch_lane_searches32 64 dense40000 1200040000 40001 (wfuel + 2) 1
            (40000 + (0 : Nat)) 1200000000 =
          [(40000, 1200000000, some (1200000000, 126268175))]) ∧
      dense40000.csr_col_ind 126268175 ≠ dense40000.csr_col_ind 40000 ∧
      ∀ csr : CsrMatrix,
        (∀ p, 0 ≤ p → p < 1600000000 → csr.csr_col_ind p = dense40000.csr_col_ind p) →
        ∀ (wfuel : Nat) (k l0 l m : Int),
          (k, l0, some (l, m)) ∈ binsearch_lane_searches32 64 csr 1200040000 40001 wfuel 1
            (40000 + (0 : Nat)) 1200000000 →
          m < 1200000000 := by
  refine ⟨?_, ?_, by decide, by decide, by decide, by decide, by decide, by decide, by decide,
    ?_, by decide, ?_⟩
  · intro p h1 h2
    exact dense40000_valid.sorted 30000 (by decide) (by decide) p h1 (by omega)
  · intro p h1 h2
    have h1' : (40000 : Int) ≤ p := h1
    have h2' : p + 1 < 40001 := h2
    omega
  · intro wfuel
    have m0 : midpoint32 (1200040000 - 1) 1200000000 = -947463649 := by decide
    have m2 : midpoint32 (-947463649) 1200000000 = 126268175 := by decide
    have k0 : dense40000.csr_col_ind ((40000 : Int) + ((0 : Nat) : Int)) = 0 := by decide
    have k1 : dense40000.csr_col_ind (-947463649) = 16351 := by decide
    simp only [binsearch_lane_searches32, binsearch_loop32, m0, m2, k0, k1]
    simp
  · intro csr hin wfuel k l0 l m hx
    simp only [binsearch_lane_searches32] at hx
    rw [if_pos (by decide)] at hx
    have e : (40000 : Int) + ((0 : Nat) : Int) = 40000 := by decide
    have er : (1200040000 : Int) - 1 = 1200039999 := by decide
    rw [e, er] at hx
    cases hs : binsearch_loop32 csr (csr.csr_col_ind 40000) wfuel 1200000000 1200039999
        (midpoint32 1200039999 1200000000) with
    | none =>
      rw [hs] at hx
      simp at hx
    | some lm =>
      rw [hs] at hx
      simp only [List.mem_singleton, Prod.mk.injEq, Option.some.injEq] at hx
      obtain ⟨-, -, hlm⟩ := hx
      rw [← hlm] at hs
      exact dense40000_first_search csr hin wfuel l m hs

/-- C24, for rows below position `2^30`: for a row `r` (positions `rb` to `re`,
not empty, `0 <= rb` and `re <= 2^30`) and a range `lb` to `ld` of a dependency
row, both with strictly ascending column indices, every binary search of a lane
of `csric0_binsearch_kernel`, the midpoint computed in `rocsparse_int`, started
from the lower bound `l0` carried over from the lane's previous search, leaves
its loop (within `re - rb` iterations), ends with `m` inside `[rb, re)`, reports
a match `csr_col_ind[m] = csr_col_ind[k]` exactly when the column of `k` occurs
in row `r`, and ends with the `l` and `m` of the search restarted from `rb`; the
sum of the lane is accumulated from these searches. -/
theorem csric0_carried_search (W : Nat) (csr : CsrMatrix) (rb re lb ld : Int)
    (lid fuel wfuel : Nat) (hW : 1 ≤ W) (h0 : 0 ≤ rb) (hne : rb < re) (hre : re ≤ 1073741824)
    (hw : re - 1 - rb < wfuel)
    (hs : ∀ p, rb ≤ p → p + 1 < re → csr.csr_col_ind p < csr.csr_col_ind (p + 1))
    (hs2 : ∀ p, lb ≤ p → p + 1 < ld → csr.csr_col_ind p < csr.csr_col_ind (p + 1)) :
    (∀ x ∈ binsearch_lane_searches32 W csr re ld wfuel fuel (lb + lid) rb,
      ∃ l m, x.2.2 = some (l, m) ∧ rb ≤ x.2.1 ∧ x.2.1 ≤ m ∧ m < re ∧
        (csr.csr_col_ind m = csr.csr_col_ind x.1 ↔
          ∃ p, rb ≤ p ∧ p < re ∧ csr.csr_col_ind p = csr.csr_col_ind x.1) ∧
        binsearch_fresh32 csr (csr.csr_col_ind x.1) rb re wfuel = some (l, m)) ∧
      ∀ (T : Type) [Field T] (ops : ScalarOps T) (val : Int → T) (acc : T),
        binsearch_lane_loop W ops csr val re ld fuel (lb + lid) rb acc =
          (binsearch_lane_searches32 W csr re ld wfuel fuel (lb + lid) rb).foldl
            (fun a x =>
              match x.2.2 with
              | some lm =>
                if csr.csr_col_ind lm.2 = csr.csr_col_ind x.1 then
                  rocsparse_fma (val x.1) (ops.rocsparse_conj (val lm.2)) a
                else a
              | none => a) acc := by
  have heq := lane_searches32_eq W csr re ld wfuel hre fuel (lb + lid) rb h0 hne hw
  constructor
  · intro x hx
    rw [heq] at hx
    obtain ⟨⟨k, l0, l, m⟩, hy, rfl⟩ := List.mem_map.mp hx
    obtain ⟨a1, a2, a3, a4, a5, a6⟩ := carried_search_exact W csr rb re lb ld lid fuel hW hne hs
      hs2 k l0 l m hy
    refine ⟨l, m, rfl, a1, a2, a4, a5, ?_⟩
    rw [binsearch_fresh32_eq csr _ rb re wfuel h0 hne hre hw, ← a6]
  · intro T _ ops val acc
    rw [lane_loop_searches, heq, List.foldl_map]

/-- C24 at the full 3x3 pattern: the single lane of a wavefront of row 2
(positions 6 to 8) searches the columns of the positions 3, 4, 5 of row 1; its
second search starts from `l = 6`, carried over, finds column 1 at position 7,
and the search restarted from position 6 ends the same way. -/
theorem csric0_carried_search_witness :
    (4, 6, some (7, 7)) ∈ binsearch_lane_searches32 1 dense3 9 6 8 3 (3 + (0 : Nat)) 6 ∧
      (dense3.csr_col_ind 7 = dense3.csr_col_ind 4 ↔
        ∃ p, 6 ≤ p ∧ p < 9 ∧ dense3.csr_col_ind p = dense3.csr_col_ind 4) ∧
      binsearch_fresh32 dense3 (dense3.csr_col_ind 4) 6 9 8 = some (7, 7) := by
  have hmem : ((4 : Int), (6 : Int), some ((7 : Int), (7 : Int))) ∈
      binsearch_lane_searches32 1 dense3 9 6 8 3 (3 + (0 : Nat)) 6 := by
    decide
  obtain ⟨l, m, h1, -, -, -, h5, h6⟩ := (csric0_carried_search 1 dense3 6 9 3 6 0 3 8
    (le_refl _) (by decide) (by decide) (by decide) (by decide)
    (dense3_row_sorted 6 9 (Or.inr rfl) rfl)
    (dense3_row_sorted 3 6 (Or.inl rfl) rfl)).1 _ hmem
  simp only [Option.some.injEq, Prod.mk.injEq] at h1
  obtain ⟨rfl, rfl⟩ := h1
  exact ⟨hmem, h5, h6⟩

end Csric0

namespace Coomm

open rocsparse_status rocsparse_operation rocsparse_order rocsparse_pointer_mode

/-- C29: for batch counts `batch_count_A` and `batch_count_B` that are at least
1 (and any `batch_count_C`), the three batch-count checks of `coomm_checkarg`
all pass exactly when the condition of `coomm_template` holds, `(A = 1 and
B = C) or (B = 1 and A = C) or (A = C and A = B)`; both report
`rocsparse_status_invalid_value` otherwise, so the two entry points accept the
same batch configurations.  The checks are the last ones of `coomm_checkarg`:
a call that passes its late checks has passed them. -/
theorem coomm_batch_checks (batch_count_A batch_count_B batch_count_C : Int)
    (hA : 1 ≤ batch_count_A) (hB : 1 ≤ batch_count_B) :
    (coomm_checkarg_batch batch_count_A batch_count_B batch_count_C =
        rocsparse_status_continue ↔
      ((batch_count_A = 1 ∧ batch_count_B = batch_count_C) ∨
        (batch_count_B = 1 ∧ batch_count_A = batch_count_C) ∨
        (batch_count_A = batch_count_C ∧ batch_count_A = batch_count_B))) ∧
      (coomm_template_batch batch_count_A batch_count_B batch_count_C =
          rocsparse_status_continue ↔
        ((batch_count_A = 1 ∧ batch_count_B = batch_count_C) ∨
          (batch_count_B = 1 ∧ batch_count_A = batch_count_C) ∨
          (batch_count_A = batch_count_C ∧ batch_count_A = batch_count_B))) ∧
      coomm_checkarg_batch batch_count_A batch_count_B batch_count_C =
        coomm_template_batch batch_count_A batch_count_B batch_count_C ∧
      ∀ (T : Type) (a : CoommArgs T), a.batch_count_A = batch_count_A →
        a.batch_count_B = batch_count_B → a.batch_count_C = batch_count_C →
        coomm_checkarg_late a = rocsparse_status_continue →
        coomm_checkarg_batch batch_count_A batch_count_B batch_count_C =
          rocsparse_status_continue := by
  have h1 : coomm_checkarg_batch batch_count_A batch_count_B batch_count_C =
        rocsparse_status_continue ↔
      ((batch_count_A = 1 ∧ batch_count_B = batch_count_C) ∨
        (batch_count_B = 1 ∧ batch_count_A = batch_count_C) ∨
        (batch_count_A = batch_count_C ∧ batch_count_A = batch_count_B)) := by
    simp only [coomm_checkarg_batch]
    split_ifs with c1 c2 c3
    · simp only [reduceCtorEq, false_iff]
      omega
    · simp only [reduceCtorEq, false_iff]
      omega
    · simp only [reduceCtorEq, false_iff]
      omega
    · simp only [true_iff]
      omega
  have h2 : coomm_template_batch batch_count_A batch_count_B batch_count_C =
        rocsparse_status_continue ↔
      ((batch_count_A = 1 ∧ batch_count_B = batch_count_C) ∨
        (batch_count_B = 1 ∧ batch_count_A = batch_count_C) ∨
        (batch_count_A = batch_count_C ∧ batch_count_A = batch_count_B)) := by
    simp only [coomm_template_batch]
    split_ifs with c1
    · simp only [Bool.and_eq_true, Bool.not_eq_true', decide_eq_false_iff_not] at c1
      simp only [reduceCtorEq, false_iff]
      tauto
    · simp only [Bool.and_eq_true, Bool.not_eq_true', decide_eq_false_iff_not] at c1
      simp only [true_iff]
      tauto
  refine ⟨h1, h2, ?_, ?_⟩
  · by_cases hc : (batch_count_A = 1 ∧ batch_count_B = batch_count_C) ∨
        (batch_count_B = 1 ∧ batch_count_A = batch_count_C) ∨
        (batch_count_A = batch_count_C ∧ batch_count_A = batch_count_B)
    · rw [h1.mpr hc, h2.mpr hc]
    · have e1 : coomm_checkarg_batch batch_count_A batch_count_B batch_count_C =
          rocsparse_status_invalid_value := by
        have := mt h1.mp hc
        simp only [coomm_checkarg_batch] at this ⊢
        split_ifs at this ⊢ <;> first | rfl | exact absurd rfl this
      have e2 : coomm_template_batch batch_count_A batch_count_B batch_count_C =
          rocsparse_status_invalid_value := by
        have := mt h2.mp hc
        simp only [coomm_template_batch] at this ⊢
        split_ifs at this ⊢ <;> first | rfl | exact absurd rfl this
      rw [e1, e2]
  · intro T a eA eB eC hlate
    rw [← eA, ← eB, ← eC]
    exact checkarg_late_batch a hlate

/-- C29 at `batch_count_A = 1`, `batch_count_B = batch_count_C = 3`: both
checks pass. -/
theorem coomm_batch_checks_witness :
    coomm_checkarg_batch 1 3 3 = rocsparse_status_continue ∧
      coomm_template_batch 1 3 3 = rocsparse_status_continue :=
  have h := coomm_batch_checks 1 3 3 (by decide) (by decide)
  ⟨h.1.mpr (Or.inl ⟨rfl, rfl⟩), h.2.1.mpr (Or.inl ⟨rfl, rfl⟩)⟩

/-- C30: over exact arithmetic, for `m, n ≥ 1` and a leading dimension `ld` of
at least `m` in column order, `n` in row order: after the threads of one batch
of the launch of `coommnn_scale_kernel` have run, in any order, every logical
entry `(i, j)` of the `m x n` matrix holds 0 when `beta = 0`, its old value
when `beta = 1`, and its old value times `beta` otherwise; every array element
that is not a logical entry of this batch holds its old value; and every
logical entry is addressed by exactly one thread id of the launch below
`m * n` (the threads from `m * n` on return at once). -/
theorem coommnn_scale_entries {T : Type} [Field T] [DecidableEq T] (m n : Int) (beta : T)
    (ld stride : Int) (order : rocsparse_order) (batch : Int) (data : Int → T)
    (tids : List Int) (hm : 1 ≤ m) (hn : 1 ≤ n)
    (hld : (if order = rocsparse_order_column then m else n) ≤ ld)
    (hperm : tids.Perm (scale_launch_gids m n)) :
    (∀ i j, 0 ≤ i → i < m → 0 ≤ j → j < n →
        coommnn_scale_run m n beta ld stride order batch tids data
            (entry_addr ld stride order batch i j) =
          if beta = 0 then 0
          else if beta = 1 then data (entry_addr ld stride order batch i j)
          else data (entry_addr ld stride order batch i j) * beta) ∧
      (∀ a, (∀ i j, 0 ≤ i → i < m → 0 ≤ j → j < n →
          a ≠ entry_addr ld stride order batch i j) →
        coommnn_scale_run m n beta ld stride order batch tids data a = data a) ∧
      ∀ i j, 0 ≤ i → i < m → 0 ≤ j → j < n →
        ∃! gid, gid ∈ scale_launch_gids m n ∧ gid < m * n ∧
          scale_addr m n ld stride order gid batch = entry_addr ld stride order batch i j := by
  have hnd : tids.Nodup := hperm.nodup_iff.mpr (scale_launch_gids_nodup m n)
  have hpos : ∀ g ∈ tids, 0 ≤ g := fun g hg =>
    ((mem_scale_launch_gids m n g).mp (hperm.mem_iff.mp hg)).1
  have hspec := scale_run_spec m n beta ld stride order batch hm hn hld tids hnd hpos data
  refine ⟨fun i j hi0 hi hj0 hj => ?_, fun a ha => ?_, fun i j hi0 hi hj0 hj => ?_⟩
  · obtain ⟨g, g0, g1, g2⟩ := entry_thread m n ld stride order batch hm hn i j hi0 hi hj0 hj
    rw [hspec, if_pos ⟨g, hperm.mem_iff.mpr (scale_launch_covers m n g g0 g1), g1, g2⟩]
  · rw [hspec, if_neg]
    rintro ⟨g, hg, g1, g2⟩
    obtain ⟨i, j, hi0, hi, hj0, hj, he⟩ := thread_entry m n ld stride order batch hm hn g
      (hpos g hg) g1
    exact ha i j hi0 hi hj0 hj (g2.symm.trans he)
  · obtain ⟨g, g0, g1, g2⟩ := entry_thread m n ld stride order batch hm hn i j hi0 hi hj0 hj
    refine ⟨g, ⟨scale_launch_covers m n g g0 g1, g1, g2⟩, ?_⟩
    rintro g' ⟨h1, h2, h3⟩
    exact scale_addr_inj m n ld stride order batch hm hn hld g' g
      ((mem_scale_launch_gids m n g').mp h1).1 h2 g0 g1 (h3.trans g2.symm)

/-- C30 at a 2x3 matrix in column order with leading dimension 4, `beta = 3`,
batch 1 with stride 100: entry `(1, 2)`, at element `1 + 4 * 2 + 100`, is
tripled, and element 103, in the padding of the first column, is unchanged. -/
theorem coommnn_scale_entries_witness :
    coommnn_scale_run 2 3 (3 : ℚ) 4 100 rocsparse_order_column 1 (scale_launch_gids 2 3)
        (fun a => (a : ℚ)) 109 = 109 * 3 ∧
      coommnn_scale_run 2 3 (3 : ℚ) 4 100 rocsparse_order_column 1 (scale_launch_gids 2 3)
        (fun a => (a : ℚ)) 103 = 103 := by
  have h := coommnn_scale_entries 2 3 (3 : ℚ) 4 100 rocsparse_order_column 1
    (fun a => (a : ℚ)) (scale_launch_gids 2 3) (by decide) (by decide) (by decide)
    (List.Perm.refl _)
  constructor
  · have h1 := h.1 1 2 (by decide) (by decide) (by decide) (by decide)
    have e : entry_addr 4 100 rocsparse_order_column 1 1 2 = 109 := by decide
    rw [e] at h1
    rw [h1]
    norm_num
  · apply h.2.1 103
    intro i j hi0 hi hj0 hj
    simp only [entry_addr, if_true]
    omega

end Coomm

namespace Csric0

/-! ## Array bounds -/

theorem nodiag_dep_wf : WellFormed nodiag_dep :=
  ⟨by decide, by decide, by decide, by decide, by decide, by decide⟩

theorem nodiag_dep_perm : MapPerm nodiag_dep := ⟨by decide, by decide, by decide⟩

/-- C27, with more than `2^30` stored entries.  The full 40000 x 40000 matrix
is a valid input (strictly ascending rows, every diagonal present, identity
`map`) with 1 600 000 000 entries, which a 32-bit `rocsparse_int` counts.  With
all values 1 but a 2 on the diagonal of row 1 and no flag set, let the
wavefronts of the rows 0 and 1 of the binary-search kernel run to their ends
and the wavefront of row 30000 make nine steps: it reaches the lanes' loops of
its position 1200000001, whose dependency is row 1 (no lane has made a search
before).  There lane 0 computes the midpoint of `l = 1200000000` and
`r = 1200039999` in `rocsparse_int` and reads `csr_col_ind[-947463649]`: an
index outside the array. -/
theorem csric0_index_overflow :
    Valid dense40000 ∧ MapPerm dense40000 ∧ LaunchOK (.binsearch 64) dense40000 ∧
      nnz_of dense40000 = 1600000000 ∧
      (∀ wfuel : Nat,
        (Arr.csr_col_ind, (-947463649 : Int)) ∈
          wf_access32 (.binsearch 64) dense40000 30000
            ((par_run (.binsearch 64) (⟨id, fun x => Real.sqrt |x|⟩ : ScalarOps ℝ) dense40000
              [0, 0, 0, 0, 1, 1, 1, 1, 1, 1, 1, 1, 1, 30000, 30000, 30000, 30000, 30000, 30000,
                30000, 30000, 30000]
              (g_init ⟨fun p => if p = 40001 then 2 else 1, fun _ => 0, 2147483647⟩)).wf 30000)
            wfuel) ∧
      ¬ InBounds dense40000 (table_size (.binsearch 64)) (Arr.csr_col_ind, -947463649) := by
  refine ⟨dense40000_valid, dense40000_perm, by show 1 ≤ 64; decide, by decide, ?_, ?_⟩
  · intro wfuel
    obtain ⟨hpc, hj⟩ := dense40000_run
    have c2 : dense40000.map 30000 = 30000 := rfl
    have cb : dense40000.idx_base = 0 := rfl
    have d1 : dense40000.csr_diag_ind 1 = 40001 := by decide
    have p1 : dense40000.csr_row_ptr 1 = 40000 := by decide
    have p3 : dense40000.csr_row_ptr 30000 = 1200000000 := by decide
    have p4 : dense40000.csr_row_ptr (30000 + 1) = 1200040000 := by decide
    have k3 : dense40000.csr_col_ind 1200000001 = 1 := by decide
    have m0 : midpoint32 (1200040000 - 1) 1200000000 = -947463649 := by decide
    simp only [wf_access32, hpc, hj, c2, cb, d1, p1, p3, p4, k3, sub_zero, local_diag_of,
      List.mem_flatMap, List.mem_range]
    refine ⟨0, by decide, ?_⟩
    have e : ((40001 : Int) - (40000 + ((0 : Nat) : Int))).toNat = 1 := by decide
    rw [if_neg (by decide), e]
    simp only [binsearch_lane_acc32]
    rw [if_pos (by decide), m0]
    exact List.mem_cons_self _ _
  · intro h
    exact absurd h.1 (by decide)

/-- C27, with at most `2^30` stored entries: for a well-formed matrix
(`m >= 0`; `csr_row_ptr` non-decreasing and starting at `idx_base`; every column
index minus `idx_base` in `[0, m)`; `csr_diag_ind[r]` either `-1` or a position
inside row `r`) with at most `2^30` stored entries, a `map` that is a
permutation of the rows and a kernel launched properly (for the hash kernel a
table of `2^e` slots, larger than every row): in every state a parallel
execution reaches, every index the next step of a wavefront uses, the midpoint
of the binary search computed in `rocsparse_int`, in `csr_row_ptr` (`m + 1`
elements), `csr_col_ind`, `csr_val` (`nnz` elements), `csr_diag_ind`, `done`,
`map` (`m` elements), `table` and `data` (`WFSIZE * HASH` elements per
wavefront) is inside its array. -/
theorem csric0_index_bounds {T : Type} [Field T] [DecidableEq T] (K : KernelKind)
    (ops : ScalarOps T) (csr : CsrMatrix) (s0 : KState T) (hwf : WellFormed csr)
    (hp : MapPerm csr) (hl : LaunchOK K csr) (hnnz : nnz_of csr ≤ 1073741824)
    (wfuel : Nat) (hw : nnz_of csr ≤ wfuel) (sched : List Int) (idx : Int) (h0 : 0 ≤ idx)
    (hm : idx < csr.m) :
    ∀ a ∈ wf_access32 K csr idx ((par_run K ops csr sched (g_init s0)).wf idx) wfuel,
      InBounds csr (table_size K) a := by
  obtain ⟨hr0, hrm⟩ := hp.range idx h0 hm
  have inv := accInv_run K ops csr sched _ (fun i => accInv_init K csr s0 i) idx
  rw [wf_access32_eq K hwf idx hr0 hrm _ inv hnnz wfuel hw]
  exact wf_access_bounds K hwf hl idx h0 hm hr0 hrm _ inv

/-- C27 at the 2x2 pattern whose row 0 has no diagonal, binary-search kernel:
after wavefront 0 has returned and wavefront 1 has made four steps, the next
step of wavefront 1 runs the lanes' loops, which read `csr_col_ind[2]` (the
position the binary search ends at), an index inside the array of 3 elements. -/
theorem csric0_index_bounds_witness :
    (Arr.csr_col_ind, (2 : Int)) ∈ wf_access32 (.binsearch 64) nodiag_dep 1
        ((par_run (.binsearch 64) (⟨id, id⟩ : ScalarOps ℚ) nodiag_dep [0, 0, 0, 0, 1, 1, 1, 1]
          (g_init ⟨fun _ => 1, fun _ => 0, 100⟩)).wf 1) 3 ∧
      InBounds nodiag_dep (table_size (.binsearch 64)) (Arr.csr_col_ind, 2) :=
  have hmem : (Arr.csr_col_ind, (2 : Int)) ∈ wf_access32 (.binsearch 64) nodiag_dep 1
      ((par_run (.binsearch 64) (⟨id, id⟩ : ScalarOps ℚ) nodiag_dep [0, 0, 0, 0, 1, 1, 1, 1]
        (g_init ⟨fun _ => 1, fun _ => 0, 100⟩)).wf 1) 3 := by decide
  ⟨hmem, csric0_index_bounds (.binsearch 64) (⟨id, id⟩ : ScalarOps ℚ) nodiag_dep
    ⟨fun _ => 1, fun _ => 0, 100⟩ nodiag_dep_wf nodiag_dep_perm (by show 1 ≤ 64; decide)
    (by decide) 3 (by decide) [0, 0, 0, 0, 1, 1, 1, 1] 1 (by decide) (by decide) _ hmem⟩


/-! ## C22, C23: the hash table of a row -/

/-- C22, counterexample.  The row of `dup4` holds the column indices `5, 5, 6,
6`: two distinct non-negative column indices, fewer than the `S = 4` slots
of two lanes with `HASH = 2`.  The two lanes take up the positions 0 and 1,
both with key 5: each finds `table[3] == 5` false before the other has written,
one `atomicCAS` stores the key in slot 3, the other fails and stores the key
again in slot 0; the same happens with key 6 at the positions 2 and 3 (slots 2
and 1).  Both lanes have left the fill loop and the table `5, 6, 6, 5` has no
empty slot: the lookup loop for key 7, which does not occur in the row, does
not end at an empty slot, it does not end at all. -/
theorem csric0_lookup_never_ends :
    row_begin dup4 0 = 0 ∧ row_end dup4 0 = 4 ∧
      ((Finset.Ico (0 : Int) 4).image dup4.csr_col_ind).card = 2 ∧
      (∀ p ∈ Finset.Ico (0 : Int) 4, 0 ≤ dup4.csr_col_ind p ∧ dup4.csr_col_ind p ≠ 7) ∧
      fill_done 2 4 (fill_run 4 2 dup4 4 [0, 1, 0, 1, 1, 1, 0, 1, 0, 1, 1, 1, 1, 1, 1, 1]
        (fill_init 4 dup4 0)) ∧
      (∀ z, z < 4 →
        (fill_table 4 2 dup4 0 4 [0, 1, 0, 1, 1, 1, 0, 1, 0, 1, 1, 1, 1, 1, 1, 1]).table z ≠ -1) ∧
      ∀ fuel, hash_lookup 4 7 fuel (hash_slot 4 7)
        (fill_table 4 2 dup4 0 4 [0, 1, 0, 1, 1, 1, 0, 1, 0, 1, 1, 1, 1, 1, 1, 1]) = none := by
  refine ⟨by decide, by decide, by decide, by decide, by unfold fill_done; decide!,
    by decide!, ?_⟩
  intro fuel
  exact hash_lookup_full 4 (by decide) 7 _ (by decide!) fuel _ (by decide)

/-- C22, amended: in place of "fewer than S distinct column indices" the row
holds fewer than `S` entries.  The table of size `S = 2 ^ e` is initialised to
`-1` and filled by `W` lanes, in whatever order they move, from the positions
`rb` to `re` of a row with fewer than `S` entries, all with non-negative column
indices, until every lane has left the fill loop.  Then the lookup loop for a
key ends at a slot holding the key, with `data[slot]` a position of the row
whose column index is the key, exactly when the key occurs in the row, and
otherwise it ends at an empty slot and the lane goes on to its next position
with `local_sum` unchanged. -/
theorem csric0_table_lookup {T : Type} [Field T] (ops : ScalarOps T) (val : Int → T)
    (e W : Nat) (csr : CsrMatrix) (rb re : Int) (hW : 1 ≤ W)
    (hfit : (re - rb).toNat < 2 ^ e)
    (hnn : ∀ p, rb ≤ p → p < re → 0 ≤ csr.csr_col_ind p) (sched : List Nat)
    (hdone : fill_done W re (fill_run (2 ^ e) W csr re sched (fill_init (2 ^ e) csr rb)))
    (key : Int) :
    ((∃ p, rb ≤ p ∧ p < re ∧ csr.csr_col_ind p = key) ↔
      ∃ z, probe (2 ^ e) key (2 ^ e) (hash_slot (2 ^ e) key)
            (fill_table (2 ^ e) W csr rb re sched) = some z ∧
        (fill_table (2 ^ e) W csr rb re sched).table z = key ∧
        hash_lookup (2 ^ e) key (2 ^ e) (hash_slot (2 ^ e) key)
            (fill_table (2 ^ e) W csr rb re sched) =
          some (some ((fill_table (2 ^ e) W csr rb re sched).data z)) ∧
        rb ≤ (fill_table (2 ^ e) W csr rb re sched).data z ∧
        (fill_table (2 ^ e) W csr rb re sched).data z < re ∧
        csr.csr_col_ind ((fill_table (2 ^ e) W csr rb re sched).data z) = key) ∧
      ((¬ ∃ p, rb ≤ p ∧ p < re ∧ csr.csr_col_ind p = key) →
        (∃ z, probe (2 ^ e) key (2 ^ e) (hash_slot (2 ^ e) key)
              (fill_table (2 ^ e) W csr rb re sched) = some z ∧
          (fill_table (2 ^ e) W csr rb re sched).table z = -1) ∧
        hash_lookup (2 ^ e) key (2 ^ e) (hash_slot (2 ^ e) key)
            (fill_table (2 ^ e) W csr rb re sched) = some none ∧
        ∀ (ld k : Int) (fuel : Nat) (s : T), k < ld → csr.csr_col_ind k = key →
          hash_lane_loop W (2 ^ e) ops csr val (fill_table (2 ^ e) W csr rb re sched) ld
              (fuel + 1) k s =
            hash_lane_loop W (2 ^ e) ops csr val (fill_table (2 ^ e) W csr rb re sched) ld
              fuel (k + W) s) := by
  have inv : FillInv e W csr rb re (fill_run (2 ^ e) W csr re sched (fill_init (2 ^ e) csr rb)) :=
    fillInv_run hW hfit sched _ (fillInv_init e W csr rb re)
  constructor
  · constructor
    · rintro ⟨p, hp1, hp2, rfl⟩
      have hne : csr.csr_col_ind p ≠ -1 := by
        have := hnn p hp1 hp2
        omega
      obtain ⟨z, h1, h2, h3, h4, h5, h6⟩ := lookup_present inv hW hdone p hp1 hp2 hne
      exact ⟨z, h1, h2, h3, h4, h5, h6⟩
    · rintro ⟨z, -, -, -, h4, h5, h6⟩
      exact ⟨_, h4, h5, h6⟩
  · intro hno
    obtain ⟨z, h1, h2, h3⟩ := lookup_absent inv hfit key
      (fun p hp1 hp2 hk => hno ⟨p, hp1, hp2, hk⟩)
    refine ⟨⟨z, h1, h2⟩, h3, ?_⟩
    intro ld k fuel s hk hkey
    have h3' : hash_lookup (2 ^ e) key (2 ^ e) (hash_slot (2 ^ e) key)
        (fill_table (2 ^ e) W csr rb re sched) = some none := h3
    simp only [hash_lane_loop, if_pos hk, hkey, h3']

/-- C22, witness: row 2 of `dense3` (positions 6, 7, 8 with the columns 0, 1,
2), two lanes and four slots; after the schedule `0, 1, 0, 1, 0, 0` both lanes
have left the fill loop, and the lookup of key 1 ends at a slot holding 1 whose
`data` is a position of the row with column 1. -/
theorem csric0_table_lookup_witness :
    fill_done 2 9 (fill_run (2 ^ 2) 2 dense3 9 [0, 1, 0, 1, 0, 0] (fill_init (2 ^ 2) dense3 6)) ∧
      ∃ z, probe (2 ^ 2) 1 (2 ^ 2) (hash_slot (2 ^ 2) 1)
            (fill_table (2 ^ 2) 2 dense3 6 9 [0, 1, 0, 1, 0, 0]) = some z ∧
        (fill_table (2 ^ 2) 2 dense3 6 9 [0, 1, 0, 1, 0, 0]).table z = 1 ∧
        hash_lookup (2 ^ 2) 1 (2 ^ 2) (hash_slot (2 ^ 2) 1)
            (fill_table (2 ^ 2) 2 dense3 6 9 [0, 1, 0, 1, 0, 0]) =
          some (some ((fill_table (2 ^ 2) 2 dense3 6 9 [0, 1, 0, 1, 0, 0]).data z)) ∧
        6 ≤ (fill_table (2 ^ 2) 2 dense3 6 9 [0, 1, 0, 1, 0, 0]).data z ∧
        (fill_table (2 ^ 2) 2 dense3 6 9 [0, 1, 0, 1, 0, 0]).data z < 9 ∧
        dense3.csr_col_ind ((fill_table (2 ^ 2) 2 dense3 6 9 [0, 1, 0, 1, 0, 0]).data z) = 1 :=
  ⟨by unfold fill_done; decide!,
    (csric0_table_lookup (⟨id, fun x => Real.sqrt |x|⟩ : ScalarOps ℝ) (fun _ => 1) 2 2 dense3 6 9
      (by decide) (by decide)
      (fun p h1 h2 => by interval_cases p <;> decide) [0, 1, 0, 1, 0, 0]
      (by unfold fill_done; decide!) 1).1.mp
      ⟨7, by decide, by decide, by decide⟩⟩

/-- C23, counterexample.  The row of `dup5` holds the column indices `5, 5, 6,
6, 7`: three distinct column indices, fewer than the `S = 4` slots of two lanes
with `HASH = 2`.  After the two lanes have stored the keys 5 and 6 twice each
(both lanes find `table[hash] == key` false before either `atomicCAS`, and the
lane whose `atomicCAS` fails stores the key in the next free slot) the table
`5, 6, 6, 5` has no empty slot and lane 0 is at position 4 with key 7:
however the lanes move from there on, lane 0 stays at position 4, so the
insertion loop for key 7 does not terminate. -/
theorem csric0_insertion_never_ends :
    row_begin dup5 0 = 0 ∧ row_end dup5 0 = 5 ∧
      ((Finset.Ico (0 : Int) 5).image dup5.csr_col_ind).card = 3 ∧
      dup5.csr_col_ind 4 = 7 ∧
      ∀ rest : List Nat,
        ((fill_run 4 2 dup5 5 ([0, 1, 0, 1, 1, 1, 0, 1, 0, 1, 1, 1, 1, 1, 1, 1] ++ rest)
          (fill_init 4 dup5 0)).lane 0).j = 4 ∧
        ¬ fill_done 2 5 (fill_run 4 2 dup5 5
          ([0, 1, 0, 1, 1, 1, 0, 1, 0, 1, 1, 1, 1, 1, 1, 1] ++ rest) (fill_init 4 dup5 0)) := by
  refine ⟨by decide, by decide, by decide, by decide, ?_⟩
  intro rest
  have hj : ((fill_run 4 2 dup5 5 ([0, 1, 0, 1, 1, 1, 0, 1, 0, 1, 1, 1, 1, 1, 1, 1] ++ rest)
      (fill_init 4 dup5 0)).lane 0).j = 4 := by
    rw [fill_run_append]
    have h := fill_stuck_run 4 2 dup5 5 0 (by decide) rest
      (fill_run 4 2 dup5 5 [0, 1, 0, 1, 1, 1, 0, 1, 0, 1, 1, 1, 1, 1, 1, 1] (fill_init 4 dup5 0))
      (by decide!)
      (fill_run_hash_lt 4 2 dup5 5 (by decide) _ _ (fun l1 => hash_slot_lt 4 (by decide) _))
      (by decide!)
    rw [h.2]
    decide!
  refine ⟨hj, ?_⟩
  intro hd
  have := hd 0 (by decide)
  rw [hj] at this
  exact absurd this (by decide)

/-- C23, amended: in place of "fewer than S distinct column indices" the row
holds fewer than `S` entries.  With `S = 2 ^ e` and `key * 103` wrapped to 32
bits, every slot index `(key * 103) & (S - 1)` and every probe
`(hash + 1) & (S - 1)` lies in `[0, S)` and the probe sequence from any slot
reaches every slot within `S` steps.  When the row (positions `rb` to `re`)
holds fewer than `S` entries and `W` lanes fill the table in whatever order:
a lane in the insertion loop has made fewer than `S` probes for its key; once
every lane has made `(n + 1) * 2 * S` steps, `n` the number of entries, all
lanes have left the fill loop; and on every table the lanes reach the lookup
loop ends for every key. -/
theorem csric0_hash_probing (e W : Nat) (csr : CsrMatrix) (rb re : Int) (hW : 1 ≤ W)
    (hfit : (re - rb).toNat < 2 ^ e) :
    (∀ key, hash_slot (2 ^ e) key < 2 ^ e) ∧ (∀ hash, next_slot (2 ^ e) hash < 2 ^ e) ∧
      (∀ hash z, hash < 2 ^ e → z < 2 ^ e →
        ∃ i, i < 2 ^ e ∧ (next_slot (2 ^ e))^[i] hash = z) ∧
      (∀ (sched : List Nat) (lid : Nat), lid < W →
        ((fill_run (2 ^ e) W csr re sched (fill_init (2 ^ e) csr rb)).lane lid).j < re →
        ((fill_run (2 ^ e) W csr re sched (fill_init (2 ^ e) csr rb)).lane lid).probes < 2 ^ e) ∧
      (∀ sched : List Nat,
        (∀ lid, lid < W → ((re - rb).toNat + 1) * (2 * 2 ^ e) ≤ sched.count lid) →
        fill_done W re (fill_run (2 ^ e) W csr re sched (fill_init (2 ^ e) csr rb))) ∧
      ∀ (sched : List Nat) (key : Int),
        ∃ r, hash_lookup (2 ^ e) key (2 ^ e) (hash_slot (2 ^ e) key)
          (fill_table (2 ^ e) W csr rb re sched) = some r := by
  have hpos : 0 < 2 ^ e := by positivity
  refine ⟨hash_slot_lt _ hpos, next_slot_lt _ hpos,
    fun hash z hh hz => probe_sequence_covers e hash z hh hz, ?_, ?_, ?_⟩
  · intro sched lid hl hj
    exact (fillInv_run hW hfit sched _ (fillInv_init e W csr rb re)).lane_probes lid hl hj
  · intro sched hc
    exact fill_run_done hW hfit sched hc
  · intro sched key
    exact lookup_ends (fillInv_run hW hfit sched _ (fillInv_init e W csr rb re)) hfit key

/-- C23, witness: row 2 of `dense3` (three entries), two lanes and four slots;
after 32 steps of each lane both lanes have left the fill loop, and the lookup
of key 5 on that table ends. -/
theorem csric0_hash_probing_witness :
    1 ≤ 2 ∧ ((9 : Int) - 6).toNat < 2 ^ 2 ∧
      fill_done 2 9 (fill_run (2 ^ 2) 2 dense3 9 (List.replicate 32 0 ++ List.replicate 32 1)
        (fill_init (2 ^ 2) dense3 6)) ∧
      ∃ r, hash_lookup (2 ^ 2) 5 (2 ^ 2) (hash_slot (2 ^ 2) 5)
        (fill_table (2 ^ 2) 2 dense3 6 9 (List.replicate 32 0 ++ List.replicate 32 1)) = some r :=
  ⟨by decide, by decide,
    (csric0_hash_probing 2 2 dense3 6 9 (by decide) (by decide)).2.2.2.2.1 _ (by decide),
    (csric0_hash_probing 2 2 dense3 6 9 (by decide) (by decide)).2.2.2.2.2 _ 5⟩

end Csric0
